import Mathlib

/-!
# Byte image core: a shallow embedding of `src/image.c`

Conventions of the embedding.

* A C `unsigned char` is a `Nat` below 256, a C `int` is an `Int`.  Index
  arithmetic inside a buffer whose byte count fits in an `int` cannot overflow
  and is written as plain `Int` arithmetic.  Where the source forms an `int`
  from caller-supplied values that nothing bounds (the allocation size of
  `img_create`, the corner sums of the crop check, the window coordinates, the
  sums and the threshold of the adaptive threshold, the element count of the
  Gaussian kernel, the bounds of `fill_rectangle`, the cursor of `draw_text`)
  the 32-bit result is made explicit with `wrap32`.  The coordinate sums of
  the rasterizer (`draw_line`, `draw_circle`, `draw_char`, the corners of
  `draw_rectangle`) are plain `Int` sums: they are those of the source
  wherever the sums of the source fit in an `int`; `draw_line_trace` is the
  stepping loop of `draw_line` with every 32-bit result made explicit, and
  agrees with the plain sums for endpoints within 2^28 of the origin.
* An access outside an array is undefined in C; the model reads 0 there and
  drops a write.  Which cells a loop nest accesses is stated on a trace
  (`gaussian_blur_reads`, `median_filter_reads`, `gaussian_blur_kernel_reads`):
  the loops of the source with the access replaced by a record of its index.
* A buffer is a `List`; a `NULL` data pointer is `none`.
* `for (int i = lo; i < hi; i++)` loops whose body does not touch `i` are
  `forLoop lo hi`; `while (1)` loops take a fuel argument and return `none`
  when it runs out.
* Floating-point results whose value a statement depends on are computed as
  the source computes them, each operation rounded to nearest with ties to
  even: the luma expression in binary64 (`round53`), the Otsu scan in binary32
  (`fl32`).  The weights of the Gaussian kernel and the sums of the
  convolution are carried in exact rational arithmetic, with the library
  function `exp` a parameter; a kernel whose every weight is a NaN is `none`,
  and the byte converted from a NaN is `nan_byte`.
* The bands of `parallel_for` write disjoint rows of the output and read only
  the source, so they are run one after another.
* The codec (stb_image) is external: a decoded image is an argument, the
  encoder behind `img_write` is a parameter.
* The Lua API is external: an entry point takes its arguments decoded.  Where
  the source addresses the Lua stack itself (`l_img_open`, `l_img_close`) the
  frame is a list of values, a push appends, an index counts from the bottom,
  and the conversions between strings and numbers are parameters.
-/

set_option linter.unusedVariables false

namespace ByteImg


/-! ## Machine integers and raw buffers -/

/-- Value of a C `int` expression after 32-bit wrap-around. -/
def wrap32 (n : Int) : Int := (n + 2147483648) % 4294967296 - 2147483648

/-- Read `d[i]` from a byte buffer.  An access outside the buffer is undefined
in C; the model reads 0 there. -/
def rd (d : List Nat) (i : Int) : Nat :=
  if 0 ≤ i then d.getD i.toNat 0 else 0

/-- Write `d[i] = v` to a byte buffer.  A store outside the buffer is undefined
in C; the model ignores it. -/
def wr (d : List Nat) (i : Int) (v : Nat) : List Nat :=
  if 0 ≤ i then d.set i.toNat v else d

/-- Read `a[i]` from an `int` array (0 outside the array). -/
def rdi (a : List Int) (i : Int) : Int :=
  if 0 ≤ i then a.getD i.toNat 0 else 0

/-- Write `a[i] = v` to an `int` array (ignored outside the array). -/
def wri (a : List Int) (i : Int) (v : Int) : List Int :=
  if 0 ≤ i then a.set i.toNat v else a

/-- The values `lo, lo+1, ..., hi-1` of a counting loop. -/
def intRange (lo hi : Int) : List Int :=
  (List.range (hi - lo).toNat).map (fun (k : Nat) => lo + (k : Int))

/-- The loop `for (int i = lo; i < hi; i++) s = body i s`. -/
def forLoop {σ : Type} (lo hi : Int) (body : Int → σ → σ) (s : σ) : σ :=
  (intRange lo hi).foldl (fun acc i => body i acc) s

/-! ## Pixel buffer (`Image`, `img_create`, `img_copy`, `img_write`) -/

/-- The `Image` struct of the source. -/
structure Image where
  data : Option (List Nat)
  width : Int
  height : Int
  channels : Int
deriving DecidableEq

/-- `calloc(n, 1)` for an `int` n converted to `size_t`: a negative `int`
becomes a size above 2^63, which no allocator grants, so the result is `NULL`;
otherwise the model grants n zeroed bytes (memory exhaustion is not
modelled). -/
def calloc (n : Int) : Option (List Nat) :=
  if n < 0 then none else some (List.replicate n.toNat 0)

/-- `img_create` (image.c 98-105): the byte count `width * height * channels`
is an `int` product. -/
def img_create (width height channels : Int) : Image :=
  { data := calloc (wrap32 (wrap32 (width * height) * channels))
    width := width
    height := height
    channels := channels }

/-- The bytes of an image, empty for a `NULL` data pointer. -/
def Image.bytes (img : Image) : List Nat := img.data.getD []

/-- A decoded pixel buffer: positive dimensions, a byte count that fits in a
C `int` (stb_image refuses larger images), data of exactly that many bytes. -/
def Image.WF (img : Image) : Prop :=
  0 < img.width ∧ 0 < img.height ∧ 0 < img.channels ∧
  img.width * img.height * img.channels < 2147483648 ∧
  ∃ d, img.data = some d ∧ (d.length : Int) = img.width * img.height * img.channels ∧
    ∀ v ∈ d, v < 256

/-- `memcpy(&dst[doff], &src[soff], n)`, byte by byte. -/
def memcpy (dst : List Nat) (doff : Int) (src : List Nat) (soff n : Int) : List Nat :=
  forLoop 0 n (fun k acc => wr acc (doff + k) (rd src (soff + k))) dst

/-- `img_copy` (image.c 107-113). -/
def img_copy (src : Image) : Image :=
  let dst := img_create src.width src.height src.channels
  match dst.data, src.data with
  | some d, some s =>
    { dst with data := some (memcpy d 0 s 0 (src.width * src.height * src.channels)) }
  | _, _ => dst

/-- `img_write` (image.c 84-96).  `encode` stands for the stb writer that the
extension of the output path selects (constant 0 for an unknown extension).
The second component is the image handed to that writer, if it was called. -/
def img_write (encode : Image → Int) (img : Image) : Int × Option Image :=
  if img.data.isNone ∨ img.width ≤ 0 ∨ img.height ≤ 0 then (0, none)
  else (encode img, some img)

/-- A value pushed on the Lua stack as a result. -/
inductive LuaVal where
  | bool (b : Bool)
  | str (s : String)
  | int (i : Int)
deriving DecidableEq

/-- What an entry point leaves behind: the returned Lua values and the image
handed to the encoder, if any. -/
structure Outcome where
  ret : List LuaVal
  written : Option Image
deriving DecidableEq

/-- The number of low bits that a binary64 significand cannot hold: the least
`s` with `n / 2 ^ s < 2 ^ 53`, found in at most `fuel` halvings. -/
def excess53 : Nat → Nat → Nat
  | 0, _ => 0
  | fuel + 1, n => if n < 2 ^ 53 then 0 else excess53 fuel (n / 2) + 1

/-- IEEE-754 binary64 rounding (to nearest, ties to even) of a non-negative
value given as a whole number of units of `2 ^ (-56)`: the result keeps 53
significant bits.  Every double met in the luma expression is a multiple of
that unit and lies below 256. -/
def round53 (n : Nat) : Nat :=
  let s := excess53 64 n
  let q := n / 2 ^ s
  let r := n % 2 ^ s
  if 2 * r < 2 ^ s then q * 2 ^ s
  else if 2 * r > 2 ^ s then (q + 1) * 2 ^ s
  else if q % 2 = 0 then q * 2 ^ s else (q + 1) * 2 ^ s

/-- The double constant `0.299`, in units of `2 ^ (-56)`. -/
def c299 : Nat := 21545220617340452

/-- The double constant `0.587`, in units of `2 ^ (-56)`. -/
def c587 : Nat := 42297807700263696

/-- The double constant `0.114`, in units of `2 ^ (-56)`. -/
def c114 : Nat := 8214565720323785

/-- The luma expression `(unsigned char)(0.299*r + 0.587*g + 0.114*b)` of
image.c 236 and of every grayscale block, evaluated as the source does: the
three products and the two sums from left to right are doubles, each rounded
to binary64, and the conversion to `unsigned char` drops the fraction.  The
result differs from the exact `(299r + 587g + 114b) / 1000` on some colours:
at (1,1,1) the double sum is just below 1 and the byte is 0. -/
def luma (r g b : Nat) : Nat :=
  round53 (round53 (round53 (c299 * r) + round53 (c587 * g)) + round53 (c114 * b))
    / 2 ^ 56 % 256

/-- The grayscale block repeated in every filter entry point
(e.g. image.c 866-876): a fresh 1-channel buffer for a multi-channel source,
the source buffer itself otherwise. -/
def to_gray (img : Image) : Image :=
  if img.channels > 1 then
    let gray := img_create img.width img.height 1
    { gray with
      data := gray.data.map (fun g =>
        forLoop 0 (img.width * img.height) (fun i acc =>
          let idx := i * img.channels
          wr acc i (luma (rd img.bytes idx) (rd img.bytes (idx + 1)) (rd img.bytes (idx + 2)))) g) }
  else img

/-! ## `float` arithmetic -/

/-- Rounding of a rational to the nearest integer, a tie going to the even
one. -/
def roundEven (q : ℚ) : Int :=
  if q - ⌊q⌋ < 1 / 2 then ⌊q⌋
  else if 1 / 2 < q - ⌊q⌋ then ⌊q⌋ + 1
  else if ⌊q⌋ % 2 = 0 then ⌊q⌋ else ⌊q⌋ + 1

/-- The `float` (IEEE-754 binary32) nearest to the rational x, a tie going to
the even significand: 24 significant bits counted from the leading bit of x,
with the exponent of the last bit no lower than -149 (gradual underflow).  A
`float` operation of the source on finite operands is this rounding applied to
the exact result.  Binary32 has no finite value from 2^128 on; the model is
used where no quantity reaches that size. -/
def fl32 (x : ℚ) : ℚ :=
  if x = 0 then 0
  else (roundEven (x / 2 ^ (max (Int.log 2 |x|) (-126) - 23)) : ℚ)
    * 2 ^ (max (Int.log 2 |x|) (-126) - 23)

/-! ## Otsu threshold (`l_img_otsu`, image.c 878-911) -/

/-- The histogram loop `hist[gray.data[i]]++` over `int hist[256] = {0}`. -/
def histogram (gray : List Nat) (total : Int) : List Int :=
  forLoop 0 total (fun i hist => wri hist (rd gray i) (rdi hist (rd gray i) + 1))
    (List.replicate 256 0)

/-- Loop-carried variables of the threshold scan; `sumB` and `max_var` are
`float`s. -/
structure OtsuState where
  wB : Int
  sumB : ℚ
  max_var : ℚ
  threshold : Int

/-- The scan `for (int i = 0; i < 256; i++)` of image.c 892-906 over the
remaining indices, with its `continue` and its `break`.  The product
`i * hist[i]` is an `int` and wraps to 32 bits; it is converted to `float` and
added to the `float` `sumB`; `wB` and `wF` are converted to `float` where they
meet a `float`; every `float` operation rounds its result (`fl32`). -/
def otsu_scan (hist : List Int) (total : Int) (sum : ℚ) : List Int → OtsuState → OtsuState
  | [], s => s
  | i :: rest, s =>
    let wB := s.wB + rdi hist i
    if wB = 0 then otsu_scan hist total sum rest { s with wB := wB }
    else
      let wF := total - wB
      if wF = 0 then { s with wB := wB }
      else
        let sumB := fl32 (s.sumB + fl32 ((wrap32 (i * rdi hist i) : Int) : ℚ))
        let mB := fl32 (sumB / fl32 (wB : ℚ))
        let mF := fl32 (fl32 (sum - sumB) / fl32 (wF : ℚ))
        let var_between :=
          fl32 (fl32 (fl32 (fl32 (wB : ℚ) * fl32 (wF : ℚ)) * fl32 (mB - mF)) * fl32 (mB - mF))
        if var_between > s.max_var then
          otsu_scan hist total sum rest
            { wB := wB, sumB := sumB, max_var := var_between, threshold := i }
        else
          otsu_scan hist total sum rest { s with wB := wB, sumB := sumB }

/-- The threshold selected by image.c 878-906 for a grayscale buffer; `sum` is
the `float` accumulation of image.c 884-885. -/
def otsu_threshold (gray : List Nat) (total : Int) : Int :=
  let hist := histogram gray total
  let sum : ℚ := forLoop 0 256
    (fun i s => fl32 (s + fl32 ((wrap32 (i * rdi hist i) : Int) : ℚ))) 0
  (otsu_scan hist total sum (intRange 0 256)
    { wB := 0, sumB := 0, max_var := 0, threshold := 0 }).threshold

/-- The output buffer of `l_img_otsu` (image.c 866-911) for a decoded image. -/
def otsu_image (img : Image) : Image :=
  let gray := to_gray img
  let total := img.width * img.height
  let threshold := otsu_threshold gray.bytes total
  let out := img_create img.width img.height 1
  { out with
    data := out.data.map (fun o =>
      forLoop 0 total (fun i acc =>
        wr acc i (if ((rd gray.bytes i : Nat) : Int) > threshold then 255 else 0)) o) }

/-- Weight of the bins below k: the sum of `hist[i]` for i < k. -/
def cumWeight (hist : List Int) (k : Nat) : Int :=
  Finset.sum (Finset.range k) (fun i => rdi hist (i : Int))

/-- First moment of the bins below k: the sum of `i * hist[i]` for i < k. -/
def cumMoment (hist : List Int) (k : Nat) : Int :=
  Finset.sum (Finset.range k) (fun i => (i : Int) * rdi hist (i : Int))

/-- Between-class variance at threshold t as the specification words it:
`wB * wF * (mB - mF)^2` in exact arithmetic, with the background class the bins
0..t and the foreground class the bins t+1..255, and 0 when a class has zero
weight. -/
def betweenClassVariance (hist : List Int) (t : Nat) : ℚ :=
  let wB : ℚ := (cumWeight hist (t + 1) : ℚ)
  let wF : ℚ := (cumWeight hist 256 : ℚ) - (cumWeight hist (t + 1) : ℚ)
  if wB = 0 ∨ wF = 0 then 0
  else
    let mB : ℚ := (cumMoment hist (t + 1) : ℚ) / wB
    let mF : ℚ := ((cumMoment hist 256 : ℚ) - (cumMoment hist (t + 1) : ℚ)) / wF
    wB * wF * (mB - mF) ^ 2

/-- The `float` accumulation of `i * hist[i]` over the bins below k, as the
loops of image.c 885 and 898 carry it out: the `int` product wraps to 32 bits,
is converted to `float` and added, and each sum is rounded. -/
def cumMoment32 (hist : List Int) : Nat → ℚ
  | 0 => 0
  | k + 1 =>
    fl32 (cumMoment32 hist k + fl32 ((wrap32 ((k : Int) * rdi hist (k : Int)) : Int) : ℚ))

/-- Between-class variance at threshold t as the scan evaluates it (image.c
899-901): the quotients, the difference and the three products are `float`
operations, each rounded, on the `float` sums `cumMoment32`; 0 when a class
has zero weight. -/
def variance32 (hist : List Int) (t : Nat) : ℚ :=
  let wB := cumWeight hist (t + 1)
  let wF := cumWeight hist 256 - cumWeight hist (t + 1)
  if wB = 0 ∨ wF = 0 then 0
  else
    let sumB := cumMoment32 hist (t + 1)
    let mB := fl32 (sumB / fl32 (wB : ℚ))
    let mF := fl32 (fl32 (cumMoment32 hist 256 - sumB) / fl32 (wF : ℚ))
    fl32 (fl32 (fl32 (fl32 (wB : ℚ) * fl32 (wF : ℚ)) * fl32 (mB - mF)) * fl32 (mB - mF))


/-! ## Morphology (`l_img_erode`, `l_img_dilate`, image.c 992-1018 and 1042-1068) -/

/-- The minimum over the square window of `l_img_erode` (image.c 1009-1015). -/
def erode_min (gray : List Nat) (width half x y : Int) : Nat :=
  forLoop (-half) (half + 1) (fun dy m =>
    forLoop (-half) (half + 1) (fun dx m =>
      let val := rd gray ((y + dy) * width + (x + dx))
      if val < m then val else m) m) 255

/-- The buffer that `l_img_erode` hands to the writer (image.c 992-1018). -/
def erode (img : Image) (size : Int) : Image :=
  let gray := to_gray img
  let out := img_create img.width img.height 1
  let half := Int.tdiv size 2
  { out with
    data := out.data.map (fun o =>
      forLoop half (img.height - half) (fun y acc =>
        forLoop half (img.width - half) (fun x acc =>
          wr acc (y * img.width + x) (erode_min gray.bytes img.width half x y)) acc) o) }

/-- The maximum over the square window of `l_img_dilate` (image.c 1059-1065). -/
def dilate_max (gray : List Nat) (width half x y : Int) : Nat :=
  forLoop (-half) (half + 1) (fun dy m =>
    forLoop (-half) (half + 1) (fun dx m =>
      let val := rd gray ((y + dy) * width + (x + dx))
      if val > m then val else m) m) 0

/-- The buffer that `l_img_dilate` hands to the writer (image.c 1042-1068). -/
def dilate (img : Image) (size : Int) : Image :=
  let gray := to_gray img
  let out := img_create img.width img.height 1
  let half := Int.tdiv size 2
  { out with
    data := out.data.map (fun o =>
      forLoop half (img.height - half) (fun y acc =>
        forLoop half (img.width - half) (fun x acc =>
          wr acc (y * img.width + x) (dilate_max gray.bytes img.width half x y)) acc) o) }


/-! ## Rasterizer (`draw_pixel`, `draw_line`, image.c 227-260) -/

/-- `draw_pixel` (image.c 227-238). -/
def draw_pixel (img : Image) (x y : Int) (r g b : Nat) : Image :=
  if x < 0 ∨ x ≥ img.width ∨ y < 0 ∨ y ≥ img.height then img
  else
    let idx := (y * img.width + x) * img.channels
    if img.channels ≥ 3 then
      { img with data := img.data.map (fun d => wr (wr (wr d idx r) (idx + 1) g) (idx + 2) b) }
    else
      { img with data := img.data.map (fun d => wr d idx (luma r g b)) }

/-- The square brush of `draw_line` (image.c 249-253): offsets from
`-thickness/2` to `thickness/2` in both axes, with C division. -/
def draw_brush (img : Image) (x1 y1 : Int) (r g b : Nat) (thickness : Int) : Image :=
  forLoop (Int.tdiv (-thickness) 2) (Int.tdiv thickness 2 + 1) (fun ty acc =>
    forLoop (Int.tdiv (-thickness) 2) (Int.tdiv thickness 2 + 1) (fun tx acc =>
      draw_pixel acc (x1 + tx) (y1 + ty) r g b) acc) img

/-- The `while (1)` loop of `draw_line` (image.c 248-259); `none` when the fuel
runs out before the end point is reached.  The sums are plain `Int` sums, those
of the source wherever they fit in an `int`; `line_trace` is the same loop
with every 32-bit result made explicit. -/
def draw_line_loop (x2 y2 dx dy sx sy : Int) (r g b : Nat) (thickness : Int) :
    Nat → Image → Int → Int → Int → Option Image
  | 0, _, _, _, _ => none
  | fuel + 1, img, x1, y1, err =>
    let img1 := draw_brush img x1 y1 r g b thickness
    if x1 = x2 ∧ y1 = y2 then some img1
    else
      let e2 := 2 * err
      let err1 := if e2 ≥ dy then err + dy else err
      let x1n := if e2 ≥ dy then x1 + sx else x1
      let err2 := if e2 ≤ dx then err1 + dx else err1
      let y1n := if e2 ≤ dx then y1 + sy else y1
      draw_line_loop x2 y2 dx dy sx sy r g b thickness fuel img1 x1n y1n err2

/-- `draw_line` (image.c 240-260), in plain `Int` sums; `draw_line_trace` is
the stepping of the same function with every 32-bit result made explicit, and
`draw_line_trace_eq` shows that the two stamp the same points for endpoints
within 2^28 of the origin. -/
def draw_line (fuel : Nat) (img : Image) (x1 y1 x2 y2 : Int) (r g b : Nat) (thickness : Int) :
    Option Image :=
  let dx := |x2 - x1|
  let dy := -|y2 - y1|
  let sx : Int := if x1 < x2 then 1 else -1
  let sy : Int := if y1 < y2 then 1 else -1
  let err := dx + dy
  draw_line_loop x2 y2 dx dy sx sy r g b thickness fuel img x1 y1 err


/-! ## Connected components (`find_contours`, image.c 353-422) -/

/-- The `Rect` struct of the source; the `float` confidence is the rational 1. -/
structure Rect where
  x : Int
  y : Int
  width : Int
  height : Int
  confidence : ℚ
deriving DecidableEq

/-- The body of the labelling loops for the pixel (x, y) (image.c 362-374); the
state is the label grid and `current_label`. -/
def label_step (img : Image) (y x : Int) (st : List Int × Int) : List Int × Int :=
  let idx := y * img.width + x
  if rd img.bytes idx > 0 then
    let left := rdi st.1 (y * img.width + (x - 1))
    let top := rdi st.1 ((y - 1) * img.width + x)
    if left = 0 ∧ top = 0 then (wri st.1 idx st.2, st.2 + 1)
    else if left ≠ 0 then (wri st.1 idx left, st.2)
    else if top ≠ 0 then (wri st.1 idx top, st.2)
    else st
  else st

/-- The labelling pass (image.c 357-376): the label grid and `current_label`
after the pass. -/
def label_pass (img : Image) : List Int × Int :=
  forLoop 1 (img.height - 1) (fun y st =>
    forLoop 1 (img.width - 1) (fun x st => label_step img y x st) st)
    (List.replicate (img.width * img.height).toNat 0, 1)

/-- The four bounding-box arrays `min_x`, `min_y`, `max_x`, `max_y`. -/
structure Boxes where
  min_x : List Int
  min_y : List Int
  max_x : List Int
  max_y : List Int
deriving DecidableEq

/-- Allocation and initialisation of the bounding boxes (image.c 378-388). -/
def box_init (img : Image) (current_label : Int) : Boxes :=
  forLoop 0 current_label (fun i bx =>
    { min_x := wri bx.min_x i img.width
      min_y := wri bx.min_y i img.height
      max_x := wri bx.max_x i 0
      max_y := wri bx.max_y i 0 })
    { min_x := List.replicate current_label.toNat 0
      min_y := List.replicate current_label.toNat 0
      max_x := List.replicate current_label.toNat 0
      max_y := List.replicate current_label.toNat 0 }

/-- The four updates made for one labelled pixel (image.c 394-397). -/
def box_update (bx : Boxes) (label x y : Int) : Boxes :=
  let b1 := if x < rdi bx.min_x label then { bx with min_x := wri bx.min_x label x } else bx
  let b2 := if y < rdi b1.min_y label then { b1 with min_y := wri b1.min_y label y } else b1
  let b3 := if x > rdi b2.max_x label then { b2 with max_x := wri b2.max_x label x } else b2
  if y > rdi b3.max_y label then { b3 with max_y := wri b3.max_y label y } else b3

/-- The body of the bounding-box loops for the pixel (x, y) (image.c 392-398). -/
def box_step (img : Image) (labels : List Int) (y x : Int) (bx : Boxes) : Boxes :=
  let label := rdi labels (y * img.width + x)
  if label > 0 then box_update bx label x y else bx

/-- The bounding-box pass over every pixel (image.c 390-400). -/
def box_pass (img : Image) (labels : List Int) (bx : Boxes) : Boxes :=
  forLoop 0 img.height (fun y bx =>
    forLoop 0 img.width (fun x bx => box_step img labels y x bx) bx) bx

/-- The body of the emission loop for label i (image.c 403-412): the state is
the list of rectangles stored so far and `*num_contours`. -/
def emit_step (bx : Boxes) (i : Int) (st : List Rect × Int) : List Rect × Int :=
  let w := rdi bx.max_x i - rdi bx.min_x i
  let h := rdi bx.max_y i - rdi bx.min_y i
  if w > 20 ∧ h > 20 then
    (st.1 ++ [{ x := rdi bx.min_x i, y := rdi bx.min_y i, width := w, height := h,
                confidence := 1 }], st.2 + 1)
  else st

/-- The emission loop (image.c 402-413).  The k-th element of the list is the
rectangle stored at `rects[k]`; the array was allocated with 100 entries, so an
element at position 100 or beyond is a store past the end of the allocation.
The second component is `*num_contours`. -/
def emit_rects (bx : Boxes) (current_label : Int) : List Rect × Int :=
  forLoop 1 current_label (fun i st => emit_step bx i st) ([], 0)

/-- `find_contours` (image.c 353-422): the rectangles stored and the count
reported through `num_contours`. -/
def find_contours (img : Image) : List Rect × Int :=
  let lp := label_pass img
  emit_rects (box_pass img lp.1 (box_init img lp.2)) lp.2

/-! ## Simplified Canny (`canny_edge_detection`, image.c 425-474) -/

/-- The 5 x 5 weight table `gauss` of the source. -/
def gauss : List (List Int) :=
  [[2, 4, 5, 4, 2], [4, 9, 12, 9, 4], [5, 12, 15, 12, 5], [4, 9, 12, 9, 4], [2, 4, 5, 4, 2]]

/-- The accumulation `val += gray[..] * gauss[ky+2][kx+2]` (image.c 452-457).
Every partial sum is an integer below 2^24, so the `float` accumulator holds
it exactly. -/
def canny_blur_val (gray : List Nat) (width x y : Int) : Int :=
  forLoop (-2) 3 (fun ky val =>
    forLoop (-2) 3 (fun kx val =>
      val + ((rd gray ((y + ky) * width + (x + kx)) : Nat) : Int)
        * rdi (gauss.getD (ky + 2).toNat []) (kx + 2)) val) 0

/-- `canny_edge_detection` (image.c 425-474).  `(unsigned char)(val / sum)` with
sum = 159 is the integer quotient: val is an integer of at most 255 * 159 and the
rounding of the `float` quotient never reaches the next integer.  The `malloc`
buffer of the output is overwritten at every index. -/
def canny_edge_detection (img : Image) (low_thresh high_thresh : ℚ) : Image :=
  let gray := to_gray img
  let blurred := img_create img.width img.height 1
  let blurred_data := blurred.data.map (fun o =>
    forLoop 2 (img.height - 2) (fun y acc =>
      forLoop 2 (img.width - 2) (fun x acc =>
        wr acc (y * img.width + x)
          ((canny_blur_val gray.bytes img.width x y / 159).toNat % 256)) acc) o)
  { data := some (forLoop 0 (img.width * img.height) (fun i acc =>
      wr acc i (if ((rd (blurred_data.getD []) i : Nat) : ℚ) > high_thresh then 255 else 0))
      (List.replicate (img.width * img.height).toNat 0))
    width := img.width
    height := img.height
    channels := 1 }

/-! ## Contour detection entry point (`l_img_detect_contours`, image.c 1498-1553) -/

/-- `draw_rectangle` (image.c 262-268): four lines. -/
def draw_rectangle (fuel : Nat) (img : Image) (x y w h : Int) (r g b : Nat) (thickness : Int) :
    Option Image :=
  (draw_line fuel img x y (x + w) y r g b thickness).bind fun i1 =>
  (draw_line fuel i1 x (y + h) (x + w) (y + h) r g b thickness).bind fun i2 =>
  (draw_line fuel i2 x y x (y + h) r g b thickness).bind fun i3 =>
  draw_line fuel i3 (x + w) y (x + w) (y + h) r g b thickness

/-- The drawing loop over the reported rectangles (image.c 1536-1539). -/
def draw_contours (fuel : Nat) (out : Image) (contours : List Rect) (r g b : Nat)
    (thickness : Int) : Option Image :=
  contours.foldlM (fun acc rc =>
    draw_rectangle fuel acc rc.x rc.y rc.width rc.height r g b thickness) out

/-- `l_img_detect_contours` (image.c 1498-1553) on the decoded input `img`.
The `int` colour arguments are converted to `unsigned char` at the call of
`draw_rectangle`. -/
def l_img_detect_contours (fuel : Nat) (encode : Image → Int) (img : Image)
    (r g b thickness : Int) : Option Outcome :=
  if img.data.isNone then
    some { ret := [LuaVal.bool false, LuaVal.str "Failed to read input image"], written := none }
  else
    let gray := to_gray img
    let edges := canny_edge_detection gray 50 150
    let found := find_contours edges
    let out := img_copy img
    (draw_contours fuel out found.1 (r % 256).toNat (g % 256).toNat (b % 256).toNat thickness).map
      fun out2 =>
        let res := img_write encode out2
        { ret := [LuaVal.bool (decide (res.1 ≠ 0)), LuaVal.int found.2], written := res.2 }


/-! ## Crop (`l_img_crop`, image.c 558-600) -/

/-- The row-wise copy of `l_img_crop` (image.c 588-592). -/
def crop_rows (src : List Nat) (src_width channels x y w h : Int) (out : List Nat) : List Nat :=
  forLoop 0 h (fun cy acc =>
    memcpy acc (cy * w * channels) src (((y + cy) * src_width + x) * channels) (w * channels)) out

/-- `l_img_crop` (image.c 558-600) on the decoded input `img`; x, y, w, h are
the `int` arguments.  The corner sums `x + w` and `y + h` of the check are
`int` sums. -/
def l_img_crop (encode : Image → Int) (img : Image) (x y w h : Int) : Outcome :=
  if img.data.isNone then
    { ret := [LuaVal.bool false, LuaVal.str "Failed to read input image"], written := none }
  else if x < 0 ∨ y < 0 ∨ wrap32 (x + w) > img.width ∨ wrap32 (y + h) > img.height then
    { ret := [LuaVal.bool false, LuaVal.str "Invalid crop rectangle"], written := none }
  else
    let out := img_create w h img.channels
    match out.data with
    | none =>
      { ret := [LuaVal.bool false, LuaVal.str "Memory allocation failed"], written := none }
    | some o =>
      let res := img_write encode
        { out with data := some (crop_rows img.bytes img.width img.channels x y w h o) }
      { ret := [LuaVal.bool (decide (res.1 ≠ 0))], written := res.2 }


/-! ## Predicates used by the proofs -/

/-- The invariant of the scan before index k is handled. -/
def OtsuInv (hist : List Int) (k : Nat) (s : OtsuState) : Prop :=
  s.wB = cumWeight hist k ∧ s.sumB = cumMoment32 hist k ∧ 0 ≤ s.max_var ∧
  (∀ t, t < k → variance32 hist t ≤ s.max_var) ∧
  (0 < s.max_var → ∃ t : Nat, s.threshold = (t : Int) ∧ t < k ∧
      variance32 hist t = s.max_var ∧
      ∀ u, u < t → variance32 hist u < s.max_var) ∧
  (s.max_var = 0 → s.threshold = 0)

/-- What the scan promises about the threshold it returns: it is the smallest
maximiser over 0..255 of the between-class variance as the scan evaluates
it. -/
def OtsuFinal (hist : List Int) (thr : Int) : Prop :=
  ∃ t : Nat, thr = (t : Int) ∧ t ≤ 255 ∧
    (∀ u, u ≤ 255 → variance32 hist u ≤ variance32 hist t) ∧
    (∀ u, u < t → variance32 hist u < variance32 hist t)

/-- The byte that `draw_pixel` leaves in channel c of the pixel it paints, where
`old` is the byte that was there: r, g, b in channels 0, 1, 2 of a buffer with
at least 3 channels, the luma value in channel 0 otherwise. -/
def penByte (channels : Int) (r g b : Nat) (c : Int) (old : Nat) : Nat :=
  if 3 ≤ channels then
    (if c = 0 then r else if c = 1 then g else if c = 2 then b else old)
  else
    (if c = 0 then luma r g b else old)

/-- The label grid of `stripeImage` while the labelling pass stands before pixel
(x, y): every foreground pixel of an earlier row, or of row y to the left of
x, carries the number of its band; every other cell is 0. -/
def StripeLabels (x y : Int) (labels : List Int) : Prop :=
  labels.length = 55776 ∧
  ∀ x2 y2 : Int, 0 ≤ x2 → x2 < 2324 → 0 ≤ y2 → y2 < 24 →
    rdi labels (y2 * 2324 + x2)
      = if x2 % 23 ≠ 0 ∧ ((1 ≤ y2 ∧ y2 < y) ∨ (y2 = y ∧ 1 ≤ x2 ∧ x2 < x)) then x2 / 23 + 1
        else 0

/-- The bounding boxes of `stripeImage` while the bounding-box pass stands before
pixel (x, y): the arrays have 102 entries, and once the top-left pixel of band i
has been visited `min_x[i]` and `min_y[i]` are at most its coordinates, once the
bottom-right pixel of the scanned part of band i has been visited `max_x[i]` and
`max_y[i]` are at least its coordinates. -/
def StripeBoxes (x y : Int) (bx : Boxes) : Prop :=
  (bx.min_x.length = 102 ∧ bx.min_y.length = 102 ∧ bx.max_x.length = 102 ∧
    bx.max_y.length = 102) ∧
  ∀ i : Int, 1 ≤ i → i ≤ 101 →
    ((1 < y ∨ (y = 1 ∧ 23 * (i - 1) + 1 < x)) →
      rdi bx.min_x i ≤ 23 * (i - 1) + 1 ∧ rdi bx.min_y i ≤ 1) ∧
    ((22 < y ∨ (y = 22 ∧ 23 * (i - 1) + 22 < x)) →
      23 * (i - 1) + 22 ≤ rdi bx.max_x i ∧ 22 ≤ rdi bx.max_y i)


/-! ## Test inputs -/

/-- The pixels of `stripeImage`, row by row: 0 in the columns whose index is a
multiple of 23, 255 elsewhere. -/
@[irreducible]
def stripePixels : List Nat :=
  (List.range (2324 * 24)).map (fun i => if i % 2324 % 23 = 0 then 0 else 255)

/-- A 2324 x 24 single-channel image of 101 vertical bands: the columns whose
index is a multiple of 23 are background (0), every other column is foreground
(255), so each band is 22 pixels wide and runs over the full height. -/
def stripeImage : Image :=
  { data := some stripePixels, width := 2324, height := 24, channels := 1 }


/-! ## Adaptive threshold (`l_img_adaptive_threshold`, image.c 923-971) -/

/-- The accumulation of `sum` and `count` over the window of pixel (x, y)
(image.c 954-963).  `ny`, `nx`, `sum` and `count` are `int`s built from the
caller-supplied block size or from as many bytes as the window holds, so their
32-bit wrap-around is explicit. -/
def adaptive_window (gray : List Nat) (width height half x y : Int) : Int × Int :=
  forLoop (-half) (half + 1) (fun dy s =>
    forLoop (-half) (half + 1) (fun dx s =>
      let ny := wrap32 (y + dy)
      let nx := wrap32 (x + dx)
      if 0 ≤ ny ∧ ny < height ∧ 0 ≤ nx ∧ nx < width then
        (wrap32 (s.1 + ((rd gray (ny * width + nx) : Nat) : Int)), wrap32 (s.2 + 1))
      else s) s) (0, 0)

/-- The output buffer of `l_img_adaptive_threshold` (image.c 927-965) for a
decoded image.  An even `int` is below `INT_MAX`, so `block_size++` cannot
overflow.  `sum / count` truncates; with `count == 0` (reached exactly for a
block size of -3 or less) the source traps, where `Int.tdiv` yields 0. -/
def adaptive_threshold (img : Image) (block_size C : Int) : Image :=
  let block_size := if Int.tmod block_size 2 = 0 then block_size + 1 else block_size
  let gray := to_gray img
  let out := img_create img.width img.height 1
  let half := Int.tdiv block_size 2
  { out with
    data := out.data.map (fun o =>
      forLoop 0 img.height (fun y acc =>
        forLoop 0 img.width (fun x acc =>
          let s := adaptive_window gray.bytes img.width img.height half x y
          let threshold := wrap32 (Int.tdiv s.1 s.2 - C)
          wr acc (y * img.width + x)
            (if ((rd gray.bytes (y * img.width + x) : Nat) : Int) > threshold then 255 else 0))
          acc) o) }


/-! ## Gaussian kernel (`create_gaussian_kernel`, image.c 154-177) -/

/-- Read `k[i]` from a `float` array (0 outside the array). -/
def rdq (a : List ℚ) (i : Int) : ℚ :=
  if 0 ≤ i then a.getD i.toNat 0 else 0

/-- Write `k[i] = v` to a `float` array (ignored outside the array). -/
def wrq (a : List ℚ) (i : Int) (v : ℚ) : List ℚ :=
  if 0 ≤ i then a.set i.toNat v else a

/-- `create_gaussian_kernel` (image.c 154-177) in exact arithmetic: the `float`
operations are carried out in the rationals and `exp` stands for the library
function.  The element count `size * size` is an `int` product.  When the
divisor `2 * sigma * sigma` is zero the quotient at the centre is 0/0, a NaN,
which `sum` and then every weight inherit: the model returns `none`. -/
def create_gaussian_kernel (exp : ℚ → ℚ) (size : Int) (sigma : ℚ) : Option (List ℚ) :=
  let center := Int.tdiv size 2
  if 2 * sigma * sigma = 0 then none
  else
    let st := forLoop 0 size (fun y st =>
      forLoop 0 size (fun x st =>
        let dx := x - center
        let dy := y - center
        let val := exp (((-(dx * dx + dy * dy) : Int) : ℚ) / (2 * sigma * sigma))
        (wrq st.1 (y * size + x) val, st.2 + val)) st)
      (List.replicate (wrap32 (size * size)).toNat (0 : ℚ), (0 : ℚ))
    some (forLoop 0 (wrap32 (size * size)) (fun i k => wrq k i (rdq k i / st.2)) st.1)


/-! ## Row-parallel executor (`parallel_for`, image.c 134-151) -/

/-- The constant `MAX_THREADS` of the source. -/
def MAX_THREADS : Int := 4

/-- The job table filled by `parallel_for` (image.c 135-146): entry i is the
band `(start_y, end_y)` handed to thread i. -/
def parallel_for_jobs (height : Int) : List (Int × Int) :=
  let num_threads := MAX_THREADS
  let rows_per_thread := Int.tdiv height num_threads
  forLoop 0 num_threads (fun i jobs =>
    jobs ++ [(i * rows_per_thread,
              if i = num_threads - 1 then height else (i + 1) * rows_per_thread)]) []

/-- `parallel_for` (image.c 134-151): thread i runs `func` on band i and all
threads are joined.  The bands are disjoint row ranges of `out` and `img` is only
read, so the model runs the jobs one after the other in index order. -/
def parallel_for {σ : Type} (height : Int) (func : Int → Int → σ → σ) (out : σ) : σ :=
  (parallel_for_jobs height).foldl (fun acc job => func job.1 job.2 acc) out


/-! ## Median filter (`median_filter_row`, image.c 198-224; `l_img_blur`, image.c 673-725) -/

/-- The gathering loop of `median_filter_row` (image.c 203-209): the window and
the running `idx`.  The array `window` is written in full before it is read, so
its previous content is immaterial and the model starts from nine zeroes. -/
def median_window (data : List Nat) (width channels x y c : Int) : List Nat × Int :=
  forLoop (-1) 2 (fun ky s =>
    forLoop (-1) 2 (fun kx s =>
      let px := (y + ky) * width + (x + kx)
      (wr s.1 s.2 (rd data (px * channels + c)), s.2 + 1)) s) (List.replicate 9 0, 0)

/-- The sorting loops of `median_filter_row` (image.c 211-219): the first five
passes of a selection sort by exchanges. -/
def median_sort (window : List Nat) : List Nat :=
  forLoop 0 5 (fun i w =>
    forLoop (i + 1) 9 (fun j w =>
      if rd w i > rd w j then
        let temp := rd w i
        wr (wr w i (rd w j)) j temp
      else w) w) window

/-- `median_filter_row` (image.c 198-224) on the rows `start_y <= y < end_y`. -/
def median_filter_row (img : Image) (start_y end_y : Int) (out : List Nat) : List Nat :=
  forLoop start_y end_y (fun y acc =>
    forLoop 1 (img.width - 1) (fun x acc =>
      forLoop 0 img.channels (fun c acc =>
        let window := median_sort (median_window img.bytes img.width img.channels x y c).1
        wr acc ((y * img.width + x) * img.channels + c) (rd window 4)) acc) acc) out

/-- The border copy that ends `l_img_blur` (image.c 710-717). -/
def blur_border (img : Image) (out : List Nat) : List Nat :=
  forLoop 0 img.height (fun y acc =>
    forLoop 0 img.width (fun x acc =>
      if y = 0 ∨ y = img.height - 1 ∨ x = 0 ∨ x = img.width - 1 then
        let idx := (y * img.width + x) * img.channels
        memcpy acc idx img.bytes idx img.channels
      else acc) acc) out

/-- The output buffer of `l_img_blur` (image.c 673-725) for a decoded image and
the type `"median"`: the bands of `parallel_for` run `median_filter_row` on
disjoint rows of `out`, then the border is copied from the source. -/
def blur_median (img : Image) : Image :=
  let out := img_create img.width img.height img.channels
  { out with
    data := out.data.map (fun o =>
      blur_border img (parallel_for img.height (median_filter_row img) o)) }


/-! ## Rotate (`l_img_rotate`, image.c 603-670) -/

/-- The conversion `(int)f` of a `float`: truncation toward zero. -/
def truncQ (q : ℚ) : Int := Int.tdiv q.num q.den

/-- The running bounds `min_x`, `max_x`, `min_y`, `max_y` of the corner loop. -/
structure RotBounds where
  min_x : Int
  max_x : Int
  min_y : Int
  max_y : Int
deriving DecidableEq

/-- The corner loop of image.c 619-634.  `cos_a` and `sin_a` are the two
`float`s that the source obtains from the angle (1 and 0 at angle 0); the
`float` expressions are evaluated exactly, which is what the machine does as
long as every operand and result is an integer of magnitude at most 2^24. -/
def rotate_bounds (width height : Int) (cos_a sin_a : ℚ) : RotBounds :=
  let corners : List (Int × Int) := [(0, 0), (width, 0), (0, height), (width, height)]
  forLoop 0 4 (fun i b =>
    let c := corners.getD i.toNat (0, 0)
    let new_x := truncQ ((c.1 : ℚ) * cos_a - (c.2 : ℚ) * sin_a)
    let new_y := truncQ ((c.1 : ℚ) * sin_a + (c.2 : ℚ) * cos_a)
    if i = 0 then { min_x := new_x, max_x := new_x, min_y := new_y, max_y := new_y }
    else
      { min_x := if new_x < b.min_x then new_x else b.min_x
        max_x := if new_x > b.max_x then new_x else b.max_x
        min_y := if new_y < b.min_y then new_y else b.min_y
        max_y := if new_y > b.max_y then new_y else b.max_y })
    { min_x := 0, max_x := 0, min_y := 0, max_y := 0 }

/-- The output buffer of `l_img_rotate` (image.c 615-662) for a decoded image and
the two `float`s `cos_a`, `sin_a`.  The `memset` after `img_create` clears a
buffer that `calloc` has already cleared. -/
def rotate (img : Image) (cos_a sin_a : ℚ) : Image :=
  let b := rotate_bounds img.width img.height cos_a sin_a
  let new_w := b.max_x - b.min_x + 1
  let new_h := b.max_y - b.min_y + 1
  let offset_x := -b.min_x
  let offset_y := -b.min_y
  let out := img_create new_w new_h img.channels
  { out with
    data := out.data.map (fun o =>
      forLoop 0 new_h (fun y acc =>
        forLoop 0 new_w (fun x acc =>
          let src_x := truncQ (((x - offset_x : Int) : ℚ) * cos_a
            + ((y - offset_y : Int) : ℚ) * sin_a)
          let src_y := truncQ (((-(x - offset_x) : Int) : ℚ) * sin_a
            + ((y - offset_y : Int) : ℚ) * cos_a)
          if src_x ≥ 0 ∧ src_x < img.width ∧ src_y ≥ 0 ∧ src_y < img.height then
            let src_idx := (src_y * img.width + src_x) * img.channels
            let dst_idx := (y * new_w + x) * img.channels
            memcpy acc dst_idx img.bytes src_idx img.channels
          else acc) acc) o) }


/-! ## Sobel (`l_img_sobel`, image.c 752-778) -/

/-- The table `Gx` of the source. -/
def sobel_Gx : List (List Int) := [[-1, 0, 1], [-2, 0, 2], [-1, 0, 1]]

/-- The table `Gy` of the source. -/
def sobel_Gy : List (List Int) := [[-1, -2, -1], [0, 0, 0], [1, 2, 1]]

/-- The accumulation of `sum_x` and `sum_y` over the 3 x 3 window
(image.c 766-773). -/
def sobel_sums (gray : List Nat) (width x y : Int) : Int × Int :=
  forLoop (-1) 2 (fun ky s =>
    forLoop (-1) 2 (fun kx s =>
      let pixel : Int := ((rd gray ((y + ky) * width + (x + kx)) : Nat) : Int)
      (s.1 + pixel * rdi (sobel_Gx.getD (ky + 1).toNat []) (kx + 1),
       s.2 + pixel * rdi (sobel_Gy.getD (ky + 1).toNat []) (kx + 1))) s) (0, 0)

/-- The magnitude `(int)sqrt(sum_x*sum_x + sum_y*sum_y)` clipped at 255
(image.c 774-775).  The argument is an integer below 2^22, which a `double`
holds exactly, and the correctly rounded square root of an integer truncates
to the integer square root. -/
def sobel_mag (sum_x sum_y : Int) : Nat :=
  let mag := Nat.sqrt (sum_x * sum_x + sum_y * sum_y).toNat
  if mag > 255 then 255 else mag

/-- The output buffer of `l_img_sobel` (image.c 740-778) for a decoded image. -/
def sobel (img : Image) : Image :=
  let gray := to_gray img
  let out := img_create img.width img.height 1
  { out with
    data := out.data.map (fun o =>
      forLoop 1 (img.height - 1) (fun y acc =>
        forLoop 1 (img.width - 1) (fun x acc =>
          let s := sobel_sums gray.bytes img.width x y
          wr acc (y * img.width + x) (sobel_mag s.1 s.2)) acc) o) }


/-! ## Shapes and text (`fill_rectangle`, `draw_circle`, `draw_char`, `draw_text`,
image.c 270-350) -/

/-- `fill_rectangle` (image.c 270-277).  The loop bounds `y + h` and `x + w` are
`int` sums of caller-supplied values. -/
def fill_rectangle (img : Image) (x y w h : Int) (r g b : Nat) : Image :=
  forLoop y (wrap32 (y + h)) (fun py acc =>
    forLoop x (wrap32 (x + w)) (fun px acc => draw_pixel acc px py r g b) acc) img

/-- The body of the loop of `draw_circle` for the stepping point (x, y)
(image.c 285-294): for every brush offset t the eight reflections, in the order
of the source. -/
def circle_stamp (cx cy : Int) (r g b : Nat) (thickness : Int) (x y : Int) (img : Image) :
    Image :=
  forLoop (Int.tdiv (-thickness) 2) (Int.tdiv thickness 2 + 1) (fun t acc =>
    let a1 := draw_pixel acc (cx + x + t) (cy + y) r g b
    let a2 := draw_pixel a1 (cx + y + t) (cy + x) r g b
    let a3 := draw_pixel a2 (cx - y - t) (cy + x) r g b
    let a4 := draw_pixel a3 (cx - x - t) (cy + y) r g b
    let a5 := draw_pixel a4 (cx - x - t) (cy - y) r g b
    let a6 := draw_pixel a5 (cx - y - t) (cy - x) r g b
    let a7 := draw_pixel a6 (cx + y + t) (cy - x) r g b
    draw_pixel a7 (cx + x + t) (cy - y) r g b) img

/-- The `while (x >= y)` loop of `draw_circle` (image.c 284-302) with its body
`stamp x y` left open; `none` when the fuel runs out before the loop exits. -/
def circle_loop {σ : Type} (stamp : Int → Int → σ → σ) : Nat → σ → Int → Int → Int → Option σ
  | 0, _, _, _, _ => none
  | fuel + 1, s, x, y, err =>
    if x ≥ y then
      let s1 := stamp x y s
      let y1 := y + 1
      let err1 := err + (1 + 2 * y1)
      if 2 * (err1 - x) + 1 > 0 then
        circle_loop stamp fuel s1 (x - 1) y1 (err1 + (1 - 2 * (x - 1)))
      else circle_loop stamp fuel s1 x y1 err1
    else some s

/-- `draw_circle` (image.c 279-303). -/
def draw_circle (fuel : Nat) (img : Image) (cx cy radius : Int) (r g b : Nat)
    (thickness : Int) : Option Image :=
  circle_loop (circle_stamp cx cy r g b thickness) fuel img radius 0 0

/-- The table `font` of `draw_char` (image.c 308-319). -/
def font : List (List Nat) :=
  [[0x7C, 0x82, 0x82, 0x82, 0x7C], [0x00, 0x42, 0xFE, 0x02, 0x00],
   [0x46, 0x8A, 0x92, 0xA2, 0x42], [0x44, 0x82, 0x92, 0x92, 0x6C],
   [0x18, 0x28, 0x48, 0xFE, 0x08], [0xF4, 0x92, 0x92, 0x92, 0x8C],
   [0x3C, 0x52, 0x92, 0x92, 0x8C], [0x80, 0x86, 0x98, 0xA0, 0xC0],
   [0x6C, 0x92, 0x92, 0x92, 0x6C], [0x64, 0x92, 0x92, 0x92, 0x7C]]

/-- `draw_char` (image.c 305-336); c is the value of the `char`, so `'0'` is
48. -/
def draw_char (img : Image) (x y c : Int) (r g b : Nat) (scale : Int) : Image :=
  let idx := c - 48
  if idx < 0 ∨ idx > 9 then img
  else
    forLoop 0 5 (fun row acc =>
      let bits := rd (font.getD idx.toNat []) row
      forLoop 0 3 (fun col acc =>
        if bits &&& (1 <<< (7 - col).toNat) ≠ 0 then
          forLoop 0 scale (fun sy acc =>
            forLoop 0 scale (fun sx acc =>
              draw_pixel acc (x + col * scale + sx) (y + row * scale + sy) r g b) acc) acc
        else acc) acc) img

/-- The body of the loop of `draw_text` for one character (image.c 342-348); the
state is the image and the cursor (x, y), and `'\n'` is 10.  The cursor
advances `y += 6 * scale` and `x += 4 * scale` are `int` arithmetic on
caller-supplied values. -/
def text_step (orig_x : Int) (r g b : Nat) (scale : Int) (st : Image × Int × Int) (c : Int) :
    Image × Int × Int :=
  if c = 10 then (st.1, orig_x, wrap32 (st.2.2 + wrap32 (6 * scale)))
  else (draw_char st.1 st.2.1 st.2.2 c r g b scale, wrap32 (st.2.1 + wrap32 (4 * scale)), st.2.2)

/-- `draw_text` (image.c 338-350); `text` holds the values of the characters
before the terminating NUL. -/
def draw_text (img : Image) (x y : Int) (text : List Int) (r g b : Nat) (scale : Int) : Image :=
  (text.foldl (text_step x r g b scale) (img, x, y)).1


/-! ## Convolution pass (`gaussian_blur_row`, image.c 179-196; `l_img_blur`,
image.c 673-725) -/

/-- The conversion `(unsigned char)f` of a `float`: truncation, then the low
eight bits. -/
def byte_of_float (q : ℚ) : Nat := (truncQ q % 256).toNat

/-- The accumulation of `sum` over the 5 x 5 window (image.c 185-191), in exact
arithmetic; `kernel[i]` outside the array reads 0 in the model. -/
def gaussian_blur_sum (img : Image) (kernel : List ℚ) (x y c : Int) : ℚ :=
  forLoop (-2) 3 (fun ky sum =>
    forLoop (-2) 3 (fun kx sum =>
      let px := (y + ky) * img.width + (x + kx)
      sum + ((rd img.bytes (px * img.channels + c) : Nat) : ℚ)
        * rdq kernel ((ky + 2) * 5 + (kx + 2))) sum) 0

/-- `gaussian_blur_row` (image.c 179-196) on the rows `start_y <= y < end_y`. -/
def gaussian_blur_row (img : Image) (kernel : List ℚ) (start_y end_y : Int) (out : List Nat) :
    List Nat :=
  forLoop start_y end_y (fun y acc =>
    forLoop 2 (img.width - 2) (fun x acc =>
      forLoop 0 img.channels (fun c acc =>
        wr acc ((y * img.width + x) * img.channels + c)
          (byte_of_float (gaussian_blur_sum img kernel x y c))) acc) acc) out

/-- The source pixels (x + kx, y + ky) whose bytes `gaussian_blur_row` reads on
the rows `start_y <= y < end_y`, in the order of the reads (the loops of
image.c 182-191 with the accumulation replaced by a record of the read). -/
def gaussian_blur_reads (img : Image) (start_y end_y : Int) : List (Int × Int) :=
  forLoop start_y end_y (fun y acc =>
    forLoop 2 (img.width - 2) (fun x acc =>
      forLoop 0 img.channels (fun c acc =>
        forLoop (-2) 3 (fun ky acc =>
          forLoop (-2) 3 (fun kx acc => acc ++ [(x + kx, y + ky)]) acc) acc) acc) acc) []

/-- The source pixels (x + kx, y + ky) whose bytes `median_filter_row` reads on
the rows `start_y <= y < end_y`, in the order of the reads (the loops of
image.c 200-208 with the store to `window` replaced by a record of the read). -/
def median_filter_reads (img : Image) (start_y end_y : Int) : List (Int × Int) :=
  forLoop start_y end_y (fun y acc =>
    forLoop 1 (img.width - 1) (fun x acc =>
      forLoop 0 img.channels (fun c acc =>
        forLoop (-1) 2 (fun ky acc =>
          forLoop (-1) 2 (fun kx acc => acc ++ [(x + kx, y + ky)]) acc) acc) acc) acc) []

/-- The kernel indices `(ky+2)*5 + (kx+2)` that `gaussian_blur_row` reads for one
output byte, in the order of the reads (image.c 186-189). -/
def gaussian_blur_kernel_reads : List Int :=
  forLoop (-2) 3 (fun ky acc =>
    forLoop (-2) 3 (fun kx acc => acc ++ [(ky + 2) * 5 + (kx + 2)]) acc) []

/-- The kernel of the average mode (image.c 703-704): nine `float`s, each
`1.0f/9.0f`, taken as the rational 1/9. -/
def average_kernel : List ℚ :=
  forLoop 0 9 (fun i k => wrq k i (1 / 9)) (List.replicate 9 0)

/-- The byte that `(unsigned char)sum` stores when `sum` is a NaN.  C leaves
this conversion undefined; the truncating conversions of x86-64 and of AArch64
leave 0 in the low byte, and the model stores 0.  No statement about the blur
depends on this value. -/
def nan_byte : Nat := 0

/-- `gaussian_blur_row` (image.c 179-196) on the rows `start_y <= y < end_y` with
a kernel of NaN weights: every product `data * kernel[..]` is a NaN, so `sum`
is a NaN for every byte the loops store. -/
def gaussian_blur_row_nan (img : Image) (start_y end_y : Int) (out : List Nat) : List Nat :=
  forLoop start_y end_y (fun y acc =>
    forLoop 2 (img.width - 2) (fun x acc =>
      forLoop 0 img.channels (fun c acc =>
        wr acc ((y * img.width + x) * img.channels + c) nan_byte) acc) acc) out

/-- The buffer after the parallel pass of `l_img_blur` (image.c 693-707) for the
blur type, size and sigma given.  In gaussian mode with a kernel of NaN
weights (`create_gaussian_kernel` gives `none`) the pass still runs, over the
NaN kernel. -/
def blur_pass (exp : ℚ → ℚ) (img : Image) (type : String) (size : Int) (sigma : ℚ)
    (o : List Nat) : List Nat :=
  if type = "gaussian" then
    match create_gaussian_kernel exp size sigma with
    | some k => parallel_for img.height (gaussian_blur_row img k) o
    | none => parallel_for img.height (gaussian_blur_row_nan img) o
  else if type = "median" then
    parallel_for img.height (median_filter_row img) o
  else
    parallel_for img.height (gaussian_blur_row img average_kernel) o

/-! ## Reference quantities used in the statements of the filters -/

/-- The response of the standard horizontal Sobel kernel
`[[-1,0,1],[-2,0,2],[-1,0,1]]` at pixel (x, y) of a plane of row length w. -/
def sobelGx (gray : List Nat) (w x y : Int) : Int :=
  (rd gray ((y - 1) * w + (x + 1)) : Int) - (rd gray ((y - 1) * w + (x - 1)) : Int)
  + 2 * ((rd gray (y * w + (x + 1)) : Int) - (rd gray (y * w + (x - 1)) : Int))
  + ((rd gray ((y + 1) * w + (x + 1)) : Int) - (rd gray ((y + 1) * w + (x - 1)) : Int))

/-- The response of the standard vertical Sobel kernel
`[[-1,-2,-1],[0,0,0],[1,2,1]]` at pixel (x, y) of a plane of row length w. -/
def sobelGy (gray : List Nat) (w x y : Int) : Int :=
  (rd gray ((y + 1) * w + (x - 1)) : Int) - (rd gray ((y - 1) * w + (x - 1)) : Int)
  + 2 * ((rd gray ((y + 1) * w + x) : Int) - (rd gray ((y - 1) * w + x) : Int))
  + ((rd gray ((y + 1) * w + (x + 1)) : Int) - (rd gray ((y - 1) * w + (x + 1)) : Int))

/-- The sum S of the pixels of the window of radius `half` around (x, y) that
lie inside the w x h image: rows `max 0 (y-half) .. min (h-1) (y+half)`,
columns `max 0 (x-half) .. min (w-1) (x+half)`. -/
def windowSum (gray : List Nat) (w h half x y : Int) : Int :=
  ((intRange (max 0 (y - half)) (min h (y + half + 1))).map (fun ny =>
    ((intRange (max 0 (x - half)) (min w (x + half + 1))).map (fun nx =>
      ((rd gray (ny * w + nx) : Nat) : Int))).sum)).sum

/-- The number n of pixels of the window of radius `half` around (x, y) that
lie inside the w x h image. -/
def windowCount (w h half x y : Int) : Int :=
  (min h (y + half + 1) - max 0 (y - half)) * (min w (x + half + 1) - max 0 (x - half))

/-- The block size after `if (block_size % 2 == 0) block_size++`. -/
def oddBlock (block_size : Int) : Int :=
  if block_size % 2 = 0 then block_size + 1 else block_size

/-- The byte of channel c of pixel (x, y) in a buffer of row length w with ch
channels. -/
def pixelAt (data : List Nat) (w ch x y c : Int) : Nat := rd data ((y * w + x) * ch + c)

/-- The nine values of channel c in the 3 x 3 neighbourhood of pixel (x, y), row
by row. -/
def neighbourhood9 (data : List Nat) (w ch x y c : Int) : List Nat :=
  [pixelAt data w ch (x - 1) (y - 1) c, pixelAt data w ch x (y - 1) c,
   pixelAt data w ch (x + 1) (y - 1) c,
   pixelAt data w ch (x - 1) y c, pixelAt data w ch x y c, pixelAt data w ch (x + 1) y c,
   pixelAt data w ch (x - 1) (y + 1) c, pixelAt data w ch x (y + 1) c,
   pixelAt data w ch (x + 1) (y + 1) c]

/-- The median of nine values: the element at index 4 of the values sorted in
ascending order. -/
def median9 (vals : List Nat) : Nat := (vals.insertionSort (fun a b => a ≤ b)).getD 4 0

/-- The state of the labelling pass while it stands before pixel (x, y): the
grid has one cell per pixel, every cell holds 0 or a label below
`current_label`, every label from 1 to `current_label - 1` is carried by some
interior pixel, and the cells not yet visited hold 0. -/
def LabelInv (img : Image) (x y : Int) (st : List Int × Int) : Prop :=
  st.1.length = (img.width * img.height).toNat ∧ 1 ≤ st.2 ∧
  (∀ j, 0 ≤ rdi st.1 j ∧ rdi st.1 j < st.2) ∧
  (∀ i, 1 ≤ i → i < st.2 →
    ∃ x2 y2, (1 ≤ x2 ∧ x2 < img.width - 1) ∧ (1 ≤ y2 ∧ y2 < img.height - 1) ∧
      rdi st.1 (y2 * img.width + x2) = i) ∧
  (∀ x2 y2, 0 ≤ x2 → x2 < img.width → (y < y2 ∨ (y2 = y ∧ x ≤ x2)) →
    rdi st.1 (y2 * img.width + x2) = 0)

/-- The state of the weight loops of `create_gaussian_kernel` while they stand
before cell (x, y) of a size x size kernel with centre (cx, cy): the array has
size * size entries, none negative, `sum` is their total, positive once the
centre has been visited, and the cells not yet visited hold 0. -/
def GaussInv (size cx cy x y : Int) (st : List ℚ × ℚ) : Prop :=
  (st.1.length : Int) = size * size ∧ st.1.sum = st.2 ∧ 0 ≤ st.2 ∧
  ((cy < y ∨ (cy = y ∧ cx < x)) → 0 < st.2) ∧
  (∀ j, 0 ≤ rdq st.1 j) ∧
  (∀ x2 y2, 0 ≤ x2 → x2 < size → (y < y2 ∨ (y2 = y ∧ x ≤ x2)) →
    rdq st.1 (y2 * size + x2) = 0)

/-- Painting a list of points one after another with `draw_pixel`. -/
def paintAll (img : Image) (pts : List (Int × Int)) (r g b : Nat) : Image :=
  pts.foldl (fun acc p => draw_pixel acc p.1 p.2 r g b) img

/-- The points (x, y) with `x0 <= x < x1` and `y0 <= y < y1`, row by row. -/
def rectPixels (x0 x1 y0 y1 : Int) : List (Int × Int) :=
  ((intRange y0 y1).map (fun y => (intRange x0 x1).map (fun x => (x, y)))).flatten

/-- The eight reflections of the offset (x, y), in the order in which
`draw_circle` paints them. -/
def eightfold (x y : Int) : List (Int × Int) :=
  [(x, y), (y, x), (-y, x), (-x, y), (-x, -y), (-y, -x), (y, -x), (x, -y)]

/-- The stepping points (x, y) that the loop of `draw_circle` visits for a
radius, in order; `none` when the fuel runs out. -/
def circle_steps (fuel : Nat) (radius : Int) : Option (List (Int × Int)) :=
  circle_loop (fun x y l => l ++ [(x, y)]) fuel [] radius 0 0


/-- The pixels that one pass of the brush loop of `draw_circle` paints for the
stepping point (x, y): for every t from `-thickness/2` to `thickness/2` the
eight points of image.c 287-294, in the order of the calls. -/
def stampPixels (cx cy thickness x y : Int) : List (Int × Int) :=
  ((intRange (Int.tdiv (-thickness) 2) (Int.tdiv thickness 2 + 1)).map (fun t =>
    [(cx + x + t, cy + y), (cx + y + t, cy + x), (cx - y - t, cy + x), (cx - x - t, cy + y),
     (cx - x - t, cy - y), (cx - y - t, cy - x), (cx + y + t, cy - x),
     (cx + x + t, cy - y)])).flatten

/-- The pixels that `draw_circle` paints for a list of stepping points. -/
def circlePixels (cx cy thickness : Int) (steps : List (Int × Int)) : List (Int × Int) :=
  (steps.map (fun s => stampPixels cx cy thickness s.1 s.2)).flatten

/-- The offsets from the centre of the eight reflections of every stepping
point. -/
def circleOffsets (steps : List (Int × Int)) : List (Int × Int) :=
  (steps.map (fun s => eightfold s.1 s.2)).flatten

/-- Whether `draw_char` paints the cell (row, col) of the glyph with index idx:
the test `bits & (1 << (7 - col))` of image.c 326 on `font[idx][row]`. -/
def glyphBit (idx row col : Int) : Bool :=
  decide (rd (font.getD idx.toNat []) row &&& (1 <<< (7 - col).toNat) ≠ 0)

/-- The pixels to which `draw_char` applies `draw_pixel` for the character c at
(x, y), in the order of the calls: for each cell of the glyph that is set, a
block of scale x scale pixels. -/
def glyphPixels (x y c scale : Int) : List (Int × Int) :=
  if c - 48 < 0 ∨ c - 48 > 9 then []
  else
    ((intRange 0 5).map (fun row =>
      ((intRange 0 3).map (fun col =>
        if glyphBit (c - 48) row col then
          (rectPixels 0 scale 0 scale).map (fun s =>
            (x + col * scale + s.1, y + row * scale + s.2))
        else [])).flatten)).flatten

/-- The cells (col, row) of the 3 x 5 glyph with index idx that are set. -/
def glyphCells (idx : Int) : List (Int × Int) :=
  (rectPixels 0 3 0 5).filter (fun cell => glyphBit idx cell.2 cell.1)

/-- The label of the pixel p in the label grid of a plane of row length w. -/
def labelAt (labels : List Int) (w : Int) (p : Int × Int) : Int := rdi labels (p.2 * w + p.1)

/-- Two pixels are horizontally or vertically adjacent. -/
def Adj4 (p q : Int × Int) : Prop := |p.1 - q.1| + |p.2 - q.2| = 1

/-- One step of a path inside the label i: two adjacent pixels of the w x h
plane that both carry the label i. -/
def LabelStep (labels : List Int) (w h i : Int) (p q : Int × Int) : Prop :=
  ((0 ≤ p.1 ∧ p.1 < w) ∧ 0 ≤ p.2 ∧ p.2 < h) ∧ ((0 ≤ q.1 ∧ q.1 < w) ∧ 0 ≤ q.2 ∧ q.2 < h) ∧
  Adj4 p q ∧ labelAt labels w p = i ∧ labelAt labels w q = i

/-- The pixels p and q are joined by a path of horizontally or vertically
adjacent pixels that all carry the label i. -/
def Joined (labels : List Int) (w h i : Int) (p q : Int × Int) : Prop :=
  Relation.ReflTransGen (LabelStep labels w h i) p q

/-- Connectivity invariant of the labelling pass standing before pixel (x, y):
a cell of the plane is labelled exactly when its pixel is an interior
foreground pixel that the pass has visited, and every label in use has a root
pixel to which every pixel with that label is joined inside the label. -/
def LabelConn (img : Image) (x y : Int) (st : List Int × Int) : Prop :=
  (∀ x2 y2, 0 ≤ x2 → x2 < img.width → 0 ≤ y2 → y2 < img.height →
    (rdi st.1 (y2 * img.width + x2) ≠ 0 ↔
      ((1 ≤ x2 ∧ x2 < img.width - 1) ∧ (1 ≤ y2 ∧ y2 < img.height - 1)) ∧
      (y2 < y ∨ (y2 = y ∧ x2 < x)) ∧ rd img.bytes (y2 * img.width + x2) > 0)) ∧
  (∀ i, 1 ≤ i → i < st.2 →
    ∃ root : Int × Int, ((0 ≤ root.1 ∧ root.1 < img.width) ∧ 0 ≤ root.2 ∧ root.2 < img.height) ∧
      labelAt st.1 img.width root = i ∧
      ∀ p : Int × Int, ((0 ≤ p.1 ∧ p.1 < img.width) ∧ 0 ≤ p.2 ∧ p.2 < img.height) →
        labelAt st.1 img.width p = i → Joined st.1 img.width img.height i root p)

/-- The stepping loop of `draw_line` (image.c 248-259) with the brush replaced
by a record of the point at which it is stamped; `none` when the fuel runs out
before the end point is reached.  Plain `Int` sums, as in `draw_line_loop`. -/
def line_steps (x2 y2 dx dy sx sy : Int) :
    Nat → List (Int × Int) → Int → Int → Int → Option (List (Int × Int))
  | 0, _, _, _, _ => none
  | fuel + 1, acc, x1, y1, err =>
    let acc1 := acc ++ [(x1, y1)]
    if x1 = x2 ∧ y1 = y2 then some acc1
    else
      let e2 := 2 * err
      let err1 := if e2 ≥ dy then err + dy else err
      let x1n := if e2 ≥ dy then x1 + sx else x1
      let err2 := if e2 ≤ dx then err1 + dx else err1
      let y1n := if e2 ≤ dx then y1 + sy else y1
      line_steps x2 y2 dx dy sx sy fuel acc1 x1n y1n err2

/-- The points at which `draw_line` stamps its brush, in order (image.c
240-260 with the brush replaced by a record of the point). -/
def draw_line_points (fuel : Nat) (x1 y1 x2 y2 : Int) : Option (List (Int × Int)) :=
  let dx := |x2 - x1|
  let dy := -|y2 - y1|
  let sx : Int := if x1 < x2 then 1 else -1
  let sy : Int := if y1 < y2 then 1 else -1
  let err := dx + dy
  line_steps x2 y2 dx dy sx sy fuel [] x1 y1 err

/-- The stepping loop of `draw_line` (image.c 248-259) in the arithmetic of
the source: `2 * err`, `err += dy`, `err += dx`, `x1 += sx` and `y1 += sy` are
`int` operations and wrap to 32 bits.  The brush is replaced by a record of the
point at which it is stamped.  The result is the list of the points stamped in
the first `fuel` rounds, and whether the loop has reached its `break` in one
of them. -/
def line_trace (x2 y2 dx dy sx sy : Int) : Nat → Int → Int → Int → List (Int × Int) × Bool
  | 0, _, _, _ => ([], false)
  | fuel + 1, x1, y1, err =>
    if x1 = x2 ∧ y1 = y2 then ([(x1, y1)], true)
    else
      let e2 := wrap32 (2 * err)
      let err1 := if e2 ≥ dy then wrap32 (err + dy) else err
      let x1n := if e2 ≥ dy then wrap32 (x1 + sx) else x1
      let err2 := if e2 ≤ dx then wrap32 (err1 + dx) else err1
      let y1n := if e2 ≤ dx then wrap32 (y1 + sy) else y1
      let rest := line_trace x2 y2 dx dy sx sy fuel x1n y1n err2
      ((x1, y1) :: rest.1, rest.2)

/-- The points at which `draw_line` (image.c 240-260) stamps its brush in its
first `fuel` rounds, in the arithmetic of the source: the differences
`x2 - x1` and `y2 - y1`, their `abs`, the negation and the sum `dx + dy` are
`int` operations and wrap to 32 bits. -/
def draw_line_trace (fuel : Nat) (x1 y1 x2 y2 : Int) : List (Int × Int) × Bool :=
  let dx := wrap32 |wrap32 (x2 - x1)|
  let dy := wrap32 (-(wrap32 |wrap32 (y2 - y1)|))
  let sx : Int := if x1 < x2 then 1 else -1
  let sy : Int := if y1 < y2 then 1 else -1
  let err := wrap32 (dx + dy)
  line_trace x2 y2 dx dy sx sy fuel x1 y1 err

/-- The brush of `draw_line` stamped at each point of a list, in order. -/
def stampAll (img : Image) (pts : List (Int × Int)) (r g b : Nat) (thickness : Int) : Image :=
  pts.foldl (fun acc p => draw_brush acc p.1 p.2 r g b thickness) img

/-- Two points differ by at most 1 in x and at most 1 in y. -/
def Adj8 (p q : Int × Int) : Prop := |q.1 - p.1| ≤ 1 ∧ |q.2 - p.2| ≤ 1

/-! ## Entry points

Each entry point is given the decoded input `img` (the result of `img_read`,
with `data = none` when decoding fails), the encoder behind `img_write` and the
arguments already converted by `luaL_checkinteger` and its relatives. -/

/-- What every entry point returns when `img_read` yields no data. -/
def read_failure : Outcome :=
  { ret := [LuaVal.bool false, LuaVal.str "Failed to read input image"], written := none }

/-- What an entry point returns when `img_create` yields no data. -/
def alloc_failure : Outcome :=
  { ret := [LuaVal.bool false, LuaVal.str "Memory allocation failed"], written := none }

/-- The tail shared by the entry points: `img_write`, then the success flag. -/
def write_result (encode : Image → Int) (out : Image) : Outcome :=
  let res := img_write encode out
  { ret := [LuaVal.bool (decide (res.1 ≠ 0))], written := res.2 }

/-- `l_img_grayscale` (image.c 479-516). -/
def l_img_grayscale (encode : Image → Int) (img : Image) : Outcome :=
  if img.data.isNone then read_failure
  else if img.channels = 1 then write_result encode img
  else
    let gray := img_create img.width img.height 1
    match gray.data with
    | none => alloc_failure
    | some g =>
      write_result encode
        { gray with
          data := some (forLoop 0 (img.width * img.height) (fun i acc =>
            let idx := i * img.channels
            wr acc i (luma (rd img.bytes idx) (rd img.bytes (idx + 1)) (rd img.bytes (idx + 2))))
            g) }

/-- `l_img_resize` (image.c 519-555); `stbir` stands for `stbir_resize_uint8`,
which fills the output buffer. -/
def l_img_resize (stbir : Image → Int → Int → List Nat → List Nat) (encode : Image → Int)
    (img : Image) (new_w new_h : Int) : Outcome :=
  if new_w ≤ 0 ∨ new_h ≤ 0 then
    { ret := [LuaVal.bool false, LuaVal.str "Width and height must be positive"],
      written := none }
  else if img.data.isNone then read_failure
  else
    let out := img_create new_w new_h img.channels
    match out.data with
    | none => alloc_failure
    | some o => write_result encode { out with data := some (stbir img new_w new_h o) }

/-- `l_img_rotate` (image.c 603-670) for the two `float`s obtained from the
angle. -/
def l_img_rotate (encode : Image → Int) (img : Image) (cos_a sin_a : ℚ) : Outcome :=
  if img.data.isNone then read_failure
  else
    let out := rotate img cos_a sin_a
    if out.data.isNone then alloc_failure else write_result encode out

/-- `l_img_blur` (image.c 673-725): the parallel pass, then the border copy,
then the write.  The call returns in every case. -/
def l_img_blur (exp : ℚ → ℚ) (encode : Image → Int) (img : Image) (type : String) (size : Int)
    (sigma : ℚ) : Option Outcome :=
  if img.data.isNone then some read_failure
  else
    let out := img_create img.width img.height img.channels
    match out.data with
    | none => some alloc_failure
    | some o =>
      some (write_result encode
        { out with data := some (blur_border img (blur_pass exp img type size sigma o)) })

/-- `l_img_sobel` (image.c 728-787). -/
def l_img_sobel (encode : Image → Int) (img : Image) : Outcome :=
  if img.data.isNone then read_failure
  else
    let out := sobel img
    if out.data.isNone then alloc_failure else write_result encode out

/-- `l_img_canny` (image.c 790-812). -/
def l_img_canny (encode : Image → Int) (img : Image) (low high : ℚ) : Outcome :=
  if img.data.isNone then read_failure
  else write_result encode (canny_edge_detection img low high)

/-- The output buffer of `l_img_threshold` (image.c 828-844); `maxval` is
converted to `unsigned char` by the store. -/
def threshold_image (img : Image) (thresh maxval : Int) : Image :=
  let gray := to_gray img
  let out := img_create img.width img.height 1
  { out with
    data := out.data.map (fun o =>
      forLoop 0 (img.width * img.height) (fun i acc =>
        wr acc i (if ((rd gray.bytes i : Nat) : Int) > thresh then (maxval % 256).toNat else 0))
        o) }

/-- `l_img_threshold` (image.c 815-852). -/
def l_img_threshold (encode : Image → Int) (img : Image) (thresh maxval : Int) : Outcome :=
  if img.data.isNone then read_failure
  else write_result encode (threshold_image img thresh maxval)

/-- `l_img_otsu` (image.c 855-920). -/
def l_img_otsu (encode : Image → Int) (img : Image) : Outcome :=
  if img.data.isNone then read_failure
  else write_result encode (otsu_image img)

/-- `l_img_adaptive_threshold` (image.c 923-977). -/
def l_img_adaptive_threshold (encode : Image → Int) (img : Image) (block_size C : Int) :
    Outcome :=
  if img.data.isNone then read_failure
  else write_result encode (adaptive_threshold img block_size C)

/-- `l_img_erode` (image.c 980-1027). -/
def l_img_erode (encode : Image → Int) (img : Image) (size : Int) : Outcome :=
  if img.data.isNone then read_failure
  else write_result encode (erode img size)

/-- `l_img_dilate` (image.c 1030-1077). -/
def l_img_dilate (encode : Image → Int) (img : Image) (size : Int) : Outcome :=
  if img.data.isNone then read_failure
  else write_result encode (dilate img size)

/-- The conversion of an `int` colour argument to `unsigned char`. -/
def colour_byte (v : Int) : Nat := (v % 256).toNat

/-- `l_img_draw_line` (image.c 1346-1375); `none` when the fuel of the stepping
loop runs out. -/
def l_img_draw_line (fuel : Nat) (encode : Image → Int) (img : Image) (x1 y1 x2 y2 r g b
    thickness : Int) : Option Outcome :=
  if img.data.isNone then some read_failure
  else
    (draw_line fuel (img_copy img) x1 y1 x2 y2 (colour_byte r) (colour_byte g) (colour_byte b)
      thickness).map (fun out => write_result encode out)

/-- `l_img_draw_rect` (image.c 1377-1406); `none` when the fuel of the stepping
loops runs out. -/
def l_img_draw_rect (fuel : Nat) (encode : Image → Int) (img : Image) (x y w h r g b
    thickness : Int) : Option Outcome :=
  if img.data.isNone then some read_failure
  else
    (draw_rectangle fuel (img_copy img) x y w h (colour_byte r) (colour_byte g) (colour_byte b)
      thickness).map (fun out => write_result encode out)

/-- `l_img_fill_rect` (image.c 1408-1436). -/
def l_img_fill_rect (encode : Image → Int) (img : Image) (x y w h r g b : Int) : Outcome :=
  if img.data.isNone then read_failure
  else
    write_result encode
      (fill_rectangle (img_copy img) x y w h (colour_byte r) (colour_byte g) (colour_byte b))

/-- `l_img_draw_circle` (image.c 1438-1466); `none` when the fuel of the stepping
loop runs out. -/
def l_img_draw_circle (fuel : Nat) (encode : Image → Int) (img : Image) (cx cy radius r g b
    thickness : Int) : Option Outcome :=
  if img.data.isNone then some read_failure
  else
    (draw_circle fuel (img_copy img) cx cy radius (colour_byte r) (colour_byte g)
      (colour_byte b) thickness).map (fun out => write_result encode out)

/-- `l_img_draw_text` (image.c 1468-1496). -/
def l_img_draw_text (encode : Image → Int) (img : Image) (x y : Int) (text : List Int)
    (r g b scale : Int) : Outcome :=
  if img.data.isNone then read_failure
  else
    write_result encode
      (draw_text (img_copy img) x y text (colour_byte r) (colour_byte g) (colour_byte b) scale)


/-! ## The Lua stack of `l_img_open` and `l_img_close` (image.c 1080-1119)

The Lua C API is external.  The model keeps what the reference manual fixes: a
C function addresses the values of its frame by absolute index, 1 for its first
argument; a push appends a value on top; a C function that is called directly
from another C function with the same `lua_State` works on the frame of its
caller, the values that the caller pushed included. -/

/-- The conversions that Lua applies when a C function asks for a value of
another type: `tointeger s` is the integer that the string `s` denotes, if it
denotes one (`lua_tointegerx`); `tostring n` is the text of a number
(`lua_tolstring`). -/
structure LuaConv where
  tointeger : String → Option Int
  tostring : Int → String

/-- The value at the absolute index i (from 1) of the frame, if there is one. -/
def lua_value (L : List LuaVal) (i : Nat) : Option LuaVal :=
  if i = 0 then none else L.get? (i - 1)

/-- `lua_pushvalue(L, i)`: a copy of the value at index i is pushed on top. -/
def lua_pushvalue (L : List LuaVal) (i : Nat) : List LuaVal :=
  match lua_value L i with
  | some v => L ++ [v]
  | none => L

/-- `lua_pushstring(L, s)`. -/
def lua_pushstring (L : List LuaVal) (s : String) : List LuaVal := L ++ [LuaVal.str s]

/-- `lua_pushinteger(L, n)`. -/
def lua_pushinteger (L : List LuaVal) (n : Int) : List LuaVal := L ++ [LuaVal.int n]

/-- `luaL_checkstring(L, i)`: the string at index i, a number being converted;
`none` when the call raises a Lua error (no value, or a value that is neither a
string nor a number). -/
def luaL_checkstring (cv : LuaConv) (L : List LuaVal) (i : Nat) : Option String :=
  match lua_value L i with
  | some (LuaVal.str s) => some s
  | some (LuaVal.int n) => some (cv.tostring n)
  | _ => none

/-- `luaL_optinteger(L, i, d)`: d when there is no value at index i, the
integer at index i otherwise, a string being converted; `none` when the call
raises a Lua error (a value that is not an integer and does not denote one). -/
def luaL_optinteger (cv : LuaConv) (L : List LuaVal) (i : Nat) (d : Int) : Option Int :=
  match lua_value L i with
  | none => some d
  | some (LuaVal.int n) => some n
  | some (LuaVal.str s) => cv.tointeger s
  | some (LuaVal.bool _) => none

/-- The arguments with which a morphology entry point works: source path,
destination path, size of the structuring element. -/
structure MorphCall where
  input : String
  output : String
  size : Int
deriving DecidableEq

/-- The three argument reads that open `l_img_erode` (image.c 980-983) and
`l_img_dilate` (image.c 1030-1033): `luaL_checkstring(L, 1)`,
`luaL_checkstring(L, 2)`, `luaL_optinteger(L, 3, 3)`; `none` when one of them
raises a Lua error. -/
def morph_args (cv : LuaConv) (L : List LuaVal) : Option MorphCall :=
  (luaL_checkstring cv L 1).bind fun input =>
  (luaL_checkstring cv L 2).bind fun output =>
  (luaL_optinteger cv L 3 3).map fun size =>
    { input := input, output := output, size := size }

/-- The arguments that the two nested calls of `l_img_open` work with
(image.c 1080-1098): the frame holds the Lua arguments of `open`; the source
pushes a copy of argument 1, the temporary path and 3 and calls `l_img_erode`,
which returns after pushing its results `ret1`; the source then pushes the
temporary path, a copy of argument 2 and 3 and calls `l_img_dilate`.  `none`
when a Lua error is raised before the second call has read its arguments. -/
def l_img_open (cv : LuaConv) (L : List LuaVal) (ret1 : List LuaVal) :
    Option (MorphCall × MorphCall) :=
  (luaL_checkstring cv L 1).bind fun input =>
  (luaL_checkstring cv L 2).bind fun output =>
  let L1 := lua_pushinteger (lua_pushstring (lua_pushvalue L 1) "/tmp/_temp_eroded.jpg") 3
  (morph_args cv L1).bind fun erode_call =>
  let L2 := L1 ++ ret1
  let L3 := lua_pushinteger (lua_pushvalue (lua_pushstring L2 "/tmp/_temp_eroded.jpg") 2) 3
  (morph_args cv L3).map fun dilate_call => (erode_call, dilate_call)

/-- The arguments that the two nested calls of `l_img_close` work with
(image.c 1101-1119): as `l_img_open`, with `l_img_dilate` called first and the
temporary path `/tmp/_temp_dilated.jpg`. -/
def l_img_close (cv : LuaConv) (L : List LuaVal) (ret1 : List LuaVal) :
    Option (MorphCall × MorphCall) :=
  (luaL_checkstring cv L 1).bind fun input =>
  (luaL_checkstring cv L 2).bind fun output =>
  let L1 := lua_pushinteger (lua_pushstring (lua_pushvalue L 1) "/tmp/_temp_dilated.jpg") 3
  (morph_args cv L1).bind fun dilate_call =>
  let L2 := L1 ++ ret1
  let L3 := lua_pushinteger (lua_pushvalue (lua_pushstring L2 "/tmp/_temp_dilated.jpg") 2) 3
  (morph_args cv L3).map fun erode_call => (dilate_call, erode_call)

/-- The nested calls of `open` as the specification words them: erode from the
caller's input to the temporary path with size 3, then dilate from the
temporary path to the caller's output with size 3. -/
def open_calls_spec (input output : String) : MorphCall × MorphCall :=
  ({ input := input, output := "/tmp/_temp_eroded.jpg", size := 3 },
   { input := "/tmp/_temp_eroded.jpg", output := output, size := 3 })

/-- The nested calls of `close` as the specification words them: dilate from
the caller's input to the temporary path with size 3, then erode from the
temporary path to the caller's output with size 3. -/
def close_calls_spec (input output : String) : MorphCall × MorphCall :=
  ({ input := input, output := "/tmp/_temp_dilated.jpg", size := 3 },
   { input := "/tmp/_temp_dilated.jpg", output := output, size := 3 })

/-! ## Loops and buffers: basic facts -/

theorem wrap32_of_range (n : Int) (h0 : -2147483648 ≤ n) (h1 : n < 2147483648) :
    wrap32 n = n := by
  unfold wrap32
  omega

theorem intRange_of_le {lo hi : Int} (h : hi ≤ lo) : intRange lo hi = [] := by
  unfold intRange
  have : (hi - lo).toNat = 0 := by omega
  simp [this]

theorem intRange_snoc {lo hi : Int} (h : lo ≤ hi) :
    intRange lo (hi + 1) = intRange lo hi ++ [hi] := by
  unfold intRange
  have : (hi + 1 - lo).toNat = (hi - lo).toNat + 1 := by omega
  rw [this, List.range_succ, List.map_append]
  simp
  omega

theorem mem_intRange {lo hi i : Int} : i ∈ intRange lo hi ↔ lo ≤ i ∧ i < hi := by
  unfold intRange
  simp only [List.mem_map, List.mem_range]
  constructor
  · rintro ⟨k, hk, rfl⟩
    omega
  · intro h
    exact ⟨(i - lo).toNat, by omega, by omega⟩

theorem intRange_cons {lo hi : Int} (h : lo < hi) :
    intRange lo hi = lo :: intRange (lo + 1) hi := by
  unfold intRange
  have : (hi - lo).toNat = (hi - (lo + 1)).toNat + 1 := by omega
  rw [this, List.range_succ_eq_map, List.map_cons, List.map_map]
  simp only [Nat.cast_zero, add_zero, List.cons.injEq, true_and]
  apply List.map_congr_left
  intro k _
  simp only [Function.comp_apply, Nat.cast_succ]
  omega

theorem forLoop_of_le {σ : Type} {lo hi : Int} (h : hi ≤ lo) (body : Int → σ → σ) (s : σ) :
    forLoop lo hi body s = s := by
  simp [forLoop, intRange_of_le h]

theorem forLoop_snoc {σ : Type} {lo hi : Int} (h : lo ≤ hi) (body : Int → σ → σ) (s : σ) :
    forLoop lo (hi + 1) body s = body hi (forLoop lo hi body s) := by
  simp [forLoop, intRange_snoc h, List.foldl_append]

/-- Loop invariant rule: an invariant `P i` that holds on entry and is carried
by every iteration holds at exit. -/
theorem forLoop_induct {σ : Type} {lo hi : Int} (h : lo ≤ hi) (body : Int → σ → σ) (s : σ)
    (P : Int → σ → Prop) (h0 : P lo s)
    (hstep : ∀ i t, lo ≤ i → i < hi → P i t → P (i + 1) (body i t)) :
    P hi (forLoop lo hi body s) := by
  obtain ⟨n, rfl⟩ : ∃ n : Nat, hi = lo + n := ⟨(hi - lo).toNat, by omega⟩
  clear h
  induction n with
  | zero => simpa [forLoop_of_le] using h0
  | succ n ih =>
    have e : lo + ((n + 1 : Nat) : Int) = (lo + (n : Int)) + 1 := by push_cast; ring
    rw [e, forLoop_snoc (by omega)]
    apply hstep _ _ (by omega) (by omega)
    apply ih
    intro i t h1 h2 hp
    exact hstep i t h1 (by omega) hp

theorem forLoop_congr {σ : Type} {lo hi : Int} (f g : Int → σ → σ) (s : σ)
    (hfg : ∀ i t, lo ≤ i → i < hi → f i t = g i t) :
    forLoop lo hi f s = forLoop lo hi g s := by
  by_cases h : lo ≤ hi
  · exact forLoop_induct h f s (fun i t => t = forLoop lo i g s) (by simp [forLoop_of_le])
      (fun i t h1 h2 hp => by
        show f i t = forLoop lo (i + 1) g s
        rw [forLoop_snoc h1, ← hp, hfg i t h1 h2])
  · rw [forLoop_of_le (by omega), forLoop_of_le (by omega)]

theorem getD_set_int {α : Type} (d : List α) (i j : Int) (v z : α) (hi : 0 ≤ i) (hj : 0 ≤ j) :
    (d.set i.toNat v).getD j.toNat z =
      if i = j ∧ i < d.length then v else d.getD j.toNat z := by
  by_cases hij : i = j
  · subst hij
    by_cases hlt : i < d.length
    · have : i.toNat < d.length := by omega
      simp [hlt, List.getD_eq_getElem?_getD, List.getElem?_set, this]
    · have : d.length ≤ i.toNat := by omega
      have h2 : ¬ i.toNat < d.length := by omega
      simp [hlt, List.getD_eq_getElem?_getD, List.getElem?_set, List.getElem?_eq_none this, h2]
  · have : i.toNat ≠ j.toNat := by omega
    simp [hij, List.getD_eq_getElem?_getD, List.getElem?_set, this]

theorem rd_of_lt (d : List Nat) (i : Nat) (h : i < d.length) : rd d (i : Int) = d[i] := by
  simp [rd, List.getD_eq_getElem?_getD, List.getElem?_eq_getElem h]

theorem rd_of_ge (d : List Nat) (i : Int) (h : (d.length : Int) ≤ i) : rd d i = 0 := by
  unfold rd
  split
  · have : d.length ≤ i.toNat := by omega
    simp [List.getD_eq_getElem?_getD, List.getElem?_eq_none this]
  · rfl

theorem rd_of_neg (d : List Nat) (i : Int) (h : i < 0) : rd d i = 0 := by
  simp [rd, not_le.mpr h]

theorem length_wr (d : List Nat) (i : Int) (v : Nat) : (wr d i v).length = d.length := by
  unfold wr
  split <;> simp

theorem rd_wr (d : List Nat) (i j : Int) (v : Nat) :
    rd (wr d i v) j = if i = j ∧ 0 ≤ i ∧ i < d.length then v else rd d j := by
  unfold rd wr
  by_cases hi : 0 ≤ i
  · by_cases hj : 0 ≤ j
    · simp only [hi, hj, if_true, true_and]
      exact getD_set_int d i j v 0 hi hj
    · have : i ≠ j := by omega
      simp [hi, hj, this]
  · simp [hi]

theorem rd_wr_of_ne (d : List Nat) (i j : Int) (v : Nat) (h : i ≠ j) :
    rd (wr d i v) j = rd d j := by
  rw [rd_wr, if_neg (fun hh => h hh.1)]

theorem rd_wr_same (d : List Nat) (i : Int) (v : Nat) (h0 : 0 ≤ i) (h1 : i < d.length) :
    rd (wr d i v) i = v := by
  rw [rd_wr, if_pos ⟨rfl, h0, h1⟩]

theorem length_wri (d : List Int) (i : Int) (v : Int) : (wri d i v).length = d.length := by
  unfold wri
  split <;> simp

theorem rdi_wri (d : List Int) (i j : Int) (v : Int) :
    rdi (wri d i v) j = if i = j ∧ 0 ≤ i ∧ i < d.length then v else rdi d j := by
  unfold rdi wri
  by_cases hi : 0 ≤ i
  · by_cases hj : 0 ≤ j
    · simp only [hi, hj, if_true, true_and]
      exact getD_set_int d i j v 0 hi hj
    · have : i ≠ j := by omega
      simp [hi, hj, this]
  · simp [hi]

theorem rd_replicate_zero (n : Nat) (i : Int) : rd (List.replicate n 0) i = 0 := by
  unfold rd
  split
  · simp only [List.getD_eq_getElem?_getD, List.getElem?_replicate]
    split <;> rfl
  · rfl

theorem rdi_replicate_zero (n : Nat) (i : Int) : rdi (List.replicate n 0) i = 0 := by
  unfold rdi
  split
  · simp only [List.getD_eq_getElem?_getD, List.getElem?_replicate]
    split <;> rfl
  · rfl

/-- The luma byte of some colours, as the double arithmetic of the source gives
it: at (1, 1, 1) the sum of the three rounded products is below 1. -/
theorem luma_samples :
    luma 0 0 0 = 0 ∧ luma 1 1 1 = 0 ∧ luma 255 255 255 = 255 ∧ luma 255 0 0 = 76 ∧
    luma 0 255 0 = 149 ∧ luma 0 0 255 = 29 ∧ luma 255 128 7 = 152 := by
  decide

/-! ## Allocation -/

theorem img_create_of_fits (w h c : Int) (hw : 0 ≤ w) (hh : 0 ≤ h) (hc : 0 ≤ c)
    (hfit : w * h * c < 2147483648) (hwh : w * h < 2147483648) :
    img_create w h c =
      { data := some (List.replicate (w * h * c).toNat 0), width := w, height := h,
        channels := c } := by
  have h1 : 0 ≤ w * h := mul_nonneg hw hh
  have h2 : 0 ≤ w * h * c := mul_nonneg h1 hc
  unfold img_create calloc
  rw [wrap32_of_range (w * h) (by omega) hwh, wrap32_of_range (w * h * c) (by omega) hfit]
  simp [not_lt.mpr h2]

/-- C1 (as amended): for w > 0, h > 0 and C in {1,3,4} whose product w*h*C fits
in a C `int`, `img_create w h C` has width w, height h, channels C and its data
is exactly w*h*C bytes, all of them 0. -/
theorem C1_img_create_zeroed (w h C : Int) (hw : 0 < w) (hh : 0 < h)
    (hC : C = 1 ∨ C = 3 ∨ C = 4) (hfit : w * h * C < 2147483648) :
    (img_create w h C).width = w ∧ (img_create w h C).height = h ∧
    (img_create w h C).channels = C ∧
    ∃ d, (img_create w h C).data = some d ∧ (d.length : Int) = w * h * C ∧
      ∀ b ∈ d, b = 0 := by
  have hc1 : 1 ≤ C := by rcases hC with h | h | h <;> omega
  have hwhpos : 0 < w * h := mul_pos hw hh
  have hwh : w * h < 2147483648 := by
    have : w * h * 1 ≤ w * h * C := mul_le_mul_of_nonneg_left hc1 hwhpos.le
    omega
  rw [img_create_of_fits w h C hw.le hh.le (by omega) hfit hwh]
  refine ⟨rfl, rfl, rfl, _, rfl, ?_, ?_⟩
  · have : 0 ≤ w * h * C := mul_nonneg hwhpos.le (by omega)
    simp [Int.toNat_of_nonneg this]
  · intro b hb
    exact (List.mem_replicate.mp hb).2

/-- Witness for C1: a 4 x 3 image with 3 channels. -/
theorem C1_img_create_zeroed_witness :
    (img_create 4 3 3).width = 4 ∧ (img_create 4 3 3).height = 3 ∧
    (img_create 4 3 3).channels = 3 ∧
    ∃ d, (img_create 4 3 3).data = some d ∧ (d.length : Int) = 4 * 3 * 3 ∧
      ∀ b ∈ d, b = 0 :=
  C1_img_create_zeroed 4 3 3 (by decide) (by decide) (by decide) (by decide)

/-- C1 fails as stated at (65536, 65536, 1): the `int` product 65536 * 65536
wraps to 0, so the buffer holds no byte at all instead of 4294967296. -/
theorem C1_img_create_overflow :
    (0 : Int) < 65536 ∧ (img_create 65536 65536 1).data = some [] ∧
    ¬ ∃ d, (img_create 65536 65536 1).data = some d ∧
        (d.length : Int) = 65536 * 65536 * 1 := by
  have hd : (img_create 65536 65536 1).data = some [] := by decide
  refine ⟨by decide, hd, ?_⟩
  rintro ⟨d, h1, h2⟩
  rw [hd] at h1
  cases h1
  simp at h2


/-! ## Rounding to `float` -/

theorem roundEven_sub_le (q : ℚ) : |(roundEven q : ℚ) - q| ≤ 1 / 2 := by
  have h1 := Int.floor_le q
  have h2 := Int.lt_floor_add_one q
  unfold roundEven
  split
  · rw [abs_le]; constructor <;> linarith
  · split
    · push_cast
      rw [abs_le]; constructor <;> linarith
    · have e : q - ⌊q⌋ = 1 / 2 := le_antisymm (by linarith) (by linarith)
      split
      · rw [abs_le]; constructor <;> linarith
      · push_cast
        rw [abs_le]; constructor <;> linarith

theorem roundEven_eq_of_lt (q : ℚ) (n : Int) (h : |q - (n : ℚ)| < 1 / 2) : roundEven q = n := by
  have h1 := roundEven_sub_le q
  rw [abs_lt] at h
  rw [abs_le] at h1
  have a : ((roundEven q - n : Int) : ℚ) < 1 := by push_cast; linarith
  have b : (-1 : ℚ) < ((roundEven q - n : Int) : ℚ) := by push_cast; linarith
  have a2 : roundEven q - n < 1 := by exact_mod_cast a
  have b2 : -1 < roundEven q - n := by exact_mod_cast b
  omega

theorem roundEven_intCast (n : Int) : roundEven (n : ℚ) = n :=
  roundEven_eq_of_lt _ n (by simp)

theorem roundEven_nonneg (q : ℚ) (h : 0 ≤ q) : 0 ≤ roundEven q := by
  have hf : 0 ≤ ⌊q⌋ := Int.floor_nonneg.mpr h
  unfold roundEven
  split
  · exact hf
  · split
    · omega
    · split <;> omega

theorem roundEven_nonpos (q : ℚ) (h : q ≤ 0) : roundEven q ≤ 0 := by
  have h1 := roundEven_sub_le q
  rw [abs_le] at h1
  have a : ((roundEven q : Int) : ℚ) < 1 := by linarith
  have a2 : roundEven q < 1 := by exact_mod_cast a
  omega

theorem fl32_zero : fl32 0 = 0 := by
  unfold fl32
  simp

theorem fl32_nonneg (x : ℚ) (h : 0 ≤ x) : 0 ≤ fl32 x := by
  unfold fl32
  split
  · exact le_refl _
  · have hp : (0 : ℚ) < 2 ^ (max (Int.log 2 |x|) (-126) - 23) := zpow_pos (by norm_num) _
    have : 0 ≤ roundEven (x / 2 ^ (max (Int.log 2 |x|) (-126) - 23)) :=
      roundEven_nonneg _ (div_nonneg h hp.le)
    exact mul_nonneg (by exact_mod_cast this) hp.le

theorem fl32_nonpos (x : ℚ) (h : x ≤ 0) : fl32 x ≤ 0 := by
  unfold fl32
  split
  · exact le_refl _
  · have hp : (0 : ℚ) < 2 ^ (max (Int.log 2 |x|) (-126) - 23) := zpow_pos (by norm_num) _
    have : roundEven (x / 2 ^ (max (Int.log 2 |x|) (-126) - 23)) ≤ 0 :=
      roundEven_nonpos _ (div_nonpos_of_nonpos_of_nonneg h hp.le)
    exact mul_nonpos_of_nonpos_of_nonneg (by exact_mod_cast this) hp.le

/-- The float nearest to x when x lies in the binade of exponent k + 23. -/
theorem fl32_eq_of_near (x : ℚ) (m k : Int) (hk : -149 ≤ k)
    (hlo : (2 : ℚ) ^ (k + 23) ≤ |x|) (hhi : |x| < (2 : ℚ) ^ (k + 24))
    (hnear : |x / 2 ^ k - (m : ℚ)| < 1 / 2) : fl32 x = (m : ℚ) * 2 ^ k := by
  have hpos : 0 < |x| := lt_of_lt_of_le (zpow_pos (by norm_num) _) hlo
  have hx : x ≠ 0 := abs_pos.mp hpos
  have hlog : Int.log 2 |x| = k + 23 := by
    apply le_antisymm
    · have := (Int.lt_zpow_iff_log_lt (b := 2) (by norm_num) hpos (x := k + 24)).mp
        (by exact_mod_cast hhi)
      omega
    · exact (Int.zpow_le_iff_le_log (b := 2) (by norm_num) hpos).mp (by exact_mod_cast hlo)
  unfold fl32
  rw [if_neg hx, hlog, max_eq_left (by omega)]
  have e : k + 23 - 23 = k := by ring
  rw [e, roundEven_eq_of_lt _ m hnear]

/-- Relative error of the rounding in the normal range. -/
theorem fl32_err (x : ℚ) (h : (2 : ℚ) ^ (-126 : Int) ≤ |x|) :
    |fl32 x - x| ≤ |x| / 16777216 := by
  have hpos : 0 < |x| := lt_of_lt_of_le (zpow_pos (by norm_num) _) h
  have hx : x ≠ 0 := abs_pos.mp hpos
  have hlog : -126 ≤ Int.log 2 |x| :=
    (Int.zpow_le_iff_le_log (b := 2) (by norm_num) hpos).mp (by exact_mod_cast h)
  have hle : (2 : ℚ) ^ (Int.log 2 |x|) ≤ |x| := by
    have := Int.zpow_log_le_self (b := 2) (r := |x|) (by norm_num) hpos
    exact_mod_cast this
  unfold fl32
  rw [if_neg hx, max_eq_left hlog]
  have hu : (0 : ℚ) < 2 ^ (Int.log 2 |x| - 23) := zpow_pos (by norm_num) _
  have hr := roundEven_sub_le (x / 2 ^ (Int.log 2 |x| - 23))
  have e : (roundEven (x / 2 ^ (Int.log 2 |x| - 23)) : ℚ) * 2 ^ (Int.log 2 |x| - 23) - x
      = ((roundEven (x / 2 ^ (Int.log 2 |x| - 23)) : ℚ) - x / 2 ^ (Int.log 2 |x| - 23))
        * 2 ^ (Int.log 2 |x| - 23) := by
    field_simp
  rw [e, abs_mul, abs_of_pos hu]
  have hu2 : (2 : ℚ) ^ (Int.log 2 |x| - 23) = 2 ^ (Int.log 2 |x|) / 8388608 := by
    rw [zpow_sub₀ (by norm_num)]
    norm_num
  calc |(roundEven (x / 2 ^ (Int.log 2 |x| - 23)) : ℚ) - x / 2 ^ (Int.log 2 |x| - 23)|
        * 2 ^ (Int.log 2 |x| - 23)
      ≤ 1 / 2 * 2 ^ (Int.log 2 |x| - 23) := mul_le_mul_of_nonneg_right hr hu.le
    _ = 2 ^ (Int.log 2 |x|) / 16777216 := by rw [hu2]; ring
    _ ≤ |x| / 16777216 := by
      apply div_le_div_of_nonneg_right hle
      norm_num


theorem fl32_exact_lt (m k : Int) (hm : |m| < 16777216) (hk : -149 ≤ k) :
    fl32 ((m : ℚ) * 2 ^ k) = (m : ℚ) * 2 ^ k := by
  by_cases hm0 : m = 0
  · rw [hm0]
    simp [fl32_zero]
  have h2k : (0 : ℚ) < 2 ^ k := zpow_pos (by norm_num) _
  have hx : (m : ℚ) * 2 ^ k ≠ 0 := mul_ne_zero (by exact_mod_cast hm0) h2k.ne'
  have hpos : 0 < |(m : ℚ) * 2 ^ k| := abs_pos.mpr hx
  have hlt : |(m : ℚ) * 2 ^ k| < (2 : ℚ) ^ (k + 24) := by
    rw [abs_mul, abs_of_pos h2k, zpow_add₀ (by norm_num), mul_comm]
    apply mul_lt_mul_of_pos_left _ h2k
    have : ((|m| : Int) : ℚ) < 16777216 := by exact_mod_cast hm
    rw [Int.cast_abs] at this
    calc |(m : ℚ)| < 16777216 := this
      _ = 2 ^ (24 : Int) := by norm_num
  have hlog : Int.log 2 |(m : ℚ) * 2 ^ k| < k + 24 :=
    (Int.lt_zpow_iff_log_lt (b := 2) (by norm_num) hpos).mp (by exact_mod_cast hlt)
  have hE : max (Int.log 2 |(m : ℚ) * 2 ^ k|) (-126) - 23 ≤ k := by
    rcases max_cases (Int.log 2 |(m : ℚ) * 2 ^ k|) (-126) with ⟨e, _⟩ | ⟨e, _⟩ <;> rw [e] <;> omega
  unfold fl32
  rw [if_neg hx]
  generalize max (Int.log 2 |(m : ℚ) * 2 ^ k|) (-126) - 23 = E at hE
  obtain ⟨n, hn⟩ : ∃ n : Nat, k = E + n := ⟨(k - E).toNat, by omega⟩
  have hE0 : (0 : ℚ) < 2 ^ E := zpow_pos (by norm_num) _
  have e1 : (m : ℚ) * 2 ^ k / 2 ^ E = ((m * 2 ^ n : Int) : ℚ) := by
    rw [hn, zpow_add₀ (by norm_num), zpow_natCast]
    push_cast
    field_simp
    ring
  rw [e1, roundEven_intCast, hn, zpow_add₀ (by norm_num), zpow_natCast]
  push_cast
  ring

/-- A number with at most 24 significant bits and an exponent of at least
-149 is a `float`: rounding leaves it as it is. -/
theorem fl32_exact (m k : Int) (hm : |m| ≤ 16777216) (hk : -149 ≤ k) :
    fl32 ((m : ℚ) * 2 ^ k) = (m : ℚ) * 2 ^ k := by
  by_cases h : |m| < 16777216
  · exact fl32_exact_lt m k h hk
  · have hm2 : |m| = 16777216 := by omega
    have e : (m : ℚ) * 2 ^ k = ((m / 2 : Int) : ℚ) * 2 ^ (k + 1) := by
      rw [zpow_add₀ (by norm_num)]
      rcases abs_eq (by norm_num : (0 : Int) ≤ 16777216) |>.mp hm2 with h1 | h1 <;> rw [h1] <;>
        norm_num <;> ring
    rw [e]
    apply fl32_exact_lt
    · rcases abs_eq (by norm_num : (0 : Int) ≤ 16777216) |>.mp hm2 with h1 | h1 <;> rw [h1] <;>
        norm_num
    · omega

theorem fl32_intCast (n : Int) (hn : |n| ≤ 16777216) : fl32 (n : ℚ) = (n : ℚ) := by
  have := fl32_exact n 0 hn (by norm_num)
  simpa using this

/-- Every value of the rounding has at most 24 significant bits. -/
theorem fl32_repr (x : ℚ) :
    ∃ r E : Int, |r| ≤ 16777216 ∧ -149 ≤ E ∧ fl32 x = (r : ℚ) * 2 ^ E := by
  by_cases hx : x = 0
  · exact ⟨0, 0, by norm_num, by norm_num, by rw [hx, fl32_zero]; simp⟩
  have hpos : 0 < |x| := abs_pos.mpr hx
  refine ⟨roundEven (x / 2 ^ (max (Int.log 2 |x|) (-126) - 23)),
    max (Int.log 2 |x|) (-126) - 23, ?_, ?_, ?_⟩
  · have hu : (0 : ℚ) < 2 ^ (max (Int.log 2 |x|) (-126) - 23) := zpow_pos (by norm_num) _
    have hlt : |x| < (2 : ℚ) ^ (max (Int.log 2 |x|) (-126) + 1) := by
      have h1 : |x| < (2 : ℚ) ^ (Int.log 2 |x| + 1) := by
        have := Int.lt_zpow_succ_log_self (b := 2) (by norm_num) |x|
        exact_mod_cast this
      refine lt_of_lt_of_le h1 (zpow_le_zpow_right₀ (by norm_num) ?_)
      have := le_max_left (Int.log 2 |x|) (-126)
      omega
    have hq : |x / 2 ^ (max (Int.log 2 |x|) (-126) - 23)| < 16777216 := by
      rw [abs_div, abs_of_pos hu, div_lt_iff₀ hu]
      calc |x| < (2 : ℚ) ^ (max (Int.log 2 |x|) (-126) + 1) := hlt
        _ = 16777216 * 2 ^ (max (Int.log 2 |x|) (-126) - 23) := by
          rw [zpow_sub₀ (by norm_num), zpow_add₀ (by norm_num)]
          norm_num
          ring
    have hr := roundEven_sub_le (x / 2 ^ (max (Int.log 2 |x|) (-126) - 23))
    generalize roundEven (x / 2 ^ (max (Int.log 2 |x|) (-126) - 23)) = r at hr
    generalize x / 2 ^ (max (Int.log 2 |x|) (-126) - 23) = q at hr hq
    rw [abs_lt] at hq
    rw [abs_le] at hr
    have a : (r : ℚ) < 16777217 := by linarith
    have b : (-16777217 : ℚ) < (r : ℚ) := by linarith
    have a2 : r < 16777217 := by exact_mod_cast a
    have b2 : -16777217 < r := by exact_mod_cast b
    rw [abs_le]
    constructor <;> omega
  · have := le_max_right (Int.log 2 |x|) (-126)
    omega
  · unfold fl32
    rw [if_neg hx]

/-- Rounding a `float` leaves it as it is. -/
theorem fl32_idem (x : ℚ) : fl32 (fl32 x) = fl32 x := by
  obtain ⟨r, E, hr, hE, e⟩ := fl32_repr x
  rw [e]
  exact fl32_exact r E hr hE


/-- Rounding leaves a number given as a significand of at most 24 bits times a
power of two. -/
theorem fl32_dyadic (x : ℚ) (m k : Int) (hm : |m| ≤ 16777216) (hk : -149 ≤ k)
    (hx : x = (m : ℚ) * 2 ^ k) : fl32 x = x := by
  rw [hx]
  exact fl32_exact m k hm hk

/-- The rounding of x is y when y is a significand times the unit of the
binade of x and lies within half a unit of x. -/
theorem fl32_round (x y : ℚ) (m k : Int) (hk : -149 ≤ k)
    (hlo : (2 : ℚ) ^ (k + 23) ≤ |x|) (hhi : |x| < (2 : ℚ) ^ (k + 24))
    (hnear : |x / 2 ^ k - (m : ℚ)| < 1 / 2) (hy : y = (m : ℚ) * 2 ^ k) : fl32 x = y := by
  rw [hy]
  exact fl32_eq_of_near x m k hk hlo hhi hnear

/-! ## Otsu: the histogram and the scan -/

theorem length_histogram_loop (gray : List Nat) (n : Nat) :
    (forLoop 0 (n : Int) (fun i hist => wri hist (rd gray i) (rdi hist (rd gray i) + 1))
      (List.replicate 256 (0 : Int))).length = 256 := by
  refine forLoop_induct (by omega) _ _ (fun (_ : Int) (t : List Int) => t.length = 256)
    (List.length_replicate _ _) ?_
  intro i t _ _ ht
  simp only [length_wri, ht]

/-- After the first n pixels, bin v holds the number of those pixels equal
to v. -/
theorem histogram_loop_count (gray : List Nat) (hb : ∀ v ∈ gray, v < 256) (n : Nat)
    (hn : n ≤ gray.length) (v : Nat) :
    rdi (forLoop 0 (n : Int) (fun i hist => wri hist (rd gray i) (rdi hist (rd gray i) + 1))
      (List.replicate 256 (0 : Int))) (v : Int) = ((gray.take n).count v : Int) := by
  induction n with
  | zero =>
    rw [Nat.cast_zero, forLoop_of_le (le_refl (0 : Int)), rdi_replicate_zero]
    simp
  | succ n ih =>
    have hlt : n < gray.length := by omega
    have e : ((n + 1 : Nat) : Int) = (n : Int) + 1 := by push_cast; ring
    rw [e, forLoop_snoc (by omega)]
    have hlen := length_histogram_loop gray n
    have hrd : rd gray (n : Int) = gray[n] := rd_of_lt gray n hlt
    have hlt256 : gray[n] < 256 := hb _ (List.getElem_mem _)
    rw [rdi_wri, hlen, hrd]
    have htake : gray.take (n + 1) = gray.take n ++ [gray[n]] := by
      rw [List.take_succ]
      simp [List.getElem?_eq_getElem hlt]
    rw [htake, List.count_append]
    by_cases hv : gray[n] = v
    · have c1 : ((gray[n] : Nat) : Int) = (v : Int) := by rw [hv]
      have c2 : (0 : Int) ≤ ((gray[n] : Nat) : Int) := by omega
      have c3 : ((gray[n] : Nat) : Int) < ((256 : Nat) : Int) := by omega
      rw [if_pos ⟨c1, c2, c3⟩, c1, ih (by omega)]
      simp [List.count_cons, hv]
    · have c1 : ¬ ((gray[n] : Nat) : Int) = (v : Int) := by omega
      rw [if_neg (fun h => c1 h.1), ih (by omega)]
      simp [List.count_cons, hv]

theorem histogram_count (gray : List Nat) (hb : ∀ v ∈ gray, v < 256) (v : Nat) :
    rdi (histogram gray (gray.length : Int)) (v : Int) = (gray.count v : Int) := by
  unfold histogram
  rw [histogram_loop_count gray hb gray.length (le_refl _) v, List.take_length]


theorem cumWeight_succ (hist : List Int) (k : Nat) :
    cumWeight hist (k + 1) = cumWeight hist k + rdi hist (k : Int) := by
  unfold cumWeight
  rw [Finset.sum_range_succ]

theorem cumMoment_succ (hist : List Int) (k : Nat) :
    cumMoment hist (k + 1) = cumMoment hist k + (k : Int) * rdi hist (k : Int) := by
  unfold cumMoment
  rw [Finset.sum_range_succ]

theorem cumWeight_mono (hist : List Int) (hnn : ∀ i, 0 ≤ rdi hist i) {a b : Nat} (h : a ≤ b) :
    cumWeight hist a ≤ cumWeight hist b := by
  induction b with
  | zero =>
    have : a = 0 := by omega
    rw [this]
  | succ b ih =>
    by_cases hab : a = b + 1
    · rw [hab]
    · have := ih (by omega)
      rw [cumWeight_succ]
      have := hnn (b : Int)
      omega

theorem cumWeight_nonneg (hist : List Int) (hnn : ∀ i, 0 ≤ rdi hist i) (k : Nat) :
    0 ≤ cumWeight hist k := by
  have := cumWeight_mono hist hnn (Nat.zero_le k)
  simpa [cumWeight] using this

/-- A `float` sum is a `float`. -/
theorem cumMoment32_idem (hist : List Int) (k : Nat) :
    fl32 (cumMoment32 hist k) = cumMoment32 hist k := by
  cases k with
  | zero => exact fl32_zero
  | succ k => exact fl32_idem _

/-- An empty bin leaves the `float` sum as it is. -/
theorem cumMoment32_skip (hist : List Int) (k : Nat) (h0 : rdi hist (k : Int) = 0) :
    cumMoment32 hist (k + 1) = cumMoment32 hist k := by
  show fl32 (cumMoment32 hist k + fl32 ((wrap32 ((k : Int) * rdi hist (k : Int)) : Int) : ℚ))
    = cumMoment32 hist k
  rw [h0]
  have : wrap32 ((k : Int) * 0) = 0 := by
    unfold wrap32
    norm_num
  rw [this]
  simp only [Int.cast_zero, fl32_zero, add_zero]
  exact cumMoment32_idem hist k

theorem variance32_nonneg (hist : List Int) (hnn : ∀ i, 0 ≤ rdi hist i) (t : Nat)
    (ht : t ≤ 255) : 0 ≤ variance32 hist t := by
  unfold variance32
  simp only
  split
  · exact le_refl _
  · have h1 : (0 : ℚ) ≤ (cumWeight hist (t + 1) : ℚ) := by
      exact_mod_cast cumWeight_nonneg hist hnn (t + 1)
    have h2 : (0 : ℚ) ≤ ((cumWeight hist 256 - cumWeight hist (t + 1) : Int) : ℚ) := by
      have := cumWeight_mono hist hnn (show t + 1 ≤ 256 by omega)
      exact_mod_cast (by omega : 0 ≤ cumWeight hist 256 - cumWeight hist (t + 1))
    have hp := fl32_nonneg _ (mul_nonneg (fl32_nonneg _ h1) (fl32_nonneg _ h2))
    generalize fl32 (fl32 (cumWeight hist (t + 1) : ℚ)
      * fl32 ((cumWeight hist 256 - cumWeight hist (t + 1) : Int) : ℚ)) = p at hp
    generalize fl32 (fl32 (cumMoment32 hist (t + 1) / fl32 (cumWeight hist (t + 1) : ℚ))
      - fl32 (fl32 (cumMoment32 hist 256 - cumMoment32 hist (t + 1))
        / fl32 ((cumWeight hist 256 - cumWeight hist (t + 1) : Int) : ℚ))) = d
    rcases le_total 0 d with hd | hd
    · exact fl32_nonneg _ (mul_nonneg (fl32_nonneg _ (mul_nonneg hp hd)) hd)
    · exact fl32_nonneg _ (mul_nonneg_of_nonpos_of_nonpos
        (fl32_nonpos _ (mul_nonpos_of_nonneg_of_nonpos hp hd)) hd)

/-- Once the foreground is empty at index k it is empty at every later
index, so the variance is 0 there. -/
theorem variance32_tail (hist : List Int) (hnn : ∀ i, 0 ≤ rdi hist i) (k t : Nat)
    (hk : cumWeight hist 256 - cumWeight hist (k + 1) = 0) (hkt : k ≤ t) (ht : t ≤ 255) :
    variance32 hist t = 0 := by
  have h1 := cumWeight_mono hist hnn (show k + 1 ≤ t + 1 by omega)
  have h2 := cumWeight_mono hist hnn (show t + 1 ≤ 256 by omega)
  have h3 : cumWeight hist 256 - cumWeight hist (t + 1) = 0 := by omega
  unfold variance32
  simp only
  rw [if_pos (Or.inr h3)]

theorem OtsuInv.final {hist : List Int} (hnn : ∀ i, 0 ≤ rdi hist i) {k : Nat} {s : OtsuState}
    (hk : k ≤ 256) (hinv : OtsuInv hist k s)
    (hrest : ∀ t, k ≤ t → t ≤ 255 → variance32 hist t ≤ s.max_var) :
    OtsuFinal hist s.threshold := by
  obtain ⟨_, _, h0, hle, hpos, hzero⟩ := hinv
  have hall : ∀ t, t ≤ 255 → variance32 hist t ≤ s.max_var := by
    intro t ht
    by_cases htk : t < k
    · exact hle t htk
    · exact hrest t (by omega) ht
  rcases lt_or_eq_of_le h0 with hp | hz
  · obtain ⟨t, e, htk, hv, hmin⟩ := hpos hp
    refine ⟨t, e, by omega, ?_, ?_⟩
    · intro u hu
      rw [hv]
      exact hall u hu
    · intro u hu
      rw [hv]
      exact hmin u hu
  · refine ⟨0, by simpa using hzero hz.symm, by omega, ?_, ?_⟩
    · intro u hu
      have := hall u hu
      have := variance32_nonneg hist hnn 0 (by omega)
      linarith
    · intro u hu
      omega

theorem otsu_scan_spec (hist : List Int) (total : Int) (sum : ℚ)
    (hnn : ∀ i, 0 ≤ rdi hist i) (htot : total = cumWeight hist 256)
    (hsum : sum = cumMoment32 hist 256) :
    ∀ (n k : Nat), k + n = 256 → ∀ s, OtsuInv hist k s →
      OtsuFinal hist (otsu_scan hist total sum (intRange (k : Int) 256) s).threshold := by
  intro n
  induction n with
  | zero =>
    intro k hk s hinv
    have : k = 256 := by omega
    subst this
    rw [intRange_of_le (by norm_num)]
    exact hinv.final hnn (le_refl _) (fun t h1 h2 => by omega)
  | succ n ih =>
    intro k hk s hinv
    have hk256 : k < 256 := by omega
    rw [intRange_cons (by omega)]
    have ek : (k : Int) + 1 = ((k + 1 : Nat) : Int) := by push_cast; ring
    rw [ek]
    obtain ⟨hw, hs, h0, hle, hpos, hzero⟩ := hinv
    have hwB : s.wB + rdi hist (k : Int) = cumWeight hist (k + 1) := by
      rw [cumWeight_succ, hw]
    unfold otsu_scan
    simp only
    rw [hwB]
    by_cases c1 : cumWeight hist (k + 1) = 0
    · -- `continue`: the background is still empty
      rw [if_pos c1]
      apply ih (k + 1) (by omega)
      have hk0 : rdi hist (k : Int) = 0 := by
        have := cumWeight_nonneg hist hnn k
        have := hnn (k : Int)
        rw [cumWeight_succ] at c1
        omega
      have hv : variance32 hist k = 0 := by
        unfold variance32
        simp only
        rw [if_pos (Or.inl c1)]
      refine ⟨c1.symm ▸ rfl, ?_, h0, ?_, ?_, hzero⟩
      · show s.sumB = _
        rw [cumMoment32_skip hist k hk0, hs]
      · intro t ht
        by_cases htk : t < k
        · exact hle t htk
        · have : t = k := by omega
          rw [this, hv]
          exact h0
      · intro hp
        obtain ⟨t, e, htk, rest⟩ := hpos hp
        exact ⟨t, e, by omega, rest⟩
    · rw [if_neg c1]
      by_cases c2 : total - cumWeight hist (k + 1) = 0
      · -- `break`: the foreground is empty from here on
        rw [if_pos c2]
        rw [htot] at c2
        show OtsuFinal hist s.threshold
        refine OtsuInv.final hnn (show k ≤ 256 by omega) ⟨hw, hs, h0, hle, hpos, hzero⟩ ?_
        intro t h1 h2
        rw [variance32_tail hist hnn k t c2 h1 h2]
        exact h0
      · rw [if_neg c2]
        have hsB : fl32 (s.sumB + fl32 ((wrap32 ((k : Int) * rdi hist (k : Int)) : Int) : ℚ))
            = cumMoment32 hist (k + 1) := by
          rw [hs]
          rfl
        rw [hsB]
        have hv : fl32 (fl32 (fl32 (fl32 (cumWeight hist (k + 1) : ℚ)
                * fl32 ((total - cumWeight hist (k + 1) : Int) : ℚ))
              * fl32 (fl32 (cumMoment32 hist (k + 1) / fl32 (cumWeight hist (k + 1) : ℚ))
                - fl32 (fl32 (sum - cumMoment32 hist (k + 1))
                  / fl32 ((total - cumWeight hist (k + 1) : Int) : ℚ))))
              * fl32 (fl32 (cumMoment32 hist (k + 1) / fl32 (cumWeight hist (k + 1) : ℚ))
                - fl32 (fl32 (sum - cumMoment32 hist (k + 1))
                  / fl32 ((total - cumWeight hist (k + 1) : Int) : ℚ))))
            = variance32 hist k := by
          unfold variance32
          simp only
          rw [htot] at c2
          rw [if_neg (by
            intro h
            rcases h with h | h
            · exact c1 h
            · exact c2 h)]
          rw [htot, hsum]
        rw [hv]
        by_cases c3 : variance32 hist k > s.max_var
        · rw [if_pos c3]
          apply ih (k + 1) (by omega)
          refine ⟨rfl, rfl, le_of_lt (lt_of_le_of_lt h0 c3), ?_, ?_, ?_⟩
          · intro t ht
            show variance32 hist t ≤ variance32 hist k
            by_cases htk : t < k
            · exact le_of_lt (lt_of_le_of_lt (hle t htk) c3)
            · have : t = k := by omega
              rw [this]
          · intro _
            refine ⟨k, rfl, by omega, rfl, ?_⟩
            intro u hu
            exact lt_of_le_of_lt (hle u hu) c3
          · intro hz
            have hz2 : variance32 hist k = 0 := hz
            rw [hz2] at c3
            exact absurd c3 (not_lt.mpr h0)
        · rw [if_neg c3]
          apply ih (k + 1) (by omega)
          refine ⟨rfl, rfl, h0, ?_, ?_, hzero⟩
          · intro t ht
            by_cases htk : t < k
            · exact hle t htk
            · have : t = k := by omega
              rw [this]
              exact not_lt.mp c3
          · intro hp
            obtain ⟨t, e, htk, rest⟩ := hpos hp
            exact ⟨t, e, by omega, rest⟩

theorem sum_count_range (d : List Nat) (n : Nat) (hb : ∀ v ∈ d, v < n) :
    Finset.sum (Finset.range n) (fun v => ((d.count v : Nat) : Int)) = (d.length : Int) := by
  induction d with
  | nil => simp
  | cons a l ih =>
    have ha : a < n := hb a (List.mem_cons_self _ _)
    have hl : ∀ v ∈ l, v < n := fun v hv => hb v (List.mem_cons_of_mem _ hv)
    have e : ∀ v, (((a :: l).count v : Nat) : Int) = (l.count v : Int) + (if v = a then 1 else 0) := by
      intro v
      rw [List.count_cons]
      by_cases h : a = v
      · simp [h]
      · have h2 : ¬ v = a := fun h3 => h h3.symm
        simp [h, h2]
    simp only [e, Finset.sum_add_distrib, ih hl, Finset.sum_ite_eq', Finset.mem_range, ha,
      if_true, List.length_cons]
    push_cast
    ring

theorem moment_loop (hist : List Int) (n : Nat) :
    forLoop 0 (n : Int)
        (fun i s => fl32 (s + fl32 ((wrap32 (i * rdi hist i) : Int) : ℚ))) (0 : ℚ)
      = cumMoment32 hist n := by
  induction n with
  | zero =>
    rw [forLoop_of_le (by norm_num)]
    rfl
  | succ n ih =>
    have e : ((n + 1 : Nat) : Int) = (n : Int) + 1 := by push_cast; ring
    rw [e, forLoop_snoc (by omega), ih]
    rfl

theorem histogram_nonneg (gray : List Nat) (hb : ∀ v ∈ gray, v < 256) (i : Int) :
    0 ≤ rdi (histogram gray (gray.length : Int)) i := by
  by_cases hi : 0 ≤ i
  · obtain ⟨v, rfl⟩ : ∃ v : Nat, i = v := ⟨i.toNat, by omega⟩
    rw [histogram_count gray hb v]
    omega
  · simp [rdi, hi]

theorem histogram_total (gray : List Nat) (hb : ∀ v ∈ gray, v < 256) :
    cumWeight (histogram gray (gray.length : Int)) 256 = (gray.length : Int) := by
  unfold cumWeight
  simp only [histogram_count gray hb]
  exact sum_count_range gray 256 hb

/-- The threshold of the scan is the smallest maximiser of the between-class
variance of the histogram as the scan evaluates it. -/
theorem otsu_threshold_spec (gray : List Nat) (hb : ∀ v ∈ gray, v < 256) :
    OtsuFinal (histogram gray (gray.length : Int)) (otsu_threshold gray (gray.length : Int)) := by
  unfold otsu_threshold
  simp only
  have h := otsu_scan_spec (histogram gray (gray.length : Int)) (gray.length : Int)
    (forLoop 0 256 (fun i s => fl32 (s + fl32
      ((wrap32 (i * rdi (histogram gray (gray.length : Int)) i) : Int) : ℚ))) 0)
    (histogram_nonneg gray hb) (histogram_total gray hb).symm
    (moment_loop (histogram gray (gray.length : Int)) 256) 256 0 (by norm_num)
    { wB := 0, sumB := 0, max_var := 0, threshold := 0 }
    ⟨by simp [cumWeight], rfl, le_refl _, fun t ht => by omega,
      fun h => absurd h (lt_irrefl _), fun _ => rfl⟩
  simpa using h

/-- A loop that stores `f i` at every index below n. -/
theorem forLoop_fill (f : Int → Nat) (o : List Nat) (n : Int) :
    (forLoop 0 n (fun i acc => wr acc i (f i)) o).length = o.length ∧
    ∀ j, rd (forLoop 0 n (fun i acc => wr acc i (f i)) o) j
      = if 0 ≤ j ∧ j < n ∧ j < o.length then f j else rd o j := by
  by_cases hn : 0 ≤ n
  · refine forLoop_induct hn _ _
      (fun (i : Int) (t : List Nat) => t.length = o.length ∧
        ∀ j, rd t j = if 0 ≤ j ∧ j < i ∧ j < o.length then f j else rd o j) ⟨rfl, ?_⟩ ?_
    · intro j
      rw [if_neg (by omega)]
    · intro i t h1 h2 ⟨hl, hr⟩
      refine ⟨by rw [length_wr, hl], ?_⟩
      intro j
      rw [rd_wr, hl, hr j]
      by_cases hij : i = j
      · subst hij
        by_cases hlt : i < o.length
        · rw [if_pos ⟨rfl, h1, hlt⟩, if_pos ⟨h1, by omega, hlt⟩]
        · rw [if_neg (fun h => hlt h.2.2), if_neg (by omega), if_neg (by omega)]
      · rw [if_neg (fun h => hij h.1)]
        by_cases hj : 0 ≤ j ∧ j < i ∧ j < o.length
        · rw [if_pos hj, if_pos ⟨hj.1, by omega, hj.2.2⟩]
        · rw [if_neg hj, if_neg (by omega)]
  · rw [forLoop_of_le (by omega)]
    refine ⟨rfl, fun j => ?_⟩
    rw [if_neg (by omega)]

theorem Image.WF.bytes_spec {img : Image} (h : img.WF) :
    img.data = some img.bytes ∧
    (img.bytes.length : Int) = img.width * img.height * img.channels ∧
    ∀ v ∈ img.bytes, v < 256 := by
  obtain ⟨_, _, _, _, d, hd, hl, hb⟩ := h
  simp only [Image.bytes, hd, Option.getD_some]
  exact ⟨trivial, hl, hb⟩

theorem to_gray_of_one (img : Image) (hc : img.channels = 1) : to_gray img = img := by
  unfold to_gray
  rw [if_neg (by omega)]


/-- The plane of a decoded image fits in an `int`. -/
theorem Image.WF.plane_fits {img : Image} (h : img.WF) :
    0 < img.width * img.height ∧ img.width * img.height < 2147483648 := by
  obtain ⟨hw, hh, hc, hfit, _⟩ := h
  have hpos : 0 < img.width * img.height := mul_pos hw hh
  have : img.width * img.height * 1 ≤ img.width * img.height * img.channels :=
    mul_le_mul_of_nonneg_left (by omega) hpos.le
  exact ⟨hpos, by omega⟩

/-- The 1-channel buffer that the filters allocate for their output. -/
theorem img_create_plane {img : Image} (h : img.WF) :
    img_create img.width img.height 1 =
      { data := some (List.replicate (img.width * img.height).toNat 0), width := img.width,
        height := img.height, channels := 1 } := by
  obtain ⟨hpos, hfit⟩ := h.plane_fits
  have := img_create_of_fits img.width img.height 1 h.1.le h.2.1.le (by norm_num)
    (by omega) hfit
  simpa using this

theorem cumMoment_mono (hist : List Int) (hnn : ∀ i, 0 ≤ rdi hist i) {a b : Nat} (h : a ≤ b) :
    cumMoment hist a ≤ cumMoment hist b := by
  induction b with
  | zero =>
    have : a = 0 := by omega
    rw [this]
  | succ b ih =>
    by_cases hab : a = b + 1
    · rw [hab]
    · have := ih (by omega)
      rw [cumMoment_succ]
      have : 0 ≤ (b : Int) * rdi hist (b : Int) := mul_nonneg (Int.ofNat_nonneg b) (hnn _)
      omega

/-- The `float` sums of the scan are exact as long as the exact sum is at
most 2^24. -/
theorem cumMoment32_exact (hist : List Int) (hnn : ∀ i, 0 ≤ rdi hist i) (n : Nat)
    (hsmall : cumMoment hist n ≤ 16777216) :
    ∀ k, k ≤ n → cumMoment32 hist k = (cumMoment hist k : ℚ) := by
  intro k
  induction k with
  | zero =>
    intro _
    simp [cumMoment32, cumMoment]
  | succ k ih =>
    intro hk
    have hterm : 0 ≤ (k : Int) * rdi hist (k : Int) := mul_nonneg (Int.ofNat_nonneg k) (hnn _)
    have hm := cumMoment_mono hist hnn hk
    have h0 : 0 ≤ cumMoment hist k := by
      have := cumMoment_mono hist hnn (Nat.zero_le k)
      simpa [cumMoment] using this
    rw [cumMoment_succ] at hm
    show fl32 (cumMoment32 hist k + fl32 ((wrap32 ((k : Int) * rdi hist (k : Int)) : Int) : ℚ))
      = _
    rw [ih (by omega), wrap32_of_range _ (by omega) (by omega),
      fl32_intCast _ (abs_le.mpr ⟨by omega, by omega⟩), cumMoment_succ]
    have e : ((cumMoment hist k : Int) : ℚ) + (((k : Int) * rdi hist (k : Int) : Int) : ℚ)
        = ((cumMoment hist k + (k : Int) * rdi hist (k : Int) : Int) : ℚ) := by
      push_cast
      ring
    rw [e, fl32_intCast _ (abs_le.mpr ⟨by omega, by omega⟩)]

/-! ### The image 1, 2, 2, 3: a tie in exact arithmetic -/

theorem tie_hist (v : Nat) :
    rdi (histogram [1, 2, 2, 3] 4) (v : Int)
      = (if v = 1 then 1 else 0) + (if v = 2 then 2 else 0) + (if v = 3 then 1 else 0) := by
  have h := histogram_count [1, 2, 2, 3] (by decide) v
  have e : (([1, 2, 2, 3] : List Nat).length : Int) = 4 := rfl
  rw [e] at h
  rw [h]
  by_cases h1 : v = 1
  · subst h1
    rfl
  · by_cases h2 : v = 2
    · subst h2
      rfl
    · by_cases h3 : v = 3
      · subst h3
        rfl
      · have : v ∉ ([1, 2, 2, 3] : List Nat) := by
          simp [h1, h2, h3]
        simp [h1, h2, h3, List.count_eq_zero_of_not_mem this]

theorem tie_cumWeight (k : Nat) :
    cumWeight (histogram [1, 2, 2, 3] 4) k
      = (if 1 < k then 1 else 0) + (if 2 < k then 2 else 0) + (if 3 < k then 1 else 0) := by
  unfold cumWeight
  simp only [tie_hist, Finset.sum_add_distrib, Finset.sum_ite_eq', Finset.mem_range]

theorem tie_cumMoment (k : Nat) :
    cumMoment (histogram [1, 2, 2, 3] 4) k
      = (if 1 < k then 1 else 0) + (if 2 < k then 4 else 0) + (if 3 < k then 3 else 0) := by
  unfold cumMoment
  have e : ∀ v : Nat, (v : Int) * rdi (histogram [1, 2, 2, 3] 4) (v : Int)
      = (if v = 1 then 1 else 0) + (if v = 2 then 4 else 0) + (if v = 3 then 3 else 0) := by
    intro v
    rw [tie_hist v]
    by_cases h1 : v = 1
    · subst h1
      simp
    · by_cases h2 : v = 2
      · subst h2
        simp
      · by_cases h3 : v = 3
        · subst h3
          simp
        · simp [h1, h2, h3]
  simp only [e, Finset.sum_add_distrib, Finset.sum_ite_eq', Finset.mem_range]

theorem tie_hist_nonneg (i : Int) : 0 ≤ rdi (histogram [1, 2, 2, 3] 4) i :=
  histogram_nonneg [1, 2, 2, 3] (by decide) i

theorem tie_cumMoment32 (k : Nat) (hk : k ≤ 256) :
    cumMoment32 (histogram [1, 2, 2, 3] 4) k
      = ((cumMoment (histogram [1, 2, 2, 3] 4) k : Int) : ℚ) :=
  cumMoment32_exact _ tie_hist_nonneg 256 (by rw [tie_cumMoment]; norm_num) k hk

theorem fl32_one : fl32 1 = 1 := fl32_dyadic 1 1 0 (by norm_num) (by norm_num) (by norm_num)

theorem fl32_three : fl32 3 = 3 := fl32_dyadic 3 3 0 (by norm_num) (by norm_num) (by norm_num)

theorem tie_exact_1 :
    betweenClassVariance (histogram [1, 2, 2, 3] 4) 1 = 16 / 3 := by
  unfold betweenClassVariance
  simp only [tie_cumWeight, tie_cumMoment]
  norm_num

theorem tie_float_1 :
    variance32 (histogram [1, 2, 2, 3] 4) 1 = 11184809 / 2097152 := by
  have f7 : fl32 7 = 7 := fl32_dyadic 7 7 0 (by norm_num) (by norm_num) (by norm_num)
  have g1 : fl32 (7 / 3) = 9786709 / 4194304 :=
    fl32_round _ _ 9786709 (-22) (by norm_num) (by norm_num [abs_of_pos])
      (by norm_num [abs_of_pos]) (by norm_num [abs_lt]) (by norm_num)
  have g2 : fl32 (-5592405 / 4194304) = -5592405 / 4194304 :=
    fl32_dyadic _ (-5592405) (-22) (by norm_num) (by norm_num) (by norm_num)
  have g3 : fl32 (-16777215 / 4194304) = -16777215 / 4194304 :=
    fl32_dyadic _ (-16777215) (-22) (by norm_num) (by norm_num) (by norm_num)
  have g4 : fl32 (93824981052075 / 17592186044416) = 11184809 / 2097152 :=
    fl32_round _ _ 11184809 (-21) (by norm_num) (by norm_num [abs_of_pos])
      (by norm_num [abs_of_pos]) (by norm_num [abs_lt]) (by norm_num)
  have e1 : (1 : ℚ)⁻¹ = 1 := by norm_num
  have e2 : (1 : ℚ) * 3 = 3 := by norm_num
  have e3 : (1 : ℚ) - 9786709 / 4194304 = -5592405 / 4194304 := by norm_num
  have e4 : (3 : ℚ) * (-5592405 / 4194304) = -16777215 / 4194304 := by norm_num
  have e5 : (-16777215 / 4194304 : ℚ) * (-5592405 / 4194304)
      = 93824981052075 / 17592186044416 := by norm_num
  unfold variance32
  simp only [tie_cumMoment32 _ (show 2 ≤ 256 by norm_num), tie_cumMoment32 256 le_rfl,
    tie_cumWeight, tie_cumMoment]
  norm_num
  rw [fl32_one, fl32_three, f7, e1, fl32_one, e2, fl32_three, g1, e3, g2, e4, g3, e5, g4]

theorem tie_float_2 :
    variance32 (histogram [1, 2, 2, 3] 4) 2 = 11184811 / 2097152 := by
  have g1 : fl32 (5 / 3) = 13981013 / 8388608 :=
    fl32_round _ _ 13981013 (-23) (by norm_num) (by norm_num [abs_of_pos])
      (by norm_num [abs_of_pos]) (by norm_num [abs_lt]) (by norm_num)
  have g2 : fl32 (-11184811 / 8388608) = -11184811 / 8388608 :=
    fl32_dyadic _ (-11184811) (-23) (by norm_num) (by norm_num) (by norm_num)
  have g3 : fl32 (-33554433 / 8388608) = -4 :=
    fl32_round _ _ (-8388608) (-21) (by norm_num) (by norm_num [abs_of_neg])
      (by norm_num [abs_of_neg]) (by norm_num [abs_lt]) (by norm_num)
  have g4 : fl32 (11184811 / 2097152) = 11184811 / 2097152 :=
    fl32_dyadic _ 11184811 (-21) (by norm_num) (by norm_num) (by norm_num)
  have e1 : (3 : ℚ) / 1 = 3 := by norm_num
  have e2 : (3 : ℚ) * 1 = 3 := by norm_num
  have e3 : (13981013 / 8388608 : ℚ) - 3 = -11184811 / 8388608 := by norm_num
  have e4 : (3 : ℚ) * (-11184811 / 8388608) = -33554433 / 8388608 := by norm_num
  have e5 : (-4 : ℚ) * (-11184811 / 8388608) = 11184811 / 2097152 := by norm_num
  unfold variance32
  simp only [tie_cumMoment32 _ (show 3 ≤ 256 by norm_num), tie_cumMoment32 256 le_rfl,
    tie_cumWeight, tie_cumMoment]
  norm_num
  rw [fl32_one, fl32_three, e2, e1, fl32_three, g1, e3, g2, e4, g3, e5, g4]

theorem tie_float_zero (u : Nat) (hu : u = 0 ∨ 3 ≤ u) :
    variance32 (histogram [1, 2, 2, 3] 4) u = 0 := by
  unfold variance32
  simp only [tie_cumWeight]
  rcases hu with h | h
  · subst h
    norm_num
  · have a1 : 1 < u + 1 := by omega
    have a2 : 2 < u + 1 := by omega
    have a3 : 3 < u + 1 := by omega
    simp [a1, a2, a3]

theorem tie_exact_2 :
    betweenClassVariance (histogram [1, 2, 2, 3] 4) 2 = 16 / 3 := by
  unfold betweenClassVariance
  simp only [tie_cumWeight, tie_cumMoment]
  norm_num

theorem tie_exact_zero (u : Nat) (hu : u = 0 ∨ 3 ≤ u) :
    betweenClassVariance (histogram [1, 2, 2, 3] 4) u = 0 := by
  unfold betweenClassVariance
  simp only [tie_cumWeight]
  rcases hu with h | h
  · subst h
    norm_num
  · have a1 : 1 < u + 1 := by omega
    have a2 : 2 < u + 1 := by omega
    have a3 : 3 < u + 1 := by omega
    simp [a1, a2, a3]

/-- On the image 1, 2, 2, 3 the scan returns 2. -/
theorem tie_threshold : otsu_threshold [1, 2, 2, 3] 4 = 2 := by
  obtain ⟨t, ht, ht255, hmax, hmin⟩ := otsu_threshold_spec [1, 2, 2, 3] (by decide)
  have e : (([1, 2, 2, 3] : List Nat).length : Int) = 4 := rfl
  rw [e] at ht hmax hmin
  have h2 := hmax 2 (by norm_num)
  rw [tie_float_2] at h2
  have ht2 : t = 2 := by
    by_cases c0 : t = 0 ∨ 3 ≤ t
    · rw [tie_float_zero t c0] at h2
      norm_num at h2
    · by_cases c1 : t = 1
      · rw [c1, tie_float_1] at h2
        norm_num at h2
      · omega
  rw [ht, ht2]
  rfl

/-- C3 (counterexample to the claim as worded): the 2 x 2 grayscale image with
the pixels 1, 2, 2, 3.  In exact arithmetic the between-class variance is
16/3 both at t = 1 and at t = 2 and 0 elsewhere, so the smallest maximiser is
1.  The scan evaluates the variance in `float`: 16/3 is rounded down at t = 1
(the mean 7/3 of the upper class is rounded down) and up at t = 2, the value
at t = 2 is the greater one, and the threshold chosen is 2; the output is
0, 0, 0, 255. -/
theorem C3_otsu_rounding_breaks_tie :
    (∀ u, u ≤ 255 → betweenClassVariance (histogram [1, 2, 2, 3] 4) u
      ≤ betweenClassVariance (histogram [1, 2, 2, 3] 4) 1) ∧
    (∀ u, u < 1 → betweenClassVariance (histogram [1, 2, 2, 3] 4) u
      < betweenClassVariance (histogram [1, 2, 2, 3] 4) 1) ∧
    betweenClassVariance (histogram [1, 2, 2, 3] 4) 1 = 16 / 3 ∧
    betweenClassVariance (histogram [1, 2, 2, 3] 4) 2 = 16 / 3 ∧
    variance32 (histogram [1, 2, 2, 3] 4) 1 = 11184809 / 2097152 ∧
    variance32 (histogram [1, 2, 2, 3] 4) 2 = 11184811 / 2097152 ∧
    otsu_threshold (Image.mk (some [1, 2, 2, 3]) 2 2 1).bytes (2 * 2) = 2 ∧
    (otsu_image (Image.mk (some [1, 2, 2, 3]) 2 2 1)).data = some [0, 0, 0, 255] := by
  have hall : ∀ u, betweenClassVariance (histogram [1, 2, 2, 3] 4) u
      ≤ betweenClassVariance (histogram [1, 2, 2, 3] 4) 1 := by
    intro u
    rw [tie_exact_1]
    by_cases c0 : u = 0 ∨ 3 ≤ u
    · rw [tie_exact_zero u c0]
      norm_num
    · by_cases c1 : u = 1
      · rw [c1, tie_exact_1]
      · have c2 : u = 2 := by omega
        rw [c2, tie_exact_2]
  have hthr : otsu_threshold (Image.mk (some [1, 2, 2, 3]) 2 2 1).bytes (2 * 2) = 2 :=
    tie_threshold
  refine ⟨fun u _ => hall u, ?_, tie_exact_1, tie_exact_2, tie_float_1, tie_float_2, hthr, ?_⟩
  · intro u hu
    have : u = 0 := by omega
    rw [this, tie_exact_zero 0 (Or.inl rfl), tie_exact_1]
    norm_num
  · have hg : to_gray (Image.mk (some [1, 2, 2, 3]) 2 2 1) = Image.mk (some [1, 2, 2, 3]) 2 2 1 :=
      to_gray_of_one _ rfl
    unfold otsu_image
    rw [hg]
    dsimp only
    rw [hthr]
    decide

/-- C3 (amended): for every grayscale (1-channel) image the threshold chosen by
the Otsu scan is the smallest t in 0..255 that maximises the between-class
variance of the 256-bin histogram as the scan evaluates it, in `float`
arithmetic with every sum, quotient and product rounded (`variance32`, which
is 0 where a class has zero weight), and every output pixel is 255 when
gray > t and 0 otherwise. -/
theorem C3_otsu_smallest_maximiser (img : Image) (hwf : img.WF) (hc : img.channels = 1) :
    ∃ t : Nat, otsu_threshold img.bytes (img.width * img.height) = (t : Int) ∧ t ≤ 255 ∧
      (∀ u, u ≤ 255 →
        variance32 (histogram img.bytes (img.width * img.height)) u
          ≤ variance32 (histogram img.bytes (img.width * img.height)) t) ∧
      (∀ u, u < t →
        variance32 (histogram img.bytes (img.width * img.height)) u
          < variance32 (histogram img.bytes (img.width * img.height)) t) ∧
      (otsu_image img).width = img.width ∧ (otsu_image img).height = img.height ∧
      (otsu_image img).channels = 1 ∧
      ∃ out, (otsu_image img).data = some out ∧
        (out.length : Int) = img.width * img.height ∧
        ∀ i : Int, 0 ≤ i → i < img.width * img.height →
          rd out i = if rd img.bytes i > t then 255 else 0 := by
  obtain ⟨_, hlen, hb⟩ := hwf.bytes_spec
  obtain ⟨hpos, _⟩ := hwf.plane_fits
  rw [hc, mul_one] at hlen
  obtain ⟨t, ht, ht255, hmax, hmin⟩ := otsu_threshold_spec img.bytes hb
  rw [hlen] at ht hmax hmin
  refine ⟨t, ht, ht255, hmax, hmin, ?_⟩
  unfold otsu_image
  rw [to_gray_of_one img hc, img_create_plane hwf]
  refine ⟨rfl, rfl, rfl, _, rfl, ?_, ?_⟩
  · rw [(forLoop_fill _ _ _).1, List.length_replicate]
    omega
  · intro i h0 h1
    rw [(forLoop_fill _ _ _).2 i, List.length_replicate, if_pos ⟨h0, h1, by omega⟩, ht]
    simp only [gt_iff_lt, Nat.cast_lt]

/-- Witness for C3 (amended): a 2 x 2 grayscale image. -/
theorem C3_otsu_smallest_maximiser_witness :
    ∃ t : Nat, otsu_threshold (Image.mk (some [10, 200, 30, 40]) 2 2 1).bytes (2 * 2) = (t : Int) ∧
      t ≤ 255 ∧
      (∀ u, u ≤ 255 →
        variance32 (histogram (Image.mk (some [10, 200, 30, 40]) 2 2 1).bytes (2 * 2)) u
          ≤ variance32 (histogram (Image.mk (some [10, 200, 30, 40]) 2 2 1).bytes (2 * 2)) t) ∧
      (∀ u, u < t →
        variance32 (histogram (Image.mk (some [10, 200, 30, 40]) 2 2 1).bytes (2 * 2)) u
          < variance32 (histogram (Image.mk (some [10, 200, 30, 40]) 2 2 1).bytes (2 * 2)) t) ∧
      (otsu_image (Image.mk (some [10, 200, 30, 40]) 2 2 1)).width = 2 ∧
      (otsu_image (Image.mk (some [10, 200, 30, 40]) 2 2 1)).height = 2 ∧
      (otsu_image (Image.mk (some [10, 200, 30, 40]) 2 2 1)).channels = 1 ∧
      ∃ out, (otsu_image (Image.mk (some [10, 200, 30, 40]) 2 2 1)).data = some out ∧
        (out.length : Int) = 2 * 2 ∧
        ∀ i : Int, 0 ≤ i → i < 2 * 2 →
          rd out i = if rd (Image.mk (some [10, 200, 30, 40]) 2 2 1).bytes i > t then 255 else 0 :=
  C3_otsu_smallest_maximiser (Image.mk (some [10, 200, 30, 40]) 2 2 1)
    ⟨by decide, by decide, by decide, by decide, [10, 200, 30, 40], rfl, by decide, by decide⟩
    rfl

/-! ### A bimodal histogram: m pixels at 10 and m pixels at 200 -/

theorem bimodal_cumWeight (hist : List Int) (m : Int)
    (hh : ∀ v : Nat, rdi hist (v : Int) = (if v = 10 then m else 0) + (if v = 200 then m else 0))
    (k : Nat) :
    cumWeight hist k = (if 10 < k then m else 0) + (if 200 < k then m else 0) := by
  unfold cumWeight
  simp only [hh, Finset.sum_add_distrib, Finset.sum_ite_eq', Finset.mem_range]

/-- The `float` sums of the bimodal histogram: 0 up to bin 10, the rounded
10 m from there to bin 200, and the rounded sum with the rounded 200 m
beyond. -/
theorem bimodal_cumMoment32 (hist : List Int) (m : Int) (hm0 : 0 ≤ m)
    (hm1 : 200 * m < 2147483648)
    (hh : ∀ v : Nat, rdi hist (v : Int) = (if v = 10 then m else 0) + (if v = 200 then m else 0))
    (k : Nat) :
    cumMoment32 hist k
      = if k ≤ 10 then 0
        else if k ≤ 200 then fl32 ((10 * m : Int) : ℚ)
        else fl32 (fl32 ((10 * m : Int) : ℚ) + fl32 ((200 * m : Int) : ℚ)) := by
  induction k with
  | zero => rfl
  | succ k ih =>
    by_cases h10 : k = 10
    · subst h10
      show fl32 (cumMoment32 hist 10 + fl32 ((wrap32 (((10 : Nat) : Int) * rdi hist ((10 : Nat) : Int))
        : Int) : ℚ)) = _
      rw [ih, hh 10]
      norm_num
      rw [wrap32_of_range _ (by omega) (by omega)]
      push_cast
      exact fl32_idem _
    · by_cases h200 : k = 200
      · subst h200
        show fl32 (cumMoment32 hist 200
          + fl32 ((wrap32 (((200 : Nat) : Int) * rdi hist ((200 : Nat) : Int)) : Int) : ℚ)) = _
        rw [ih, hh 200]
        norm_num
        rw [wrap32_of_range _ (by omega) (by omega)]
        push_cast
        rfl
      · have h0 : rdi hist (k : Int) = 0 := by
          rw [hh k]
          simp [h10, h200]
        rw [cumMoment32_skip hist k h0, ih]
        by_cases c1 : k ≤ 10
        · have d1 : k + 1 ≤ 10 := by omega
          rw [if_pos c1, if_pos d1]
        · have d1 : ¬ k + 1 ≤ 10 := by omega
          rw [if_neg c1, if_neg d1]
          by_cases c2 : k ≤ 200
          · have d2 : k + 1 ≤ 200 := by omega
            rw [if_pos c2, if_pos d2]
          · have d2 : ¬ k + 1 ≤ 200 := by omega
            rw [if_neg c2, if_neg d2]

theorem fl32_lower_pos (x : ℚ) (hx : 1 / 2 ≤ x) : 999 / 1000 * x ≤ fl32 x := by
  have hx0 : 0 < x := by linarith
  have h := fl32_err x (by
    rw [abs_of_pos hx0]
    refine le_trans ?_ hx
    rw [zpow_neg]
    apply inv_le_of_inv_le₀ (by norm_num)
    calc (1 / 2 : ℚ)⁻¹ = 2 ^ (1 : Int) := by norm_num
      _ ≤ 2 ^ (126 : Int) := zpow_le_zpow_right₀ (by norm_num) (by norm_num))
  rw [abs_of_pos hx0, abs_le] at h
  linarith

theorem fl32_upper_pos (x : ℚ) (hx : 1 / 2 ≤ x) : fl32 x ≤ 1001 / 1000 * x := by
  have hx0 : 0 < x := by linarith
  have h := fl32_err x (by
    rw [abs_of_pos hx0]
    refine le_trans ?_ hx
    rw [zpow_neg]
    apply inv_le_of_inv_le₀ (by norm_num)
    calc (1 / 2 : ℚ)⁻¹ = 2 ^ (1 : Int) := by norm_num
      _ ≤ 2 ^ (126 : Int) := zpow_le_zpow_right₀ (by norm_num) (by norm_num))
  rw [abs_of_pos hx0, abs_le] at h
  linarith

theorem fl32_upper_neg (x : ℚ) (hx : x ≤ -(1 / 2)) : fl32 x ≤ 999 / 1000 * x := by
  have hx0 : x < 0 := by linarith
  have h := fl32_err x (by
    rw [abs_of_neg hx0]
    refine le_trans ?_ (by linarith : (1 / 2 : ℚ) ≤ -x)
    rw [zpow_neg]
    apply inv_le_of_inv_le₀ (by norm_num)
    calc (1 / 2 : ℚ)⁻¹ = 2 ^ (1 : Int) := by norm_num
      _ ≤ 2 ^ (126 : Int) := zpow_le_zpow_right₀ (by norm_num) (by norm_num))
  rw [abs_of_neg hx0, abs_le] at h
  linarith

/-- The between-class variance that the scan computes between the two modes is
positive, whatever the roundings. -/
theorem bimodal_value_pos (M : ℚ) (hM : 1 ≤ M) :
    0 < fl32 (fl32 (fl32 (fl32 M * fl32 M)
          * fl32 (fl32 (fl32 (10 * M) / fl32 M)
            - fl32 (fl32 (fl32 (fl32 (10 * M) + fl32 (200 * M)) - fl32 (10 * M)) / fl32 M)))
        * fl32 (fl32 (fl32 (10 * M) / fl32 M)
            - fl32 (fl32 (fl32 (fl32 (10 * M) + fl32 (200 * M)) - fl32 (10 * M)) / fl32 M))) := by
  have ha1 := fl32_lower_pos M (by linarith)
  have ha2 := fl32_upper_pos M (by linarith)
  have hA1 := fl32_lower_pos (10 * M) (by linarith)
  have hA2 := fl32_upper_pos (10 * M) (by linarith)
  have hB1 := fl32_lower_pos (200 * M) (by linarith)
  generalize fl32 M = a at ha1 ha2
  generalize fl32 (10 * M) = A at hA1 hA2
  generalize fl32 (200 * M) = B at hB1
  have ha0 : 0 < a := by linarith
  have hS1 := fl32_lower_pos (A + B) (by linarith)
  generalize fl32 (A + B) = S at hS1
  have hc1 := fl32_lower_pos (S - A) (by linarith)
  generalize fl32 (S - A) = c at hc1
  have hq1 : 199 ≤ c / a := by
    rw [le_div_iff₀ ha0]
    linarith
  have hmF := fl32_lower_pos (c / a) (by linarith)
  generalize fl32 (c / a) = mF at hmF
  have hq2 : A / a ≤ 1003 / 100 := by
    rw [div_le_iff₀ ha0]
    linarith
  have hq3 : 1 / 2 ≤ A / a := by
    rw [le_div_iff₀ ha0]
    linarith
  have hmB := fl32_upper_pos (A / a) hq3
  generalize fl32 (A / a) = mB at hmB
  have hD := fl32_upper_neg (mB - mF) (by linarith)
  generalize fl32 (mB - mF) = D at hD
  have hD1 : D ≤ -188 := by linarith
  have haa : 99 / 100 ≤ a * a := by nlinarith
  have hp := fl32_lower_pos (a * a) (by linarith)
  generalize fl32 (a * a) = p at hp
  have hp1 : 98 / 100 ≤ p := by linarith
  have hpD : p * D ≤ -180 := by nlinarith
  have hq := fl32_upper_neg (p * D) (by linarith)
  generalize fl32 (p * D) = q at hq
  have hq1 : q ≤ -170 := by linarith
  have hqD : 1 / 2 ≤ q * D := by nlinarith
  have hV := fl32_lower_pos (q * D) hqD
  linarith

theorem bimodal_variance32 (hist : List Int) (m : Int) (hm : 0 < m)
    (hm1 : 200 * m < 2147483648)
    (hh : ∀ v : Nat, rdi hist (v : Int) = (if v = 10 then m else 0) + (if v = 200 then m else 0)) :
    ∃ V : ℚ, 0 < V ∧ ∀ t : Nat, t ≤ 255 →
      variance32 hist t = if 10 ≤ t ∧ t < 200 then V else 0 := by
  have hmq : (1 : ℚ) ≤ (m : ℚ) := by exact_mod_cast hm
  refine ⟨_, bimodal_value_pos (m : ℚ) hmq, ?_⟩
  intro t ht
  unfold variance32
  simp only [bimodal_cumWeight hist m hh, bimodal_cumMoment32 hist m hm.le hm1 hh]
  by_cases h1 : t < 10
  · have a1 : ¬ 10 < t + 1 := by omega
    have a2 : ¬ 200 < t + 1 := by omega
    simp [a1, a2, show ¬ 10 ≤ t by omega]
  · by_cases h2 : t < 200
    · have a1 : 10 < t + 1 := by omega
      have a2 : ¬ 200 < t + 1 := by omega
      have a3 : ¬ t + 1 ≤ 10 := by omega
      have a4 : t + 1 ≤ 200 := by omega
      simp only [a1, a2, a3, a4, if_true, if_false, show (10 : Nat) < 256 by norm_num,
        show (200 : Nat) < 256 by norm_num, show ¬ (256 : Nat) ≤ 10 by norm_num,
        show ¬ (256 : Nat) ≤ 200 by norm_num, add_zero]
      have hcond : ¬ (m = 0 ∨ m + m - m = 0) := by omega
      rw [if_neg hcond, if_pos (show 10 ≤ t ∧ t < 200 from ⟨by omega, h2⟩)]
      have e : m + m - m = m := by ring
      rw [e]
      push_cast
      rfl
    · have a1 : 10 < t + 1 := by omega
      have a2 : 200 < t + 1 := by omega
      simp [a1, a2, show ¬ t < 200 by omega]

theorem bimodal_hist (d : List Nat) (hb : ∀ v ∈ d, v = 10 ∨ v = 200)
    (hhalf : d.count 10 = d.count 200) (v : Nat) :
    rdi (histogram d (d.length : Int)) (v : Int)
      = (if v = 10 then (d.count 10 : Int) else 0) + (if v = 200 then (d.count 10 : Int) else 0) := by
  have hb256 : ∀ v ∈ d, v < 256 := by
    intro v hv
    rcases hb v hv with h | h <;> omega
  rw [histogram_count d hb256 v]
  by_cases h1 : v = 10
  · subst h1
    simp
  · by_cases h2 : v = 200
    · subst h2
      simp [hhalf]
    · have : v ∉ d := by
        intro hv
        rcases hb v hv with h | h
        · exact h1 h
        · exact h2 h
      simp [h1, h2, List.count_eq_zero_of_not_mem this]

theorem count_two_le_length (d : List Nat) (a b : Nat) (hab : a ≠ b) :
    d.count a + d.count b ≤ d.length := by
  induction d with
  | nil => simp
  | cons x l ih =>
    rw [List.count_cons, List.count_cons, List.length_cons]
    by_cases h1 : x = a
    · have h2 : ¬ x = b := fun h => hab (h1.symm.trans h)
      simp only [h1, h2, beq_self_eq_true, if_true]
      have : (a == b) = false := by simpa using hab
      simp only [this]
      simp only [Bool.false_eq_true, if_false, add_zero]
      omega
    · by_cases h2 : x = b
      · have : (b == a) = false := by simpa using (Ne.symm hab)
        simp only [h2, this, beq_self_eq_true, if_true, Bool.false_eq_true, if_false, add_zero]
        omega
      · have e1 : (x == a) = false := by simpa using h1
        have e2 : (x == b) = false := by simpa using h2
        simp only [e1, e2, Bool.false_eq_true, if_false, add_zero]
        omega

/-- On a buffer of at most 21474836 pixels with as many pixels at 10 as at 200
and no other value the scan returns 10. -/
theorem otsu_threshold_bimodal (d : List Nat) (hne : d ≠ []) (hb : ∀ v ∈ d, v = 10 ∨ v = 200)
    (hhalf : d.count 10 = d.count 200) (hsize : 100 * (d.length : Int) < 2147483648) :
    otsu_threshold d (d.length : Int) = 10 := by
  have hb256 : ∀ v ∈ d, v < 256 := by
    intro v hv
    rcases hb v hv with h | h <;> omega
  have hm : (0 : Int) < (d.count 10 : Int) := by
    cases d with
    | nil => exact absurd rfl hne
    | cons a l =>
      have hpos : 0 < (a :: l).count 10 := by
        rcases hb a (List.mem_cons_self _ _) with h | h
        · subst h
          simp
        · subst h
          rw [hhalf]
          simp
      exact_mod_cast hpos
  have hm1 : 200 * (d.count 10 : Int) < 2147483648 := by
    have := count_two_le_length d 10 200 (by norm_num)
    rw [← hhalf] at this
    have h2 : 2 * (d.count 10 : Int) ≤ (d.length : Int) := by exact_mod_cast (by omega)
    omega
  obtain ⟨V, hV, hσ⟩ := bimodal_variance32 (histogram d (d.length : Int)) (d.count 10 : Int) hm
    hm1 (bimodal_hist d hb hhalf)
  obtain ⟨t, ht, ht255, hmax, hmin⟩ := otsu_threshold_spec d hb256
  have h10 := hσ 10 (by norm_num)
  rw [if_pos ⟨le_refl _, by norm_num⟩] at h10
  have ht10 : t = 10 := by
    rcases Nat.lt_trichotomy t 10 with h | h | h
    · have e := hσ t ht255
      rw [if_neg (by omega)] at e
      have := hmax 10 (by norm_num)
      rw [e, h10] at this
      linarith
    · exact h
    · have hlt := hmin 10 h
      have e := hσ t ht255
      rw [h10] at hlt
      by_cases c : t < 200
      · rw [if_pos ⟨by omega, c⟩] at e
        rw [e] at hlt
        exact absurd hlt (lt_irrefl _)
      · rw [if_neg (fun hc => c hc.2)] at e
        rw [e] at hlt
        linarith
  rw [ht, ht10]
  rfl

/-- C2 (as amended): for every 1-channel image of at most 21474836 pixels (so
that the `int` products `i * hist[i]` of the scan do not overflow) in which
half of the pixels have value 10 and the other half value 200, the threshold
selected by the Otsu scan, in the `float` arithmetic of the source, is exactly
10, the lower mode: it satisfies 10 <= t < 200, not 10 < t. -/
theorem C2_otsu_bimodal_threshold (img : Image) (hwf : img.WF) (hc : img.channels = 1)
    (hb : ∀ v ∈ img.bytes, v = 10 ∨ v = 200)
    (hhalf : img.bytes.count 10 = img.bytes.count 200)
    (hsize : 100 * (img.width * img.height) < 2147483648) :
    otsu_threshold img.bytes (img.width * img.height) = 10 := by
  obtain ⟨_, hlen, _⟩ := hwf.bytes_spec
  obtain ⟨hpos, _⟩ := hwf.plane_fits
  rw [hc, mul_one] at hlen
  have hne : img.bytes ≠ [] := by
    intro h
    rw [h, List.length_nil] at hlen
    omega
  rw [← hlen] at hsize ⊢
  exact otsu_threshold_bimodal img.bytes hne hb hhalf hsize

/-- Witness for C2: the 2 x 2 image with pixels 10, 200, 200, 10. -/
theorem C2_otsu_bimodal_threshold_witness :
    otsu_threshold (Image.mk (some [10, 200, 200, 10]) 2 2 1).bytes (2 * 2) = 10 :=
  C2_otsu_bimodal_threshold (Image.mk (some [10, 200, 200, 10]) 2 2 1)
    ⟨by decide, by decide, by decide, by decide, [10, 200, 200, 10], rfl, by decide, by decide⟩
    rfl (by decide) (by decide) (by decide)

/-- C2 fails as stated on the 2 x 1 image with pixels 10 and 200: half of the
pixels are 10, half are 200, and the selected threshold is 10, which is not
strictly above 10. -/
theorem C2_otsu_bimodal_not_strict :
    (Image.mk (some [10, 200]) 2 1 1).bytes.count 10 = 1 ∧
    (Image.mk (some [10, 200]) 2 1 1).bytes.count 200 = 1 ∧
    ¬ (10 < otsu_threshold (Image.mk (some [10, 200]) 2 1 1).bytes (2 * 1) ∧
       otsu_threshold (Image.mk (some [10, 200]) 2 1 1).bytes (2 * 1) < 200) := by
  have h : otsu_threshold (Image.mk (some [10, 200]) 2 1 1).bytes (2 * 1) = 10 :=
    otsu_threshold_bimodal [10, 200] (by decide) (by decide) (by decide) (by decide)
  refine ⟨by decide, by decide, ?_⟩
  rw [h]
  decide

/-! ## Raster loops -/

/-- Two buffers of the same length that read alike at every index are equal. -/
theorem ext_rd (a b : List Nat) (hl : a.length = b.length) (h : ∀ i : Int, rd a i = rd b i) :
    a = b := by
  apply List.ext_getElem hl
  intro n h1 h2
  have := h (n : Int)
  rw [rd_of_lt a n h1, rd_of_lt b n h2] at this
  exact this

/-- A loop whose every iteration leaves the state z alone returns z. -/
theorem forLoop_fixed {σ : Type} (lo hi : Int) (body : Int → σ → σ) (z : σ)
    (hz : ∀ i, lo ≤ i → i < hi → body i z = z) : forLoop lo hi body z = z := by
  by_cases h : lo ≤ hi
  · exact forLoop_induct h body z (fun (_ : Int) (t : σ) => t = z) rfl
      (fun i t h1 h2 ht => by
        show body i t = z
        rw [ht]
        exact hz i h1 h2)
  · exact forLoop_of_le (by omega) body z

/-- A loop that reaches the absorbing state z at iteration `i0` returns z. -/
theorem forLoop_reach {σ : Type} (I : σ → Prop) (lo hi i0 : Int) (body : Int → σ → σ) (z s : σ)
    (hI : I s) (hstep : ∀ i m, I m → I (body i m)) (h0 : lo ≤ i0) (h1 : i0 < hi)
    (hz : ∀ i, body i z = z) (hit : ∀ m, I m → body i0 m = z) :
    forLoop lo hi body s = z := by
  have key := forLoop_induct (show lo ≤ hi by omega) body s
    (fun (j : Int) (t : σ) => I t ∧ (i0 < j → t = z)) ⟨hI, fun h => by omega⟩
    (fun i t _ _ ht => by
      refine ⟨hstep i t ht.1, fun hj => ?_⟩
      by_cases e : i = i0
      · rw [e]
        exact hit t ht.1
      · rw [ht.2 (by omega)]
        exact hz i)
  exact key.2 h1

/-- Row-major indices determine their coordinates. -/
theorem idx_inj {w x y x2 y2 : Int} (hx : 0 ≤ x) (hxw : x < w) (hx2 : 0 ≤ x2) (hx2w : x2 < w)
    (h : y * w + x = y2 * w + x2) : y = y2 ∧ x = x2 := by
  have hw : 0 < w := by omega
  have e1 : (y * w + x) / w = y := by
    rw [add_comm, Int.add_mul_ediv_right _ _ (ne_of_gt hw), Int.ediv_eq_zero_of_lt hx hxw, zero_add]
  have e2 : (y2 * w + x2) / w = y2 := by
    rw [add_comm, Int.add_mul_ediv_right _ _ (ne_of_gt hw), Int.ediv_eq_zero_of_lt hx2 hx2w,
      zero_add]
  have hy : y = y2 := by rw [← e1, ← e2, h]
  subst hy
  exact ⟨rfl, by omega⟩

/-- Row-major indices of in-range coordinates are in range. -/
theorem idx_bound {w h x y : Int} (hx : 0 ≤ x) (hxw : x < w) (hy : 0 ≤ y) (hyh : y < h) :
    0 ≤ y * w + x ∧ y * w + x < w * h := by
  have hw : 0 < w := by omega
  have h1 : 0 ≤ y * w := mul_nonneg hy hw.le
  have h2 : (y + 1) * w ≤ h * w := mul_le_mul_of_nonneg_right (by omega) hw.le
  constructor
  · omega
  · have : y * w + x < (y + 1) * w := by
      have : (y + 1) * w = y * w + w := by ring
      omega
    calc y * w + x < (y + 1) * w := this
      _ ≤ h * w := h2
      _ = w * h := mul_comm _ _

/-- One row of a raster loop: the pixels `x0 <= x < x1` of row `yr` receive
`f x yr`, every other pixel keeps its value. -/
theorem raster_row (w : Int) (x0 x1 yr : Int) (f : Int → Int → Nat) (o : List Nat)
    (hx0 : 0 ≤ x0) (hx1 : x1 ≤ w) (hyr : 0 ≤ yr) (hlen : (yr + 1) * w ≤ o.length) :
    (forLoop x0 x1 (fun x acc => wr acc (yr * w + x) (f x yr)) o).length = o.length ∧
    ∀ x y, 0 ≤ x → x < w →
      rd (forLoop x0 x1 (fun x acc => wr acc (yr * w + x) (f x yr)) o) (y * w + x)
        = if y = yr ∧ x0 ≤ x ∧ x < x1 then f x yr else rd o (y * w + x) := by
  by_cases hle : x0 ≤ x1
  · refine forLoop_induct hle _ _
      (fun (i : Int) (t : List Nat) => t.length = o.length ∧
        ∀ x y, 0 ≤ x → x < w →
          rd t (y * w + x) = if y = yr ∧ x0 ≤ x ∧ x < i then f x yr else rd o (y * w + x))
      ⟨rfl, ?_⟩ ?_
    · intro x y _ _
      rw [if_neg (by omega)]
    · intro i t h1 h2 ⟨hl, hr⟩
      refine ⟨by rw [length_wr, hl], ?_⟩
      intro x y hx hxw
      rw [rd_wr, hl, hr x y hx hxw]
      have hib := idx_bound (w := w) (h := yr + 1) (x := i) (y := yr) (by omega) (by omega) hyr
        (by omega)
      have hin : yr * w + i < o.length := by
        have : w * (yr + 1) = (yr + 1) * w := mul_comm _ _
        omega
      by_cases e : yr * w + i = y * w + x
      · obtain ⟨e1, e2⟩ := idx_inj (by omega) (by omega) hx hxw e
        subst e1 e2
        rw [if_pos ⟨rfl, hib.1, hin⟩, if_pos ⟨rfl, h1, by omega⟩]
      · rw [if_neg (fun hh => e hh.1)]
        by_cases c : y = yr ∧ x0 ≤ x ∧ x < i
        · rw [if_pos c, if_pos ⟨c.1, c.2.1, by omega⟩]
        · rw [if_neg c, if_neg]
          rintro ⟨c1, c2, c3⟩
          have : x ≠ i := by
            intro hxi
            apply e
            rw [c1, hxi]
          exact c ⟨c1, c2, by omega⟩
  · rw [forLoop_of_le (by omega)]
    refine ⟨rfl, fun x y _ _ => ?_⟩
    rw [if_neg (by omega)]

/-- A raster loop: the pixels of the rectangle `x0 <= x < x1`, `y0 <= y < y1`
receive `f x y`, every other pixel keeps its value. -/
theorem raster (w h : Int) (x0 x1 y0 y1 : Int) (f : Int → Int → Nat) (o : List Nat)
    (hx0 : 0 ≤ x0) (hx1 : x1 ≤ w) (hy0 : 0 ≤ y0) (hy1 : y1 ≤ h) (hw : 0 < w)
    (hlen : (o.length : Int) = w * h) :
    (forLoop y0 y1 (fun y acc =>
        forLoop x0 x1 (fun x acc => wr acc (y * w + x) (f x y)) acc) o).length = o.length ∧
    ∀ x y, 0 ≤ x → x < w →
      rd (forLoop y0 y1 (fun y acc =>
          forLoop x0 x1 (fun x acc => wr acc (y * w + x) (f x y)) acc) o) (y * w + x)
        = if (x0 ≤ x ∧ x < x1) ∧ y0 ≤ y ∧ y < y1 then f x y else rd o (y * w + x) := by
  by_cases hle : y0 ≤ y1
  · refine forLoop_induct hle _ _
      (fun (i : Int) (t : List Nat) => t.length = o.length ∧
        ∀ x y, 0 ≤ x → x < w →
          rd t (y * w + x)
            = if (x0 ≤ x ∧ x < x1) ∧ y0 ≤ y ∧ y < i then f x y else rd o (y * w + x))
      ⟨rfl, ?_⟩ ?_
    · intro x y _ _
      rw [if_neg (by omega)]
    · intro i t h1 h2 ⟨hl, hr⟩
      have hrow : (i + 1) * w ≤ (t.length : Int) := by
        rw [hl, hlen, mul_comm w h]
        exact mul_le_mul_of_nonneg_right (by omega) hw.le
      obtain ⟨rl, rr⟩ := raster_row w x0 x1 i f t hx0 hx1 (by omega) hrow
      refine ⟨by rw [rl, hl], ?_⟩
      intro x y hx hxw
      rw [rr x y hx hxw, hr x y hx hxw]
      by_cases c : y = i
      · subst c
        by_cases cx : x0 ≤ x ∧ x < x1
        · rw [if_pos ⟨rfl, cx⟩, if_pos ⟨cx, h1, by omega⟩]
        · rw [if_neg (fun hh => cx hh.2), if_neg (fun hh => cx hh.1), if_neg (fun hh => cx hh.1)]
      · rw [if_neg (fun hh => c hh.1)]
        by_cases c2 : (x0 ≤ x ∧ x < x1) ∧ y0 ≤ y ∧ y < i
        · rw [if_pos c2, if_pos ⟨c2.1, c2.2.1, by omega⟩]
        · rw [if_neg c2, if_neg]
          rintro ⟨c3, c4, c5⟩
          exact c2 ⟨c3, c4, by omega⟩
  · rw [forLoop_of_le (by omega)]
    refine ⟨rfl, fun x y _ _ => ?_⟩
    rw [if_neg (by omega)]


/-! ## Morphology -/

/-- A loop preserves every predicate that each of its iterations preserves. -/
theorem forLoop_pres {σ : Type} (I : σ → Prop) (lo hi : Int) (body : Int → σ → σ) (s : σ)
    (hI : I s) (hstep : ∀ i m, lo ≤ i → i < hi → I m → I (body i m)) :
    I (forLoop lo hi body s) := by
  by_cases h : lo ≤ hi
  · exact forLoop_induct h body s (fun (_ : Int) (t : σ) => I t) hI
      (fun i t h1 h2 ht => hstep i t h1 h2 ht)
  · rw [forLoop_of_le (by omega)]
    exact hI

theorem wr_zero_replicate (n : Nat) (i : Int) : wr (List.replicate n 0) i 0 = List.replicate n 0 := by
  apply ext_rd
  · rw [length_wr]
  · intro j
    rw [rd_wr, rd_replicate_zero]
    split <;> rfl

theorem erode_min_eq_zero (gray : List Nat) (w half x y dx0 dy0 : Int)
    (hdx : -half ≤ dx0 ∧ dx0 ≤ half) (hdy : -half ≤ dy0 ∧ dy0 ≤ half)
    (h0 : rd gray ((y + dy0) * w + (x + dx0)) = 0) : erode_min gray w half x y = 0 := by
  unfold erode_min
  refine forLoop_reach (fun _ => True) _ _ dy0 _ 0 255 trivial (fun _ _ _ => trivial)
    hdy.1 (by omega) ?_ ?_
  · intro dy
    apply forLoop_fixed
    intro dx _ _
    simp
  · intro m _
    refine forLoop_reach (fun _ => True) _ _ dx0 _ 0 m trivial (fun _ _ _ => trivial)
      hdx.1 (by omega) ?_ ?_
    · intro dx
      simp
    · intro m2 _
      simp only [h0]
      split
      · rfl
      · omega

theorem erode_min_eq_255 (gray : List Nat) (w half x y : Int)
    (hall : ∀ dx dy, -half ≤ dx → dx ≤ half → -half ≤ dy → dy ≤ half →
      rd gray ((y + dy) * w + (x + dx)) = 255) : erode_min gray w half x y = 255 := by
  unfold erode_min
  apply forLoop_fixed
  intro dy h1 h2
  apply forLoop_fixed
  intro dx h3 h4
  simp [hall dx dy h3 (by omega) h1 (by omega)]

theorem dilate_max_eq_zero (gray : List Nat) (w half x y : Int)
    (hall : ∀ dx dy, -half ≤ dx → dx ≤ half → -half ≤ dy → dy ≤ half →
      rd gray ((y + dy) * w + (x + dx)) = 0) : dilate_max gray w half x y = 0 := by
  unfold dilate_max
  apply forLoop_fixed
  intro dy h1 h2
  apply forLoop_fixed
  intro dx h3 h4
  simp [hall dx dy h3 (by omega) h1 (by omega)]

theorem dilate_max_eq_255 (gray : List Nat) (hb : ∀ i, rd gray i ≤ 255) (w half x y dx0 dy0 : Int)
    (hdx : -half ≤ dx0 ∧ dx0 ≤ half) (hdy : -half ≤ dy0 ∧ dy0 ≤ half)
    (h0 : rd gray ((y + dy0) * w + (x + dx0)) = 255) : dilate_max gray w half x y = 255 := by
  unfold dilate_max
  have hinner : ∀ (dy : Int) (m : Nat), m ≤ 255 →
      forLoop (-half) (half + 1) (fun dx m =>
        if rd gray ((y + dy) * w + (x + dx)) > m then rd gray ((y + dy) * w + (x + dx)) else m) m
        ≤ 255 := by
    intro dy m hm
    refine forLoop_pres (fun m => m ≤ 255) _ _ _ m hm ?_
    intro dx m2 _ _ hm2
    show (if rd gray ((y + dy) * w + (x + dx)) > m2 then rd gray ((y + dy) * w + (x + dx)) else m2)
      ≤ 255
    split
    · exact hb _
    · exact hm2
  refine forLoop_reach (fun m => m ≤ 255) _ _ dy0 _ 255 0 (by norm_num)
    (fun dy m hm => hinner dy m hm) hdy.1 (by omega) ?_ ?_
  · intro dy
    apply forLoop_fixed
    intro dx _ _
    have := hb ((y + dy) * w + (x + dx))
    simp only [gt_iff_lt]
    rw [if_neg (by omega)]
  · intro m hm
    refine forLoop_reach (fun m => m ≤ 255) _ _ dx0 _ 255 m hm ?_ hdx.1 (by omega) ?_ ?_
    · intro dx m2 hm2
      show (if rd gray ((y + dy0) * w + (x + dx)) > m2 then rd gray ((y + dy0) * w + (x + dx))
        else m2) ≤ 255
      split
      · exact hb _
      · exact hm2
    · intro dx
      have := hb ((y + dy0) * w + (x + dx))
      simp only [gt_iff_lt]
      rw [if_neg (by omega)]
    · intro m2 hm2
      simp only [h0, gt_iff_lt]
      split
      · rfl
      · omega

theorem tdiv_three_two : Int.tdiv 3 2 = 1 := by decide


theorem wf_zero_plane {img : Image} (hwf : img.WF) :
    Image.WF { data := some (List.replicate (img.width * img.height).toNat 0),
               width := img.width, height := img.height, channels := 1 } := by
  obtain ⟨hpos, hfit⟩ := hwf.plane_fits
  refine ⟨hwf.1, hwf.2.1, by norm_num, by simpa using hfit, _, rfl, ?_, ?_⟩
  · simp only [List.length_replicate, mul_one]
    omega
  · intro v hv
    rw [(List.mem_replicate.mp hv).2]
    norm_num

/-- Eroding with a 3 x 3 element gives the all-zero plane as soon as every
interior window holds a zero. -/
theorem erode_eq_zero (img : Image) (hwf : img.WF) (hc : img.channels = 1)
    (hz : ∀ x y, 1 ≤ x → x < img.width - 1 → 1 ≤ y → y < img.height - 1 →
      erode_min img.bytes img.width 1 x y = 0) :
    erode img 3 = { data := some (List.replicate (img.width * img.height).toNat 0),
                    width := img.width, height := img.height, channels := 1 } := by
  have key : forLoop 1 (img.height - 1) (fun y acc =>
      forLoop 1 (img.width - 1) (fun x acc =>
        wr acc (y * img.width + x) (erode_min img.bytes img.width 1 x y)) acc)
      (List.replicate (img.width * img.height).toNat 0)
      = List.replicate (img.width * img.height).toNat 0 := by
    apply forLoop_fixed
    intro y hy1 hy2
    apply forLoop_fixed
    intro x hx1 hx2
    rw [hz x y hx1 hx2 hy1 hy2, wr_zero_replicate]
  unfold erode
  rw [to_gray_of_one img hc, img_create_plane hwf, tdiv_three_two]
  dsimp only [Option.map_some']
  rw [key]

/-- Dilating with a 3 x 3 element gives the all-zero plane as soon as every
interior window is all zero. -/
theorem dilate_eq_zero (img : Image) (hwf : img.WF) (hc : img.channels = 1)
    (hz : ∀ x y, 1 ≤ x → x < img.width - 1 → 1 ≤ y → y < img.height - 1 →
      dilate_max img.bytes img.width 1 x y = 0) :
    dilate img 3 = { data := some (List.replicate (img.width * img.height).toNat 0),
                     width := img.width, height := img.height, channels := 1 } := by
  have key : forLoop 1 (img.height - 1) (fun y acc =>
      forLoop 1 (img.width - 1) (fun x acc =>
        wr acc (y * img.width + x) (dilate_max img.bytes img.width 1 x y)) acc)
      (List.replicate (img.width * img.height).toNat 0)
      = List.replicate (img.width * img.height).toNat 0 := by
    apply forLoop_fixed
    intro y hy1 hy2
    apply forLoop_fixed
    intro x hx1 hx2
    rw [hz x y hx1 hx2 hy1 hy2, wr_zero_replicate]
  unfold dilate
  rw [to_gray_of_one img hc, img_create_plane hwf, tdiv_three_two]
  dsimp only [Option.map_some']
  rw [key]

/-- Erode then dilate, chained in memory, of an image that is zero away from
one pixel is the all-zero plane. -/
theorem open_isolated (img : Image) (hwf : img.WF) (hc : img.channels = 1) (px py : Int)
    (hp : ∀ x y, 0 ≤ x → x < img.width → 0 ≤ y → y < img.height → ¬ (x = px ∧ y = py) →
      rd img.bytes (y * img.width + x) = 0) :
    dilate (erode img 3) 3 =
      { data := some (List.replicate (img.width * img.height).toNat 0),
        width := img.width, height := img.height, channels := 1 } := by
  have he : erode img 3 =
      { data := some (List.replicate (img.width * img.height).toNat 0),
        width := img.width, height := img.height, channels := 1 } := by
    apply erode_eq_zero img hwf hc
    intro x y hx1 hx2 hy1 hy2
    by_cases c : x - 1 = px ∧ y - 1 = py
    · apply erode_min_eq_zero img.bytes img.width 1 x y 1 1 (by omega) (by omega)
      exact hp (x + 1) (y + 1) (by omega) (by omega) (by omega) (by omega) (by omega)
    · apply erode_min_eq_zero img.bytes img.width 1 x y (-1) (-1) (by omega) (by omega)
      exact hp (x + -1) (y + -1) (by omega) (by omega) (by omega) (by omega) (by omega)
  rw [he]
  have := dilate_eq_zero _ (wf_zero_plane hwf) rfl (by
    intro x y _ _ _ _
    apply dilate_max_eq_zero
    intro dx dy _ _ _ _
    exact rd_replicate_zero _ _)
  exact this

/-- C4: open, taken as erode with a 3 x 3 element followed by dilate with a
3 x 3 element chained in memory, removes an isolated pixel: for every 1-channel
image of any size whose pixels are all 0 except the one at a position (px, py),
the result is the all-zero image. -/
theorem C4_open_removes_isolated_pixel (img : Image) (hwf : img.WF) (hc : img.channels = 1)
    (px py : Int)
    (hp : ∀ x y, 0 ≤ x → x < img.width → 0 ≤ y → y < img.height → ¬ (x = px ∧ y = py) →
      rd img.bytes (y * img.width + x) = 0) :
    dilate (erode img 3) 3 =
      { data := some (List.replicate (img.width * img.height).toNat 0),
        width := img.width, height := img.height, channels := 1 } :=
  open_isolated img hwf hc px py hp

/-- Witness for C4: the 3 x 3 image whose only non-zero pixel is the centre. -/
theorem C4_open_removes_isolated_pixel_witness :
    dilate (erode (Image.mk (some [0, 0, 0, 0, 77, 0, 0, 0, 0]) 3 3 1) 3) 3 =
      { data := some (List.replicate ((3 : Int) * 3).toNat 0),
        width := 3, height := 3, channels := 1 } :=
  C4_open_removes_isolated_pixel (Image.mk (some [0, 0, 0, 0, 77, 0, 0, 0, 0]) 3 3 1)
    ⟨by decide, by decide, by decide, by decide, [0, 0, 0, 0, 77, 0, 0, 0, 0], rfl, by decide,
      by decide⟩
    rfl 1 1
    (by
      intro x y hx0 hx1 hy0 hy1 hne
      have hx1 : x < 3 := hx1
      have hy1 : y < 3 := hy1
      interval_cases x <;> interval_cases y <;>
        first
          | rfl
          | exact absurd ⟨rfl, rfl⟩ hne)

/-- On a plane whose pixels away from (px, py) are all 255, dilation with a
3 x 3 element writes 255 at every interior pixel. -/
theorem dilate_hole_interior (img : Image) (hwf : img.WF) (hc : img.channels = 1) (px py : Int)
    (hp : ∀ x y, 0 ≤ x → x < img.width → 0 ≤ y → y < img.height → ¬ (x = px ∧ y = py) →
      rd img.bytes (y * img.width + x) = 255)
    (x y : Int) (hx1 : 1 ≤ x) (hx2 : x < img.width - 1) (hy1 : 1 ≤ y) (hy2 : y < img.height - 1) :
    rd (dilate img 3).bytes (y * img.width + x) = 255 := by
  obtain ⟨_, hlen, hb⟩ := hwf.bytes_spec
  obtain ⟨hpos, hfit⟩ := hwf.plane_fits
  have hb255 : ∀ i, rd img.bytes i ≤ 255 := by
    intro i
    unfold rd
    split
    · rw [List.getD_eq_getElem?_getD]
      by_cases hi : i.toNat < img.bytes.length
      · rw [List.getElem?_eq_getElem hi]
        have := hb _ (List.getElem_mem hi)
        simp only [Option.getD_some]
        omega
      · rw [List.getElem?_eq_none (by omega)]
        simp
    · omega
  unfold dilate
  rw [to_gray_of_one img hc, img_create_plane hwf, tdiv_three_two]
  dsimp only [Option.map_some', Image.bytes, Option.getD_some]
  have hr := (raster img.width img.height 1 (img.width - 1) 1 (img.height - 1)
    (fun x y => dilate_max (img.data.getD []) img.width 1 x y)
    (List.replicate (img.width * img.height).toNat 0) (by norm_num) (by omega) (by norm_num)
    (by omega) hwf.1 (by rw [List.length_replicate]; omega)).2 x y (by omega) (by omega)
  rw [hr, if_pos ⟨⟨hx1, hx2⟩, hy1, hy2⟩]
  by_cases c : x - 1 = px ∧ y - 1 = py
  · apply dilate_max_eq_255 _ hb255 img.width 1 x y 1 1 (by omega) (by omega)
    exact hp (x + 1) (y + 1) (by omega) (by omega) (by omega) (by omega) (by omega)
  · apply dilate_max_eq_255 _ hb255 img.width 1 x y (-1) (-1) (by omega) (by omega)
    exact hp (x + -1) (y + -1) (by omega) (by omega) (by omega) (by omega) (by omega)

theorem dilate_shape (img : Image) (hwf : img.WF) (hc : img.channels = 1) :
    (dilate img 3).width = img.width ∧ (dilate img 3).height = img.height ∧
    (dilate img 3).channels = 1 ∧
    ∃ d, (dilate img 3).data = some d ∧ (d.length : Int) = img.width * img.height := by
  obtain ⟨hpos, hfit⟩ := hwf.plane_fits
  unfold dilate
  rw [to_gray_of_one img hc, img_create_plane hwf, tdiv_three_two]
  dsimp only [Option.map_some']
  refine ⟨rfl, rfl, rfl, _, rfl, ?_⟩
  rw [(raster img.width img.height 1 (img.width - 1) 1 (img.height - 1)
    (fun x y => dilate_max img.bytes img.width 1 x y)
    (List.replicate (img.width * img.height).toNat 0) (by norm_num) (by omega) (by norm_num)
    (by omega) hwf.1 (by rw [List.length_replicate]; omega)).1, List.length_replicate]
  omega

/-- C5 (as amended): close, taken as dilate with a 3 x 3 element followed by
erode with a 3 x 3 element chained in memory, fills a one-pixel hole that lies
at least two pixels away from every edge: for every 1-channel image whose pixels
are all 255 except the one at (px, py), with 2 <= px < width - 2 and
2 <= py < height - 2, the result has value 255 at (px, py). -/
theorem C5_close_fills_inner_hole (img : Image) (hwf : img.WF) (hc : img.channels = 1)
    (px py : Int) (hpx : 2 ≤ px ∧ px < img.width - 2) (hpy : 2 ≤ py ∧ py < img.height - 2)
    (hp : ∀ x y, 0 ≤ x → x < img.width → 0 ≤ y → y < img.height → ¬ (x = px ∧ y = py) →
      rd img.bytes (y * img.width + x) = 255) :
    rd (erode (dilate img 3) 3).bytes (py * img.width + px) = 255 := by
  obtain ⟨hpos, hfit⟩ := hwf.plane_fits
  obtain ⟨dw, dh, dc, d, hd, hdl⟩ := dilate_shape img hwf hc
  have hD : dilate img 3 = { data := some d, width := img.width, height := img.height,
                             channels := 1 } := by
    cases hxx : dilate img 3 with
    | mk a b c e =>
      rw [hxx] at dw dh dc hd
      simp only at dw dh dc hd
      rw [dw, dh, dc, hd]
  have hint := dilate_hole_interior img hwf hc px py hp
  rw [hD] at hint ⊢
  have hbytes : (Image.mk (some d) img.width img.height 1).bytes = d := rfl
  rw [hbytes] at hint
  unfold erode
  rw [to_gray_of_one _ rfl]
  have hc1 : img_create img.width img.height 1 = _ := img_create_plane hwf
  dsimp only
  rw [hc1, tdiv_three_two]
  dsimp only [Option.map_some', Image.bytes, Option.getD_some]
  have hr := (raster img.width img.height 1 (img.width - 1) 1 (img.height - 1)
    (fun x y => erode_min d img.width 1 x y)
    (List.replicate (img.width * img.height).toNat 0) (by norm_num) (by omega) (by norm_num)
    (by omega) hwf.1 (by rw [List.length_replicate]; omega)).2 px py (by omega) (by omega)
  rw [hr, if_pos ⟨⟨by omega, by omega⟩, by omega, by omega⟩]
  apply erode_min_eq_255
  intro dx dy h1 h2 h3 h4
  exact hint (px + dx) (py + dy) (by omega) (by omega) (by omega) (by omega)

/-- Witness for C5: the 5 x 5 image that is 255 except at its centre. -/
theorem C5_close_fills_inner_hole_witness :
    rd (erode (dilate (Image.mk (some [255, 255, 255, 255, 255, 255, 255, 255, 255, 255,
      255, 255, 0, 255, 255, 255, 255, 255, 255, 255, 255, 255, 255, 255, 255]) 5 5 1) 3) 3).bytes
      (2 * 5 + 2) = 255 :=
  C5_close_fills_inner_hole (Image.mk (some [255, 255, 255, 255, 255, 255, 255, 255, 255, 255,
      255, 255, 0, 255, 255, 255, 255, 255, 255, 255, 255, 255, 255, 255, 255]) 5 5 1)
    ⟨by decide, by decide, by decide, by decide, _, rfl, by decide, by decide⟩
    rfl 2 2 (by decide) (by decide)
    (by
      intro x y hx0 hx1 hy0 hy1 hne
      have hx1 : x < 5 := hx1
      have hy1 : y < 5 := hy1
      interval_cases x <;> interval_cases y <;>
        first
          | rfl
          | exact absurd ⟨rfl, rfl⟩ hne)

/-- C5 fails as stated on the 3 x 3 image that is 255 except at its centre
(1, 1): dilation leaves the outer ring at 0, so erosion of the centre window
gives 0 there, not 255. -/
theorem C5_close_hole_near_edge :
    (3 : Int) ≤ 3 ∧
    rd (Image.mk (some [255, 255, 255, 255, 0, 255, 255, 255, 255]) 3 3 1).bytes (1 * 3 + 1) = 0 ∧
    rd (erode (dilate (Image.mk (some [255, 255, 255, 255, 0, 255, 255, 255, 255]) 3 3 1) 3) 3).bytes
      (1 * 3 + 1) = 0 ∧
    ¬ rd (erode (dilate (Image.mk (some [255, 255, 255, 255, 0, 255, 255, 255, 255]) 3 3 1) 3)
      3).bytes (1 * 3 + 1) = 255 := by
  have h : rd (erode (dilate (Image.mk (some [255, 255, 255, 255, 0, 255, 255, 255, 255]) 3 3 1)
      3) 3).bytes (1 * 3 + 1) = 0 := by decide
  refine ⟨le_refl _, by decide, h, ?_⟩
  rw [h]
  decide


/-! ## Rasterizer -/

/-- Byte offsets of in-range pixel coordinates and channel are in range. -/
theorem pix_idx_bound {w h n x y c : Int} (hx : 0 ≤ x) (hxw : x < w) (hy : 0 ≤ y) (hyh : y < h)
    (hc : 0 ≤ c) (hcc : c < n) :
    0 ≤ (y * w + x) * n + c ∧ (y * w + x) * n + c < w * h * n := by
  obtain ⟨h1, h2⟩ := idx_bound hx hxw hy hyh
  have := idx_bound (w := n) (h := w * h) hc hcc h1 h2
  rw [mul_comm n (w * h)] at this
  exact this

/-- Byte offsets determine pixel and channel. -/
theorem pix_idx_inj {w n x y c x2 y2 c2 : Int} (hx : 0 ≤ x) (hxw : x < w) (hc : 0 ≤ c)
    (hcc : c < n) (hx2 : 0 ≤ x2) (hx2w : x2 < w) (hc2 : 0 ≤ c2) (hcc2 : c2 < n)
    (h : (y * w + x) * n + c = (y2 * w + x2) * n + c2) : (x = x2 ∧ y = y2) ∧ c = c2 := by
  obtain ⟨h1, h2⟩ := idx_inj hc hcc hc2 hcc2 h
  obtain ⟨h3, h4⟩ := idx_inj hx hxw hx2 hx2w h1
  exact ⟨⟨h4, h3⟩, h2⟩

theorem draw_pixel_spec (img : Image) (d : List Nat) (hd : img.data = some d)
    (hlen : (d.length : Int) = img.width * img.height * img.channels) (hch : 0 < img.channels)
    (x y : Int) (hx : 0 ≤ x ∧ x < img.width) (hy : 0 ≤ y ∧ y < img.height) (r g b : Nat) :
    ∃ d2, draw_pixel img x y r g b = { img with data := some d2 } ∧ d2.length = d.length ∧
      ∀ x2 y2 c, 0 ≤ x2 → x2 < img.width → 0 ≤ c → c < img.channels →
        rd d2 ((y2 * img.width + x2) * img.channels + c)
          = if x2 = x ∧ y2 = y then
              penByte img.channels r g b c (rd d ((y2 * img.width + x2) * img.channels + c))
            else rd d ((y2 * img.width + x2) * img.channels + c) := by
  unfold draw_pixel
  rw [if_neg (by omega)]
  simp only
  have b0 := pix_idx_bound (n := img.channels) hx.1 hx.2 hy.1 hy.2 (le_refl 0) hch
  rw [add_zero] at b0
  have ne : ∀ x2 y2 c k, 0 ≤ x2 → x2 < img.width → 0 ≤ c → c < img.channels →
      ¬ (x2 = x ∧ y2 = y) → 0 ≤ k → k < img.channels →
      (y * img.width + x) * img.channels + k ≠ (y2 * img.width + x2) * img.channels + c := by
    intro x2 y2 c k hx2 hx2w hc hcc e hk hkc heq
    obtain ⟨⟨q1, q2⟩, _⟩ := pix_idx_inj hx.1 hx.2 hk hkc hx2 hx2w hc hcc heq
    exact e ⟨q1.symm, q2.symm⟩
  generalize hP : (y * img.width + x) * img.channels = P at b0 ne
  by_cases h3 : img.channels ≥ 3
  · rw [if_pos h3, hd]
    refine ⟨_, rfl, by simp only [length_wr], ?_⟩
    intro x2 y2 c hx2 hx2w hc hcc
    have b2 := pix_idx_bound (n := img.channels) (c := 2) hx.1 hx.2 hy.1 hy.2 (by omega)
      (by omega)
    rw [hP] at b2
    simp only [Option.map_some', Option.some.injEq]
    by_cases e : x2 = x ∧ y2 = y
    · obtain ⟨e1, e2⟩ := e
      subst e1 e2
      rw [if_pos ⟨rfl, rfl⟩, hP]
      unfold penByte
      rw [if_pos h3]
      by_cases c0 : c = 0
      · subst c0
        rw [add_zero, rd_wr_of_ne _ _ _ _ (show P + 2 ≠ P by omega),
          rd_wr_of_ne _ _ _ _ (show P + 1 ≠ P by omega), rd_wr_same _ _ _ b0.1 (by omega)]
        simp
      · by_cases c1 : c = 1
        · subst c1
          rw [rd_wr_of_ne _ _ _ _ (show P + 2 ≠ P + 1 by omega),
            rd_wr_same _ _ _ (by omega) (by rw [length_wr]; omega)]
          simp
        · by_cases c2 : c = 2
          · subst c2
            rw [rd_wr_same _ _ _ (by omega) (by simp only [length_wr]; omega)]
            simp
          · rw [rd_wr_of_ne _ _ _ _ (show P + 2 ≠ P + c by omega),
              rd_wr_of_ne _ _ _ _ (show P + 1 ≠ P + c by omega),
              rd_wr_of_ne _ _ _ _ (show P ≠ P + c by omega), if_neg c0, if_neg c1, if_neg c2]
    · rw [if_neg e]
      have n0 := ne x2 y2 c 0 hx2 hx2w hc hcc e (le_refl _) hch
      have n1 := ne x2 y2 c 1 hx2 hx2w hc hcc e (by omega) (by omega)
      have n2 := ne x2 y2 c 2 hx2 hx2w hc hcc e (by omega) (by omega)
      rw [add_zero] at n0
      rw [rd_wr_of_ne _ _ _ _ n2, rd_wr_of_ne _ _ _ _ n1, rd_wr_of_ne _ _ _ _ n0]
  · rw [if_neg h3, hd]
    refine ⟨_, rfl, by simp only [length_wr], ?_⟩
    intro x2 y2 c hx2 hx2w hc hcc
    simp only [Option.map_some', Option.some.injEq]
    by_cases e : x2 = x ∧ y2 = y
    · obtain ⟨e1, e2⟩ := e
      subst e1 e2
      rw [if_pos ⟨rfl, rfl⟩, hP]
      unfold penByte
      rw [if_neg (by omega)]
      by_cases c0 : c = 0
      · subst c0
        rw [add_zero, rd_wr_same _ _ _ b0.1 (by omega)]
        simp
      · rw [rd_wr_of_ne _ _ _ _ (show P ≠ P + c by omega), if_neg c0]
    · rw [if_neg e]
      have n0 := ne x2 y2 c 0 hx2 hx2w hc hcc e (le_refl _) hch
      rw [add_zero] at n0
      rw [rd_wr_of_ne _ _ _ _ n0]


theorem rd_zero_of_blank (d : List Nat) (hblank : ∀ v ∈ d, v = 0) (i : Int) : rd d i = 0 := by
  unfold rd
  split
  · rw [List.getD_eq_getElem?_getD]
    by_cases hi : i.toNat < d.length
    · rw [List.getElem?_eq_getElem hi]
      exact hblank _ (List.getElem_mem hi)
    · rw [List.getElem?_eq_none (by omega)]
      rfl
  · rfl

theorem memcpy_all (dst src : List Nat) (n : Int) (hd : (dst.length : Int) = n)
    (hs : (src.length : Int) = n) : memcpy dst 0 src 0 n = src := by
  unfold memcpy
  simp only [zero_add]
  apply ext_rd
  · rw [(forLoop_fill (fun k => rd src k) dst n).1]
    omega
  · intro j
    rw [(forLoop_fill (fun k => rd src k) dst n).2 j]
    by_cases c : 0 ≤ j ∧ j < n ∧ j < dst.length
    · rw [if_pos c]
    · rw [if_neg c]
      by_cases c0 : 0 ≤ j
      · rw [rd_of_ge dst j (by omega), rd_of_ge src j (by omega)]
      · rw [rd_of_neg dst j (by omega), rd_of_neg src j (by omega)]

theorem Image.eq_mk (img : Image) (d : List Nat) (hd : img.data = some d) :
    img = { data := some d, width := img.width, height := img.height, channels := img.channels } := by
  cases img
  simp only at hd
  rw [hd]

/-- Copying a decoded image gives the image back. -/
theorem img_copy_eq (img : Image) (hwf : img.WF) : img_copy img = img := by
  obtain ⟨hd, hlen, _⟩ := hwf.bytes_spec
  obtain ⟨hpos, hfit⟩ := hwf.plane_fits
  have hc := img_create_of_fits img.width img.height img.channels hwf.1.le hwf.2.1.le
    hwf.2.2.1.le hwf.2.2.2.1 hfit
  have hnn : 0 ≤ img.width * img.height * img.channels :=
    mul_nonneg hpos.le hwf.2.2.1.le
  unfold img_copy
  rw [hc, hd]
  simp only
  rw [memcpy_all _ _ _ (by rw [List.length_replicate]; omega) hlen]
  exact (Image.eq_mk img img.bytes hd).symm

/-- The grayscale block maps a blank image to the blank plane. -/
theorem to_gray_blank (img : Image) (hwf : img.WF) (hblank : ∀ v ∈ img.bytes, v = 0) :
    to_gray img = { data := some (List.replicate (img.width * img.height).toNat 0),
                    width := img.width, height := img.height, channels := 1 } := by
  obtain ⟨hd, hlen, _⟩ := hwf.bytes_spec
  by_cases hc : img.channels > 1
  · unfold to_gray
    rw [if_pos hc, img_create_plane hwf]
    simp only [Option.map_some']
    rw [forLoop_fixed]
    intro i _ _
    simp only [rd_zero_of_blank img.bytes hblank]
    exact wr_zero_replicate _ _
  · have hc1 : img.channels = 1 := by
      have := hwf.2.2.1
      omega
    rw [to_gray_of_one img hc1]
    rw [hc1, mul_one] at hlen
    have : img.bytes = List.replicate (img.width * img.height).toNat 0 := by
      rw [List.eq_replicate_iff]
      exact ⟨by omega, hblank⟩
    rw [this] at hd
    have e := Image.eq_mk img _ hd
    rw [hc1] at e
    exact e

theorem canny_blur_val_blank (gray : List Nat) (hblank : ∀ v ∈ gray, v = 0) (w x y : Int) :
    canny_blur_val gray w x y = 0 := by
  unfold canny_blur_val
  apply forLoop_fixed
  intro ky _ _
  apply forLoop_fixed
  intro kx _ _
  rw [rd_zero_of_blank gray hblank]
  simp

/-- The simplified Canny map of the blank plane is the blank plane, for every
non-negative high threshold. -/
theorem canny_blank (img : Image) (hwf : img.WF) (lo hi : ℚ) (hhi : 0 ≤ hi) :
    canny_edge_detection
        { data := some (List.replicate (img.width * img.height).toNat 0),
          width := img.width, height := img.height, channels := 1 } lo hi
      = { data := some (List.replicate (img.width * img.height).toNat 0),
          width := img.width, height := img.height, channels := 1 } := by
  have hz := wf_zero_plane hwf
  have hb : ∀ v ∈ List.replicate (img.width * img.height).toNat 0, v = 0 :=
    fun v hv => (List.mem_replicate.mp hv).2
  unfold canny_edge_detection
  rw [to_gray_of_one _ rfl]
  have hc := img_create_plane hwf
  simp only [hc, Option.map_some', Option.getD_some, Image.bytes]
  have hblur : forLoop 2 (img.height - 2) (fun y acc =>
      forLoop 2 (img.width - 2) (fun x acc =>
        wr acc (y * img.width + x)
          ((canny_blur_val (List.replicate (img.width * img.height).toNat 0) img.width x y
            / 159).toNat % 256)) acc)
      (List.replicate (img.width * img.height).toNat 0)
      = List.replicate (img.width * img.height).toNat 0 := by
    apply forLoop_fixed
    intro y _ _
    apply forLoop_fixed
    intro x _ _
    rw [canny_blur_val_blank _ hb]
    exact wr_zero_replicate _ _
  rw [hblur]
  have hout : forLoop 0 (img.width * img.height) (fun i acc =>
      wr acc i (if ((rd (List.replicate (img.width * img.height).toNat 0) i : Nat) : ℚ) > hi
        then 255 else 0))
      (List.replicate (img.width * img.height).toNat 0)
      = List.replicate (img.width * img.height).toNat 0 := by
    apply forLoop_fixed
    intro i _ _
    rw [rd_replicate_zero, if_neg (by simpa using hhi)]
    exact wr_zero_replicate _ _
  rw [hout]

/-- On a plane without foreground pixel, `find_contours` reports nothing. -/
theorem find_contours_blank (img : Image) (hblank : ∀ v ∈ img.bytes, v = 0) :
    find_contours img = ([], 0) := by
  have hl : label_pass img = (List.replicate (img.width * img.height).toNat 0, 1) := by
    unfold label_pass
    apply forLoop_fixed
    intro y _ _
    apply forLoop_fixed
    intro x _ _
    unfold label_step
    simp only [rd_zero_of_blank img.bytes hblank, gt_iff_lt, lt_self_iff_false, if_false]
  unfold find_contours
  rw [hl]
  simp only
  unfold emit_rects
  rw [forLoop_of_le (le_refl _)]


theorem detect_contours_blank (img : Image) (hwf : img.WF) (hblank : ∀ v ∈ img.bytes, v = 0)
    (fuel : Nat) (encode : Image → Int) (r g b thickness : Int) :
    find_contours (canny_edge_detection (to_gray img) 50 150) = ([], 0) ∧
    l_img_detect_contours fuel encode img r g b thickness =
      some { ret := [LuaVal.bool (decide (encode img ≠ 0)), LuaVal.int 0], written := some img } := by
  obtain ⟨hd, _, _⟩ := hwf.bytes_spec
  have hfc : find_contours (canny_edge_detection (to_gray img) 50 150) = ([], 0) := by
    rw [to_gray_blank img hwf hblank, canny_blank img hwf 50 150 (by norm_num)]
    apply find_contours_blank
    intro v hv
    exact (List.mem_replicate.mp hv).2
  refine ⟨hfc, ?_⟩
  unfold l_img_detect_contours
  have hsome : ¬ img.data.isNone = true := by
    rw [hd]
    simp
  rw [if_neg hsome]
  simp only [hfc, img_copy_eq img hwf, draw_contours, List.foldlM_nil]
  have hw : img_write encode img = (encode img, some img) := by
    unfold img_write
    rw [if_neg]
    rintro (h | h | h)
    · exact hsome h
    · have := hwf.1
      omega
    · have := hwf.2.1
      omega
  simp [hw]

/-- C7: for every all-zero image of any width, height and channel count, the
`detect_contours` pipeline (grayscale, then `canny_edge_detection` with low 50
and high 150, then `find_contours`) finds no rectangle, returns rect_count = 0
and draws nothing: the image handed to the writer is the input image. -/
theorem C7_detect_contours_blank (img : Image) (hwf : img.WF) (hblank : ∀ v ∈ img.bytes, v = 0)
    (fuel : Nat) (encode : Image → Int) (r g b thickness : Int) :
    find_contours (canny_edge_detection (to_gray img) 50 150) = ([], 0) ∧
    l_img_detect_contours fuel encode img r g b thickness =
      some { ret := [LuaVal.bool (decide (encode img ≠ 0)), LuaVal.int 0], written := some img } :=
  detect_contours_blank img hwf hblank fuel encode r g b thickness

/-- Witness for C7: a blank 6 x 5 image with 3 channels. -/
theorem C7_detect_contours_blank_witness :
    find_contours (canny_edge_detection (to_gray (Image.mk (some (List.replicate 90 0)) 6 5 3))
      50 150) = ([], 0) ∧
    l_img_detect_contours 0 (fun _ => 1) (Image.mk (some (List.replicate 90 0)) 6 5 3) 0 255 0 2 =
      some { ret := [LuaVal.bool (decide ((fun _ => (1 : Int)) (Image.mk (some (List.replicate 90 0)) 6 5 3) ≠ 0)),
                     LuaVal.int 0],
             written := some (Image.mk (some (List.replicate 90 0)) 6 5 3) } :=
  C7_detect_contours_blank (Image.mk (some (List.replicate 90 0)) 6 5 3)
    ⟨by decide, by decide, by decide, by decide, _, rfl, by decide, by decide⟩
    (by decide) 0 (fun _ => 1) 0 255 0 2


/-! ## Bounding-box arrays -/

theorem box_init_length (img : Image) (n : Int) :
    (box_init img n).min_x.length = n.toNat ∧ (box_init img n).min_y.length = n.toNat ∧
    (box_init img n).max_x.length = n.toNat ∧ (box_init img n).max_y.length = n.toNat := by
  unfold box_init
  refine forLoop_pres
    (fun bx : Boxes => bx.min_x.length = n.toNat ∧ bx.min_y.length = n.toNat ∧
      bx.max_x.length = n.toNat ∧ bx.max_y.length = n.toNat) _ _ _ _ ?_ ?_
  · simp only [List.length_replicate, and_self]
  · intro i bx _ _ ⟨h1, h2, h3, h4⟩
    simp only [length_wri]
    exact ⟨h1, h2, h3, h4⟩

theorem box_update_min_x (bx : Boxes) (label x y : Int) :
    (box_update bx label x y).min_x
      = if x < rdi bx.min_x label then wri bx.min_x label x else bx.min_x := by
  unfold box_update
  simp only
  split_ifs <;> rfl

theorem box_update_min_y (bx : Boxes) (label x y : Int) :
    (box_update bx label x y).min_y
      = if y < rdi bx.min_y label then wri bx.min_y label y else bx.min_y := by
  unfold box_update
  simp only
  split_ifs <;> rfl

theorem box_update_max_x (bx : Boxes) (label x y : Int) :
    (box_update bx label x y).max_x
      = if x > rdi bx.max_x label then wri bx.max_x label x else bx.max_x := by
  unfold box_update
  simp only
  split_ifs <;> rfl

theorem box_update_max_y (bx : Boxes) (label x y : Int) :
    (box_update bx label x y).max_y
      = if y > rdi bx.max_y label then wri bx.max_y label y else bx.max_y := by
  unfold box_update
  simp only
  split_ifs <;> rfl

/-- Storing `min(old, v)` at index k: no entry grows and entry k is at most v. -/
theorem min_store (a : List Int) (k v : Int) (hk : 0 ≤ k) (hkn : k < a.length) :
    (if v < rdi a k then wri a k v else a).length = a.length ∧
    (∀ i, rdi (if v < rdi a k then wri a k v else a) i ≤ rdi a i) ∧
    rdi (if v < rdi a k then wri a k v else a) k ≤ v := by
  by_cases c : v < rdi a k
  · rw [if_pos c]
    refine ⟨length_wri _ _ _, ?_, ?_⟩
    · intro i
      rw [rdi_wri]
      by_cases e : k = i
      · subst e
        rw [if_pos ⟨rfl, hk, hkn⟩]
        exact le_of_lt c
      · rw [if_neg (fun hh => e hh.1)]
    · rw [rdi_wri, if_pos ⟨rfl, hk, hkn⟩]
  · rw [if_neg c]
    exact ⟨rfl, fun i => le_refl _, not_lt.mp c⟩

/-- Storing `max(old, v)` at index k: no entry shrinks and entry k is at least
v. -/
theorem max_store (a : List Int) (k v : Int) (hk : 0 ≤ k) (hkn : k < a.length) :
    (if v > rdi a k then wri a k v else a).length = a.length ∧
    (∀ i, rdi a i ≤ rdi (if v > rdi a k then wri a k v else a) i) ∧
    v ≤ rdi (if v > rdi a k then wri a k v else a) k := by
  by_cases c : v > rdi a k
  · rw [if_pos c]
    refine ⟨length_wri _ _ _, ?_, ?_⟩
    · intro i
      rw [rdi_wri]
      by_cases e : k = i
      · subst e
        rw [if_pos ⟨rfl, hk, hkn⟩]
        exact le_of_lt c
      · rw [if_neg (fun hh => e hh.1)]
    · rw [rdi_wri, if_pos ⟨rfl, hk, hkn⟩]
  · rw [if_neg c]
    exact ⟨rfl, fun i => le_refl _, not_lt.mp c⟩


/-! ## Crop -/

theorem crop_check_iff (encode : Image → Int) (img : Image) (hdec : img.data ≠ none)
    (x y w h : Int) :
    l_img_crop encode img x y w h =
        { ret := [LuaVal.bool false, LuaVal.str "Invalid crop rectangle"], written := none }
      ↔ (x < 0 ∨ y < 0 ∨ wrap32 (x + w) > img.width ∨ wrap32 (y + h) > img.height) := by
  have hsome : ¬ img.data.isNone = true := by
    cases hd : img.data with
    | none => exact absurd hd hdec
    | some d => simp
  unfold l_img_crop
  rw [if_neg hsome]
  constructor
  · intro heq
    by_contra hcon
    rw [if_neg hcon] at heq
    simp only at heq
    split at heq
    · have := congrArg Outcome.ret heq
      simp at this
    · have := congrArg (fun o => o.ret.length) heq
      simp at this
  · intro hc
    rw [if_pos hc]

/-- C9 (as amended): for every decoded image and all `int` values x, y, w, h
whose sums x + w and y + h do not overflow a 32-bit `int`, crop reports the
validation failure (returns false plus the message Invalid crop rectangle and
hands nothing to the writer) if and only if x < 0 or y < 0 or x + w > width or
y + h > height; in particular it fails whenever x + w > width. -/
theorem C9_crop_validation (encode : Image → Int) (img : Image) (hdec : img.data ≠ none)
    (x y w h : Int)
    (hxw : -2147483648 ≤ x + w ∧ x + w < 2147483648)
    (hyh : -2147483648 ≤ y + h ∧ y + h < 2147483648) :
    (l_img_crop encode img x y w h =
        { ret := [LuaVal.bool false, LuaVal.str "Invalid crop rectangle"], written := none }
      ↔ (x < 0 ∨ y < 0 ∨ x + w > img.width ∨ y + h > img.height)) ∧
    (x + w > img.width →
      l_img_crop encode img x y w h =
        { ret := [LuaVal.bool false, LuaVal.str "Invalid crop rectangle"], written := none }) := by
  have h := crop_check_iff encode img hdec x y w h
  rw [wrap32_of_range _ hxw.1 hxw.2, wrap32_of_range _ hyh.1 hyh.2] at h
  exact ⟨h, fun hgt => h.mpr (Or.inr (Or.inr (Or.inl hgt)))⟩

/-- Witness for C9: the rectangle (3, 0, 2, 2) on a 4 x 4 image. -/
theorem C9_crop_validation_witness :
    (l_img_crop (fun _ => 1) (Image.mk (some (List.replicate 16 7)) 4 4 1) 3 0 2 2 =
        { ret := [LuaVal.bool false, LuaVal.str "Invalid crop rectangle"], written := none }
      ↔ ((3 : Int) < 0 ∨ (0 : Int) < 0 ∨ (3 : Int) + 2 > 4 ∨ (0 : Int) + 2 > 4)) ∧
    ((3 : Int) + 2 > 4 →
      l_img_crop (fun _ => 1) (Image.mk (some (List.replicate 16 7)) 4 4 1) 3 0 2 2 =
        { ret := [LuaVal.bool false, LuaVal.str "Invalid crop rectangle"], written := none }) :=
  C9_crop_validation (fun _ => 1) (Image.mk (some (List.replicate 16 7)) 4 4 1) (by decide)
    3 0 2 2 (by decide) (by decide)

/-- C9 fails as stated at x = 1, w = 2147483647 on a 4 x 4 image: x + w exceeds
the width, but the `int` sum wraps to -2147483648, the check passes, and the
call ends in the allocation failure instead of the validation failure. -/
theorem C9_crop_sum_overflow :
    (1 : Int) + 2147483647 > 4 ∧
    l_img_crop (fun _ => 1) (Image.mk (some (List.replicate 16 7)) 4 4 1) 1 0 2147483647 2 =
      { ret := [LuaVal.bool false, LuaVal.str "Memory allocation failed"], written := none } ∧
    ¬ l_img_crop (fun _ => 1) (Image.mk (some (List.replicate 16 7)) 4 4 1) 1 0 2147483647 2 =
      { ret := [LuaVal.bool false, LuaVal.str "Invalid crop rectangle"], written := none } := by
  refine ⟨by decide, by decide, by decide⟩


/-- The row-wise copy as a raster loop over rows of `w * channels` bytes. -/
theorem crop_rows_spec (src : List Nat) (sw ch x y w h : Int) (o : List Nat)
    (hw : 0 < w) (hh : 0 ≤ h) (hch : 0 < ch) (hlen : (o.length : Int) = w * h * ch) :
    (crop_rows src sw ch x y w h o).length = o.length ∧
    ∀ k cy, 0 ≤ k → k < w * ch → 0 ≤ cy → cy < h →
      rd (crop_rows src sw ch x y w h o) (cy * (w * ch) + k)
        = rd src (((y + cy) * sw + x) * ch + k) := by
  have hwc : 0 < w * ch := mul_pos hw hch
  have e : crop_rows src sw ch x y w h o
      = forLoop 0 h (fun cy acc =>
          forLoop 0 (w * ch) (fun k acc =>
            wr acc (cy * (w * ch) + k) (rd src (((y + cy) * sw + x) * ch + k))) acc) o := by
    unfold crop_rows memcpy
    simp only [mul_assoc]
  rw [e]
  have hr := raster (w * ch) h 0 (w * ch) 0 h
    (fun k cy => rd src (((y + cy) * sw + x) * ch + k)) o (le_refl _) (le_refl _) (le_refl _)
    (le_refl _) hwc (by rw [hlen]; ring)
  refine ⟨hr.1, ?_⟩
  intro k cy hk hkw hcy hcyh
  rw [hr.2 k cy hk hkw, if_pos ⟨⟨hk, hkw⟩, hcy, hcyh⟩]

/-- The valid path of `l_img_crop`: what is built and handed to the writer. -/
theorem crop_valid (encode : Image → Int) (img : Image) (hwf : img.WF) (x y w h : Int)
    (hx : 0 ≤ x) (hy : 0 ≤ y) (hw : 0 < w) (hh : 0 < h) (hxw : x + w ≤ img.width)
    (hyh : y + h ≤ img.height) :
    ∃ o, l_img_crop encode img x y w h =
        { ret := [LuaVal.bool (decide (encode { data := some o, width := w, height := h,
                                                 channels := img.channels } ≠ 0))],
          written := some { data := some o, width := w, height := h, channels := img.channels } } ∧
      (o.length : Int) = w * h * img.channels ∧
      o = crop_rows img.bytes img.width img.channels x y w h
            (List.replicate (w * h * img.channels).toNat 0) := by
  obtain ⟨hd, hlen, _⟩ := hwf.bytes_spec
  obtain ⟨hpos, hfit⟩ := hwf.plane_fits
  obtain ⟨hW, hH, hC, hfitc, _⟩ := hwf
  have hwh_le : w * h ≤ img.width * img.height :=
    mul_le_mul (by omega) (by omega) hh.le hW.le
  have hwhc_le : w * h * img.channels ≤ img.width * img.height * img.channels :=
    mul_le_mul_of_nonneg_right hwh_le hC.le
  have hwhpos : 0 < w * h := mul_pos hw hh
  have hwhcpos : 0 < w * h * img.channels := mul_pos hwhpos hC
  have hWb : img.width ≤ img.width * img.height := by nlinarith
  have hHb : img.height ≤ img.width * img.height := by nlinarith
  have hsome : ¬ img.data.isNone = true := by
    rw [hd]
    simp
  have hchk : ¬ (x < 0 ∨ y < 0 ∨ wrap32 (x + w) > img.width ∨ wrap32 (y + h) > img.height) := by
    rw [wrap32_of_range (x + w) (by omega) (by omega),
      wrap32_of_range (y + h) (by omega) (by omega)]
    omega
  have hc := img_create_of_fits w h img.channels hw.le hh.le hC.le (by omega) (by omega)
  have hl : ((crop_rows img.bytes img.width img.channels x y w h
      (List.replicate (w * h * img.channels).toNat 0)).length : Int) = w * h * img.channels := by
    rw [(crop_rows_spec img.bytes img.width img.channels x y w h _ hw hh.le hC
      (by rw [List.length_replicate]; omega)).1, List.length_replicate]
    omega
  refine ⟨_, ?_, hl, rfl⟩
  unfold l_img_crop
  rw [if_neg hsome, if_neg hchk, hc]
  simp only
  unfold img_write
  rw [if_neg]
  rintro (h1 | h1 | h1)
  · simp at h1
  · exact absurd h1 (by simp only [not_le]; exact hw)
  · exact absurd h1 (by simp only [not_le]; exact hh)

/-- C10: for every image and every rectangle with x, y >= 0, w, h > 0,
x + w <= width and y + h <= height, the buffer built by crop has width w,
height h and the source channel count, and its pixel (i, j, c) equals source
pixel (x + i, y + j, c) for all 0 <= i < w, 0 <= j < h and every channel c;
cropping with (0, 0, width, height) hands the source image to the writer
unchanged. -/
theorem C10_crop_copies_rectangle (encode : Image → Int) (img : Image) (hwf : img.WF)
    (x y w h : Int) (hx : 0 ≤ x) (hy : 0 ≤ y) (hw : 0 < w) (hh : 0 < h)
    (hxw : x + w ≤ img.width) (hyh : y + h ≤ img.height) :
    (∃ out o, (l_img_crop encode img x y w h).written = some out ∧
      (l_img_crop encode img x y w h).ret = [LuaVal.bool (decide (encode out ≠ 0))] ∧
      out.width = w ∧ out.height = h ∧ out.channels = img.channels ∧
      out.data = some o ∧ (o.length : Int) = w * h * img.channels ∧
      ∀ i j c, 0 ≤ i → i < w → 0 ≤ j → j < h → 0 ≤ c → c < img.channels →
        rd o ((j * w + i) * img.channels + c)
          = rd img.bytes (((y + j) * img.width + (x + i)) * img.channels + c)) ∧
    (l_img_crop encode img 0 0 img.width img.height).written = some img := by
  obtain ⟨hd, hlen, _⟩ := hwf.bytes_spec
  have hC := hwf.2.2.1
  constructor
  · obtain ⟨o, ho, hl, he⟩ := crop_valid encode img hwf x y w h hx hy hw hh hxw hyh
    refine ⟨{ data := some o, width := w, height := h, channels := img.channels }, o,
      by rw [ho], by rw [ho], rfl, rfl, rfl, rfl, hl, ?_⟩
    intro i j c hi hiw hj hjh hc hcc
    have hk := idx_bound (w := img.channels) (h := w) hc hcc hi hiw
    have hs := (crop_rows_spec img.bytes img.width img.channels x y w h
      (List.replicate (w * h * img.channels).toNat 0) hw hh.le hC
      (by
        have : 0 < w * h * img.channels := mul_pos (mul_pos hw hh) hC
        rw [List.length_replicate]
        omega)).2 (i * img.channels + c) j hk.1 (by rw [mul_comm w]; exact hk.2) hj hjh
    rw [he]
    have e1 : (j * w + i) * img.channels + c = j * (w * img.channels) + (i * img.channels + c) := by
      ring
    have e2 : ((y + j) * img.width + (x + i)) * img.channels + c
        = ((y + j) * img.width + x) * img.channels + (i * img.channels + c) := by ring
    rw [e1, e2]
    exact hs
  · obtain ⟨o, ho, hl, he⟩ := crop_valid encode img hwf 0 0 img.width img.height (le_refl _)
      (le_refl _) hwf.1 hwf.2.1 (by omega) (by omega)
    rw [ho]
    simp only [Option.some.injEq]
    have hwc : 0 < img.width * img.channels := mul_pos hwf.1 hC
    have hob : o = img.bytes := by
      apply ext_rd
      · have : (o.length : Int) = (img.bytes.length : Int) := by rw [hl, hlen]
        exact_mod_cast this
      · intro n
        by_cases hn : 0 ≤ n ∧ n < img.width * img.height * img.channels
        · have hs := (crop_rows_spec img.bytes img.width img.channels 0 0 img.width img.height
            (List.replicate (img.width * img.height * img.channels).toNat 0) hwf.1 hwf.2.1.le hC
            (by rw [List.length_replicate]; omega)).2
            (n % (img.width * img.channels)) (n / (img.width * img.channels))
            (Int.emod_nonneg _ (ne_of_gt hwc)) (Int.emod_lt_of_pos _ hwc)
            (Int.ediv_nonneg hn.1 hwc.le)
            (by
              apply Int.ediv_lt_of_lt_mul hwc
              have : img.height * (img.width * img.channels)
                  = img.width * img.height * img.channels := by ring
              rw [this]
              exact hn.2)
          have e1 : n / (img.width * img.channels) * (img.width * img.channels)
              + n % (img.width * img.channels) = n := by
            rw [mul_comm]
            exact Int.ediv_add_emod n (img.width * img.channels)
          have e2 : ((0 + n / (img.width * img.channels)) * img.width + 0) * img.channels
              + n % (img.width * img.channels) = n := by
            have e3 : ((0 + n / (img.width * img.channels)) * img.width + 0) * img.channels
                + n % (img.width * img.channels)
                = n / (img.width * img.channels) * (img.width * img.channels)
                  + n % (img.width * img.channels) := by ring
            rw [e3]
            exact e1
          rw [e1, e2, ← he] at hs
          exact hs
        · by_cases c0 : 0 ≤ n
          · rw [rd_of_ge o n (by omega), rd_of_ge img.bytes n (by omega)]
          · rw [rd_of_neg o n (by omega), rd_of_neg img.bytes n (by omega)]
    rw [hob]
    exact (Image.eq_mk img img.bytes hd).symm

/-- Witness for C10: the rectangle (1, 1, 2, 2) of a 4 x 3 image with 2
channels. -/
theorem C10_crop_copies_rectangle_witness :
    (∃ out o, (l_img_crop (fun _ => 1) (Image.mk (some [0, 1, 2, 3, 4, 5, 6, 7, 8, 9, 10, 11, 12,
          13, 14, 15, 16, 17, 18, 19, 20, 21, 22, 23]) 4 3 2) 1 1 2 2).written = some out ∧
      (l_img_crop (fun _ => 1) (Image.mk (some [0, 1, 2, 3, 4, 5, 6, 7, 8, 9, 10, 11, 12,
          13, 14, 15, 16, 17, 18, 19, 20, 21, 22, 23]) 4 3 2) 1 1 2 2).ret
        = [LuaVal.bool (decide ((fun _ => (1 : Int)) out ≠ 0))] ∧
      out.width = 2 ∧ out.height = 2 ∧ out.channels = 2 ∧
      out.data = some o ∧ (o.length : Int) = 2 * 2 * 2 ∧
      ∀ i j c, 0 ≤ i → i < (2 : Int) → 0 ≤ j → j < (2 : Int) → 0 ≤ c → c < (2 : Int) →
        rd o ((j * 2 + i) * 2 + c)
          = rd (Image.mk (some [0, 1, 2, 3, 4, 5, 6, 7, 8, 9, 10, 11, 12,
              13, 14, 15, 16, 17, 18, 19, 20, 21, 22, 23]) 4 3 2).bytes
              (((1 + j) * 4 + (1 + i)) * 2 + c)) ∧
    (l_img_crop (fun _ => 1) (Image.mk (some [0, 1, 2, 3, 4, 5, 6, 7, 8, 9, 10, 11, 12,
        13, 14, 15, 16, 17, 18, 19, 20, 21, 22, 23]) 4 3 2) 0 0 4 3).written
      = some (Image.mk (some [0, 1, 2, 3, 4, 5, 6, 7, 8, 9, 10, 11, 12,
        13, 14, 15, 16, 17, 18, 19, 20, 21, 22, 23]) 4 3 2) :=
  C10_crop_copies_rectangle (fun _ => 1) (Image.mk (some [0, 1, 2, 3, 4, 5, 6, 7, 8, 9, 10, 11, 12,
      13, 14, 15, 16, 17, 18, 19, 20, 21, 22, 23]) 4 3 2)
    ⟨by decide, by decide, by decide, by decide, _, rfl, by decide, by decide⟩
    1 1 2 2 (by decide) (by decide) (by decide) (by decide) (by decide) (by decide)


/-! ## `find_contours` on the band image: more than 100 rectangles -/

theorem stripe_pixel (x y : Int) (hx : 0 ≤ x) (hxw : x < 2324) (hy : 0 ≤ y) (hyh : y < 24) :
    rd stripeImage.bytes (y * 2324 + x) = if x % 23 = 0 then 0 else 255 := by
  have hidx : 0 ≤ y * 2324 + x := by omega
  have hlt : (y * 2324 + x).toNat < 2324 * 24 := by omega
  have hb : stripeImage.bytes = stripePixels := rfl
  rw [hb]
  unfold rd stripePixels
  rw [if_pos hidx, List.getD_eq_getElem?_getD, List.getElem?_map, List.getElem?_range hlt,
    Option.map_some', Option.getD_some]
  have e : (y * 2324 + x).toNat % 2324 % 23 = 0 ↔ x % 23 = 0 := by
    have h1 : (y * 2324 + x).toNat = x.toNat + 2324 * y.toNat := by omega
    have h2 : (x.toNat + 2324 * y.toNat) % 2324 = x.toNat := by
      rw [Nat.add_mul_mod_self_left]
      exact Nat.mod_eq_of_lt (by omega)
    rw [h1, h2]
    omega
  by_cases c : x % 23 = 0
  · rw [if_pos c, if_pos (e.mpr c)]
  · rw [if_neg c, if_neg (fun h => c (e.mp h))]

theorem stripe_labels_skip (x y : Int) (labels : List Int) (h : StripeLabels x y labels)
    (hbg : x % 23 = 0) : StripeLabels (x + 1) y labels := by
  refine ⟨h.1, ?_⟩
  intro x2 y2 h1 h2 h3 h4
  rw [h.2 x2 y2 h1 h2 h3 h4]
  by_cases c : x2 % 23 ≠ 0 ∧ ((1 ≤ y2 ∧ y2 < y) ∨ (y2 = y ∧ 1 ≤ x2 ∧ x2 < x))
  · rw [if_pos c, if_pos]
    obtain ⟨c1, c2⟩ := c
    refine ⟨c1, ?_⟩
    rcases c2 with c2 | c2
    · exact Or.inl c2
    · exact Or.inr ⟨c2.1, c2.2.1, by omega⟩
  · rw [if_neg c, if_neg]
    rintro ⟨c1, c2⟩
    apply c
    refine ⟨c1, ?_⟩
    rcases c2 with c2 | c2
    · exact Or.inl c2
    · refine Or.inr ⟨c2.1, c2.2.1, ?_⟩
      have : x2 ≠ x := fun e => c1 (e ▸ hbg)
      omega

theorem stripe_labels_set (x y : Int) (labels : List Int) (h : StripeLabels x y labels)
    (hx : 1 ≤ x ∧ x < 2323) (hy : 1 ≤ y ∧ y < 23) (hfg : x % 23 ≠ 0) :
    StripeLabels (x + 1) y (wri labels (y * 2324 + x) (x / 23 + 1)) := by
  refine ⟨by rw [length_wri, h.1], ?_⟩
  intro x2 y2 h1 h2 h3 h4
  rw [rdi_wri, h.1, h.2 x2 y2 h1 h2 h3 h4]
  by_cases e : x2 = x ∧ y2 = y
  · obtain ⟨e1, e2⟩ := e
    subst e1 e2
    rw [if_pos ⟨rfl, by omega, by omega⟩, if_pos ⟨hfg, Or.inr ⟨rfl, hx.1, by omega⟩⟩]
  · have ne : y * 2324 + x ≠ y2 * 2324 + x2 := by
      intro heq
      apply e
      omega
    rw [if_neg (fun hh => ne hh.1)]
    by_cases c : x2 % 23 ≠ 0 ∧ ((1 ≤ y2 ∧ y2 < y) ∨ (y2 = y ∧ 1 ≤ x2 ∧ x2 < x))
    · rw [if_pos c, if_pos]
      obtain ⟨c1, c2⟩ := c
      refine ⟨c1, ?_⟩
      rcases c2 with c2 | c2
      · exact Or.inl c2
      · exact Or.inr ⟨c2.1, c2.2.1, by omega⟩
    · rw [if_neg c, if_neg]
      rintro ⟨c1, c2⟩
      apply c
      refine ⟨c1, ?_⟩
      rcases c2 with c2 | c2
      · exact Or.inl c2
      · refine Or.inr ⟨c2.1, c2.2.1, ?_⟩
        have : x2 ≠ x := fun e2 => e ⟨e2, c2.1⟩
        omega

theorem stripe_left (x y : Int) (labels : List Int) (h : StripeLabels x y labels)
    (hx : 1 ≤ x ∧ x < 2323) (hy : 1 ≤ y ∧ y < 23) :
    rdi labels (y * 2324 + (x - 1)) = if x % 23 ≠ 1 then (x - 1) / 23 + 1 else 0 := by
  rw [h.2 (x - 1) y (by omega) (by omega) (by omega) (by omega)]
  by_cases c : x % 23 ≠ 1
  · rw [if_pos c, if_pos]
    refine ⟨by omega, Or.inr ⟨rfl, ?_, by omega⟩⟩
    by_contra hc
    have : x = 1 := by omega
    subst this
    exact c (by decide)
  · rw [if_neg c, if_neg]
    rintro ⟨c1, _⟩
    omega

theorem stripe_top (x y : Int) (labels : List Int) (h : StripeLabels x y labels)
    (hx : 1 ≤ x ∧ x < 2323) (hy : 1 ≤ y ∧ y < 23) :
    rdi labels ((y - 1) * 2324 + x) = if x % 23 ≠ 0 ∧ y ≠ 1 then x / 23 + 1 else 0 := by
  rw [h.2 x (y - 1) (by omega) (by omega) (by omega) (by omega)]
  by_cases c : x % 23 ≠ 0 ∧ y ≠ 1
  · rw [if_pos c, if_pos]
    exact ⟨c.1, Or.inl ⟨by omega, by omega⟩⟩
  · rw [if_neg c, if_neg]
    rintro ⟨c1, c2⟩
    apply c
    refine ⟨c1, ?_⟩
    rcases c2 with c2 | c2
    · omega
    · omega

theorem stripe_label_step (x y : Int) (st : List Int × Int) (hx : 1 ≤ x ∧ x < 2323)
    (hy : 1 ≤ y ∧ y < 23) (hl : StripeLabels x y st.1)
    (hc : st.2 = if y = 1 then 1 + (x + 21) / 23 else 102) :
    StripeLabels (x + 1) y (label_step stripeImage y x st).1 ∧
    (label_step stripeImage y x st).2 = if y = 1 then 1 + (x + 1 + 21) / 23 else 102 := by
  have hw : stripeImage.width = 2324 := rfl
  unfold label_step
  simp only [hw]
  rw [stripe_pixel x y (by omega) (by omega) (by omega) (by omega),
    stripe_left x y st.1 hl hx hy, stripe_top x y st.1 hl hx hy]
  by_cases hbg : x % 23 = 0
  · rw [if_pos hbg, if_neg (show ¬ (0 : Nat) > 0 by decide)]
    refine ⟨stripe_labels_skip x y st.1 hl hbg, ?_⟩
    rw [hc]
    by_cases y1 : y = 1
    · rw [if_pos y1, if_pos y1]
      omega
    · rw [if_neg y1, if_neg y1]
  · rw [if_neg hbg, if_pos (show (255 : Nat) > 0 by decide)]
    by_cases hstart : x % 23 = 1
    · have hleft : (if x % 23 ≠ 1 then (x - 1) / 23 + 1 else 0) = (0 : Int) :=
        if_neg (fun hh => hh hstart)
      rw [hleft]
      by_cases y1 : y = 1
      · have htop : (if x % 23 ≠ 0 ∧ y ≠ 1 then x / 23 + 1 else 0) = (0 : Int) :=
          if_neg (fun hh => hh.2 y1)
        rw [htop, if_pos (show (0 : Int) = 0 ∧ (0 : Int) = 0 from ⟨rfl, rfl⟩)]
        have hv : st.2 = x / 23 + 1 := by
          rw [hc, if_pos y1]
          omega
        refine ⟨?_, ?_⟩
        · show StripeLabels (x + 1) y (wri st.1 (y * 2324 + x) st.2)
          rw [hv]
          exact stripe_labels_set x y st.1 hl hx hy hbg
        · show st.2 + 1 = _
          rw [hc, if_pos y1, if_pos y1]
          omega
      · have htop : (if x % 23 ≠ 0 ∧ y ≠ 1 then x / 23 + 1 else 0) = x / 23 + 1 :=
          if_pos ⟨hbg, y1⟩
        have hne : x / 23 + 1 ≠ 0 := by omega
        rw [htop, if_neg (show ¬ ((0 : Int) = 0 ∧ x / 23 + 1 = 0) from fun hh => hne hh.2),
          if_neg (show ¬ ((0 : Int) ≠ 0) from fun hh => hh rfl), if_pos hne]
        refine ⟨stripe_labels_set x y st.1 hl hx hy hbg, ?_⟩
        show st.2 = _
        rw [hc, if_neg y1, if_neg y1]
    · have hleft : (if x % 23 ≠ 1 then (x - 1) / 23 + 1 else 0) = (x - 1) / 23 + 1 :=
        if_pos hstart
      rw [hleft]
      have hne : (x - 1) / 23 + 1 ≠ 0 := by omega
      rw [if_neg (show ¬ ((x - 1) / 23 + 1 = 0 ∧ _) from fun hh => hne hh.1), if_pos hne]
      have hv : (x - 1) / 23 + 1 = x / 23 + 1 := by omega
      refine ⟨?_, ?_⟩
      · show StripeLabels (x + 1) y (wri st.1 (y * 2324 + x) ((x - 1) / 23 + 1))
        rw [hv]
        exact stripe_labels_set x y st.1 hl hx hy hbg
      · show st.2 = _
        rw [hc]
        by_cases y1 : y = 1
        · rw [if_pos y1, if_pos y1]
          omega
        · rw [if_neg y1, if_neg y1]

/-- The labelling pass on the band image creates the 101 labels 1..101, one
per band. -/
theorem stripe_label_pass :
    ∃ labels, label_pass stripeImage = (labels, 102) ∧ labels.length = 55776 ∧
      ∀ x y : Int, 0 ≤ x → x < 2324 → 0 ≤ y → y < 24 →
        rdi labels (y * 2324 + x) = if x % 23 ≠ 0 ∧ 1 ≤ y ∧ y ≤ 22 then x / 23 + 1 else 0 := by
  have hw : stripeImage.width = 2324 := rfl
  have hh : stripeImage.height = 24 := rfl
  have key := forLoop_induct (show (1 : Int) ≤ 23 by norm_num)
    (fun y st => forLoop 1 2323 (fun x st => label_step stripeImage y x st) st)
    (List.replicate (55776 : Nat) (0 : Int), (1 : Int))
    (fun (y : Int) (st : List Int × Int) =>
      StripeLabels 1 y st.1 ∧ st.2 = if y = 1 then 1 else 102)
    ?_ ?_
  · have e1 : (24 : Int) - 1 = 23 := by norm_num
    have e2 : (2324 : Int) - 1 = 2323 := by norm_num
    have e3 : ((2324 : Int) * 24).toNat = 55776 := by decide
    have hpass : label_pass stripeImage
        = forLoop 1 23
            (fun y st => forLoop 1 2323 (fun x st => label_step stripeImage y x st) st)
            (List.replicate (55776 : Nat) (0 : Int), (1 : Int)) := by
      unfold label_pass
      rw [hw, hh, e1, e2, e3]
    rw [← hpass] at key
    obtain ⟨hl, hc⟩ := key
    rw [if_neg (by norm_num)] at hc
    generalize label_pass stripeImage = p at hl hc
    obtain ⟨labels, cur⟩ := p
    simp only at hl hc
    subst hc
    refine ⟨labels, rfl, hl.1, ?_⟩
    · intro x y h1 h2 h3 h4
      rw [hl.2 x y h1 h2 h3 h4]
      by_cases c : x % 23 ≠ 0 ∧ 1 ≤ y ∧ y ≤ 22
      · rw [if_pos c, if_pos]
        exact ⟨c.1, Or.inl ⟨c.2.1, by omega⟩⟩
      · rw [if_neg c, if_neg]
        rintro ⟨c1, c2⟩
        apply c
        refine ⟨c1, ?_⟩
        rcases c2 with c2 | c2
        · omega
        · omega
  · refine ⟨⟨List.length_replicate _ _, ?_⟩, rfl⟩
    intro x2 y2 _ _ _ _
    rw [rdi_replicate_zero, if_neg]
    rintro ⟨_, c2⟩
    rcases c2 with c2 | c2
    · omega
    · omega
  · intro y st hy1 hy2 ⟨hl, hc⟩
    have inner := forLoop_induct (show (1 : Int) ≤ 2323 by norm_num)
      (fun x st => label_step stripeImage y x st) st
      (fun (x : Int) (s : List Int × Int) =>
        StripeLabels x y s.1 ∧ s.2 = if y = 1 then 1 + (x + 21) / 23 else 102)
      ⟨hl, by
        rw [hc]
        by_cases y1 : y = 1
        · rw [if_pos y1, if_pos y1]
          norm_num
        · rw [if_neg y1, if_neg y1]⟩
      (fun x s hx1 hx2 hs => stripe_label_step x y s ⟨hx1, hx2⟩ ⟨hy1, hy2⟩ hs.1 hs.2)
    obtain ⟨il, ic⟩ := inner
    refine ⟨⟨il.1, ?_⟩, ?_⟩
    · intro x2 y2 h1 h2 h3 h4
      rw [il.2 x2 y2 h1 h2 h3 h4]
      by_cases c : x2 % 23 ≠ 0 ∧ ((1 ≤ y2 ∧ y2 < y) ∨ (y2 = y ∧ 1 ≤ x2 ∧ x2 < 2323))
      · rw [if_pos c, if_pos]
        obtain ⟨c1, c2⟩ := c
        refine ⟨c1, Or.inl ?_⟩
        rcases c2 with c2 | c2
        · omega
        · omega
      · rw [if_neg c, if_neg]
        rintro ⟨c1, c2⟩
        apply c
        refine ⟨c1, ?_⟩
        rcases c2 with c2 | c2
        · by_cases e : y2 = y
          · exact Or.inr ⟨e, by omega, by omega⟩
          · exact Or.inl ⟨c2.1, by omega⟩
        · omega
    · rw [ic]
      by_cases y1 : y = 1
      · rw [if_pos y1, if_neg (by omega)]
        norm_num
      · rw [if_neg y1, if_neg (by omega)]


theorem stripe_box_step (labels : List Int)
    (hlab : ∀ x y : Int, 0 ≤ x → x < 2324 → 0 ≤ y → y < 24 →
      rdi labels (y * 2324 + x) = if x % 23 ≠ 0 ∧ 1 ≤ y ∧ y ≤ 22 then x / 23 + 1 else 0)
    (x y : Int) (bx : Boxes) (hx : 0 ≤ x ∧ x < 2324) (hy : 0 ≤ y ∧ y < 24)
    (h : StripeBoxes x y bx) : StripeBoxes (x + 1) y (box_step stripeImage labels y x bx) := by
  have hw : stripeImage.width = 2324 := rfl
  obtain ⟨⟨l1, l2, l3, l4⟩, hb⟩ := h
  unfold box_step
  simp only [hw]
  rw [hlab x y hx.1 hx.2 hy.1 hy.2]
  by_cases c : x % 23 ≠ 0 ∧ 1 ≤ y ∧ y ≤ 22
  · rw [if_pos c]
    have hk0 : 0 ≤ x / 23 + 1 := by omega
    have hk1 : x / 23 + 1 ≤ 101 := by omega
    rw [if_pos (show x / 23 + 1 > 0 by omega)]
    obtain ⟨a1, a2, a3⟩ := min_store bx.min_x (x / 23 + 1) x hk0 (by rw [l1]; omega)
    obtain ⟨b1, b2, b3⟩ := min_store bx.min_y (x / 23 + 1) y hk0 (by rw [l2]; omega)
    obtain ⟨c1, c2, c3⟩ := max_store bx.max_x (x / 23 + 1) x hk0 (by rw [l3]; omega)
    obtain ⟨d1, d2, d3⟩ := max_store bx.max_y (x / 23 + 1) y hk0 (by rw [l4]; omega)
    refine ⟨⟨?_, ?_, ?_, ?_⟩, ?_⟩
    · rw [box_update_min_x, a1, l1]
    · rw [box_update_min_y, b1, l2]
    · rw [box_update_max_x, c1, l3]
    · rw [box_update_max_y, d1, l4]
    · intro i hi1 hi2
      rw [box_update_min_x, box_update_min_y, box_update_max_x, box_update_max_y]
      have a2i := a2 i
      have b2i := b2 i
      have c2i := c2 i
      have d2i := d2 i
      obtain ⟨m1, m2⟩ := hb i hi1 hi2
      constructor
      · intro hcond
        by_cases e : y = 1 ∧ 23 * (i - 1) + 1 = x
        · have ei : x / 23 + 1 = i := by omega
          subst ei
          omega
        · have := m1 (by omega)
          omega
      · intro hcond
        by_cases e : y = 22 ∧ 23 * (i - 1) + 22 = x
        · have ei : x / 23 + 1 = i := by omega
          subst ei
          omega
        · have := m2 (by omega)
          omega
  · rw [if_neg c, if_neg (show ¬ (0 : Int) > 0 by decide)]
    refine ⟨⟨l1, l2, l3, l4⟩, ?_⟩
    intro i hi1 hi2
    obtain ⟨m1, m2⟩ := hb i hi1 hi2
    constructor
    · intro hcond
      apply m1
      rcases hcond with h1 | h1
      · exact Or.inl h1
      · refine Or.inr ⟨h1.1, ?_⟩
        have : 23 * (i - 1) + 1 ≠ x := by
          intro e
          apply c
          omega
        omega
    · intro hcond
      apply m2
      rcases hcond with h1 | h1
      · exact Or.inl h1
      · refine Or.inr ⟨h1.1, ?_⟩
        have : 23 * (i - 1) + 22 ≠ x := by
          intro e
          apply c
          omega
        omega


theorem stripe_box_pass (labels : List Int)
    (hlab : ∀ x y : Int, 0 ≤ x → x < 2324 → 0 ≤ y → y < 24 →
      rdi labels (y * 2324 + x) = if x % 23 ≠ 0 ∧ 1 ≤ y ∧ y ≤ 22 then x / 23 + 1 else 0) :
    StripeBoxes 0 24 (box_pass stripeImage labels (box_init stripeImage 102)) := by
  have hw : stripeImage.width = 2324 := rfl
  have hh : stripeImage.height = 24 := rfl
  unfold box_pass
  rw [hw, hh]
  refine forLoop_induct (show (0 : Int) ≤ 24 by norm_num) _ _
    (fun (y : Int) (bx : Boxes) => StripeBoxes 0 y bx) ?_ ?_
  · refine ⟨box_init_length stripeImage 102, ?_⟩
    intro i _ _
    constructor
    · intro h
      omega
    · intro h
      omega
  · intro y bx hy1 hy2 hq
    have inner := forLoop_induct (show (0 : Int) ≤ 2324 by norm_num)
      (fun x bx => box_step stripeImage labels y x bx) bx
      (fun (x : Int) (b : Boxes) => StripeBoxes x y b) hq
      (fun x b hx1 hx2 hb => stripe_box_step labels hlab x y b ⟨hx1, hx2⟩ ⟨hy1, hy2⟩ hb)
    refine ⟨inner.1, ?_⟩
    intro i hi1 hi2
    obtain ⟨m1, m2⟩ := inner.2 i hi1 hi2
    constructor
    · intro h
      apply m1
      omega
    · intro h
      apply m2
      omega


/-- When every label below n has a box larger than 20 x 20 the emission loop
stores a rectangle for each of them: nothing bounds the count. -/
theorem emit_rects_all (bx : Boxes) (n : Int) (hn : 1 ≤ n)
    (hq : ∀ i, 1 ≤ i → i < n →
      rdi bx.max_x i - rdi bx.min_x i > 20 ∧ rdi bx.max_y i - rdi bx.min_y i > 20) :
    (emit_rects bx n).2 = n - 1 ∧ ((emit_rects bx n).1.length : Int) = n - 1 := by
  unfold emit_rects
  refine forLoop_induct hn _ _
    (fun (i : Int) (st : List Rect × Int) => st.2 = i - 1 ∧ (st.1.length : Int) = i - 1) ?_ ?_
  · exact ⟨by norm_num, by norm_num⟩
  · intro i st h1 h2 ⟨hs1, hs2⟩
    unfold emit_step
    simp only
    rw [if_pos (hq i h1 h2)]
    refine ⟨?_, ?_⟩
    · show st.2 + 1 = i + 1 - 1
      omega
    · show ((st.1 ++ [_]).length : Int) = i + 1 - 1
      rw [List.length_append, List.length_singleton]
      push_cast
      omega


theorem stripe_wf : stripeImage.WF := by
  refine ⟨by decide, by decide, by decide, by decide, stripePixels, rfl, ?_, ?_⟩
  · unfold stripePixels
    rw [List.length_map, List.length_range]
    rfl
  · intro v hv
    unfold stripePixels at hv
    rw [List.mem_map] at hv
    obtain ⟨i, _, hi⟩ := hv
    rw [← hi]
    split <;> norm_num


theorem find_contours_stripes :
    (find_contours stripeImage).2 = 101 ∧ (find_contours stripeImage).1.length = 101 := by
  obtain ⟨labels, hp, _, hlab⟩ := stripe_label_pass
  have hb := stripe_box_pass labels hlab
  have hq : ∀ i : Int, 1 ≤ i → i < 102 →
      rdi (box_pass stripeImage labels (box_init stripeImage 102)).max_x i
        - rdi (box_pass stripeImage labels (box_init stripeImage 102)).min_x i > 20 ∧
      rdi (box_pass stripeImage labels (box_init stripeImage 102)).max_y i
        - rdi (box_pass stripeImage labels (box_init stripeImage 102)).min_y i > 20 := by
    generalize box_pass stripeImage labels (box_init stripeImage 102) = bx at hb
    intro i h1 h2
    obtain ⟨m1, m2⟩ := hb.2 i h1 (by omega)
    have := m1 (Or.inl (by norm_num))
    have := m2 (Or.inl (by norm_num))
    omega
  obtain ⟨e1, e2⟩ := emit_rects_all (box_pass stripeImage labels (box_init stripeImage 102)) 102
    (by norm_num) hq
  have hf : find_contours stripeImage
      = emit_rects (box_pass stripeImage labels (box_init stripeImage 102)) 102 := by
    unfold find_contours
    rw [hp]
  rw [hf]
  generalize emit_rects (box_pass stripeImage labels (box_init stripeImage 102)) 102 = r at e1 e2
  constructor
  · rw [e1]
    norm_num
  · have : (r.1.length : Int) = 101 := by
      rw [e2]
      norm_num
    exact_mod_cast this

/-- C8, evaluation at the failing input: on the 2324 x 24 band image, a decoded
single-channel image, `find_contours` reports 101 rectangles and stores 101
entries in the array it allocated for 100. -/
theorem C8_find_contours_exceeds_capacity :
    stripeImage.WF ∧ stripeImage.channels = 1 ∧
    (find_contours stripeImage).2 = 101 ∧ (find_contours stripeImage).1.length = 101 ∧
    ¬ (find_contours stripeImage).2 ≤ 100 := by
  obtain ⟨h1, h2⟩ := find_contours_stripes
  have hc : stripeImage.channels = 1 := rfl
  refine ⟨stripe_wf, hc, h1, h2, ?_⟩
  generalize find_contours stripeImage = r at h1
  rw [h1]
  norm_num


/-! ## Row-parallel executor -/

theorem intRange_zero_four : intRange 0 4 = [0, 1, 2, 3] := by decide

/-- The four bands of `parallel_for` for a non-negative height. -/
theorem parallel_for_jobs_eq (height : Int) (hh : 0 ≤ height) :
    parallel_for_jobs height
      = [(0, height / 4), (height / 4, 2 * (height / 4)),
         (2 * (height / 4), 3 * (height / 4)), (3 * (height / 4), height)] := by
  have hq : Int.tdiv height 4 = height / 4 := Int.tdiv_eq_ediv hh (by norm_num)
  unfold parallel_for_jobs forLoop MAX_THREADS
  simp only [intRange_zero_four, hq, List.foldl_cons, List.foldl_nil, List.nil_append,
    List.cons_append]
  norm_num

/-- C11: for every image height >= 0, `parallel_for` creates exactly 4 bands
`[start_y, end_y)` that are contiguous and in ascending order and whose union is
exactly `[0, height)`: every row y in `[0, height)` lies in exactly one band; the
first three bands have height/4 rows each and the last band has
height/4 + height mod 4 rows. -/
theorem C11_parallel_for_bands (height : Int) (hh : 0 ≤ height) :
    parallel_for_jobs height
      = [(0, height / 4), (height / 4, 2 * (height / 4)),
         (2 * (height / 4), 3 * (height / 4)), (3 * (height / 4), height)] ∧
    (parallel_for_jobs height).length = 4 ∧
    (∀ i : Nat, i < 4 →
      ((parallel_for_jobs height).getD i (0, 0)).1 ≤ ((parallel_for_jobs height).getD i (0, 0)).2) ∧
    ((parallel_for_jobs height).getD 0 (0, 0)).1 = 0 ∧
    (∀ i : Nat, i < 3 →
      ((parallel_for_jobs height).getD i (0, 0)).2
        = ((parallel_for_jobs height).getD (i + 1) (0, 0)).1) ∧
    ((parallel_for_jobs height).getD 3 (0, 0)).2 = height ∧
    (∀ y : Int, 0 ≤ y → y < height →
      ∃! i : Nat, i < 4 ∧ ((parallel_for_jobs height).getD i (0, 0)).1 ≤ y ∧
        y < ((parallel_for_jobs height).getD i (0, 0)).2) ∧
    (∀ i : Nat, i < 3 →
      ((parallel_for_jobs height).getD i (0, 0)).2 - ((parallel_for_jobs height).getD i (0, 0)).1
        = height / 4) ∧
    ((parallel_for_jobs height).getD 3 (0, 0)).2 - ((parallel_for_jobs height).getD 3 (0, 0)).1
      = height / 4 + height % 4 := by
  rw [parallel_for_jobs_eq height hh]
  refine ⟨rfl, rfl, ?_, rfl, ?_, rfl, ?_, ?_, ?_⟩
  · intro i hi
    interval_cases i <;> simp <;> omega
  · intro i hi
    interval_cases i <;> simp
  · intro y hy0 hy1
    by_cases c0 : y < height / 4
    · refine ⟨0, ⟨by norm_num, by simpa using hy0, by simpa using c0⟩, ?_⟩
      rintro j ⟨hj, h1, h2⟩
      interval_cases j <;> simp at h1 h2 ⊢ <;> omega
    · by_cases c1 : y < 2 * (height / 4)
      · refine ⟨1, ⟨by norm_num, by simp; omega, by simpa using c1⟩, ?_⟩
        rintro j ⟨hj, h1, h2⟩
        interval_cases j <;> simp at h1 h2 ⊢ <;> omega
      · by_cases c2 : y < 3 * (height / 4)
        · refine ⟨2, ⟨by norm_num, by simp; omega, by simpa using c2⟩, ?_⟩
          rintro j ⟨hj, h1, h2⟩
          interval_cases j <;> simp at h1 h2 ⊢ <;> omega
        · refine ⟨3, ⟨by norm_num, by simp; omega, by simpa using hy1⟩, ?_⟩
          rintro j ⟨hj, h1, h2⟩
          interval_cases j <;> simp at h1 h2 ⊢ <;> omega
  · intro i hi
    interval_cases i <;> simp <;> omega
  · simp
    omega

/-- Witness for C11: an image of height 10 gives the bands 0-2, 2-4, 4-6 and
6-10. -/
theorem C11_parallel_for_bands_witness :
    parallel_for_jobs 10
      = [(0, (10 : Int) / 4), ((10 : Int) / 4, 2 * ((10 : Int) / 4)),
         (2 * ((10 : Int) / 4), 3 * ((10 : Int) / 4)), (3 * ((10 : Int) / 4), 10)] ∧
    (parallel_for_jobs 10).length = 4 ∧
    (∀ i : Nat, i < 4 →
      ((parallel_for_jobs 10).getD i (0, 0)).1 ≤ ((parallel_for_jobs 10).getD i (0, 0)).2) ∧
    ((parallel_for_jobs 10).getD 0 (0, 0)).1 = 0 ∧
    (∀ i : Nat, i < 3 →
      ((parallel_for_jobs 10).getD i (0, 0)).2
        = ((parallel_for_jobs 10).getD (i + 1) (0, 0)).1) ∧
    ((parallel_for_jobs 10).getD 3 (0, 0)).2 = 10 ∧
    (∀ y : Int, 0 ≤ y → y < 10 →
      ∃! i : Nat, i < 4 ∧ ((parallel_for_jobs 10).getD i (0, 0)).1 ≤ y ∧
        y < ((parallel_for_jobs 10).getD i (0, 0)).2) ∧
    (∀ i : Nat, i < 3 →
      ((parallel_for_jobs 10).getD i (0, 0)).2 - ((parallel_for_jobs 10).getD i (0, 0)).1
        = (10 : Int) / 4) ∧
    ((parallel_for_jobs 10).getD 3 (0, 0)).2 - ((parallel_for_jobs 10).getD 3 (0, 0)).1
      = (10 : Int) / 4 + (10 : Int) % 4 :=
  C11_parallel_for_bands 10 (by decide)


/-! ## Simplified Canny: the output map -/

theorem mem_wr (d : List Nat) (i : Int) (v a : Nat) (h : a ∈ wr d i v) : a ∈ d ∨ a = v := by
  unfold wr at h
  split at h
  · exact List.mem_or_eq_of_mem_set h
  · exact Or.inl h

/-- The output of the simplified Canny map holds only the bytes 0 and 255. -/
theorem canny_binary (img : Image) (lo hi : ℚ) (d : List Nat)
    (hd : (canny_edge_detection img lo hi).data = some d) : ∀ v ∈ d, v = 0 ∨ v = 255 := by
  unfold canny_edge_detection at hd
  simp only [Option.some.injEq] at hd
  rw [← hd]
  refine forLoop_pres (fun acc : List Nat => ∀ v ∈ acc, v = 0 ∨ v = 255) _ _ _ _ ?_ ?_
  · intro v hv
    exact Or.inl (List.mem_replicate.mp hv).2
  · intro i acc _ _ hacc v hv
    rcases mem_wr _ _ _ _ hv with h | h
    · exact hacc v h
    · rw [h]
      split
      · exact Or.inr rfl
      · exact Or.inl rfl

/-- C19: the simplified Canny output does not depend on the low threshold: for
every image, every high threshold and any two low thresholds
`canny_edge_detection` produces the same output, and every output pixel is
either 0 or 255. -/
theorem C19_canny_ignores_low_threshold (img : Image) (hi lo1 lo2 : ℚ) :
    canny_edge_detection img lo1 hi = canny_edge_detection img lo2 hi ∧
    ∀ d, (canny_edge_detection img lo1 hi).data = some d → ∀ v ∈ d, v = 0 ∨ v = 255 :=
  ⟨rfl, fun d hd => canny_binary img lo1 hi d hd⟩


/-! ## Morphology: the window minimum and maximum -/

theorem rd_le_255 (d : List Nat) (hb : ∀ v ∈ d, v < 256) (i : Int) : rd d i ≤ 255 := by
  unfold rd
  split
  · rw [List.getD_eq_getElem?_getD]
    by_cases hi : i.toNat < d.length
    · rw [List.getElem?_eq_getElem hi]
      have := hb _ (List.getElem_mem hi)
      simp only [Option.getD_some]
      omega
    · rw [List.getElem?_eq_none (by omega)]
      simp
  · omega

/-- One row of the window minimum: the result is below the start value and
below every value of the row, and it is one of them. -/
theorem min_row_spec (f : Int → Nat) (lo hi : Int) (m : Nat) :
    forLoop lo hi (fun dx acc => if f dx < acc then f dx else acc) m ≤ m ∧
    (∀ dx, lo ≤ dx → dx < hi →
      forLoop lo hi (fun dx acc => if f dx < acc then f dx else acc) m ≤ f dx) ∧
    (forLoop lo hi (fun dx acc => if f dx < acc then f dx else acc) m = m ∨
      ∃ dx, lo ≤ dx ∧ dx < hi ∧
        forLoop lo hi (fun dx acc => if f dx < acc then f dx else acc) m = f dx) := by
  by_cases hle : lo ≤ hi
  · refine forLoop_induct hle _ m
      (fun (i : Int) (r : Nat) => r ≤ m ∧ (∀ dx, lo ≤ dx → dx < i → r ≤ f dx) ∧
        (r = m ∨ ∃ dx, lo ≤ dx ∧ dx < i ∧ r = f dx))
      ⟨le_refl _, fun dx h1 h2 => by omega, Or.inl rfl⟩ ?_
    intro i r h1 h2 ⟨a, b, c⟩
    by_cases hlt : f i < r
    · simp only [if_pos hlt]
      refine ⟨by omega, ?_, Or.inr ⟨i, h1, by omega, rfl⟩⟩
      intro dx d1 d2
      by_cases e : dx = i
      · rw [e]
      · have := b dx d1 (by omega)
        omega
    · simp only [if_neg hlt]
      refine ⟨a, ?_, ?_⟩
      · intro dx d1 d2
        by_cases e : dx = i
        · rw [e]
          omega
        · exact b dx d1 (by omega)
      · rcases c with c | ⟨dx, c1, c2, c3⟩
        · exact Or.inl c
        · exact Or.inr ⟨dx, c1, by omega, c3⟩
  · rw [forLoop_of_le (by omega)]
    exact ⟨le_refl _, fun dx h1 h2 => by omega, Or.inl rfl⟩

/-- One row of the window maximum. -/
theorem max_row_spec (f : Int → Nat) (lo hi : Int) (m : Nat) :
    m ≤ forLoop lo hi (fun dx acc => if f dx > acc then f dx else acc) m ∧
    (∀ dx, lo ≤ dx → dx < hi →
      f dx ≤ forLoop lo hi (fun dx acc => if f dx > acc then f dx else acc) m) ∧
    (forLoop lo hi (fun dx acc => if f dx > acc then f dx else acc) m = m ∨
      ∃ dx, lo ≤ dx ∧ dx < hi ∧
        forLoop lo hi (fun dx acc => if f dx > acc then f dx else acc) m = f dx) := by
  by_cases hle : lo ≤ hi
  · refine forLoop_induct hle _ m
      (fun (i : Int) (r : Nat) => m ≤ r ∧ (∀ dx, lo ≤ dx → dx < i → f dx ≤ r) ∧
        (r = m ∨ ∃ dx, lo ≤ dx ∧ dx < i ∧ r = f dx))
      ⟨le_refl _, fun dx h1 h2 => by omega, Or.inl rfl⟩ ?_
    intro i r h1 h2 ⟨a, b, c⟩
    by_cases hlt : f i > r
    · simp only [if_pos hlt]
      refine ⟨by omega, ?_, Or.inr ⟨i, h1, by omega, rfl⟩⟩
      intro dx d1 d2
      by_cases e : dx = i
      · rw [e]
      · have := b dx d1 (by omega)
        omega
    · simp only [if_neg hlt]
      refine ⟨a, ?_, ?_⟩
      · intro dx d1 d2
        by_cases e : dx = i
        · rw [e]
          omega
        · exact b dx d1 (by omega)
      · rcases c with c | ⟨dx, c1, c2, c3⟩
        · exact Or.inl c
        · exact Or.inr ⟨dx, c1, by omega, c3⟩
  · rw [forLoop_of_le (by omega)]
    exact ⟨le_refl _, fun dx h1 h2 => by omega, Or.inl rfl⟩

/-- The window minimum of `l_img_erode` is the least value of the window. -/
theorem erode_min_spec (gray : List Nat) (hb : ∀ i, rd gray i ≤ 255) (w half x y : Int)
    (hh : 0 ≤ half) :
    (∀ dx dy, -half ≤ dx → dx ≤ half → -half ≤ dy → dy ≤ half →
      erode_min gray w half x y ≤ rd gray ((y + dy) * w + (x + dx))) ∧
    ∃ dx dy, (-half ≤ dx ∧ dx ≤ half) ∧ (-half ≤ dy ∧ dy ≤ half) ∧
      erode_min gray w half x y = rd gray ((y + dy) * w + (x + dx)) := by
  unfold erode_min
  have key := forLoop_induct (show -half ≤ half + 1 by omega)
    (fun dy m => forLoop (-half) (half + 1) (fun dx m =>
      let val := rd gray ((y + dy) * w + (x + dx))
      if val < m then val else m) m) 255
    (fun (i : Int) (r : Nat) => r ≤ 255 ∧
      (∀ dx dy, -half ≤ dx → dx ≤ half → -half ≤ dy → dy < i →
        r ≤ rd gray ((y + dy) * w + (x + dx))) ∧
      (r = 255 ∨ ∃ dx dy, (-half ≤ dx ∧ dx ≤ half) ∧ (-half ≤ dy ∧ dy < i) ∧
        r = rd gray ((y + dy) * w + (x + dx))))
    ⟨le_refl _, fun dx dy _ _ h1 h2 => by omega, Or.inl rfl⟩ ?_
  · obtain ⟨a, b, c⟩ := key
    refine ⟨fun dx dy h1 h2 h3 h4 => b dx dy h1 h2 h3 (by omega), ?_⟩
    rcases c with c | ⟨dx, dy, c1, c2, c3⟩
    · refine ⟨0, 0, ⟨by omega, hh⟩, ⟨by omega, hh⟩, ?_⟩
      have h1 := b 0 0 (by omega) hh (by omega) (by omega)
      have h2 := hb ((y + 0) * w + (x + 0))
      omega
    · exact ⟨dx, dy, c1, ⟨c2.1, by omega⟩, c3⟩
  · intro i r h1 h2 ⟨a, b, c⟩
    obtain ⟨p, q, s⟩ := min_row_spec (fun dx => rd gray ((y + i) * w + (x + dx))) (-half)
      (half + 1) r
    dsimp only at p q s ⊢
    refine ⟨by omega, ?_, ?_⟩
    · intro dx dy d1 d2 d3 d4
      by_cases e : dy = i
      · rw [e]
        exact q dx d1 (by omega)
      · have := b dx dy d1 d2 d3 (by omega)
        omega
    · rcases s with s | ⟨dx, s1, s2, s3⟩
      · rcases c with c | ⟨dx, dy, c1, c2, c3⟩
        · exact Or.inl (s.trans c)
        · exact Or.inr ⟨dx, dy, c1, ⟨c2.1, by omega⟩, s.trans c3⟩
      · exact Or.inr ⟨dx, i, ⟨s1, by omega⟩, ⟨h1, by omega⟩, s3⟩

/-- The window maximum of `l_img_dilate` is the greatest value of the window. -/
theorem dilate_max_spec (gray : List Nat) (w half x y : Int) (hh : 0 ≤ half) :
    (∀ dx dy, -half ≤ dx → dx ≤ half → -half ≤ dy → dy ≤ half →
      rd gray ((y + dy) * w + (x + dx)) ≤ dilate_max gray w half x y) ∧
    ∃ dx dy, (-half ≤ dx ∧ dx ≤ half) ∧ (-half ≤ dy ∧ dy ≤ half) ∧
      dilate_max gray w half x y = rd gray ((y + dy) * w + (x + dx)) := by
  unfold dilate_max
  have key := forLoop_induct (show -half ≤ half + 1 by omega)
    (fun dy m => forLoop (-half) (half + 1) (fun dx m =>
      let val := rd gray ((y + dy) * w + (x + dx))
      if val > m then val else m) m) 0
    (fun (i : Int) (r : Nat) =>
      (∀ dx dy, -half ≤ dx → dx ≤ half → -half ≤ dy → dy < i →
        rd gray ((y + dy) * w + (x + dx)) ≤ r) ∧
      (r = 0 ∨ ∃ dx dy, (-half ≤ dx ∧ dx ≤ half) ∧ (-half ≤ dy ∧ dy < i) ∧
        r = rd gray ((y + dy) * w + (x + dx))))
    ⟨fun dx dy _ _ h1 h2 => by omega, Or.inl rfl⟩ ?_
  · obtain ⟨b, c⟩ := key
    refine ⟨fun dx dy h1 h2 h3 h4 => b dx dy h1 h2 h3 (by omega), ?_⟩
    rcases c with c | ⟨dx, dy, c1, c2, c3⟩
    · refine ⟨0, 0, ⟨by omega, hh⟩, ⟨by omega, hh⟩, ?_⟩
      have h1 := b 0 0 (by omega) hh (by omega) (by omega)
      omega
    · exact ⟨dx, dy, c1, ⟨c2.1, by omega⟩, c3⟩
  · intro i r h1 h2 ⟨b, c⟩
    obtain ⟨p, q, s⟩ := max_row_spec (fun dx => rd gray ((y + i) * w + (x + dx))) (-half)
      (half + 1) r
    dsimp only at p q s ⊢
    refine ⟨?_, ?_⟩
    · intro dx dy d1 d2 d3 d4
      by_cases e : dy = i
      · rw [e]
        exact q dx d1 (by omega)
      · have := b dx dy d1 d2 d3 (by omega)
        omega
    · rcases s with s | ⟨dx, s1, s2, s3⟩
      · rcases c with c | ⟨dx, dy, c1, c2, c3⟩
        · exact Or.inl (s.trans c)
        · exact Or.inr ⟨dx, dy, c1, ⟨c2.1, by omega⟩, s.trans c3⟩
      · exact Or.inr ⟨dx, i, ⟨s1, by omega⟩, ⟨h1, by omega⟩, s3⟩


/-- The output plane of `l_img_erode` for any size >= 1: the window minimum at
the interior pixels, 0 in the margin. -/
theorem erode_plane (img : Image) (hwf : img.WF) (hc : img.channels = 1) (size : Int)
    (hs : 1 ≤ size) :
    ∃ o, erode img size
        = { data := some o, width := img.width, height := img.height, channels := 1 } ∧
      (o.length : Int) = img.width * img.height ∧
      ∀ x y, 0 ≤ x → x < img.width →
        rd o (y * img.width + x)
          = if (size / 2 ≤ x ∧ x < img.width - size / 2) ∧
                size / 2 ≤ y ∧ y < img.height - size / 2 then
              erode_min img.bytes img.width (size / 2) x y
            else 0 := by
  obtain ⟨hpos, hfit⟩ := hwf.plane_fits
  have hq : Int.tdiv size 2 = size / 2 := Int.tdiv_eq_ediv (by omega) (by norm_num)
  have hh : 0 ≤ size / 2 := by omega
  have hr := raster img.width img.height (size / 2) (img.width - size / 2) (size / 2)
    (img.height - size / 2) (fun x y => erode_min img.bytes img.width (size / 2) x y)
    (List.replicate (img.width * img.height).toNat 0) hh (by omega) hh (by omega) hwf.1
    (by rw [List.length_replicate]; omega)
  have key : erode img size
      = { data := some (forLoop (size / 2) (img.height - size / 2) (fun y acc =>
            forLoop (size / 2) (img.width - size / 2) (fun x acc =>
              wr acc (y * img.width + x) (erode_min img.bytes img.width (size / 2) x y)) acc)
            (List.replicate (img.width * img.height).toNat 0)),
          width := img.width, height := img.height, channels := 1 } := by
    unfold erode
    rw [to_gray_of_one img hc, img_create_plane hwf, hq]
    rfl
  refine ⟨_, key, ?_, ?_⟩
  · rw [hr.1, List.length_replicate]
    omega
  · intro x y hx hxw
    rw [hr.2 x y hx hxw, rd_replicate_zero]

/-- The output plane of `l_img_dilate` for any size >= 1: the window maximum at
the interior pixels, 0 in the margin. -/
theorem dilate_plane (img : Image) (hwf : img.WF) (hc : img.channels = 1) (size : Int)
    (hs : 1 ≤ size) :
    ∃ o, dilate img size
        = { data := some o, width := img.width, height := img.height, channels := 1 } ∧
      (o.length : Int) = img.width * img.height ∧
      ∀ x y, 0 ≤ x → x < img.width →
        rd o (y * img.width + x)
          = if (size / 2 ≤ x ∧ x < img.width - size / 2) ∧
                size / 2 ≤ y ∧ y < img.height - size / 2 then
              dilate_max img.bytes img.width (size / 2) x y
            else 0 := by
  obtain ⟨hpos, hfit⟩ := hwf.plane_fits
  have hq : Int.tdiv size 2 = size / 2 := Int.tdiv_eq_ediv (by omega) (by norm_num)
  have hh : 0 ≤ size / 2 := by omega
  have hr := raster img.width img.height (size / 2) (img.width - size / 2) (size / 2)
    (img.height - size / 2) (fun x y => dilate_max img.bytes img.width (size / 2) x y)
    (List.replicate (img.width * img.height).toNat 0) hh (by omega) hh (by omega) hwf.1
    (by rw [List.length_replicate]; omega)
  have key : dilate img size
      = { data := some (forLoop (size / 2) (img.height - size / 2) (fun y acc =>
            forLoop (size / 2) (img.width - size / 2) (fun x acc =>
              wr acc (y * img.width + x) (dilate_max img.bytes img.width (size / 2) x y)) acc)
            (List.replicate (img.width * img.height).toNat 0)),
          width := img.width, height := img.height, channels := 1 } := by
    unfold dilate
    rw [to_gray_of_one img hc, img_create_plane hwf, hq]
    rfl
  refine ⟨_, key, ?_, ?_⟩
  · rw [hr.1, List.length_replicate]
    omega
  · intro x y hx hxw
    rw [hr.2 x y hx hxw, rd_replicate_zero]

/-- C15: for every grayscale image and every size s >= 1 with half = s/2 (the
window of radius half is the s x s neighbourhood when s is odd), erode outputs
at each interior pixel (half <= x < width-half, half <= y < height-half) the
minimum of the neighbourhood centred on it, and outputs 0 at every pixel of the
margin of half rows and columns at each edge. -/
theorem C15_erode_neighbourhood_minimum (img : Image) (hwf : img.WF) (hc : img.channels = 1)
    (size : Int) (hs : 1 ≤ size) :
    ∃ o, erode img size
        = { data := some o, width := img.width, height := img.height, channels := 1 } ∧
      (o.length : Int) = img.width * img.height ∧
      ∀ x y, 0 ≤ x → x < img.width → 0 ≤ y → y < img.height →
        (((size / 2 ≤ x ∧ x < img.width - size / 2) ∧
            size / 2 ≤ y ∧ y < img.height - size / 2) →
          (∀ dx dy, -(size / 2) ≤ dx → dx ≤ size / 2 → -(size / 2) ≤ dy → dy ≤ size / 2 →
            rd o (y * img.width + x) ≤ rd img.bytes ((y + dy) * img.width + (x + dx))) ∧
          ∃ dx dy, (-(size / 2) ≤ dx ∧ dx ≤ size / 2) ∧ (-(size / 2) ≤ dy ∧ dy ≤ size / 2) ∧
            rd o (y * img.width + x) = rd img.bytes ((y + dy) * img.width + (x + dx))) ∧
        (¬ ((size / 2 ≤ x ∧ x < img.width - size / 2) ∧
            size / 2 ≤ y ∧ y < img.height - size / 2) →
          rd o (y * img.width + x) = 0) := by
  obtain ⟨_, _, hb⟩ := hwf.bytes_spec
  obtain ⟨o, ho, hl, hr⟩ := erode_plane img hwf hc size hs
  refine ⟨o, ho, hl, ?_⟩
  intro x y hx hxw _ _
  rw [hr x y hx hxw]
  constructor
  · intro hin
    rw [if_pos hin]
    exact erode_min_spec img.bytes (rd_le_255 img.bytes hb) img.width (size / 2) x y (by omega)
  · intro hout
    rw [if_neg hout]

/-- Witness for C15: a 3 x 3 image eroded with a 3 x 3 element. -/
theorem C15_erode_neighbourhood_minimum_witness :
    ∃ o, erode (Image.mk (some [9, 8, 7, 6, 5, 4, 3, 2, 1]) 3 3 1) 3
        = { data := some o, width := 3, height := 3, channels := 1 } ∧
      (o.length : Int) = 3 * 3 ∧
      ∀ x y, 0 ≤ x → x < (3 : Int) → 0 ≤ y → y < (3 : Int) →
        ((((3 : Int) / 2 ≤ x ∧ x < 3 - (3 : Int) / 2) ∧
            (3 : Int) / 2 ≤ y ∧ y < 3 - (3 : Int) / 2) →
          (∀ dx dy, -((3 : Int) / 2) ≤ dx → dx ≤ (3 : Int) / 2 → -((3 : Int) / 2) ≤ dy →
            dy ≤ (3 : Int) / 2 →
            rd o (y * 3 + x)
              ≤ rd (Image.mk (some [9, 8, 7, 6, 5, 4, 3, 2, 1]) 3 3 1).bytes
                  ((y + dy) * 3 + (x + dx))) ∧
          ∃ dx dy, (-((3 : Int) / 2) ≤ dx ∧ dx ≤ (3 : Int) / 2) ∧
            (-((3 : Int) / 2) ≤ dy ∧ dy ≤ (3 : Int) / 2) ∧
            rd o (y * 3 + x)
              = rd (Image.mk (some [9, 8, 7, 6, 5, 4, 3, 2, 1]) 3 3 1).bytes
                  ((y + dy) * 3 + (x + dx))) ∧
        (¬ (((3 : Int) / 2 ≤ x ∧ x < 3 - (3 : Int) / 2) ∧
            (3 : Int) / 2 ≤ y ∧ y < 3 - (3 : Int) / 2) →
          rd o (y * 3 + x) = 0) :=
  C15_erode_neighbourhood_minimum (Image.mk (some [9, 8, 7, 6, 5, 4, 3, 2, 1]) 3 3 1)
    ⟨by decide, by decide, by decide, by decide, _, rfl, by decide, by decide⟩ rfl 3 (by decide)

/-- C16: for every grayscale image and every size s >= 1 with half = s/2 (the
window of radius half is the s x s neighbourhood when s is odd), dilate outputs
at each interior pixel the maximum of the neighbourhood centred on it, so the
output is at least the input there, and outputs 0 at every pixel of the margin
of half rows and columns at each edge. -/
theorem C16_dilate_neighbourhood_maximum (img : Image) (hwf : img.WF) (hc : img.channels = 1)
    (size : Int) (hs : 1 ≤ size) :
    ∃ o, dilate img size
        = { data := some o, width := img.width, height := img.height, channels := 1 } ∧
      (o.length : Int) = img.width * img.height ∧
      ∀ x y, 0 ≤ x → x < img.width → 0 ≤ y → y < img.height →
        (((size / 2 ≤ x ∧ x < img.width - size / 2) ∧
            size / 2 ≤ y ∧ y < img.height - size / 2) →
          (∀ dx dy, -(size / 2) ≤ dx → dx ≤ size / 2 → -(size / 2) ≤ dy → dy ≤ size / 2 →
            rd img.bytes ((y + dy) * img.width + (x + dx)) ≤ rd o (y * img.width + x)) ∧
          (∃ dx dy, (-(size / 2) ≤ dx ∧ dx ≤ size / 2) ∧ (-(size / 2) ≤ dy ∧ dy ≤ size / 2) ∧
            rd o (y * img.width + x) = rd img.bytes ((y + dy) * img.width + (x + dx))) ∧
          rd img.bytes (y * img.width + x) ≤ rd o (y * img.width + x)) ∧
        (¬ ((size / 2 ≤ x ∧ x < img.width - size / 2) ∧
            size / 2 ≤ y ∧ y < img.height - size / 2) →
          rd o (y * img.width + x) = 0) := by
  obtain ⟨o, ho, hl, hr⟩ := dilate_plane img hwf hc size hs
  refine ⟨o, ho, hl, ?_⟩
  intro x y hx hxw _ _
  rw [hr x y hx hxw]
  constructor
  · intro hin
    rw [if_pos hin]
    obtain ⟨a, b⟩ := dilate_max_spec img.bytes img.width (size / 2) x y (by omega)
    refine ⟨a, b, ?_⟩
    have := a 0 0 (by omega) (by omega) (by omega) (by omega)
    simpa using this
  · intro hout
    rw [if_neg hout]

/-- Witness for C16: a 3 x 3 image dilated with a 3 x 3 element. -/
theorem C16_dilate_neighbourhood_maximum_witness :
    ∃ o, dilate (Image.mk (some [9, 8, 7, 6, 5, 4, 3, 2, 1]) 3 3 1) 3
        = { data := some o, width := 3, height := 3, channels := 1 } ∧
      (o.length : Int) = 3 * 3 ∧
      ∀ x y, 0 ≤ x → x < (3 : Int) → 0 ≤ y → y < (3 : Int) →
        ((((3 : Int) / 2 ≤ x ∧ x < 3 - (3 : Int) / 2) ∧
            (3 : Int) / 2 ≤ y ∧ y < 3 - (3 : Int) / 2) →
          (∀ dx dy, -((3 : Int) / 2) ≤ dx → dx ≤ (3 : Int) / 2 → -((3 : Int) / 2) ≤ dy →
            dy ≤ (3 : Int) / 2 →
            rd (Image.mk (some [9, 8, 7, 6, 5, 4, 3, 2, 1]) 3 3 1).bytes
                ((y + dy) * 3 + (x + dx)) ≤ rd o (y * 3 + x)) ∧
          (∃ dx dy, (-((3 : Int) / 2) ≤ dx ∧ dx ≤ (3 : Int) / 2) ∧
            (-((3 : Int) / 2) ≤ dy ∧ dy ≤ (3 : Int) / 2) ∧
            rd o (y * 3 + x)
              = rd (Image.mk (some [9, 8, 7, 6, 5, 4, 3, 2, 1]) 3 3 1).bytes
                  ((y + dy) * 3 + (x + dx))) ∧
          rd (Image.mk (some [9, 8, 7, 6, 5, 4, 3, 2, 1]) 3 3 1).bytes (y * 3 + x)
            ≤ rd o (y * 3 + x)) ∧
        (¬ (((3 : Int) / 2 ≤ x ∧ x < 3 - (3 : Int) / 2) ∧
            (3 : Int) / 2 ≤ y ∧ y < 3 - (3 : Int) / 2) →
          rd o (y * 3 + x) = 0) :=
  C16_dilate_neighbourhood_maximum (Image.mk (some [9, 8, 7, 6, 5, 4, 3, 2, 1]) 3 3 1)
    ⟨by decide, by decide, by decide, by decide, _, rfl, by decide, by decide⟩ rfl 3 (by decide)


/-! ## Sobel -/

theorem intRange_m1_two : intRange (-1) 2 = [-1, 0, 1] := by decide

/-- The two sums of the 3 x 3 window are the responses of the two kernels. -/
theorem sobel_sums_eq (gray : List Nat) (w x y : Int) :
    sobel_sums gray w x y = (sobelGx gray w x y, sobelGy gray w x y) := by
  unfold sobel_sums forLoop sobelGx sobelGy
  simp only [intRange_m1_two, List.foldl_cons, List.foldl_nil, sobel_Gx, sobel_Gy]
  have e1 : y + -1 = y - 1 := by ring
  have e2 : x + -1 = x - 1 := by ring
  have e3 : y + 0 = y := by ring
  have e4 : x + 0 = x := by ring
  rw [e1, e2, e3, e4]
  apply Prod.ext
  · simp [rdi]
    ring
  · simp [rdi]
    ring

/-- The clipped magnitude as a minimum. -/
theorem sobel_mag_eq (a b : Int) : sobel_mag a b = min 255 (Nat.sqrt (a * a + b * b).toNat) := by
  unfold sobel_mag
  dsimp only
  split <;> omega

/-- The output plane of `l_img_sobel`: the clipped magnitude at the interior
pixels, 0 on the outermost ring. -/
theorem sobel_plane (img : Image) (hwf : img.WF) (hc : img.channels = 1) :
    ∃ o, sobel img
        = { data := some o, width := img.width, height := img.height, channels := 1 } ∧
      (o.length : Int) = img.width * img.height ∧
      ∀ x y, 0 ≤ x → x < img.width →
        rd o (y * img.width + x)
          = if (1 ≤ x ∧ x < img.width - 1) ∧ 1 ≤ y ∧ y < img.height - 1 then
              min 255 (Nat.sqrt (sobelGx img.bytes img.width x y * sobelGx img.bytes img.width x y
                + sobelGy img.bytes img.width x y * sobelGy img.bytes img.width x y).toNat)
            else 0 := by
  obtain ⟨hpos, hfit⟩ := hwf.plane_fits
  have hr := raster img.width img.height 1 (img.width - 1) 1 (img.height - 1)
    (fun x y => sobel_mag (sobel_sums img.bytes img.width x y).1
      (sobel_sums img.bytes img.width x y).2)
    (List.replicate (img.width * img.height).toNat 0) (by omega) (by omega) (by omega)
    (by omega) hwf.1 (by rw [List.length_replicate]; omega)
  have key : sobel img
      = { data := some (forLoop 1 (img.height - 1) (fun y acc =>
            forLoop 1 (img.width - 1) (fun x acc =>
              wr acc (y * img.width + x)
                (sobel_mag (sobel_sums img.bytes img.width x y).1
                  (sobel_sums img.bytes img.width x y).2)) acc)
            (List.replicate (img.width * img.height).toNat 0)),
          width := img.width, height := img.height, channels := 1 } := by
    unfold sobel
    rw [to_gray_of_one img hc, img_create_plane hwf]
    rfl
  refine ⟨_, key, ?_, ?_⟩
  · rw [hr.1, List.length_replicate]
    omega
  · intro x y hx hxw
    rw [hr.2 x y hx hxw, rd_replicate_zero]
    dsimp only
    rw [sobel_sums_eq, sobel_mag_eq]

/-- Every cell of a plane is addressed by a pixel. -/
theorem plane_all_of_rd (o : List Nat) (w h : Int) (hw : 0 < w) (hl : (o.length : Int) = w * h)
    (P : Nat → Prop)
    (hP : ∀ x y, 0 ≤ x → x < w → 0 ≤ y → y < h → P (rd o (y * w + x))) : ∀ v ∈ o, P v := by
  intro v hv
  obtain ⟨n, hn, rfl⟩ := List.getElem_of_mem hv
  have h1 : ((n : Int) / w) * w + (n : Int) % w = n := by
    rw [mul_comm]
    exact Int.ediv_add_emod _ _
  have hx0 : 0 ≤ (n : Int) % w := Int.emod_nonneg _ (by omega)
  have hx1 : (n : Int) % w < w := Int.emod_lt_of_pos _ hw
  have hy0 : 0 ≤ (n : Int) / w := Int.ediv_nonneg (by omega) hw.le
  have hy1 : (n : Int) / w < h := by
    apply Int.ediv_lt_of_lt_mul hw
    rw [mul_comm]
    omega
  have := hP _ _ hx0 hx1 hy0 hy1
  rw [h1, rd_of_lt o n hn] at this
  exact this

/-- C18: for every grayscale image the Sobel output at each interior pixel
(1 <= x < width-1, 1 <= y < height-1) is min(255, floor(sqrt(Gx^2 + Gy^2))) with
Gx and Gy the integer responses of the standard 3 x 3 kernels, every pixel of
the outermost ring is 0, and a constant image yields an all-zero output. -/
theorem C18_sobel_magnitude (img : Image) (hwf : img.WF) (hc : img.channels = 1) :
    ∃ o, sobel img
        = { data := some o, width := img.width, height := img.height, channels := 1 } ∧
      (o.length : Int) = img.width * img.height ∧
      (∀ x y, 1 ≤ x → x < img.width - 1 → 1 ≤ y → y < img.height - 1 →
        rd o (y * img.width + x)
          = min 255 (Nat.sqrt (sobelGx img.bytes img.width x y * sobelGx img.bytes img.width x y
              + sobelGy img.bytes img.width x y * sobelGy img.bytes img.width x y).toNat)) ∧
      (∀ x y, 0 ≤ x → x < img.width → 0 ≤ y → y < img.height →
        (x = 0 ∨ x = img.width - 1 ∨ y = 0 ∨ y = img.height - 1) →
        rd o (y * img.width + x) = 0) ∧
      ((∃ c, ∀ x y, 0 ≤ x → x < img.width → 0 ≤ y → y < img.height →
          rd img.bytes (y * img.width + x) = c) → ∀ v ∈ o, v = 0) := by
  obtain ⟨o, ho, hl, hr⟩ := sobel_plane img hwf hc
  refine ⟨o, ho, hl, ?_, ?_, ?_⟩
  · intro x y h1 h2 h3 h4
    rw [hr x y (by omega) (by omega), if_pos ⟨⟨h1, h2⟩, h3, h4⟩]
  · intro x y h1 h2 h3 h4 hring
    rw [hr x y h1 h2, if_neg (by omega)]
  · rintro ⟨c, hconst⟩
    refine plane_all_of_rd o img.width img.height hwf.1 hl (fun v => v = 0) ?_
    intro x y h1 h2 h3 h4
    rw [hr x y h1 h2]
    split
    · rename_i hin
      have e : ∀ dx dy, -1 ≤ dx → dx ≤ 1 → -1 ≤ dy → dy ≤ 1 →
          rd img.bytes ((y + dy) * img.width + (x + dx)) = c := fun dx dy _ _ _ _ =>
        hconst (x + dx) (y + dy) (by omega) (by omega) (by omega) (by omega)
      have e1 := e (-1) (-1) (by omega) (by omega) (by omega) (by omega)
      have e2 := e 0 (-1) (by omega) (by omega) (by omega) (by omega)
      have e3 := e 1 (-1) (by omega) (by omega) (by omega) (by omega)
      have e4 := e (-1) 0 (by omega) (by omega) (by omega) (by omega)
      have e6 := e 1 0 (by omega) (by omega) (by omega) (by omega)
      have e7 := e (-1) 1 (by omega) (by omega) (by omega) (by omega)
      have e8 := e 0 1 (by omega) (by omega) (by omega) (by omega)
      have e9 := e 1 1 (by omega) (by omega) (by omega) (by omega)
      simp only [add_zero, Int.add_neg_one] at e1 e2 e3 e4 e6 e7 e8 e9
      have gx : sobelGx img.bytes img.width x y = 0 := by
        unfold sobelGx
        rw [e1, e3, e4, e6, e7, e9]
        ring
      have gy : sobelGy img.bytes img.width x y = 0 := by
        unfold sobelGy
        rw [e1, e2, e3, e7, e8, e9]
        ring
      rw [gx, gy]
      simp
    · rfl

/-- Witness for C18: a 3 x 3 grayscale image with one interior pixel. -/
theorem C18_sobel_magnitude_witness :
    ∃ o, sobel (Image.mk (some [1, 2, 3, 4, 5, 6, 7, 8, 9]) 3 3 1)
        = { data := some o, width := 3, height := 3, channels := 1 } ∧
      (o.length : Int) = 3 * 3 ∧
      (∀ x y, 1 ≤ x → x < (3 : Int) - 1 → 1 ≤ y → y < (3 : Int) - 1 →
        rd o (y * 3 + x)
          = min 255 (Nat.sqrt (sobelGx [1, 2, 3, 4, 5, 6, 7, 8, 9] 3 x y
                * sobelGx [1, 2, 3, 4, 5, 6, 7, 8, 9] 3 x y
              + sobelGy [1, 2, 3, 4, 5, 6, 7, 8, 9] 3 x y
                * sobelGy [1, 2, 3, 4, 5, 6, 7, 8, 9] 3 x y).toNat)) ∧
      (∀ x y, 0 ≤ x → x < (3 : Int) → 0 ≤ y → y < (3 : Int) →
        (x = 0 ∨ x = (3 : Int) - 1 ∨ y = 0 ∨ y = (3 : Int) - 1) →
        rd o (y * 3 + x) = 0) ∧
      ((∃ c, ∀ x y, 0 ≤ x → x < (3 : Int) → 0 ≤ y → y < (3 : Int) →
          rd [1, 2, 3, 4, 5, 6, 7, 8, 9] (y * 3 + x) = c) → ∀ v ∈ o, v = 0) :=
  C18_sobel_magnitude (Image.mk (some [1, 2, 3, 4, 5, 6, 7, 8, 9]) 3 3 1)
    (by
      refine ⟨by decide, by decide, by decide, by decide, [1, 2, 3, 4, 5, 6, 7, 8, 9], rfl,
        by decide, by decide⟩)
    rfl


/-! ## Adaptive threshold -/

/-- A conditional loop body visits exactly the entries that pass the test. -/
theorem foldl_cond {α σ : Type} (p : α → Prop) [DecidablePred p] (g : α → σ → σ) (L : List α)
    (s : σ) :
    L.foldl (fun s i => if p i then g i s else s) s
      = (L.filter (fun i => decide (p i))).foldl (fun s i => g i s) s := by
  induction L generalizing s with
  | nil => rfl
  | cons a L ih =>
    by_cases h : p a
    · simp [List.filter_cons, h, ih]
    · simp [List.filter_cons, h, ih]

/-- A pair of accumulators that grows by `a j` and `b j` at entry j as long as the
totals fit in an `int` ends at the two totals. -/
theorem foldl_acc {α : Type} (G : α → Int × Int → Int × Int) (a b : α → Int) (L : List α)
    (ha : ∀ j ∈ L, 0 ≤ a j) (hb : ∀ j ∈ L, 0 ≤ b j)
    (hG : ∀ j ∈ L, ∀ s : Int × Int, 0 ≤ s.1 → 0 ≤ s.2 → s.1 + a j < 2147483648 →
      s.2 + b j < 2147483648 → G j s = (s.1 + a j, s.2 + b j))
    (s : Int × Int) (h1 : 0 ≤ s.1) (h2 : 0 ≤ s.2)
    (h3 : s.1 + (L.map a).sum < 2147483648) (h4 : s.2 + (L.map b).sum < 2147483648) :
    L.foldl (fun s j => G j s) s = (s.1 + (L.map a).sum, s.2 + (L.map b).sum) := by
  induction L generalizing s with
  | nil => simp
  | cons j L ih =>
    simp only [List.foldl_cons, List.map_cons, List.sum_cons] at h3 h4 ⊢
    have sa : 0 ≤ (L.map a).sum := List.sum_nonneg (by
      intro v hv
      obtain ⟨k, hk, rfl⟩ := List.mem_map.mp hv
      exact ha k (List.mem_cons_of_mem _ hk))
    have sb : 0 ≤ (L.map b).sum := List.sum_nonneg (by
      intro v hv
      obtain ⟨k, hk, rfl⟩ := List.mem_map.mp hv
      exact hb k (List.mem_cons_of_mem _ hk))
    have aj := ha j (List.mem_cons_self _ _)
    have bj := hb j (List.mem_cons_self _ _)
    rw [hG j (List.mem_cons_self _ _) s h1 h2 (by omega) (by omega)]
    rw [ih (fun k hk => ha k (List.mem_cons_of_mem _ hk))
      (fun k hk => hb k (List.mem_cons_of_mem _ hk))
      (fun k hk => hG k (List.mem_cons_of_mem _ hk)) _ (by dsimp only; omega)
      (by dsimp only; omega) (by dsimp only; omega) (by dsimp only; omega)]
    apply Prod.ext
    · dsimp only
      omega
    · dsimp only
      omega

/-- The offsets d of a loop `lo <= d < hi` for which `x + d` falls inside `0..w-1`
address the coordinates `max 0 (x+lo) .. min w (x+hi) - 1`, in order. -/
theorem clip_range {β : Type} (F : Int → β) (x w : Int) (hx0 : 0 ≤ x) (hxw : x < w)
    (hw : w < 2147483648) (n : Nat) :
    ∀ lo hi : Int, (hi - lo).toNat = n → -1073741824 ≤ lo → hi ≤ 1073741824 →
      ((intRange lo hi).filter (fun d => decide (0 ≤ wrap32 (x + d) ∧ wrap32 (x + d) < w))).map
          (fun d => F (wrap32 (x + d)))
        = (intRange (max 0 (x + lo)) (min w (x + hi))).map F := by
  induction n with
  | zero =>
    intro lo hi hn _ _
    rw [intRange_of_le (by omega), intRange_of_le (by omega)]
    rfl
  | succ n ih =>
    intro lo hi hn hlo hhi
    rw [intRange_cons (show lo < hi by omega)]
    have hrec := ih (lo + 1) hi (by omega) (by omega) hhi
    have hwr : wrap32 (x + lo) = x + lo ∨ wrap32 (x + lo) < 0 := by
      unfold wrap32
      omega
    by_cases c : 0 ≤ wrap32 (x + lo) ∧ wrap32 (x + lo) < w
    · have e : wrap32 (x + lo) = x + lo := by omega
      rw [List.filter_cons_of_pos (by simpa using c), List.map_cons, hrec, e]
      rw [e] at c
      rw [show max 0 (x + lo) = x + lo by omega,
        intRange_cons (show x + lo < min w (x + hi) by omega),
        show max 0 (x + (lo + 1)) = x + lo + 1 by omega, List.map_cons]
    · rw [List.filter_cons_of_neg (by simpa using c), hrec]
      by_cases c2 : x + lo < 0
      · rw [show max 0 (x + (lo + 1)) = max 0 (x + lo) by omega]
      · have e : wrap32 (x + lo) = x + lo ∨ wrap32 (x + lo) < 0 := hwr
        have : w ≤ x + lo := by
          unfold wrap32 at c e
          omega
        rw [intRange_of_le (by omega), intRange_of_le (by omega)]

theorem length_intRange (lo hi : Int) : (intRange lo hi).length = (hi - lo).toNat := by
  unfold intRange
  simp

theorem sum_const_intRange (lo hi c : Int) (h : lo ≤ hi) :
    ((intRange lo hi).map (fun _ => c)).sum = (hi - lo) * c := by
  rw [List.map_const', List.sum_replicate, length_intRange]
  simp only [smul_eq_mul, nsmul_eq_mul]
  rw [Int.toNat_of_nonneg (by omega)]

/-- The sum of one clipped row of bytes is not negative. -/
theorem rowSum_nonneg (gray : List Nat) (w ny lo hi : Int) :
    0 ≤ ((intRange lo hi).map (fun nx => ((rd gray (ny * w + nx) : Nat) : Int))).sum := by
  apply List.sum_nonneg
  intro v hv
  obtain ⟨k, _, rfl⟩ := List.mem_map.mp hv
  exact Int.ofNat_nonneg _

/-- One row of the window: the inner loop adds the bytes of the clipped row to
`sum` and their number to `count`, as long as both fit in an `int`. -/
theorem adaptive_row (gray : List Nat) (w half x ny : Int) (hx0 : 0 ≤ x) (hxw : x < w)
    (hw : w < 2147483648) (hh0 : 0 ≤ half) (hh1 : half < 1073741824) (s : Int × Int)
    (h1 : 0 ≤ s.1) (h2 : 0 ≤ s.2)
    (h3 : s.1 + ((intRange (max 0 (x - half)) (min w (x + half + 1))).map (fun nx =>
        ((rd gray (ny * w + nx) : Nat) : Int))).sum < 2147483648)
    (h4 : s.2 + (min w (x + half + 1) - max 0 (x - half)) < 2147483648) :
    ((intRange (-half) (half + 1)).filter
        (fun dx => decide (0 ≤ wrap32 (x + dx) ∧ wrap32 (x + dx) < w))).foldl
      (fun s dx => (wrap32 (s.1 + ((rd gray (ny * w + wrap32 (x + dx)) : Nat) : Int)),
        wrap32 (s.2 + 1))) s
      = (s.1 + ((intRange (max 0 (x - half)) (min w (x + half + 1))).map (fun nx =>
            ((rd gray (ny * w + nx) : Nat) : Int))).sum,
         s.2 + (min w (x + half + 1) - max 0 (x - half))) := by
  have ea := clip_range (fun nx => ((rd gray (ny * w + nx) : Nat) : Int)) x w hx0 hxw hw
    (half + 1 - -half).toNat (-half) (half + 1) rfl (by omega) (by omega)
  have eb := clip_range (fun _ => (1 : Int)) x w hx0 hxw hw
    (half + 1 - -half).toNat (-half) (half + 1) rfl (by omega) (by omega)
  have e1 : x + -half = x - half := by ring
  have e2 : x + (half + 1) = x + half + 1 := by ring
  rw [e1, e2] at ea eb
  have hcnt : ((intRange (max 0 (x - half)) (min w (x + half + 1))).map
      (fun _ => (1 : Int))).sum = min w (x + half + 1) - max 0 (x - half) := by
    rw [sum_const_intRange _ _ _ (by omega), mul_one]
  have key := foldl_acc
    (fun dx (s : Int × Int) =>
      (wrap32 (s.1 + ((rd gray (ny * w + wrap32 (x + dx)) : Nat) : Int)), wrap32 (s.2 + 1)))
    (fun dx => ((rd gray (ny * w + wrap32 (x + dx)) : Nat) : Int)) (fun _ => (1 : Int))
    ((intRange (-half) (half + 1)).filter
      (fun dx => decide (0 ≤ wrap32 (x + dx) ∧ wrap32 (x + dx) < w)))
    (fun j _ => Int.ofNat_nonneg _) (fun j _ => by norm_num)
    (fun j _ t t1 t2 t3 t4 => by
      dsimp only at t3 t4 ⊢
      have p := Int.ofNat_nonneg (rd gray (ny * w + wrap32 (x + j)))
      rw [wrap32_of_range _ (by omega) t3, wrap32_of_range _ (by omega) t4])
    s h1 h2 (by rw [ea]; exact h3) (by rw [eb, hcnt]; exact h4)
  rw [key, ea, eb, hcnt]

/-- The window loop computes the sum and the count of the pixels of the
neighbourhood that lie inside the image, as long as the sum fits in an `int`. -/
theorem adaptive_window_eq (gray : List Nat) (w h half x y : Int) (hx0 : 0 ≤ x) (hxw : x < w)
    (hy0 : 0 ≤ y) (hyh : y < h) (hw : w < 2147483648) (hh : h < 2147483648)
    (hh0 : 0 ≤ half) (hh1 : half < 1073741824)
    (hS : windowSum gray w h half x y < 2147483648)
    (hN : windowCount w h half x y < 2147483648) :
    adaptive_window gray w h half x y = (windowSum gray w h half x y, windowCount w h half x y) := by
  have hxr : 0 < min w (x + half + 1) - max 0 (x - half) := by omega
  have hyr : 0 < min h (y + half + 1) - max 0 (y - half) := by omega
  -- the body of the outer loop, one row at a time
  have hbody : ∀ dy (s : Int × Int),
      forLoop (-half) (half + 1) (fun dx (s : Int × Int) =>
          if 0 ≤ wrap32 (y + dy) ∧ wrap32 (y + dy) < h ∧ 0 ≤ wrap32 (x + dx) ∧ wrap32 (x + dx) < w
          then (wrap32 (s.1 + ((rd gray (wrap32 (y + dy) * w + wrap32 (x + dx)) : Nat) : Int)),
                wrap32 (s.2 + 1))
          else s) s
        = if 0 ≤ wrap32 (y + dy) ∧ wrap32 (y + dy) < h then
            ((intRange (-half) (half + 1)).filter
                (fun dx => decide (0 ≤ wrap32 (x + dx) ∧ wrap32 (x + dx) < w))).foldl
              (fun s dx =>
                (wrap32 (s.1 + ((rd gray (wrap32 (y + dy) * w + wrap32 (x + dx)) : Nat) : Int)),
                  wrap32 (s.2 + 1))) s
          else s := by
    intro dy s
    by_cases c : 0 ≤ wrap32 (y + dy) ∧ wrap32 (y + dy) < h
    · rw [if_pos c, ← foldl_cond]
      unfold forLoop
      congr 1
      funext t dx
      dsimp only
      simp only [c.1, c.2, true_and]
    · rw [if_neg c]
      apply forLoop_fixed
      intro i _ _
      dsimp only
      rw [if_neg (fun hc => c ⟨hc.1, hc.2.1⟩)]
  unfold adaptive_window
  have hout : forLoop (-half) (half + 1) (fun dy (s : Int × Int) =>
      forLoop (-half) (half + 1) (fun dx (s : Int × Int) =>
          let ny := wrap32 (y + dy)
          let nx := wrap32 (x + dx)
          if 0 ≤ ny ∧ ny < h ∧ 0 ≤ nx ∧ nx < w
          then (wrap32 (s.1 + ((rd gray (ny * w + nx) : Nat) : Int)), wrap32 (s.2 + 1))
          else s) s) ((0 : Int), (0 : Int))
      = ((intRange (-half) (half + 1)).filter
            (fun dy => decide (0 ≤ wrap32 (y + dy) ∧ wrap32 (y + dy) < h))).foldl
          (fun s dy =>
            ((intRange (-half) (half + 1)).filter
                (fun dx => decide (0 ≤ wrap32 (x + dx) ∧ wrap32 (x + dx) < w))).foldl
              (fun s dx =>
                (wrap32 (s.1 + ((rd gray (wrap32 (y + dy) * w + wrap32 (x + dx)) : Nat) : Int)),
                  wrap32 (s.2 + 1))) s) ((0 : Int), (0 : Int)) := by
    rw [← foldl_cond]
    unfold forLoop
    congr 1
    funext t dy
    exact hbody dy t
  rw [hout]
  have ea := clip_range (fun ny => ((intRange (max 0 (x - half)) (min w (x + half + 1))).map
      (fun nx => ((rd gray (ny * w + nx) : Nat) : Int))).sum) y h hy0 hyh hh
    (half + 1 - -half).toNat (-half) (half + 1) rfl (by omega) (by omega)
  have eb := clip_range (fun _ => min w (x + half + 1) - max 0 (x - half)) y h hy0 hyh hh
    (half + 1 - -half).toNat (-half) (half + 1) rfl (by omega) (by omega)
  have e1 : y + -half = y - half := by ring
  have e2 : y + (half + 1) = y + half + 1 := by ring
  rw [e1, e2] at ea eb
  have hcnt : ((intRange (max 0 (y - half)) (min h (y + half + 1))).map
      (fun _ => min w (x + half + 1) - max 0 (x - half))).sum = windowCount w h half x y := by
    rw [sum_const_intRange _ _ _ (by omega)]
    rfl
  have hsum : ((intRange (max 0 (y - half)) (min h (y + half + 1))).map (fun ny =>
      ((intRange (max 0 (x - half)) (min w (x + half + 1))).map
        (fun nx => ((rd gray (ny * w + nx) : Nat) : Int))).sum)).sum
        = windowSum gray w h half x y := rfl
  have key := foldl_acc
    (fun dy (s : Int × Int) =>
      ((intRange (-half) (half + 1)).filter
          (fun dx => decide (0 ≤ wrap32 (x + dx) ∧ wrap32 (x + dx) < w))).foldl
        (fun s dx =>
          (wrap32 (s.1 + ((rd gray (wrap32 (y + dy) * w + wrap32 (x + dx)) : Nat) : Int)),
            wrap32 (s.2 + 1))) s)
    (fun dy => ((intRange (max 0 (x - half)) (min w (x + half + 1))).map
      (fun nx => ((rd gray (wrap32 (y + dy) * w + nx) : Nat) : Int))).sum)
    (fun _ => min w (x + half + 1) - max 0 (x - half))
    ((intRange (-half) (half + 1)).filter
      (fun dy => decide (0 ≤ wrap32 (y + dy) ∧ wrap32 (y + dy) < h)))
    (fun j _ => rowSum_nonneg gray w _ _ _) (fun j _ => hxr.le)
    (fun j _ t t1 t2 t3 t4 =>
      adaptive_row gray w half x (wrap32 (y + j)) hx0 hxw hw hh0 hh1 t t1 t2 t3 t4)
    ((0 : Int), (0 : Int)) le_rfl le_rfl
    (by rw [ea, hsum]; simpa using hS) (by rw [eb, hcnt]; simpa using hN)
  rw [key, ea, eb, hcnt, hsum]
  simp

/-- The window of a pixel of the image holds at least that pixel and at most the
whole image. -/
theorem windowCount_bounds (w h half x y : Int) (hx0 : 0 ≤ x) (hxw : x < w) (hy0 : 0 ≤ y)
    (hyh : y < h) (hh0 : 0 ≤ half) :
    1 ≤ windowCount w h half x y ∧ windowCount w h half x y ≤ w * h := by
  unfold windowCount
  have a1 : 1 ≤ min h (y + half + 1) - max 0 (y - half) := by omega
  have a2 : min h (y + half + 1) - max 0 (y - half) ≤ h := by omega
  have b1 : 1 ≤ min w (x + half + 1) - max 0 (x - half) := by omega
  have b2 : min w (x + half + 1) - max 0 (x - half) ≤ w := by omega
  constructor
  · nlinarith
  · rw [mul_comm w h]
    exact mul_le_mul a2 b2 (by omega) (by omega)

/-- The window sum lies between 0 and 255 times the window count. -/
theorem windowSum_bounds (gray : List Nat) (hb : ∀ i, rd gray i ≤ 255) (w h half x y : Int)
    (hx0 : 0 ≤ x) (hxw : x < w) (hy0 : 0 ≤ y) (hyh : y < h) (hh0 : 0 ≤ half) :
    0 ≤ windowSum gray w h half x y ∧
    windowSum gray w h half x y ≤ 255 * windowCount w h half x y := by
  unfold windowSum windowCount
  constructor
  · apply List.sum_nonneg
    intro v hv
    obtain ⟨k, _, rfl⟩ := List.mem_map.mp hv
    exact rowSum_nonneg gray w k _ _
  · have hrow : ∀ ny, ((intRange (max 0 (x - half)) (min w (x + half + 1))).map (fun nx =>
        ((rd gray (ny * w + nx) : Nat) : Int))).sum
          ≤ 255 * (min w (x + half + 1) - max 0 (x - half)) := by
      intro ny
      have := List.sum_le_card_nsmul ((intRange (max 0 (x - half)) (min w (x + half + 1))).map
        (fun nx => ((rd gray (ny * w + nx) : Nat) : Int))) 255 (by
          intro v hv
          obtain ⟨k, _, rfl⟩ := List.mem_map.mp hv
          have := hb (ny * w + k)
          omega)
      rw [List.length_map, length_intRange] at this
      simp only [nsmul_eq_mul] at this
      rw [Int.toNat_of_nonneg (by omega)] at this
      linarith
    have := List.sum_le_card_nsmul ((intRange (max 0 (y - half)) (min h (y + half + 1))).map
      (fun ny => ((intRange (max 0 (x - half)) (min w (x + half + 1))).map (fun nx =>
        ((rd gray (ny * w + nx) : Nat) : Int))).sum))
      (255 * (min w (x + half + 1) - max 0 (x - half))) (by
        intro v hv
        obtain ⟨k, _, rfl⟩ := List.mem_map.mp hv
        exact hrow k)
    rw [List.length_map, length_intRange] at this
    simp only [nsmul_eq_mul] at this
    rw [Int.toNat_of_nonneg (by omega)] at this
    linarith

/-- The output plane of `l_img_adaptive_threshold`: every pixel is compared with
the wrapped threshold that the window loop yields. -/
theorem adaptive_plane (img : Image) (hwf : img.WF) (hc : img.channels = 1)
    (block_size C : Int) :
    ∃ o, adaptive_threshold img block_size C
        = { data := some o, width := img.width, height := img.height, channels := 1 } ∧
      (o.length : Int) = img.width * img.height ∧
      ∀ x y, 0 ≤ x → x < img.width → 0 ≤ y → y < img.height →
        rd o (y * img.width + x)
          = if ((rd img.bytes (y * img.width + x) : Nat) : Int)
                > wrap32 (Int.tdiv
                    (adaptive_window img.bytes img.width img.height
                      (Int.tdiv (if Int.tmod block_size 2 = 0 then block_size + 1
                        else block_size) 2) x y).1
                    (adaptive_window img.bytes img.width img.height
                      (Int.tdiv (if Int.tmod block_size 2 = 0 then block_size + 1
                        else block_size) 2) x y).2 - C)
            then 255 else 0 := by
  obtain ⟨hpos, hfit⟩ := hwf.plane_fits
  have hr := raster img.width img.height 0 img.width 0 img.height
    (fun x y => if ((rd img.bytes (y * img.width + x) : Nat) : Int)
                > wrap32 (Int.tdiv
                    (adaptive_window img.bytes img.width img.height
                      (Int.tdiv (if Int.tmod block_size 2 = 0 then block_size + 1
                        else block_size) 2) x y).1
                    (adaptive_window img.bytes img.width img.height
                      (Int.tdiv (if Int.tmod block_size 2 = 0 then block_size + 1
                        else block_size) 2) x y).2 - C)
            then 255 else 0)
    (List.replicate (img.width * img.height).toNat 0) le_rfl le_rfl le_rfl le_rfl hwf.1
    (by rw [List.length_replicate]; omega)
  have key : adaptive_threshold img block_size C
      = { data := some (forLoop 0 img.height (fun y acc =>
            forLoop 0 img.width (fun x acc =>
              wr acc (y * img.width + x)
                (if ((rd img.bytes (y * img.width + x) : Nat) : Int)
                    > wrap32 (Int.tdiv
                        (adaptive_window img.bytes img.width img.height
                          (Int.tdiv (if Int.tmod block_size 2 = 0 then block_size + 1
                            else block_size) 2) x y).1
                        (adaptive_window img.bytes img.width img.height
                          (Int.tdiv (if Int.tmod block_size 2 = 0 then block_size + 1
                            else block_size) 2) x y).2 - C)
                then 255 else 0)) acc)
            (List.replicate (img.width * img.height).toNat 0)),
          width := img.width, height := img.height, channels := 1 } := by
    unfold adaptive_threshold
    rw [to_gray_of_one img hc, img_create_plane hwf]
    rfl
  refine ⟨_, key, ?_, ?_⟩
  · rw [hr.1, List.length_replicate]
    omega
  · intro x y hx hxw hy hyh
    rw [hr.2 x y hx hxw, if_pos ⟨⟨hx, hxw⟩, hy, hyh⟩]

/-- An even block size is incremented before anything else is done with it. -/
theorem adaptive_even (img : Image) (C k : Int) :
    adaptive_threshold img (2 * k) C = adaptive_threshold img (2 * k + 1) C := by
  have e1 : Int.tmod (2 * k) 2 = 0 := Int.mul_tmod_right 2 k
  have e2 : Int.tmod (2 * k + 1) 2 ≠ 0 := by
    intro h
    have := Int.dvd_of_tmod_eq_zero h
    omega
  unfold adaptive_threshold
  simp only [e1, e2, if_true, if_false]

/-- The statement of the local-mean rule, pixel by pixel. -/
theorem adaptive_pixels (img : Image) (hwf : img.WF) (hc : img.channels = 1)
    (block_size C : Int) (hb1 : 1 ≤ block_size) (hb2 : block_size < 2147483648) :
    ∃ o, adaptive_threshold img block_size C
        = { data := some o, width := img.width, height := img.height, channels := 1 } ∧
      (o.length : Int) = img.width * img.height ∧
      ∀ x y, 0 ≤ x → x < img.width → 0 ≤ y → y < img.height →
        1 ≤ windowCount img.width img.height (oddBlock block_size / 2) x y ∧
        windowCount img.width img.height (oddBlock block_size / 2) x y
          ≤ img.width * img.height ∧
        0 ≤ windowSum img.bytes img.width img.height (oddBlock block_size / 2) x y ∧
        windowSum img.bytes img.width img.height (oddBlock block_size / 2) x y
          ≤ 255 * windowCount img.width img.height (oddBlock block_size / 2) x y ∧
        (windowSum img.bytes img.width img.height (oddBlock block_size / 2) x y < 2147483648 →
          -2147483648 ≤ windowSum img.bytes img.width img.height (oddBlock block_size / 2) x y
              / windowCount img.width img.height (oddBlock block_size / 2) x y - C →
          windowSum img.bytes img.width img.height (oddBlock block_size / 2) x y
              / windowCount img.width img.height (oddBlock block_size / 2) x y - C < 2147483648 →
          rd o (y * img.width + x)
            = if ((rd img.bytes (y * img.width + x) : Nat) : Int)
                  > windowSum img.bytes img.width img.height (oddBlock block_size / 2) x y
                      / windowCount img.width img.height (oddBlock block_size / 2) x y - C
              then 255 else 0) := by
  obtain ⟨hpos, hfit⟩ := hwf.plane_fits
  obtain ⟨_, _, hb⟩ := hwf.bytes_spec
  have hw := hwf.1
  have hh := hwf.2.1
  have hw31 : img.width < 2147483648 := by nlinarith
  have hh31 : img.height < 2147483648 := by nlinarith
  have hm : (if Int.tmod block_size 2 = 0 then block_size + 1 else block_size)
      = oddBlock block_size := by
    unfold oddBlock
    rw [Int.tmod_eq_emod (by omega) (by norm_num)]
  have hodd0 : 1 ≤ oddBlock block_size := by
    unfold oddBlock
    split <;> omega
  have hodd1 : oddBlock block_size < 2147483648 := by
    unfold oddBlock
    split <;> omega
  have ht : Int.tdiv (oddBlock block_size) 2 = oddBlock block_size / 2 :=
    Int.tdiv_eq_ediv (by omega) (by norm_num)
  obtain ⟨o, ho, hl, hr⟩ := adaptive_plane img hwf hc block_size C
  refine ⟨o, ho, hl, ?_⟩
  intro x y hx hxw hy hyh
  have hh0 : 0 ≤ oddBlock block_size / 2 := by omega
  have hh1 : oddBlock block_size / 2 < 1073741824 := by omega
  obtain ⟨n1, n2⟩ := windowCount_bounds img.width img.height (oddBlock block_size / 2) x y
    hx hxw hy hyh hh0
  obtain ⟨s1, s2⟩ := windowSum_bounds img.bytes (rd_le_255 img.bytes hb) img.width img.height
    (oddBlock block_size / 2) x y hx hxw hy hyh hh0
  refine ⟨n1, n2, s1, s2, ?_⟩
  intro hS t1 t2
  rw [hr x y hx hxw hy hyh, hm, ht,
    adaptive_window_eq img.bytes img.width img.height (oddBlock block_size / 2) x y hx hxw hy hyh
      hw31 hh31 hh0 hh1 hS (by omega)]
  dsimp only
  rw [Int.tdiv_eq_ediv s1 (by omega), wrap32_of_range _ t1 t2]

/-- C17 (amended): for every grayscale image, every block size >= 1 and every
integer C, with the block size first incremented by one if even, half =
block_size / 2, and S and n the sum and the count of the pixels of the
neighbourhood of radius half that lie inside the image: 1 <= n <= width * height
and 0 <= S <= 255 n, and at every pixel where S fits in an `int` and
floor(S/n) - C fits in an `int`, adaptive threshold outputs 255 if
gray(x,y) > floor(S/n) - C and 0 otherwise; an even block size 2k gives the same
output as 2k+1. -/
theorem C17_adaptive_threshold_local_mean (img : Image) (hwf : img.WF) (hc : img.channels = 1)
    (block_size C : Int) (hb1 : 1 ≤ block_size) (hb2 : block_size < 2147483648) :
    (∃ o, adaptive_threshold img block_size C
        = { data := some o, width := img.width, height := img.height, channels := 1 } ∧
      (o.length : Int) = img.width * img.height ∧
      ∀ x y, 0 ≤ x → x < img.width → 0 ≤ y → y < img.height →
        1 ≤ windowCount img.width img.height (oddBlock block_size / 2) x y ∧
        windowCount img.width img.height (oddBlock block_size / 2) x y
          ≤ img.width * img.height ∧
        0 ≤ windowSum img.bytes img.width img.height (oddBlock block_size / 2) x y ∧
        windowSum img.bytes img.width img.height (oddBlock block_size / 2) x y
          ≤ 255 * windowCount img.width img.height (oddBlock block_size / 2) x y ∧
        (windowSum img.bytes img.width img.height (oddBlock block_size / 2) x y < 2147483648 →
          -2147483648 ≤ windowSum img.bytes img.width img.height (oddBlock block_size / 2) x y
              / windowCount img.width img.height (oddBlock block_size / 2) x y - C →
          windowSum img.bytes img.width img.height (oddBlock block_size / 2) x y
              / windowCount img.width img.height (oddBlock block_size / 2) x y - C < 2147483648 →
          rd o (y * img.width + x)
            = if ((rd img.bytes (y * img.width + x) : Nat) : Int)
                  > windowSum img.bytes img.width img.height (oddBlock block_size / 2) x y
                      / windowCount img.width img.height (oddBlock block_size / 2) x y - C
              then 255 else 0)) ∧
    ∀ k : Int, adaptive_threshold img (2 * k) C = adaptive_threshold img (2 * k + 1) C :=
  ⟨adaptive_pixels img hwf hc block_size C hb1 hb2, fun k => adaptive_even img C k⟩

/-- Witness for C17: a 3 x 3 grayscale image, block size 3, C = 5. -/
theorem C17_adaptive_threshold_local_mean_witness :
    (∃ o, adaptive_threshold (Image.mk (some [10, 200, 30, 40, 50, 60, 70, 80, 90]) 3 3 1) 3 5
        = { data := some o, width := 3, height := 3, channels := 1 } ∧
      (o.length : Int) = 3 * 3 ∧
      ∀ x y, 0 ≤ x → x < (3 : Int) → 0 ≤ y → y < (3 : Int) →
        1 ≤ windowCount 3 3 (oddBlock 3 / 2) x y ∧
        windowCount 3 3 (oddBlock 3 / 2) x y ≤ 3 * 3 ∧
        0 ≤ windowSum [10, 200, 30, 40, 50, 60, 70, 80, 90] 3 3 (oddBlock 3 / 2) x y ∧
        windowSum [10, 200, 30, 40, 50, 60, 70, 80, 90] 3 3 (oddBlock 3 / 2) x y
          ≤ 255 * windowCount 3 3 (oddBlock 3 / 2) x y ∧
        (windowSum [10, 200, 30, 40, 50, 60, 70, 80, 90] 3 3 (oddBlock 3 / 2) x y < 2147483648 →
          -2147483648 ≤ windowSum [10, 200, 30, 40, 50, 60, 70, 80, 90] 3 3 (oddBlock 3 / 2) x y
              / windowCount 3 3 (oddBlock 3 / 2) x y - 5 →
          windowSum [10, 200, 30, 40, 50, 60, 70, 80, 90] 3 3 (oddBlock 3 / 2) x y
              / windowCount 3 3 (oddBlock 3 / 2) x y - 5 < 2147483648 →
          rd o (y * 3 + x)
            = if ((rd [10, 200, 30, 40, 50, 60, 70, 80, 90] (y * 3 + x) : Nat) : Int)
                  > windowSum [10, 200, 30, 40, 50, 60, 70, 80, 90] 3 3 (oddBlock 3 / 2) x y
                      / windowCount 3 3 (oddBlock 3 / 2) x y - 5
              then 255 else 0)) ∧
    ∀ k : Int,
      adaptive_threshold (Image.mk (some [10, 200, 30, 40, 50, 60, 70, 80, 90]) 3 3 1) (2 * k) 5
        = adaptive_threshold (Image.mk (some [10, 200, 30, 40, 50, 60, 70, 80, 90]) 3 3 1)
            (2 * k + 1) 5 :=
  C17_adaptive_threshold_local_mean (Image.mk (some [10, 200, 30, 40, 50, 60, 70, 80, 90]) 3 3 1)
    (by
      refine ⟨by decide, by decide, by decide, by decide, [10, 200, 30, 40, 50, 60, 70, 80, 90],
        rfl, by decide, by decide⟩)
    rfl 3 5 (by decide) (by decide)

/-- C17 (counterexample to the claim as worded): on the 1 x 1 image holding the
byte 0, with block size 1 and C = -2147483648, the window has S = 0 and n = 1,
so floor(S/n) - C = 2147483648 and the rule of the claim yields 0; the
subtraction wraps to -2147483648 and the output pixel is 255. -/
theorem C17_adaptive_threshold_wraps :
    adaptive_threshold (Image.mk (some [0]) 1 1 1) 1 (-2147483648)
        = { data := some [255], width := 1, height := 1, channels := 1 } ∧
      windowSum [0] 1 1 (oddBlock 1 / 2) 0 0 = 0 ∧ windowCount 1 1 (oddBlock 1 / 2) 0 0 = 1 ∧
      ¬ (((rd [0] (0 * 1 + 0) : Nat) : Int)
          > windowSum [0] 1 1 (oddBlock 1 / 2) 0 0 / windowCount 1 1 (oddBlock 1 / 2) 0 0
              - (-2147483648)) := by
  refine ⟨by decide, by decide, by decide, by decide⟩


/-! ## Loops over the pixels of a multi-channel buffer -/

/-- One row of a pixel loop.  `step x y` rewrites the bytes of pixel (x, y) only,
sending the old byte b of channel k to `F x y k b`; after the loop over
`x0 <= x < x1` the pixels of that stretch of row y are rewritten, every other
byte is unchanged. -/
theorem pixel_row (W c : Int) (x0 x1 y : Int) (step : Int → List Nat → List Nat)
    (F : Int → Int → Nat → Nat) (L : Nat)
    (hstep : ∀ x o, x0 ≤ x → x < x1 → o.length = L →
      (step x o).length = L ∧
      ∀ x2 y2 k2, 0 ≤ x2 → x2 < W → 0 ≤ k2 → k2 < c →
        rd (step x o) ((y2 * W + x2) * c + k2)
          = if x2 = x ∧ y2 = y then F x k2 (rd o ((y2 * W + x2) * c + k2))
            else rd o ((y2 * W + x2) * c + k2))
    (o : List Nat) (hl : o.length = L) :
    (forLoop x0 x1 (fun x acc => step x acc) o).length = L ∧
    ∀ x2 y2 k2, 0 ≤ x2 → x2 < W → 0 ≤ k2 → k2 < c →
      rd (forLoop x0 x1 (fun x acc => step x acc) o) ((y2 * W + x2) * c + k2)
        = if y2 = y ∧ x0 ≤ x2 ∧ x2 < x1 then F x2 k2 (rd o ((y2 * W + x2) * c + k2))
          else rd o ((y2 * W + x2) * c + k2) := by
  by_cases hle : x0 ≤ x1
  · refine forLoop_induct hle _ _
      (fun (i : Int) (t : List Nat) => t.length = L ∧
        ∀ x2 y2 k2, 0 ≤ x2 → x2 < W → 0 ≤ k2 → k2 < c →
          rd t ((y2 * W + x2) * c + k2)
            = if y2 = y ∧ x0 ≤ x2 ∧ x2 < i then F x2 k2 (rd o ((y2 * W + x2) * c + k2))
              else rd o ((y2 * W + x2) * c + k2))
      ⟨hl, ?_⟩ ?_
    · intro x2 y2 k2 _ _ _ _
      rw [if_neg (by omega)]
    · intro i t h1 h2 ⟨tl, tr⟩
      obtain ⟨sl, sr⟩ := hstep i t h1 h2 tl
      refine ⟨sl, ?_⟩
      intro x2 y2 k2 a1 a2 a3 a4
      show rd (step i t) ((y2 * W + x2) * c + k2) = _
      rw [sr x2 y2 k2 a1 a2 a3 a4, tr x2 y2 k2 a1 a2 a3 a4]
      by_cases e : x2 = i ∧ y2 = y
      · obtain ⟨e1, e2⟩ := e
        subst e1 e2
        rw [if_pos ⟨rfl, rfl⟩, if_neg (by omega), if_pos ⟨rfl, h1, by omega⟩]
      · rw [if_neg e]
        by_cases q : y2 = y ∧ x0 ≤ x2 ∧ x2 < i
        · rw [if_pos q, if_pos ⟨q.1, q.2.1, by omega⟩]
        · rw [if_neg q, if_neg]
          rintro ⟨q1, q2, q3⟩
          have : x2 ≠ i := fun hx => e ⟨hx, q1⟩
          exact q ⟨q1, q2, by omega⟩
  · rw [forLoop_of_le (by omega)]
    refine ⟨hl, fun x2 y2 k2 _ _ _ _ => ?_⟩
    rw [if_neg (by omega)]

/-- A pixel loop nest.  `step x y` rewrites the bytes of pixel (x, y) only,
sending the old byte b of channel k to `F x y k b`; after the nest the pixels
of the rectangle `x0 <= x < x1`, `y0 <= y < y1` are rewritten, every other byte
is unchanged. -/
theorem pixel_nest (W c : Int) (x0 x1 y0 y1 : Int) (step : Int → Int → List Nat → List Nat)
    (F : Int → Int → Int → Nat → Nat) (L : Nat)
    (hstep : ∀ x y o, x0 ≤ x → x < x1 → y0 ≤ y → y < y1 → o.length = L →
      (step x y o).length = L ∧
      ∀ x2 y2 k2, 0 ≤ x2 → x2 < W → 0 ≤ k2 → k2 < c →
        rd (step x y o) ((y2 * W + x2) * c + k2)
          = if x2 = x ∧ y2 = y then F x y k2 (rd o ((y2 * W + x2) * c + k2))
            else rd o ((y2 * W + x2) * c + k2))
    (o : List Nat) (hl : o.length = L) :
    (forLoop y0 y1 (fun y acc => forLoop x0 x1 (fun x acc => step x y acc) acc) o).length = L ∧
    ∀ x2 y2 k2, 0 ≤ x2 → x2 < W → 0 ≤ k2 → k2 < c →
      rd (forLoop y0 y1 (fun y acc => forLoop x0 x1 (fun x acc => step x y acc) acc) o)
          ((y2 * W + x2) * c + k2)
        = if (x0 ≤ x2 ∧ x2 < x1) ∧ y0 ≤ y2 ∧ y2 < y1 then
            F x2 y2 k2 (rd o ((y2 * W + x2) * c + k2))
          else rd o ((y2 * W + x2) * c + k2) := by
  by_cases hle : y0 ≤ y1
  · refine forLoop_induct hle _ _
      (fun (i : Int) (t : List Nat) => t.length = L ∧
        ∀ x2 y2 k2, 0 ≤ x2 → x2 < W → 0 ≤ k2 → k2 < c →
          rd t ((y2 * W + x2) * c + k2)
            = if (x0 ≤ x2 ∧ x2 < x1) ∧ y0 ≤ y2 ∧ y2 < i then
                F x2 y2 k2 (rd o ((y2 * W + x2) * c + k2))
              else rd o ((y2 * W + x2) * c + k2))
      ⟨hl, ?_⟩ ?_
    · intro x2 y2 k2 _ _ _ _
      rw [if_neg (by omega)]
    · intro i t h1 h2 ⟨tl, tr⟩
      obtain ⟨sl, sr⟩ := pixel_row W c x0 x1 i (fun x acc => step x i acc)
        (fun x k b => F x i k b) L (fun x o2 a b hl2 => hstep x i o2 a b h1 h2 hl2) t tl
      refine ⟨sl, ?_⟩
      intro x2 y2 k2 a1 a2 a3 a4
      show rd (forLoop x0 x1 (fun x acc => step x i acc) t) ((y2 * W + x2) * c + k2) = _
      rw [sr x2 y2 k2 a1 a2 a3 a4, tr x2 y2 k2 a1 a2 a3 a4]
      by_cases e : y2 = i
      · subst e
        by_cases q : x0 ≤ x2 ∧ x2 < x1
        · rw [if_pos ⟨rfl, q.1, q.2⟩, if_neg (by omega), if_pos ⟨q, h1, by omega⟩]
        · rw [if_neg (fun hq => q hq.2), if_neg (by omega), if_neg (fun hq => q hq.1)]
      · rw [if_neg (fun hq => e hq.1)]
        by_cases q : (x0 ≤ x2 ∧ x2 < x1) ∧ y0 ≤ y2 ∧ y2 < i
        · rw [if_pos q, if_pos ⟨q.1, q.2.1, by omega⟩]
        · rw [if_neg q, if_neg]
          rintro ⟨q1, q2, q3⟩
          exact q ⟨q1, q2, by omega⟩
  · rw [forLoop_of_le (by omega)]
    refine ⟨hl, fun x2 y2 k2 _ _ _ _ => ?_⟩
    rw [if_neg (by omega)]

/-- Writing the `c` bytes of one pixel, channel by channel, rewrites pixel (x, y)
and nothing else. -/
theorem pixel_write (W H c : Int) (x y : Int) (g : Int → Nat) (o : List Nat)
    (hx0 : 0 ≤ x) (hxw : x < W) (hy0 : 0 ≤ y) (hyh : y < H) (hc : 0 < c)
    (hl : (o.length : Int) = W * H * c) :
    (forLoop 0 c (fun k acc => wr acc ((y * W + x) * c + k) (g k)) o).length = o.length ∧
    ∀ x2 y2 k2, 0 ≤ x2 → x2 < W → 0 ≤ k2 → k2 < c →
      rd (forLoop 0 c (fun k acc => wr acc ((y * W + x) * c + k) (g k)) o) ((y2 * W + x2) * c + k2)
        = if x2 = x ∧ y2 = y then g k2 else rd o ((y2 * W + x2) * c + k2) := by
  refine forLoop_induct hc.le _ _
    (fun (i : Int) (t : List Nat) => t.length = o.length ∧
      ∀ x2 y2 k2, 0 ≤ x2 → x2 < W → 0 ≤ k2 → k2 < c →
        rd t ((y2 * W + x2) * c + k2)
          = if (x2 = x ∧ y2 = y) ∧ k2 < i then g k2
            else rd o ((y2 * W + x2) * c + k2))
    ⟨rfl, ?_⟩ ?_ |> fun h => ⟨h.1, fun x2 y2 k2 a1 a2 a3 a4 => by
      rw [h.2 x2 y2 k2 a1 a2 a3 a4]
      by_cases e : x2 = x ∧ y2 = y
      · rw [if_pos ⟨e, a4⟩, if_pos e]
      · rw [if_neg (fun q => e q.1), if_neg e]⟩
  · intro x2 y2 k2 _ _ a3 _
    rw [if_neg (by omega)]
  · intro i t h1 h2 ⟨tl, tr⟩
    refine ⟨by rw [length_wr, tl], ?_⟩
    intro x2 y2 k2 a1 a2 a3 a4
    show rd (wr t ((y * W + x) * c + i) (g i)) ((y2 * W + x2) * c + k2) = _
    have hb := pix_idx_bound (n := c) hx0 hxw hy0 hyh h1 h2
    rw [rd_wr, tl, tr x2 y2 k2 a1 a2 a3 a4]
    by_cases e : (y * W + x) * c + i = (y2 * W + x2) * c + k2
    · obtain ⟨⟨e1, e2⟩, e3⟩ := pix_idx_inj hx0 hxw h1 h2 a1 a2 a3 a4 e
      subst e1 e2 e3
      rw [if_pos ⟨rfl, hb.1, by omega⟩, if_pos ⟨⟨rfl, rfl⟩, by omega⟩]
    · rw [if_neg (fun q => e q.1)]
      by_cases q : (x2 = x ∧ y2 = y) ∧ k2 < i
      · rw [if_pos q, if_pos ⟨q.1, by omega⟩]
      · rw [if_neg q, if_neg]
        rintro ⟨q1, q2⟩
        have : k2 ≠ i := by
          intro hk
          apply e
          rw [q1.1, q1.2, hk]
        exact q ⟨q1, by omega⟩

/-- Copying the `c` bytes of one pixel: `memcpy(&dst[(y*W+x)*c], &src[soff], c)`
rewrites pixel (x, y) and nothing else. -/
theorem memcpy_pixel (W H c : Int) (x y : Int) (src : List Nat) (soff : Int) (o : List Nat)
    (hx0 : 0 ≤ x) (hxw : x < W) (hy0 : 0 ≤ y) (hyh : y < H) (hc : 0 < c)
    (hl : (o.length : Int) = W * H * c) :
    (memcpy o ((y * W + x) * c) src soff c).length = o.length ∧
    ∀ x2 y2 k2, 0 ≤ x2 → x2 < W → 0 ≤ k2 → k2 < c →
      rd (memcpy o ((y * W + x) * c) src soff c) ((y2 * W + x2) * c + k2)
        = if x2 = x ∧ y2 = y then rd src (soff + k2) else rd o ((y2 * W + x2) * c + k2) :=
  pixel_write W H c x y (fun k => rd src (soff + k)) o hx0 hxw hy0 hyh hc hl


/-! ## Rotate at angle 0 -/

theorem truncQ_intCast (n : Int) : truncQ (n : ℚ) = n := by
  simp [truncQ]

/-- At angle 0 the four corners map to themselves. -/
theorem rotate_bounds_zero (w h : Int) (hw : 0 < w) (hh : 0 < h) :
    rotate_bounds w h 1 0 = { min_x := 0, max_x := w, min_y := 0, max_y := h } := by
  unfold rotate_bounds forLoop
  simp only [intRange_zero_four, List.foldl_cons, List.foldl_nil]
  have t0 : truncQ 0 = 0 := by simpa using truncQ_intCast 0
  simp [truncQ_intCast, t0, hw, hh, not_lt.mpr hw.le, not_lt.mpr hh.le]

/-- The output of `l_img_rotate` at angle 0: a buffer of (w+1) x (h+1) pixels whose
top-left w x h block is the source and whose last column and last row are 0. -/
theorem rotate_zero_plane (img : Image) (hwf : img.WF)
    (hfit : (img.width + 1) * (img.height + 1) * img.channels < 2147483648) :
    ∃ o, rotate img 1 0
        = { data := some o, width := img.width + 1, height := img.height + 1,
            channels := img.channels } ∧
      (o.length : Int) = (img.width + 1) * (img.height + 1) * img.channels ∧
      ∀ x y k, 0 ≤ x → x < img.width + 1 → 0 ≤ y → y < img.height + 1 → 0 ≤ k →
        k < img.channels →
        rd o ((y * (img.width + 1) + x) * img.channels + k)
          = if x < img.width ∧ y < img.height then
              rd img.bytes ((y * img.width + x) * img.channels + k)
            else 0 := by
  have hw := hwf.1
  have hh := hwf.2.1
  have hc := hwf.2.2.1
  have hpos : 0 < (img.width + 1) * (img.height + 1) := mul_pos (by omega) (by omega)
  have hplane : (img.width + 1) * (img.height + 1) < 2147483648 := by nlinarith
  have hnn : 0 ≤ (img.width + 1) * (img.height + 1) * img.channels :=
    mul_nonneg hpos.le hc.le
  have key : rotate img 1 0
      = { data := some (forLoop 0 (img.height + 1) (fun y acc =>
            forLoop 0 (img.width + 1) (fun x acc =>
              if x ≥ 0 ∧ x < img.width ∧ y ≥ 0 ∧ y < img.height then
                memcpy acc ((y * (img.width + 1) + x) * img.channels) img.bytes
                  ((y * img.width + x) * img.channels) img.channels
              else acc) acc)
            (List.replicate ((img.width + 1) * (img.height + 1) * img.channels).toNat 0)),
          width := img.width + 1, height := img.height + 1, channels := img.channels } := by
    unfold rotate
    rw [rotate_bounds_zero _ _ hw hh]
    simp only [sub_zero, neg_zero, mul_one, mul_zero, add_zero, zero_add, truncQ_intCast]
    rw [img_create_of_fits _ _ _ (by omega) (by omega) hc.le hfit hplane]
    rfl
  have hn := pixel_nest (img.width + 1) img.channels 0 (img.width + 1) 0 (img.height + 1)
    (fun x y acc =>
      if x ≥ 0 ∧ x < img.width ∧ y ≥ 0 ∧ y < img.height then
        memcpy acc ((y * (img.width + 1) + x) * img.channels) img.bytes
          ((y * img.width + x) * img.channels) img.channels
      else acc)
    (fun x y k b =>
      if x < img.width ∧ y < img.height then rd img.bytes ((y * img.width + x) * img.channels + k)
      else b)
    ((img.width + 1) * (img.height + 1) * img.channels).toNat
    (by
      intro x y o a1 a2 a3 a4 ol
      by_cases q : x ≥ 0 ∧ x < img.width ∧ y ≥ 0 ∧ y < img.height
      · have m := memcpy_pixel (img.width + 1) (img.height + 1) img.channels x y img.bytes
          ((y * img.width + x) * img.channels) o a1 a2 a3 a4 hc (by rw [ol]; omega)
        dsimp only
        rw [if_pos q]
        refine ⟨by rw [m.1, ol], ?_⟩
        intro x2 y2 k2 b1 b2 b3 b4
        rw [m.2 x2 y2 k2 b1 b2 b3 b4]
        by_cases e : x2 = x ∧ y2 = y
        · rw [if_pos e, if_pos e, if_pos ⟨q.2.1, q.2.2.2⟩]
        · rw [if_neg e, if_neg e]
      · dsimp only
        rw [if_neg q]
        refine ⟨ol, ?_⟩
        intro x2 y2 k2 b1 b2 b3 b4
        by_cases e : x2 = x ∧ y2 = y
        · rw [if_pos e, if_neg (fun r => q ⟨a1, r.1, a3, r.2⟩)]
        · rw [if_neg e])
    (List.replicate ((img.width + 1) * (img.height + 1) * img.channels).toNat 0)
    (List.length_replicate _ _)
  dsimp only at hn
  refine ⟨_, key, ?_, ?_⟩
  · rw [hn.1]
    omega
  · intro x y k a1 a2 a3 a4 a5 a6
    rw [hn.2 x y k a1 a2 a5 a6, if_pos ⟨⟨a1, a2⟩, a3, a4⟩, rd_replicate_zero]

/-- The 1 x 1 image holding the byte 7 comes out of a rotation by angle 0 as a
2 x 2 image. -/
theorem rotate_zero_unit :
    rotate (Image.mk (some [7]) 1 1 1) 1 0
      = { data := some [7, 0, 0, 0], width := 2, height := 2, channels := 1 } := by
  obtain ⟨o, ho, hl, hr⟩ := rotate_zero_plane (Image.mk (some [7]) 1 1 1)
    ⟨by decide, by decide, by decide, by decide, [7], rfl, by decide, by decide⟩ (by decide)
  have h0 := hr 0 0 0 (by decide) (by decide) (by decide) (by decide) (by decide) (by decide)
  have h1 := hr 1 0 0 (by decide) (by decide) (by decide) (by decide) (by decide) (by decide)
  have h2 := hr 0 1 0 (by decide) (by decide) (by decide) (by decide) (by decide) (by decide)
  have h3 := hr 1 1 0 (by decide) (by decide) (by decide) (by decide) (by decide) (by decide)
  rw [ho]
  simp only [Image.bytes] at h0 h1 h2 h3
  norm_num at hl h0 h1 h2 h3
  rcases o with _ | ⟨a, _ | ⟨b, _ | ⟨c, _ | ⟨d, _ | _⟩⟩⟩⟩ <;> simp at hl
  · simp [rd] at h0 h1 h2 h3
    simp [h0, h1, h2, h3]
  · omega

/-- C12 (amended): for every image whose sides are at most 2^24 (so that every
`int` of the computation converts to `float` exactly) and for which
(w+1) * (h+1) * channels fits in an `int`, `l_img_rotate` with angle 0
(cos_a = 1, sin_a = 0) builds an output of width w+1, height h+1 and the same
channel count, whose top-left w x h block is byte-identical to the source and
whose last column and last row are 0. -/
theorem C12_rotate_zero_pads (img : Image) (hwf : img.WF)
    (hw24 : img.width ≤ 16777216) (hh24 : img.height ≤ 16777216)
    (hfit : (img.width + 1) * (img.height + 1) * img.channels < 2147483648) :
    ∃ o, rotate img 1 0
        = { data := some o, width := img.width + 1, height := img.height + 1,
            channels := img.channels } ∧
      (o.length : Int) = (img.width + 1) * (img.height + 1) * img.channels ∧
      ∀ x y k, 0 ≤ x → x < img.width + 1 → 0 ≤ y → y < img.height + 1 → 0 ≤ k →
        k < img.channels →
        rd o ((y * (img.width + 1) + x) * img.channels + k)
          = if x < img.width ∧ y < img.height then
              rd img.bytes ((y * img.width + x) * img.channels + k)
            else 0 :=
  rotate_zero_plane img hwf hfit

/-- Witness for C12: a 2 x 2 image with 3 channels. -/
theorem C12_rotate_zero_pads_witness :
    ∃ o, rotate (Image.mk (some [1, 2, 3, 4, 5, 6, 7, 8, 9, 10, 11, 12]) 2 2 3) 1 0
        = { data := some o, width := 2 + 1, height := 2 + 1, channels := 3 } ∧
      (o.length : Int) = (2 + 1) * (2 + 1) * 3 ∧
      ∀ x y k, 0 ≤ x → x < (2 : Int) + 1 → 0 ≤ y → y < (2 : Int) + 1 → 0 ≤ k →
        k < (3 : Int) →
        rd o ((y * (2 + 1) + x) * 3 + k)
          = if x < (2 : Int) ∧ y < (2 : Int) then
              rd (Image.mk (some [1, 2, 3, 4, 5, 6, 7, 8, 9, 10, 11, 12]) 2 2 3).bytes
                ((y * 2 + x) * 3 + k)
            else 0 :=
  C12_rotate_zero_pads (Image.mk (some [1, 2, 3, 4, 5, 6, 7, 8, 9, 10, 11, 12]) 2 2 3)
    (by
      refine ⟨by decide, by decide, by decide, by decide,
        [1, 2, 3, 4, 5, 6, 7, 8, 9, 10, 11, 12], rfl, by decide, by decide⟩)
    (by decide) (by decide) (by decide)

/-- C12 (counterexample to the claim as worded): the 1 x 1 image holding the byte
7 is rotated by angle 0 into the 2 x 2 image 7, 0, 0, 0, and rotating that
output by angle 0 again gives a 3 x 3 image: neither the size nor the data of
the source is restored. -/
theorem C12_rotate_zero_grows :
    rotate (Image.mk (some [7]) 1 1 1) 1 0
        = { data := some [7, 0, 0, 0], width := 2, height := 2, channels := 1 } ∧
      (rotate (rotate (Image.mk (some [7]) 1 1 1) 1 0) 1 0).width = 3 ∧
      (rotate (rotate (Image.mk (some [7]) 1 1 1) 1 0) 1 0).height = 3 := by
  refine ⟨rotate_zero_unit, ?_⟩
  rw [rotate_zero_unit]
  obtain ⟨o, ho, _, _⟩ := rotate_zero_plane (Image.mk (some [7, 0, 0, 0]) 2 2 1)
    ⟨by decide, by decide, by decide, by decide, [7, 0, 0, 0], rfl, by decide, by decide⟩
    (by decide)
  rw [ho]
  exact ⟨rfl, rfl⟩


/-! ## Median filter -/

/-- Exchanging two entries of a buffer permutes it. -/
theorem wr_swap_perm (w : List Nat) (i j : Int) (hi : 0 ≤ i) (hij : i < j)
    (hj : j < w.length) : (wr (wr w i (rd w j)) j (rd w i)).Perm w := by
  obtain ⟨a, rfl⟩ : ∃ a : Nat, i = (a : Int) := ⟨i.toNat, by omega⟩
  obtain ⟨b, rfl⟩ : ∃ b : Nat, j = (b : Int) := ⟨j.toNat, by omega⟩
  have ha : a < w.length := by omega
  have hb : b < w.length := by omega
  have hab : a ≠ b := by omega
  rw [rd_of_lt w a ha, rd_of_lt w b hb]
  unfold wr
  simp only [Int.ofNat_nonneg, if_true, Int.toNat_ofNat]
  rw [List.perm_iff_count]
  intro v
  rw [List.count_set _ _ _ _ (by rw [List.length_set]; exact hb), List.count_set _ _ _ _ ha,
    List.getElem_set_ne hab]
  have b1 := List.boole_getElem_le_count v w a ha
  have b2 := List.boole_getElem_le_count v w b hb
  simp only [beq_iff_eq] at b1 b2 ⊢
  split_ifs at b1 b2 ⊢ <;> omega

/-- One pass of the sort: entry i ends up at most every later entry, earlier
entries that were at most everything behind them stay so. -/
theorem median_pass (w0 w : List Nat) (i : Int) (hi0 : 0 ≤ i) (hi1 : i < 5)
    (hp : w.Perm w0) (hlen : w0.length = 9)
    (hs : ∀ p q, 0 ≤ p → p < i → p < q → q < 9 → rd w p ≤ rd w q) :
    (forLoop (i + 1) 9 (fun j w =>
        if rd w i > rd w j then wr (wr w i (rd w j)) j (rd w i) else w) w).Perm w0 ∧
    ∀ p q, 0 ≤ p → p < i + 1 → p < q → q < 9 →
      rd (forLoop (i + 1) 9 (fun j w =>
        if rd w i > rd w j then wr (wr w i (rd w j)) j (rd w i) else w) w) p
      ≤ rd (forLoop (i + 1) 9 (fun j w =>
        if rd w i > rd w j then wr (wr w i (rd w j)) j (rd w i) else w) w) q := by
  have key := forLoop_induct (show i + 1 ≤ 9 by omega)
    (fun j (w : List Nat) => if rd w i > rd w j then wr (wr w i (rd w j)) j (rd w i) else w) w
    (fun (j : Int) (t : List Nat) => t.Perm w0 ∧
      (∀ p q, 0 ≤ p → p < i → p < q → q < 9 → rd t p ≤ rd t q) ∧
      (∀ q, i < q → q < j → rd t i ≤ rd t q))
    ⟨hp, hs, fun q h1 h2 => by omega⟩
    (by
      intro j t hj1 hj2 ⟨tp, ts, ti⟩
      have tl : t.length = 9 := by rw [tp.length_eq, hlen]
      dsimp only
      by_cases c : rd t i > rd t j
      · rw [if_pos c]
        have rdn : ∀ q, rd (wr (wr t i (rd t j)) j (rd t i)) q
            = if q = j then rd t i else if q = i then rd t j else rd t q := by
          intro q
          have hj0 : 0 ≤ j := by omega
          have hjl : j < (t.length : Int) := by omega
          have hil : i < (t.length : Int) := by omega
          rw [rd_wr, length_wr, rd_wr]
          by_cases e1 : q = j
          · subst e1
            simp [hj0, hjl]
          · by_cases e2 : q = i
            · subst e2
              simp [e1, Ne.symm e1, hi0, hil]
            · simp [e1, e2, Ne.symm e1, Ne.symm e2]
        refine ⟨(wr_swap_perm t i j hi0 (by omega) (by omega)).trans tp, ?_, ?_⟩
        · intro p q a1 a2 a3 a4
          rw [rdn p, rdn q, if_neg (by omega), if_neg (by omega)]
          have f1 := ts p i a1 a2 (by omega) (by omega)
          have f2 := ts p j a1 a2 (by omega) (by omega)
          have f3 := ts p q a1 a2 a3 a4
          split_ifs <;> omega
        · intro q a1 a2
          rw [rdn i, rdn q, if_neg (by omega), if_pos rfl]
          by_cases e : q = j
          · rw [if_pos e]
            omega
          · rw [if_neg e, if_neg (by omega)]
            have := ti q a1 (by omega)
            omega
      · rw [if_neg c]
        refine ⟨tp, ts, ?_⟩
        intro q a1 a2
        by_cases e : q = j
        · rw [e]
          omega
        · exact ti q a1 (by omega))
  dsimp only at key
  refine ⟨key.1, ?_⟩
  intro p q a1 a2 a3 a4
  by_cases e : p = i
  · rw [e]
    exact key.2.2 q (by omega) a4
  · exact key.2.1 p q a1 (by omega) a3 a4

/-- The five passes: the outcome is a permutation of the window whose entries
0..4 are each at most every entry behind them. -/
theorem median_sort_spec (w0 : List Nat) (hlen : w0.length = 9) :
    (median_sort w0).Perm w0 ∧
    ∀ p q, 0 ≤ p → p < 5 → p < q → q < 9 → rd (median_sort w0) p ≤ rd (median_sort w0) q := by
  unfold median_sort
  exact forLoop_induct (show (0 : Int) ≤ 5 by norm_num)
    (fun i w => forLoop (i + 1) 9 (fun j w =>
      if rd w i > rd w j then
        let temp := rd w i
        wr (wr w i (rd w j)) j temp
      else w) w) w0
    (fun (i : Int) (t : List Nat) => t.Perm w0 ∧
      ∀ p q, 0 ≤ p → p < i → p < q → q < 9 → rd t p ≤ rd t q)
    ⟨List.Perm.refl _, fun p q a1 a2 => by omega⟩
    (fun i t h1 h2 ⟨tp, ts⟩ => median_pass w0 t i h1 h2 tp hlen ts)

/-- Entry 4 after the five passes is the median of the nine values. -/
theorem median_sort_median (w0 : List Nat) (hlen : w0.length = 9) :
    rd (median_sort w0) 4 = median9 w0 := by
  obtain ⟨hp, hs⟩ := median_sort_spec w0 hlen
  have hl : (median_sort w0).length = 9 := by rw [hp.length_eq, hlen]
  generalize median_sort w0 = r at hp hs hl
  rcases r with _ | ⟨a0, _ | ⟨a1, _ | ⟨a2, _ | ⟨a3, _ | ⟨a4, _ | ⟨a5, _ | ⟨a6, _ | ⟨a7, _ |
    ⟨a8, _ | _⟩⟩⟩⟩⟩⟩⟩⟩⟩ <;> simp at hl
  have h01 := hs 0 1 (by norm_num) (by norm_num) (by norm_num) (by norm_num)
  have h02 := hs 0 2 (by norm_num) (by norm_num) (by norm_num) (by norm_num)
  have h03 := hs 0 3 (by norm_num) (by norm_num) (by norm_num) (by norm_num)
  have h04 := hs 0 4 (by norm_num) (by norm_num) (by norm_num) (by norm_num)
  have h12 := hs 1 2 (by norm_num) (by norm_num) (by norm_num) (by norm_num)
  have h13 := hs 1 3 (by norm_num) (by norm_num) (by norm_num) (by norm_num)
  have h14 := hs 1 4 (by norm_num) (by norm_num) (by norm_num) (by norm_num)
  have h23 := hs 2 3 (by norm_num) (by norm_num) (by norm_num) (by norm_num)
  have h24 := hs 2 4 (by norm_num) (by norm_num) (by norm_num) (by norm_num)
  have h34 := hs 3 4 (by norm_num) (by norm_num) (by norm_num) (by norm_num)
  have h45 := hs 4 5 (by norm_num) (by norm_num) (by norm_num) (by norm_num)
  have h46 := hs 4 6 (by norm_num) (by norm_num) (by norm_num) (by norm_num)
  have h47 := hs 4 7 (by norm_num) (by norm_num) (by norm_num) (by norm_num)
  have h48 := hs 4 8 (by norm_num) (by norm_num) (by norm_num) (by norm_num)
  simp [rd] at h01 h02 h03 h04 h12 h13 h14 h23 h24 h34 h45 h46 h47 h48
  have e : w0.insertionSort (fun a b => a ≤ b)
      = [a0, a1, a2, a3, a4] ++ [a5, a6, a7, a8].insertionSort (fun a b => a ≤ b) := by
    apply List.eq_of_perm_of_sorted (r := fun a b : Nat => a ≤ b)
    · refine (List.perm_insertionSort _ w0).trans (hp.symm.trans ?_)
      have : [a0, a1, a2, a3, a4, a5, a6, a7, a8] = [a0, a1, a2, a3, a4] ++ [a5, a6, a7, a8] := rfl
      rw [this]
      exact List.Perm.append_left _ (List.perm_insertionSort _ _).symm
    · exact List.sorted_insertionSort _ _
    · unfold List.Sorted
      rw [List.pairwise_append]
      refine ⟨?_, List.sorted_insertionSort _ _, ?_⟩
      · simp only [List.pairwise_cons, List.mem_cons, List.mem_singleton, List.not_mem_nil,
          forall_eq_or_imp, forall_eq, List.Pairwise.nil, and_true, implies_true, false_imp_iff]
        omega
      · intro a ha b hb
        rw [List.mem_insertionSort] at hb
        simp only [List.mem_cons, List.mem_singleton, List.not_mem_nil, or_false] at ha hb
        rcases ha with rfl | rfl | rfl | rfl | rfl <;> rcases hb with rfl | rfl | rfl | rfl <;>
          omega
  unfold median9
  rw [e]
  simp [rd]

/-- The gathering loop fills the window with the nine values of the
neighbourhood, row by row. -/
theorem median_window_eq (data : List Nat) (w ch x y c : Int) :
    (median_window data w ch x y c).1 = neighbourhood9 data w ch x y c := by
  unfold median_window forLoop neighbourhood9 pixelAt
  simp only [intRange_m1_two, List.foldl_cons, List.foldl_nil]
  have e1 : y + -1 = y - 1 := by ring
  have e2 : x + -1 = x - 1 := by ring
  have e3 : y + 0 = y := by ring
  have e4 : x + 0 = x := by ring
  rw [e1, e2, e3, e4]
  simp [wr, List.replicate]

/-- Two consecutive stretches of a loop make one loop. -/
theorem forLoop_append {σ : Type} (a b c : Int) (hab : a ≤ b) (hbc : b ≤ c)
    (body : Int → σ → σ) (s : σ) :
    forLoop b c body (forLoop a b body s) = forLoop a c body s := by
  exact forLoop_induct hbc body (forLoop a b body s)
    (fun (i : Int) (t : σ) => t = forLoop a i body s) rfl
    (fun i t h1 h2 ht => by
      show body i t = forLoop a (i + 1) body s
      rw [forLoop_snoc (by omega), ht])

/-- The four bands of `parallel_for`, run one after another, are one pass over
the rows `0 <= y < height`. -/
theorem parallel_for_rows {σ : Type} (height : Int) (hh : 0 ≤ height) (body : Int → σ → σ)
    (out : σ) :
    parallel_for height (fun start_y end_y acc => forLoop start_y end_y body acc) out
      = forLoop 0 height body out := by
  unfold parallel_for
  rw [parallel_for_jobs_eq height hh]
  simp only [List.foldl_cons, List.foldl_nil]
  rw [forLoop_append 0 (height / 4) (2 * (height / 4)) (by omega) (by omega),
    forLoop_append 0 (2 * (height / 4)) (3 * (height / 4)) (by omega) (by omega),
    forLoop_append 0 (3 * (height / 4)) height (by omega) (by omega)]

/-- `median_filter_row` over all rows: every pixel of the columns
`1 <= x < width-1` receives, channel by channel, the median of its
neighbourhood; the first and the last column are left alone. -/
theorem median_rows (img : Image) (hwf : img.WF) (o : List Nat)
    (hl : (o.length : Int) = img.width * img.height * img.channels) :
    (median_filter_row img 0 img.height o).length = o.length ∧
    ∀ x y c, 0 ≤ x → x < img.width → 0 ≤ c → c < img.channels →
      rd (median_filter_row img 0 img.height o) ((y * img.width + x) * img.channels + c)
        = if (1 ≤ x ∧ x < img.width - 1) ∧ 0 ≤ y ∧ y < img.height then
            median9 (neighbourhood9 img.bytes img.width img.channels x y c)
          else rd o ((y * img.width + x) * img.channels + c) := by
  have hn := pixel_nest img.width img.channels 1 (img.width - 1) 0 img.height
    (fun x y acc => forLoop 0 img.channels (fun c acc =>
      wr acc ((y * img.width + x) * img.channels + c)
        (rd (median_sort (median_window img.bytes img.width img.channels x y c).1) 4)) acc)
    (fun x y c b => median9 (neighbourhood9 img.bytes img.width img.channels x y c))
    o.length
    (by
      intro x y t a1 a2 a3 a4 tl
      have m := pixel_write img.width img.height img.channels x y
        (fun c => rd (median_sort (median_window img.bytes img.width img.channels x y c).1) 4)
        t (by omega) (by omega) a3 a4 hwf.2.2.1 (by rw [tl, hl])
      dsimp only at m ⊢
      refine ⟨by rw [m.1, tl], ?_⟩
      intro x2 y2 k2 b1 b2 b3 b4
      rw [m.2 x2 y2 k2 b1 b2 b3 b4]
      by_cases e : x2 = x ∧ y2 = y
      · rw [if_pos e, if_pos e, median_window_eq,
          median_sort_median (neighbourhood9 img.bytes img.width img.channels x y k2) rfl]
      · rw [if_neg e, if_neg e])
    o rfl
  dsimp only at hn
  exact hn

/-- The border copy: the pixels of the outermost ring receive the bytes of the
source, every other pixel is left alone. -/
theorem blur_border_spec (img : Image) (hwf : img.WF) (o : List Nat)
    (hl : (o.length : Int) = img.width * img.height * img.channels) :
    (blur_border img o).length = o.length ∧
    ∀ x y c, 0 ≤ x → x < img.width → 0 ≤ y → y < img.height → 0 ≤ c → c < img.channels →
      rd (blur_border img o) ((y * img.width + x) * img.channels + c)
        = if y = 0 ∨ y = img.height - 1 ∨ x = 0 ∨ x = img.width - 1 then
            rd img.bytes ((y * img.width + x) * img.channels + c)
          else rd o ((y * img.width + x) * img.channels + c) := by
  have hn := pixel_nest img.width img.channels 0 img.width 0 img.height
    (fun x y acc =>
      if y = 0 ∨ y = img.height - 1 ∨ x = 0 ∨ x = img.width - 1 then
        memcpy acc ((y * img.width + x) * img.channels) img.bytes
          ((y * img.width + x) * img.channels) img.channels
      else acc)
    (fun x y c b =>
      if y = 0 ∨ y = img.height - 1 ∨ x = 0 ∨ x = img.width - 1 then
        rd img.bytes ((y * img.width + x) * img.channels + c)
      else b)
    o.length
    (by
      intro x y t a1 a2 a3 a4 tl
      dsimp only
      by_cases q : y = 0 ∨ y = img.height - 1 ∨ x = 0 ∨ x = img.width - 1
      · have m := memcpy_pixel img.width img.height img.channels x y img.bytes
          ((y * img.width + x) * img.channels) t a1 a2 a3 a4 hwf.2.2.1 (by rw [tl, hl])
        rw [if_pos q]
        refine ⟨by rw [m.1, tl], ?_⟩
        intro x2 y2 k2 b1 b2 b3 b4
        rw [m.2 x2 y2 k2 b1 b2 b3 b4]
        by_cases e : x2 = x ∧ y2 = y
        · rw [if_pos e, if_pos e, if_pos q]
        · rw [if_neg e, if_neg e]
      · rw [if_neg q]
        refine ⟨tl, ?_⟩
        intro x2 y2 k2 b1 b2 b3 b4
        by_cases e : x2 = x ∧ y2 = y
        · rw [if_pos e, if_neg q]
        · rw [if_neg e])
    o rfl
  dsimp only at hn
  refine ⟨hn.1, ?_⟩
  intro x y c a1 a2 a3 a4 a5 a6
  have := hn.2 x y c a1 a2 a5 a6
  rw [if_pos ⟨⟨a1, a2⟩, a3, a4⟩] at this
  exact this

/-- The output of `l_img_blur` with type `"median"`: the median of the
neighbourhood at the interior pixels, the source on the outermost ring. -/
theorem blur_median_plane (img : Image) (hwf : img.WF) :
    ∃ o, blur_median img
        = { data := some o, width := img.width, height := img.height,
            channels := img.channels } ∧
      (o.length : Int) = img.width * img.height * img.channels ∧
      ∀ x y c, 0 ≤ x → x < img.width → 0 ≤ y → y < img.height → 0 ≤ c → c < img.channels →
        rd o ((y * img.width + x) * img.channels + c)
          = if y = 0 ∨ y = img.height - 1 ∨ x = 0 ∨ x = img.width - 1 then
              rd img.bytes ((y * img.width + x) * img.channels + c)
            else median9 (neighbourhood9 img.bytes img.width img.channels x y c) := by
  obtain ⟨hw, hh, hc, hfit, _⟩ := hwf
  have hwf2 : img.WF := ⟨hw, hh, hc, hfit, by assumption⟩
  obtain ⟨hpos, hplane⟩ := hwf2.plane_fits
  have hnn : 0 ≤ img.width * img.height * img.channels := mul_nonneg hpos.le hc.le
  have hz : ((List.replicate (img.width * img.height * img.channels).toNat 0).length : Int)
      = img.width * img.height * img.channels := by
    rw [List.length_replicate]
    omega
  have hm := median_rows img hwf2 _ hz
  have hb := blur_border_spec img hwf2
    (median_filter_row img 0 img.height
      (List.replicate (img.width * img.height * img.channels).toNat 0))
    (by rw [hm.1, hz])
  have key : blur_median img
      = { data := some (blur_border img (median_filter_row img 0 img.height
            (List.replicate (img.width * img.height * img.channels).toNat 0))),
          width := img.width, height := img.height, channels := img.channels } := by
    unfold blur_median
    rw [img_create_of_fits _ _ _ hw.le hh.le hc.le hfit hplane]
    have e := parallel_for_rows img.height hh.le
      (fun y acc =>
        forLoop 1 (img.width - 1) (fun x acc =>
          forLoop 0 img.channels (fun c acc =>
            let window := median_sort (median_window img.bytes img.width img.channels x y c).1
            wr acc ((y * img.width + x) * img.channels + c) (rd window 4)) acc) acc)
      (List.replicate (img.width * img.height * img.channels).toNat 0)
    unfold median_filter_row
    simp only [Option.map_some']
    rw [← e]
  refine ⟨_, key, ?_, ?_⟩
  · rw [hb.1, hm.1, hz]
  · intro x y c a1 a2 a3 a4 a5 a6
    rw [hb.2 x y c a1 a2 a3 a4 a5 a6, hm.2 x y c a1 a2 a5 a6]
    by_cases q : y = 0 ∨ y = img.height - 1 ∨ x = 0 ∨ x = img.width - 1
    · rw [if_pos q, if_pos q]
    · rw [if_neg q, if_neg q, if_pos ⟨⟨by omega, by omega⟩, a3, a4⟩]

/-- C20: for every image and every interior pixel and channel, the median filter
outputs the median of the 3 x 3 neighbourhood, the element at index 4 of the
nine values sorted in ascending order; the five passes that the code runs
leave that element at index 4 of any window of nine values. -/
theorem C20_median_filter_interior (img : Image) (hwf : img.WF) :
    (∀ w0 : List Nat, w0.length = 9 → rd (median_sort w0) 4 = median9 w0) ∧
    ∃ o, blur_median img
        = { data := some o, width := img.width, height := img.height,
            channels := img.channels } ∧
      (o.length : Int) = img.width * img.height * img.channels ∧
      ∀ x y c, 1 ≤ x → x < img.width - 1 → 1 ≤ y → y < img.height - 1 → 0 ≤ c →
        c < img.channels →
        rd o ((y * img.width + x) * img.channels + c)
          = median9 (neighbourhood9 img.bytes img.width img.channels x y c) := by
  refine ⟨fun w0 h => median_sort_median w0 h, ?_⟩
  obtain ⟨o, ho, hl, hr⟩ := blur_median_plane img hwf
  refine ⟨o, ho, hl, ?_⟩
  intro x y c a1 a2 a3 a4 a5 a6
  rw [hr x y c (by omega) (by omega) (by omega) (by omega) a5 a6, if_neg (by omega)]

/-- Witness for C20: a 3 x 3 image with 2 channels. -/
theorem C20_median_filter_interior_witness :
    (∀ w0 : List Nat, w0.length = 9 → rd (median_sort w0) 4 = median9 w0) ∧
    ∃ o, blur_median
          (Image.mk (some [1, 2, 3, 4, 5, 6, 7, 8, 9, 10, 11, 12, 13, 14, 15, 16, 17, 18]) 3 3 2)
        = { data := some o, width := 3, height := 3, channels := 2 } ∧
      (o.length : Int) = 3 * 3 * 2 ∧
      ∀ x y c, 1 ≤ x → x < (3 : Int) - 1 → 1 ≤ y → y < (3 : Int) - 1 → 0 ≤ c →
        c < (2 : Int) →
        rd o ((y * 3 + x) * 2 + c)
          = median9 (neighbourhood9
              (Image.mk (some [1, 2, 3, 4, 5, 6, 7, 8, 9, 10, 11, 12, 13, 14, 15, 16, 17, 18])
                3 3 2).bytes 3 2 x y c) :=
  C20_median_filter_interior
    (Image.mk (some [1, 2, 3, 4, 5, 6, 7, 8, 9, 10, 11, 12, 13, 14, 15, 16, 17, 18]) 3 3 2)
    (by
      refine ⟨by decide, by decide, by decide, by decide,
        [1, 2, 3, 4, 5, 6, 7, 8, 9, 10, 11, 12, 13, 14, 15, 16, 17, 18], rfl, by decide,
        by decide⟩)


/-! ## Connected components: labels, bounding boxes, emission -/

/-- Storing a label at the pixel the labelling pass stands on: either the fresh
label `current_label`, which is then incremented, or a label already in use. -/
theorem label_write (img : Image) (hwf : img.WF) (x y : Int) (labels : List Int) (cur v cur2 : Int)
    (hx : 1 ≤ x ∧ x < img.width - 1) (hy : 1 ≤ y ∧ y < img.height - 1)
    (h : LabelInv img x y (labels, cur))
    (hv : (v = cur ∧ cur2 = cur + 1) ∨ (1 ≤ v ∧ v < cur ∧ cur2 = cur)) :
    LabelInv img (x + 1) y (wri labels (y * img.width + x) v, cur2) := by
  obtain ⟨hl, h1, hr, hwit, hun⟩ := h
  dsimp only at hl h1 hr hwit hun
  obtain ⟨hpos, _⟩ := hwf.plane_fits
  have hb := idx_bound (w := img.width) (h := img.height) (x := x) (y := y) (by omega) (by omega)
    (by omega) (by omega)
  have hin : y * img.width + x < (labels.length : Int) := by
    rw [hl]
    omega
  have hz : rdi labels (y * img.width + x) = 0 := hun x y (by omega) (by omega) (Or.inr ⟨rfl, le_rfl⟩)
  refine ⟨by rw [length_wri]; exact hl, by omega, ?_, ?_, ?_⟩
  · intro j
    show 0 ≤ rdi (wri labels (y * img.width + x) v) j ∧ rdi (wri labels (y * img.width + x) v) j < cur2
    rw [rdi_wri]
    have := hr j
    split <;> omega
  · intro i hi1 hi2
    show ∃ x2 y2, _ ∧ _ ∧ rdi (wri labels (y * img.width + x) v) (y2 * img.width + x2) = i
    by_cases c : i < cur
    · obtain ⟨x2, y2, b1, b2, b3⟩ := hwit i hi1 c
      refine ⟨x2, y2, b1, b2, ?_⟩
      rw [rdi_wri]
      by_cases e : y * img.width + x = y2 * img.width + x2
      · rw [← e, hz] at b3
        omega
      · rw [if_neg (fun q => e q.1)]
        exact b3
    · refine ⟨x, y, hx, hy, ?_⟩
      rw [rdi_wri, if_pos ⟨rfl, hb.1, hin⟩]
      omega
  · intro x2 y2 a1 a2 a3
    show rdi (wri labels (y * img.width + x) v) (y2 * img.width + x2) = 0
    rw [rdi_wri]
    by_cases e : y * img.width + x = y2 * img.width + x2
    · obtain ⟨e1, e2⟩ := idx_inj (by omega) (by omega) a1 a2 e
      omega
    · rw [if_neg (fun q => e q.1)]
      exact hun x2 y2 a1 a2 (by omega)

/-- One step of the labelling pass carries the invariant to the next pixel. -/
theorem label_step_inv (img : Image) (hwf : img.WF) (x y : Int) (st : List Int × Int)
    (hx : 1 ≤ x ∧ x < img.width - 1) (hy : 1 ≤ y ∧ y < img.height - 1)
    (h : LabelInv img x y st) : LabelInv img (x + 1) y (label_step img y x st) := by
  obtain ⟨labels, cur⟩ := st
  have hr := h.2.2.1
  dsimp only at hr
  have skip : LabelInv img (x + 1) y (labels, cur) := by
    obtain ⟨hl, h1, hr, hwit, hun⟩ := h
    exact ⟨hl, h1, hr, hwit, fun x2 y2 a1 a2 a3 => hun x2 y2 a1 a2 (by omega)⟩
  unfold label_step
  dsimp only
  split
  · split
    · exact label_write img hwf x y labels cur cur (cur + 1) hx hy h (Or.inl ⟨rfl, rfl⟩)
    · split
      · rename_i hleft
        have := hr (y * img.width + (x - 1))
        exact label_write img hwf x y labels cur _ cur hx hy h (Or.inr ⟨by omega, by omega, rfl⟩)
      · split
        · rename_i htop
          have := hr ((y - 1) * img.width + x)
          exact label_write img hwf x y labels cur _ cur hx hy h
            (Or.inr ⟨by omega, by omega, rfl⟩)
        · exact skip
  · exact skip

theorem length_wrq (d : List ℚ) (i : Int) (v : ℚ) : (wrq d i v).length = d.length := by
  unfold wrq
  split <;> simp

theorem rdq_wrq (d : List ℚ) (i j : Int) (v : ℚ) :
    rdq (wrq d i v) j = if i = j ∧ 0 ≤ i ∧ i < d.length then v else rdq d j := by
  unfold rdq wrq
  by_cases hi : 0 ≤ i
  · by_cases hj : 0 ≤ j
    · simp only [hi, hj, if_true, true_and]
      exact getD_set_int d i j v 0 hi hj
    · have : i ≠ j := by omega
      simp [hi, hj, this]
  · simp [hi]

theorem rdq_replicate_zero (n : Nat) (i : Int) : rdq (List.replicate n 0) i = 0 := by
  unfold rdq
  split
  · simp only [List.getD_eq_getElem?_getD, List.getElem?_replicate]
    split <;> rfl
  · rfl

theorem rdq_of_lt (d : List ℚ) (i : Nat) (h : i < d.length) : rdq d (i : Int) = d[i] := by
  simp [rdq, List.getD_eq_getElem?_getD, List.getElem?_eq_getElem h]

/-- Overwriting one entry changes the sum by the difference of the entries. -/
theorem sum_set_rat (l : List ℚ) (i : Nat) (v : ℚ) (h : i < l.length) :
    (l.set i v).sum = l.sum - l[i] + v := by
  induction l generalizing i with
  | nil => simp at h
  | cons a l ih =>
    cases i with
    | zero =>
      simp only [List.set_cons_zero, List.sum_cons, List.getElem_cons_zero]
      ring
    | succ i =>
      simp only [List.set_cons_succ, List.sum_cons, List.getElem_cons_succ]
      rw [ih i (by simpa using h)]
      ring

theorem sum_wrq (l : List ℚ) (i : Int) (v : ℚ) (h0 : 0 ≤ i) (h1 : i < l.length) :
    (wrq l i v).sum = l.sum - rdq l i + v := by
  obtain ⟨n, rfl⟩ : ∃ n : Nat, i = (n : Int) := ⟨i.toNat, by omega⟩
  have hn : n < l.length := by omega
  rw [rdq_of_lt l n hn]
  unfold wrq
  simp only [Int.ofNat_nonneg, if_true, Int.toNat_ofNat]
  exact sum_set_rat l n v hn

/-- Dividing every entry of a `float` array by s, entry by entry. -/
theorem normalise_loop (vals : List ℚ) (s : ℚ) (n : Int) (hn : (vals.length : Int) = n) :
    forLoop 0 n (fun i k => wrq k i (rdq k i / s)) vals = vals.map (fun v => v / s) := by
  have hn0 : 0 ≤ n := by omega
  have key := forLoop_induct hn0 (fun i k => wrq k i (rdq k i / s)) vals
    (fun (i : Int) (t : List ℚ) => t.length = vals.length ∧
      ∀ j : Nat, j < vals.length → rdq t j = if (j : Int) < i then rdq vals j / s else rdq vals j)
    ⟨rfl, fun j hj => by rw [if_neg (by omega)]⟩
    (fun i t h1 h2 ⟨tl, tr⟩ => by
      refine ⟨by rw [length_wrq, tl], ?_⟩
      intro j hj
      show rdq (wrq t i (rdq t i / s)) j = _
      rw [rdq_wrq, tl]
      by_cases e : i = (j : Int)
      · rw [if_pos ⟨e, h1, by omega⟩, if_pos (by omega), e, tr j hj, if_neg (by omega)]
      · rw [if_neg (fun q => e q.1), tr j hj]
        by_cases c : (j : Int) < i
        · rw [if_pos c, if_pos (by omega)]
        · rw [if_neg c, if_neg (by omega)])
  obtain ⟨kl, kr⟩ := key
  apply List.ext_getElem (by rw [kl, List.length_map])
  intro j h1 h2
  have hj : j < vals.length := by rw [← kl]; exact h1
  have := kr j hj
  rw [if_pos (by omega), rdq_of_lt _ j h1, rdq_of_lt _ j hj] at this
  rw [this, List.getElem_map]

theorem sum_map_div_rat (l : List ℚ) (s : ℚ) : (l.map (fun v => v / s)).sum = l.sum / s := by
  induction l with
  | nil => simp
  | cons a l ih =>
    simp only [List.map_cons, List.sum_cons, ih]
    ring

/-- One step of the weight loops carries the invariant to the next cell. -/
theorem gauss_step (size cx cy : Int) (v : Int → Int → ℚ) (hv : ∀ x y, 0 ≤ v x y)
    (hc : 0 < v cx cy) (x y : Int) (st : List ℚ × ℚ) (hx : 0 ≤ x ∧ x < size)
    (hy : 0 ≤ y ∧ y < size) (h : GaussInv size cx cy x y st) :
    GaussInv size cx cy (x + 1) y (wrq st.1 (y * size + x) (v x y), st.2 + v x y) := by
  obtain ⟨hl, hs, h0, hpos, hnn, hun⟩ := h
  have hb := idx_bound (w := size) (h := size) (x := x) (y := y) hx.1 hx.2 hy.1 hy.2
  have hin : y * size + x < (st.1.length : Int) := by
    rw [hl]
    exact hb.2
  have hz : rdq st.1 (y * size + x) = 0 := hun x y hx.1 hx.2 (Or.inr ⟨rfl, le_rfl⟩)
  have hvxy := hv x y
  refine ⟨by rw [length_wrq]; exact hl, ?_, by dsimp only; linarith, ?_, ?_, ?_⟩
  · show (wrq st.1 (y * size + x) (v x y)).sum = st.2 + v x y
    rw [sum_wrq _ _ _ hb.1 hin, hz, hs]
    ring
  · intro hvis
    show 0 < st.2 + v x y
    by_cases e : cy = y ∧ cx = x
    · rw [← e.1, ← e.2]
      linarith
    · have := hpos (by omega)
      linarith
  · intro j
    show 0 ≤ rdq (wrq st.1 (y * size + x) (v x y)) j
    rw [rdq_wrq]
    split
    · exact hvxy
    · exact hnn j
  · intro x2 y2 a1 a2 a3
    show rdq (wrq st.1 (y * size + x) (v x y)) (y2 * size + x2) = 0
    rw [rdq_wrq]
    by_cases e : y * size + x = y2 * size + x2
    · obtain ⟨e1, e2⟩ := idx_inj hx.1 hx.2 a1 a2 e
      omega
    · rw [if_neg (fun q => e q.1)]
      exact hun x2 y2 a1 a2 (by omega)

/-- The weight loops: the array holds size * size weights, none negative, and
`sum` is their positive total. -/
theorem gauss_fill (size cx cy : Int) (v : Int → Int → ℚ) (hv : ∀ x y, 0 ≤ v x y)
    (hc : 0 < v cx cy) (hs : 1 ≤ size) (hcx : 0 ≤ cx ∧ cx < size) (hcy : 0 ≤ cy ∧ cy < size) :
    GaussInv size cx cy 0 size
      (forLoop 0 size (fun y st =>
        forLoop 0 size (fun x st => (wrq st.1 (y * size + x) (v x y), st.2 + v x y)) st)
        (List.replicate (size * size).toNat (0 : ℚ), (0 : ℚ))) := by
  have hnn : 0 ≤ size * size := mul_nonneg (by omega) (by omega)
  refine forLoop_induct (by omega) _ _ (fun y t => GaussInv size cx cy 0 y t) ?_ ?_
  · refine ⟨?_, ?_, le_rfl, ?_, ?_, ?_⟩
    · show ((List.replicate (size * size).toNat (0 : ℚ)).length : Int) = size * size
      rw [List.length_replicate]
      omega
    · show (List.replicate (size * size).toNat (0 : ℚ)).sum = 0
      simp
    · intro hvis
      omega
    · intro j
      show 0 ≤ rdq (List.replicate (size * size).toNat (0 : ℚ)) j
      rw [rdq_replicate_zero]
    · intro x2 y2 _ _ _
      exact rdq_replicate_zero _ _
  · intro y t h1 h2 ht
    have row := forLoop_induct (show (0 : Int) ≤ size by omega)
      (fun x (st : List ℚ × ℚ) => (wrq st.1 (y * size + x) (v x y), st.2 + v x y)) t
      (fun x t => GaussInv size cx cy x y t) ht
      (fun x t a1 a2 hx => gauss_step size cx cy v hv hc x y t ⟨a1, a2⟩ ⟨h1, h2⟩ hx)
    obtain ⟨rl, rs, r0, rpos, rnn, run⟩ := row
    exact ⟨rl, rs, r0, fun hvis => rpos (by omega), rnn,
      fun x2 y2 a1 a2 a3 => run x2 y2 a1 a2 (by omega)⟩

/-- In exact arithmetic the kernel of a non-zero sigma has size * size weights,
none negative, that sum to 1. -/
theorem gaussian_kernel_sum (exp : ℚ → ℚ) (hexp : ∀ q, 0 ≤ exp q) (hexp0 : 0 < exp 0)
    (size : Int) (hs : 1 ≤ size) (hfit : size * size < 2147483648) (sigma : ℚ)
    (hsig : sigma ≠ 0) :
    ∃ k, create_gaussian_kernel exp size sigma = some k ∧ (k.length : Int) = size * size ∧
      k.sum = 1 ∧ ∀ w ∈ k, 0 ≤ w := by
  have hnn : 0 ≤ size * size := mul_nonneg (by omega) (by omega)
  have hq : Int.tdiv size 2 = size / 2 := Int.tdiv_eq_ediv (by omega) (by norm_num)
  have hd : ¬ (2 * sigma * sigma = 0) := by
    intro h
    rcases mul_eq_zero.mp h with h | h
    · rcases mul_eq_zero.mp h with h | h
      · norm_num at h
      · exact hsig h
    · exact hsig h
  have inv := gauss_fill size (size / 2) (size / 2)
    (fun x y => exp (((-((x - size / 2) * (x - size / 2) + (y - size / 2) * (y - size / 2)) : Int)
      : ℚ) / (2 * sigma * sigma)))
    (fun x y => hexp _) (by simpa using hexp0) hs (by omega) (by omega)
  have key : create_gaussian_kernel exp size sigma
      = some (forLoop 0 (size * size) (fun i k => wrq k i (rdq k i /
          (forLoop 0 size (fun y st =>
            forLoop 0 size (fun x st =>
              (wrq st.1 (y * size + x)
                (exp (((-((x - size / 2) * (x - size / 2) + (y - size / 2) * (y - size / 2))
                  : Int) : ℚ) / (2 * sigma * sigma))),
               st.2 + exp (((-((x - size / 2) * (x - size / 2)
                  + (y - size / 2) * (y - size / 2)) : Int) : ℚ) / (2 * sigma * sigma)))) st)
            (List.replicate (size * size).toNat (0 : ℚ), (0 : ℚ))).2))
          (forLoop 0 size (fun y st =>
            forLoop 0 size (fun x st =>
              (wrq st.1 (y * size + x)
                (exp (((-((x - size / 2) * (x - size / 2) + (y - size / 2) * (y - size / 2))
                  : Int) : ℚ) / (2 * sigma * sigma))),
               st.2 + exp (((-((x - size / 2) * (x - size / 2)
                  + (y - size / 2) * (y - size / 2)) : Int) : ℚ) / (2 * sigma * sigma)))) st)
            (List.replicate (size * size).toNat (0 : ℚ), (0 : ℚ))).1) := by
    unfold create_gaussian_kernel
    rw [if_neg hd, wrap32_of_range _ (by omega) hfit, hq]
  dsimp only at inv
  generalize forLoop 0 size (fun y st =>
      forLoop 0 size (fun x st =>
        (wrq st.1 (y * size + x)
          (exp (((-((x - size / 2) * (x - size / 2) + (y - size / 2) * (y - size / 2))
            : Int) : ℚ) / (2 * sigma * sigma))),
         st.2 + exp (((-((x - size / 2) * (x - size / 2)
            + (y - size / 2) * (y - size / 2)) : Int) : ℚ) / (2 * sigma * sigma)))) st)
      (List.replicate (size * size).toNat (0 : ℚ), (0 : ℚ)) = st at inv key
  obtain ⟨il, is, i0, ipos, inn, _⟩ := inv
  have hS : 0 < st.2 := ipos (by omega)
  rw [normalise_loop st.1 st.2 (size * size) il] at key
  refine ⟨_, key, ?_, ?_, ?_⟩
  · rw [List.length_map]
    exact il
  · rw [sum_map_div_rat, is]
    exact div_self (ne_of_gt hS)
  · intro w hw
    obtain ⟨a, ha, rfl⟩ := List.mem_map.mp hw
    obtain ⟨n, hn, rfl⟩ := List.getElem_of_mem ha
    have := inn (n : Int)
    rw [rdq_of_lt _ n hn] at this
    exact div_nonneg this hS.le

/-- C13: at sigma = 0 the kernel is not normalised.  The divisor
`2 * sigma * sigma` is 0, the quotient at the centre of the kernel (dx = dy = 0)
is 0/0, a NaN, which `sum` and then every weight inherit: for every size >= 1
and whatever the library function `exp` returns, no weight is a number and the
weights have no sum within 1e-4 of 1.  Evaluated for the default size 5, with
1 / (1 + q^2) in the place of `exp`. -/
theorem C13_gaussian_kernel_sigma_zero :
    (∀ (exp : ℚ → ℚ) (size : Int), 1 ≤ size → create_gaussian_kernel exp size 0 = none) ∧
    create_gaussian_kernel (fun q => 1 / (1 + q * q)) 5 0 = none := by
  constructor
  · intro exp size _
    unfold create_gaussian_kernel
    simp
  · unfold create_gaussian_kernel
    simp

/-! ## Painting lists of points -/

theorem penByte_idem (ch : Int) (r g b : Nat) (c : Int) (old : Nat) :
    penByte ch r g b c (penByte ch r g b c old) = penByte ch r g b c old := by
  unfold penByte
  split_ifs <;> rfl

theorem draw_pixel_outside (img : Image) (x y : Int) (r g b : Nat)
    (h : ¬ ((0 ≤ x ∧ x < img.width) ∧ 0 ≤ y ∧ y < img.height)) :
    draw_pixel img x y r g b = img := by
  unfold draw_pixel
  rw [if_pos (by omega)]

theorem paintAll_append (img : Image) (p q : List (Int × Int)) (r g b : Nat) :
    paintAll img (p ++ q) r g b = paintAll (paintAll img p r g b) q r g b := by
  unfold paintAll
  rw [List.foldl_append]

/-- Painting a list of points: the pixels of the canvas that occur in the list
receive the pen bytes, every other byte is unchanged. -/
theorem paintAll_spec (r g b : Nat) (pts : List (Int × Int)) :
    ∀ (img : Image) (d : List Nat), img.data = some d →
      (d.length : Int) = img.width * img.height * img.channels → 0 < img.channels →
      ∃ d2, paintAll img pts r g b = { img with data := some d2 } ∧ d2.length = d.length ∧
        ∀ x2 y2 c, 0 ≤ x2 → x2 < img.width → 0 ≤ y2 → y2 < img.height → 0 ≤ c →
          c < img.channels →
          rd d2 ((y2 * img.width + x2) * img.channels + c)
            = if (x2, y2) ∈ pts then
                penByte img.channels r g b c (rd d ((y2 * img.width + x2) * img.channels + c))
              else rd d ((y2 * img.width + x2) * img.channels + c) := by
  induction pts with
  | nil =>
    intro img d hd hlen hch
    refine ⟨d, ?_, rfl, ?_⟩
    · unfold paintAll
      rw [List.foldl_nil, ← hd]
    · intro x2 y2 c _ _ _ _ _ _
      rw [if_neg (List.not_mem_nil _)]
  | cons p pts ih =>
    intro img d hd hlen hch
    have hstep : ∃ d1, draw_pixel img p.1 p.2 r g b = { img with data := some d1 } ∧
        d1.length = d.length ∧
        ∀ x2 y2 c, 0 ≤ x2 → x2 < img.width → 0 ≤ y2 → y2 < img.height → 0 ≤ c →
          c < img.channels →
          rd d1 ((y2 * img.width + x2) * img.channels + c)
            = if (x2, y2) = p then
                penByte img.channels r g b c (rd d ((y2 * img.width + x2) * img.channels + c))
              else rd d ((y2 * img.width + x2) * img.channels + c) := by
      by_cases hin : (0 ≤ p.1 ∧ p.1 < img.width) ∧ 0 ≤ p.2 ∧ p.2 < img.height
      · obtain ⟨d1, e1, l1, r1⟩ := draw_pixel_spec img d hd hlen hch p.1 p.2 hin.1 hin.2 r g b
        refine ⟨d1, e1, l1, ?_⟩
        intro x2 y2 c a1 a2 _ _ a5 a6
        rw [r1 x2 y2 c a1 a2 a5 a6]
        by_cases e : x2 = p.1 ∧ y2 = p.2
        · rw [if_pos e, if_pos (Prod.ext e.1 e.2)]
        · rw [if_neg e, if_neg]
          intro q
          apply e
          rw [← q]
          exact ⟨rfl, rfl⟩
      · refine ⟨d, ?_, rfl, ?_⟩
        · rw [draw_pixel_outside img p.1 p.2 r g b hin, ← hd]
        · intro x2 y2 c a1 a2 a3 a4 _ _
          rw [if_neg]
          intro q
          apply hin
          rw [← q]
          exact ⟨⟨a1, a2⟩, a3, a4⟩
    obtain ⟨d1, e1, l1, r1⟩ := hstep
    obtain ⟨d2, e2, l2, r2⟩ := ih { img with data := some d1 } d1 rfl (by rw [l1]; exact hlen) hch
    refine ⟨d2, ?_, by rw [l2, l1], ?_⟩
    · unfold paintAll at e2 ⊢
      rw [List.foldl_cons, e1, e2]
    · intro x2 y2 c a1 a2 a3 a4 a5 a6
      have h2 := r2 x2 y2 c a1 a2 a3 a4 a5 a6
      have h1 := r1 x2 y2 c a1 a2 a3 a4 a5 a6
      dsimp only at h2
      rw [h2, h1]
      by_cases m1 : (x2, y2) = p
      · rw [if_pos m1, if_pos (List.mem_cons.mpr (Or.inl m1))]
        split
        · exact penByte_idem _ _ _ _ _ _
        · rfl
      · rw [if_neg m1]
        by_cases m2 : (x2, y2) ∈ pts
        · rw [if_pos m2, if_pos (List.mem_cons.mpr (Or.inr m2))]
        · rw [if_neg m2, if_neg]
          intro q
          rcases List.mem_cons.mp q with q | q
          · exact m1 q
          · exact m2 q

/-- A loop nest over a rectangle of coordinates is a fold over its points. -/
theorem nest_eq_foldl_rect {σ : Type} (x0 x1 y0 y1 : Int) (f : Int → Int → σ → σ) (s : σ) :
    forLoop y0 y1 (fun y s => forLoop x0 x1 (fun x s => f x y s) s) s
      = (rectPixels x0 x1 y0 y1).foldl (fun s p => f p.1 p.2 s) s := by
  unfold forLoop rectPixels
  rw [List.foldl_flatten, List.foldl_map]
  congr 1
  funext t y
  rw [List.foldl_map]

theorem mem_rectPixels (x0 x1 y0 y1 : Int) (p : Int × Int) :
    p ∈ rectPixels x0 x1 y0 y1 ↔ (x0 ≤ p.1 ∧ p.1 < x1) ∧ y0 ≤ p.2 ∧ p.2 < y1 := by
  unfold rectPixels
  simp only [List.mem_flatten, List.mem_map, mem_intRange]
  constructor
  · rintro ⟨l, ⟨y, hy, rfl⟩, hp⟩
    simp only [List.mem_map, mem_intRange] at hp
    obtain ⟨x, hx, rfl⟩ := hp
    exact ⟨hx, hy⟩
  · rintro ⟨hx, hy⟩
    refine ⟨_, ⟨p.2, hy, rfl⟩, ?_⟩
    simp only [List.mem_map, mem_intRange]
    exact ⟨p.1, hx, rfl⟩

/-- C28: when decoding the source yields no data, every operation that takes an
input path (grayscale, resize with a positive size, crop, rotate, blur, sobel,
canny, threshold, otsu, adaptive threshold, erode, dilate, the five draw
operations, detect_contours) returns `false` together with the message
"Failed to read input image", and no image is handed to the writer. -/
theorem C28_read_failure_aborts (img : Image) (hnone : img.data = none) :
    read_failure.ret = [LuaVal.bool false, LuaVal.str "Failed to read input image"] ∧
    read_failure.written = none ∧
    (∀ encode, l_img_grayscale encode img = read_failure) ∧
    (∀ stbir encode new_w new_h, 0 < new_w → 0 < new_h →
      l_img_resize stbir encode img new_w new_h = read_failure) ∧
    (∀ encode x y w h, l_img_crop encode img x y w h = read_failure) ∧
    (∀ encode cos_a sin_a, l_img_rotate encode img cos_a sin_a = read_failure) ∧
    (∀ exp encode type size sigma,
      l_img_blur exp encode img type size sigma = some read_failure) ∧
    (∀ encode, l_img_sobel encode img = read_failure) ∧
    (∀ encode low high, l_img_canny encode img low high = read_failure) ∧
    (∀ encode thresh maxval, l_img_threshold encode img thresh maxval = read_failure) ∧
    (∀ encode, l_img_otsu encode img = read_failure) ∧
    (∀ encode block_size C, l_img_adaptive_threshold encode img block_size C = read_failure) ∧
    (∀ encode size, l_img_erode encode img size = read_failure) ∧
    (∀ encode size, l_img_dilate encode img size = read_failure) ∧
    (∀ fuel encode x1 y1 x2 y2 r g b thickness,
      l_img_draw_line fuel encode img x1 y1 x2 y2 r g b thickness = some read_failure) ∧
    (∀ fuel encode x y w h r g b thickness,
      l_img_draw_rect fuel encode img x y w h r g b thickness = some read_failure) ∧
    (∀ encode x y w h r g b, l_img_fill_rect encode img x y w h r g b = read_failure) ∧
    (∀ fuel encode cx cy radius r g b thickness,
      l_img_draw_circle fuel encode img cx cy radius r g b thickness = some read_failure) ∧
    (∀ encode x y text r g b scale,
      l_img_draw_text encode img x y text r g b scale = read_failure) ∧
    (∀ fuel encode r g b thickness,
      l_img_detect_contours fuel encode img r g b thickness = some read_failure) := by
  have hn : img.data.isNone = true := by rw [hnone]; rfl
  refine ⟨rfl, rfl, ?_, ?_, ?_, ?_, ?_, ?_, ?_, ?_, ?_, ?_, ?_, ?_, ?_, ?_, ?_, ?_, ?_, ?_⟩
  · intro encode
    unfold l_img_grayscale
    rw [if_pos hn]
  · intro stbir encode new_w new_h h1 h2
    unfold l_img_resize
    rw [if_neg (by omega), if_pos hn]
  · intro encode x y w h
    unfold l_img_crop
    rw [if_pos hn]
    rfl
  · intro encode cos_a sin_a
    unfold l_img_rotate
    rw [if_pos hn]
  · intro exp encode type size sigma
    unfold l_img_blur
    rw [if_pos hn]
  · intro encode
    unfold l_img_sobel
    rw [if_pos hn]
  · intro encode low high
    unfold l_img_canny
    rw [if_pos hn]
  · intro encode thresh maxval
    unfold l_img_threshold
    rw [if_pos hn]
  · intro encode
    unfold l_img_otsu
    rw [if_pos hn]
  · intro encode block_size C
    unfold l_img_adaptive_threshold
    rw [if_pos hn]
  · intro encode size
    unfold l_img_erode
    rw [if_pos hn]
  · intro encode size
    unfold l_img_dilate
    rw [if_pos hn]
  · intro fuel encode x1 y1 x2 y2 r g b thickness
    unfold l_img_draw_line
    rw [if_pos hn]
  · intro fuel encode x y w h r g b thickness
    unfold l_img_draw_rect
    rw [if_pos hn]
  · intro encode x y w h r g b
    unfold l_img_fill_rect
    rw [if_pos hn]
  · intro fuel encode cx cy radius r g b thickness
    unfold l_img_draw_circle
    rw [if_pos hn]
  · intro encode x y text r g b scale
    unfold l_img_draw_text
    rw [if_pos hn]
  · intro fuel encode r g b thickness
    unfold l_img_detect_contours
    rw [if_pos hn]
    rfl

/-- Witness for C28: the image that `img_read` returns when decoding fails. -/
theorem C28_read_failure_aborts_witness :
    read_failure.ret = [LuaVal.bool false, LuaVal.str "Failed to read input image"] ∧
    read_failure.written = none ∧
    (∀ encode, l_img_grayscale encode (Image.mk none 0 0 0) = read_failure) ∧
    (∀ stbir encode new_w new_h, 0 < new_w → 0 < new_h →
      l_img_resize stbir encode (Image.mk none 0 0 0) new_w new_h = read_failure) ∧
    (∀ encode x y w h, l_img_crop encode (Image.mk none 0 0 0) x y w h = read_failure) ∧
    (∀ encode cos_a sin_a, l_img_rotate encode (Image.mk none 0 0 0) cos_a sin_a = read_failure) ∧
    (∀ exp encode type size sigma,
      l_img_blur exp encode (Image.mk none 0 0 0) type size sigma = some read_failure) ∧
    (∀ encode, l_img_sobel encode (Image.mk none 0 0 0) = read_failure) ∧
    (∀ encode low high, l_img_canny encode (Image.mk none 0 0 0) low high = read_failure) ∧
    (∀ encode thresh maxval,
      l_img_threshold encode (Image.mk none 0 0 0) thresh maxval = read_failure) ∧
    (∀ encode, l_img_otsu encode (Image.mk none 0 0 0) = read_failure) ∧
    (∀ encode block_size C,
      l_img_adaptive_threshold encode (Image.mk none 0 0 0) block_size C = read_failure) ∧
    (∀ encode size, l_img_erode encode (Image.mk none 0 0 0) size = read_failure) ∧
    (∀ encode size, l_img_dilate encode (Image.mk none 0 0 0) size = read_failure) ∧
    (∀ fuel encode x1 y1 x2 y2 r g b thickness,
      l_img_draw_line fuel encode (Image.mk none 0 0 0) x1 y1 x2 y2 r g b thickness
        = some read_failure) ∧
    (∀ fuel encode x y w h r g b thickness,
      l_img_draw_rect fuel encode (Image.mk none 0 0 0) x y w h r g b thickness
        = some read_failure) ∧
    (∀ encode x y w h r g b,
      l_img_fill_rect encode (Image.mk none 0 0 0) x y w h r g b = read_failure) ∧
    (∀ fuel encode cx cy radius r g b thickness,
      l_img_draw_circle fuel encode (Image.mk none 0 0 0) cx cy radius r g b thickness
        = some read_failure) ∧
    (∀ encode x y text r g b scale,
      l_img_draw_text encode (Image.mk none 0 0 0) x y text r g b scale = read_failure) ∧
    (∀ fuel encode r g b thickness,
      l_img_detect_contours fuel encode (Image.mk none 0 0 0) r g b thickness
        = some read_failure) :=
  C28_read_failure_aborts (Image.mk none 0 0 0) rfl

/-! ## `draw_pixel` and `draw_text` -/

/-- What `draw_pixel` does to the bytes of a buffer. -/
theorem draw_pixel_bytes (img : Image) (d : List Nat) (hd : img.data = some d)
    (hlen : (d.length : Int) = img.width * img.height * img.channels) (hch : 0 < img.channels)
    (x y : Int) (r g b : Nat) :
    (¬ ((0 ≤ x ∧ x < img.width) ∧ 0 ≤ y ∧ y < img.height) → draw_pixel img x y r g b = img) ∧
    (((0 ≤ x ∧ x < img.width) ∧ 0 ≤ y ∧ y < img.height) → 3 ≤ img.channels →
      ∃ d2, draw_pixel img x y r g b = { img with data := some d2 } ∧ d2.length = d.length ∧
        rd d2 ((y * img.width + x) * img.channels) = r ∧
        rd d2 ((y * img.width + x) * img.channels + 1) = g ∧
        rd d2 ((y * img.width + x) * img.channels + 2) = b ∧
        ∀ j, j ≠ (y * img.width + x) * img.channels →
          j ≠ (y * img.width + x) * img.channels + 1 →
          j ≠ (y * img.width + x) * img.channels + 2 → rd d2 j = rd d j) ∧
    (((0 ≤ x ∧ x < img.width) ∧ 0 ≤ y ∧ y < img.height) → img.channels < 3 →
      ∃ d2, draw_pixel img x y r g b = { img with data := some d2 } ∧ d2.length = d.length ∧
        ∀ j, j ≠ (y * img.width + x) * img.channels → rd d2 j = rd d j) := by
  refine ⟨draw_pixel_outside img x y r g b, ?_, ?_⟩
  · intro hin h3
    have b0 := pix_idx_bound (n := img.channels) hin.1.1 hin.1.2 hin.2.1 hin.2.2 (le_refl 0) hch
    have b2 := pix_idx_bound (n := img.channels) (c := 2) hin.1.1 hin.1.2 hin.2.1 hin.2.2
      (by omega) (by omega)
    rw [add_zero] at b0
    unfold draw_pixel
    rw [if_neg (by omega), hd]
    dsimp only
    rw [if_pos h3]
    generalize (y * img.width + x) * img.channels = P at b0 b2
    refine ⟨_, rfl, by simp only [length_wr], ?_, ?_, ?_, ?_⟩
    · rw [rd_wr_of_ne _ _ _ _ (show P + 2 ≠ P by omega),
        rd_wr_of_ne _ _ _ _ (show P + 1 ≠ P by omega), rd_wr_same _ _ _ b0.1 (by omega)]
    · rw [rd_wr_of_ne _ _ _ _ (show P + 2 ≠ P + 1 by omega),
        rd_wr_same _ _ _ (by omega) (by rw [length_wr]; omega)]
    · rw [rd_wr_same _ _ _ (by omega) (by simp only [length_wr]; omega)]
    · intro j j0 j1 j2
      rw [rd_wr_of_ne _ _ _ _ (Ne.symm j2), rd_wr_of_ne _ _ _ _ (Ne.symm j1),
        rd_wr_of_ne _ _ _ _ (Ne.symm j0)]
  · intro hin h3
    unfold draw_pixel
    rw [if_neg (by omega), hd]
    dsimp only
    rw [if_neg (by omega)]
    refine ⟨_, rfl, by simp only [length_wr], ?_⟩
    intro j j0
    rw [rd_wr_of_ne _ _ _ _ (Ne.symm j0)]

/-- C22: `draw_pixel` is bounds-checked and local: for coordinates outside
0 <= x < width, 0 <= y < height the buffer is unchanged; for coordinates inside,
on a buffer with at least 3 channels bytes 0, 1, 2 of pixel (x, y) become
r, g, b and every other byte of the buffer (the 4th channel of that pixel
included) is unchanged; on a buffer with fewer than 3 channels (so on a
1-channel buffer) no byte other than byte 0 of pixel (x, y) changes. -/
theorem C22_draw_pixel_local (img : Image) (d : List Nat) (hd : img.data = some d)
    (hlen : (d.length : Int) = img.width * img.height * img.channels) (hch : 0 < img.channels)
    (x y : Int) (r g b : Nat) :
    (¬ ((0 ≤ x ∧ x < img.width) ∧ 0 ≤ y ∧ y < img.height) → draw_pixel img x y r g b = img) ∧
    (((0 ≤ x ∧ x < img.width) ∧ 0 ≤ y ∧ y < img.height) → 3 ≤ img.channels →
      ∃ d2, draw_pixel img x y r g b = { img with data := some d2 } ∧ d2.length = d.length ∧
        rd d2 ((y * img.width + x) * img.channels) = r ∧
        rd d2 ((y * img.width + x) * img.channels + 1) = g ∧
        rd d2 ((y * img.width + x) * img.channels + 2) = b ∧
        ∀ j, j ≠ (y * img.width + x) * img.channels →
          j ≠ (y * img.width + x) * img.channels + 1 →
          j ≠ (y * img.width + x) * img.channels + 2 → rd d2 j = rd d j) ∧
    (((0 ≤ x ∧ x < img.width) ∧ 0 ≤ y ∧ y < img.height) → img.channels < 3 →
      ∃ d2, draw_pixel img x y r g b = { img with data := some d2 } ∧ d2.length = d.length ∧
        ∀ j, j ≠ (y * img.width + x) * img.channels → rd d2 j = rd d j) :=
  draw_pixel_bytes img d hd hlen hch x y r g b

/-- Witness for C22: a 2 x 2 buffer with 4 channels. -/
theorem C22_draw_pixel_local_witness :
    (¬ (((0 : Int) ≤ 1 ∧ (1 : Int) < 2) ∧ (0 : Int) ≤ 0 ∧ (0 : Int) < 2) →
      draw_pixel (Image.mk (some (List.replicate 16 9)) 2 2 4) 1 0 1 2 3
        = Image.mk (some (List.replicate 16 9)) 2 2 4) ∧
    ((((0 : Int) ≤ 1 ∧ (1 : Int) < 2) ∧ (0 : Int) ≤ 0 ∧ (0 : Int) < 2) → (3 : Int) ≤ 4 →
      ∃ d2, draw_pixel (Image.mk (some (List.replicate 16 9)) 2 2 4) 1 0 1 2 3
          = { (Image.mk (some (List.replicate 16 9)) 2 2 4) with data := some d2 } ∧
        d2.length = (List.replicate 16 9).length ∧
        rd d2 ((0 * 2 + 1) * 4) = 1 ∧ rd d2 ((0 * 2 + 1) * 4 + 1) = 2 ∧
        rd d2 ((0 * 2 + 1) * 4 + 2) = 3 ∧
        ∀ j, j ≠ (0 * 2 + 1) * 4 → j ≠ (0 * 2 + 1) * 4 + 1 → j ≠ (0 * 2 + 1) * 4 + 2 →
          rd d2 j = rd (List.replicate 16 9) j) ∧
    ((((0 : Int) ≤ 1 ∧ (1 : Int) < 2) ∧ (0 : Int) ≤ 0 ∧ (0 : Int) < 2) → (4 : Int) < 3 →
      ∃ d2, draw_pixel (Image.mk (some (List.replicate 16 9)) 2 2 4) 1 0 1 2 3
          = { (Image.mk (some (List.replicate 16 9)) 2 2 4) with data := some d2 } ∧
        d2.length = (List.replicate 16 9).length ∧
        ∀ j, j ≠ (0 * 2 + 1) * 4 → rd d2 j = rd (List.replicate 16 9) j) :=
  C22_draw_pixel_local (Image.mk (some (List.replicate 16 9)) 2 2 4) (List.replicate 16 9) rfl
    (by decide) (by decide) 1 0 1 2 3

/-- A character that is not a digit leaves the image alone. -/
theorem draw_char_non_digit (img : Image) (x y c : Int) (r g b : Nat) (scale : Int)
    (hc : c < 48 ∨ 57 < c) : draw_char img x y c r g b scale = img := by
  unfold draw_char
  dsimp only
  rw [if_pos (by omega)]

/-- A text without digits moves the cursor only. -/
theorem draw_text_no_digit (img : Image) (x y : Int) (text : List Int) (r g b : Nat)
    (scale : Int) (hnd : ∀ c ∈ text, c < 48 ∨ 57 < c) :
    draw_text img x y text r g b scale = img := by
  unfold draw_text
  have gen : ∀ (t : List Int) (st : Image × Int × Int), (∀ c ∈ t, c < 48 ∨ 57 < c) →
      (t.foldl (text_step x r g b scale) st).1 = st.1 := by
    intro t
    induction t with
    | nil =>
      intro st _
      rfl
    | cons c t ih =>
      intro st h
      rw [List.foldl_cons, ih _ (fun c2 h2 => h c2 (List.mem_cons_of_mem _ h2))]
      unfold text_step
      split
      · rfl
      · exact draw_char_non_digit _ _ _ _ _ _ _ _ (h c (List.mem_cons_self _ _))
  exact gen text (img, x, y) hnd

/-- C26: characters other than the ASCII digits 0-9 are skipped: for every
image, position, colour and scale, `draw_text` with a string that contains no
ASCII digit (no character value from 48 to 57) leaves the image unchanged. -/
theorem C26_text_without_digits (img : Image) (x y : Int) (text : List Int) (r g b : Nat)
    (scale : Int) (hnd : ∀ c ∈ text, c < 48 ∨ 57 < c) :
    draw_text img x y text r g b scale = img :=
  draw_text_no_digit img x y text r g b scale hnd

/-- Witness for C26: the text "Hi\n :" on a 2 x 2 image. -/
theorem C26_text_without_digits_witness :
    draw_text (Image.mk (some [1, 2, 3, 4]) 2 2 1) 0 0 [72, 105, 10, 32, 58] 255 255 255 2
      = Image.mk (some [1, 2, 3, 4]) 2 2 1 :=
  C26_text_without_digits (Image.mk (some [1, 2, 3, 4]) 2 2 1) 0 0 [72, 105, 10, 32, 58]
    255 255 255 2 (by decide)


/-! ## `l_img_blur`: the convolution pass and the border copy -/

/-- C29 (the code departs from the claim): the rows of a band are not
restricted.  On a 5 x 5 image with 1 channel the first band of `parallel_for`
is the row y = 0; on it `gaussian_blur_row` evaluates the convolution at
(x, y) = (2, 0) and reads the source pixel (0, -2), whose byte index is -10,
and `median_filter_row` evaluates its window at (1, 0) and reads the source
pixel (0, -1), byte index -5; the last band ends at y = 5 and the convolution at
(2, 4) reads the pixel (4, 6), past the end of the buffer. -/
theorem C29_blur_reads_outside_rows :
    (0, 1) ∈ parallel_for_jobs 5 ∧ (3, 5) ∈ parallel_for_jobs 5 ∧
    (0, -2) ∈ gaussian_blur_reads (Image.mk (some (List.replicate 25 0)) 5 5 1) 0 1 ∧
    (4, 6) ∈ gaussian_blur_reads (Image.mk (some (List.replicate 25 0)) 5 5 1) 3 5 ∧
    (0, -1) ∈ median_filter_reads (Image.mk (some (List.replicate 25 0)) 5 5 1) 0 1 ∧
    ¬ (∀ p ∈ gaussian_blur_reads (Image.mk (some (List.replicate 25 0)) 5 5 1) 0 1,
        (0 ≤ p.1 ∧ p.1 < 5) ∧ 0 ≤ p.2 ∧ p.2 < 5) ∧
    ¬ (∀ p ∈ median_filter_reads (Image.mk (some (List.replicate 25 0)) 5 5 1) 0 1,
        (0 ≤ p.1 ∧ p.1 < 5) ∧ 0 ≤ p.2 ∧ p.2 < 5) := by
  refine ⟨by decide, by decide, by decide, by decide, by decide, by decide, by decide⟩

/-- C30 (the code departs from the claim): the average kernel is an array of 9
weights, each 1/9, and the pass reads the 25 kernel indices 0..24 for every
output byte; the 16 indices 9..24 lie outside the array, where no cell holding
zero exists, and the 9 indices inside it are those of the window offsets
ky = -2 (all five) and ky = -1, kx = -2..1, not those of a centred 3 x 3
block. -/
theorem C30_average_kernel_overread :
    average_kernel.length = 9 ∧
    gaussian_blur_kernel_reads
      = [0, 1, 2, 3, 4, 5, 6, 7, 8, 9, 10, 11, 12, 13, 14, 15, 16, 17, 18, 19, 20, 21, 22,
          23, 24] ∧
    (gaussian_blur_kernel_reads.filter
      (fun i => decide (¬ (0 ≤ i ∧ i < (average_kernel.length : Int))))).length = 16 ∧
    (∀ ky kx : Int, -2 ≤ ky → ky ≤ 2 → -2 ≤ kx → kx ≤ 2 →
      ((0 ≤ (ky + 2) * 5 + (kx + 2) ∧ (ky + 2) * 5 + (kx + 2) < (average_kernel.length : Int))
        ↔ (ky = -2 ∨ (ky = -1 ∧ kx ≤ 1)))) := by
  have hl : average_kernel.length = 9 := by
    unfold average_kernel
    refine forLoop_pres (fun (k : List ℚ) => k.length = 9) _ _ _ _ (by simp) ?_
    intro i m _ _ hm
    rw [length_wrq, hm]
  refine ⟨hl, by decide, ?_, ?_⟩
  · rw [hl]
    decide
  · intro ky kx a1 a2 a3 a4
    rw [hl]
    constructor
    · intro h
      omega
    · intro h
      omega


/-! ## Rectangles: `fill_rectangle`, `draw_rectangle` and their entry points -/

theorem forLoop_paintAll (lo hi : Int) (L : Int → List (Int × Int)) (img : Image) (r g b : Nat) :
    forLoop lo hi (fun i acc => paintAll acc (L i) r g b) img
      = paintAll img ((intRange lo hi).map L).flatten r g b := by
  unfold forLoop paintAll
  rw [List.foldl_flatten, List.foldl_map]

theorem wrap32_idem (a : Int) : wrap32 (wrap32 a) = wrap32 a := by
  unfold wrap32
  omega

theorem wrap32_add_wrap32 (a b : Int) : wrap32 (a + wrap32 b) = wrap32 (a + b) := by
  unfold wrap32
  omega

theorem wrap32_wrap32_add (a b : Int) : wrap32 (wrap32 a + b) = wrap32 (a + b) := by
  unfold wrap32
  omega

/-- The state of the loop of `draw_text` after a prefix of the text: the image
drawn so far, and a line cursor that has moved down once per newline. -/
theorem text_fold_state (orig_x y : Int) (r g b : Nat) (scale : Int) :
    ∀ (s : List Int) (st : Image × Int × Int) (n : Nat),
      wrap32 st.2.2 = wrap32 (y + 6 * scale * (n : Int)) →
      wrap32 (s.foldl (text_step orig_x r g b scale) st).2.2
        = wrap32 (y + 6 * scale * ((n + s.count 10 : Nat) : Int)) := by
  intro s
  induction s with
  | nil =>
    intro st n h
    simpa using h
  | cons c s ih =>
    intro st n h
    rw [List.foldl_cons]
    by_cases hc : c = 10
    · subst hc
      have e := ih (text_step orig_x r g b scale st 10) (n + 1) (by
        unfold text_step
        rw [if_pos rfl]
        dsimp only
        rw [wrap32_idem, wrap32_add_wrap32, ← wrap32_wrap32_add, h, wrap32_wrap32_add]
        congr 1
        push_cast
        ring)
      rw [e, List.count_cons_self]
      congr 3
      omega
    · have e := ih (text_step orig_x r g b scale st c) n (by
        unfold text_step
        rw [if_neg hc]
        exact h)
      rw [e, List.count_cons_of_ne (fun q => hc q.symm)]

/-- The image of `draw_text` depends on the start of the loop only through the
state. -/
theorem draw_text_append_newline (img : Image) (x y : Int) (s1 s2 : List Int) (r g b : Nat)
    (scale : Int) :
    draw_text img x y (s1 ++ 10 :: s2) r g b scale
      = draw_text (draw_text img x y s1 r g b scale) x
          (wrap32 (y + 6 * scale * (1 + (s1.count 10 : Nat)))) s2 r g b scale := by
  unfold draw_text
  rw [List.foldl_append, List.foldl_cons]
  have hy := text_fold_state x y r g b scale s1 (img, x, y) 0 (by simp)
  generalize s1.foldl (text_step x r g b scale) (img, x, y) = st at hy
  have e : text_step x r g b scale st 10
      = (st.1, x, wrap32 (y + 6 * scale * (1 + (s1.count 10 : Nat)))) := by
    unfold text_step
    rw [if_pos rfl, wrap32_add_wrap32, ← wrap32_wrap32_add, hy, wrap32_wrap32_add]
    congr 3
    push_cast
    ring
  rw [e]

/-- Within a line the cursor moves right by 4 * scale per character. -/
theorem text_fold_line (orig_x y : Int) (r g b : Nat) (scale : Int) (x : Int) :
    ∀ (line : List Int) (img : Image) (cx : Int) (k : Nat), (∀ c ∈ line, c ≠ 10) →
      cx = wrap32 (x + 4 * scale * (k : Int)) →
      (line.foldl (text_step orig_x r g b scale) (img, cx, y)).1
        = (line.enumFrom k).foldl (fun acc kc =>
            draw_char acc (wrap32 (x + 4 * scale * (kc.1 : Int))) y kc.2 r g b scale) img := by
  intro line
  induction line with
  | nil =>
    intro img cx k _ _
    rfl
  | cons c line ih =>
    intro img cx k hnl hcx
    rw [List.foldl_cons, List.enumFrom_cons, List.foldl_cons]
    have hc : c ≠ 10 := hnl c (List.mem_cons_self _ _)
    have e : text_step orig_x r g b scale (img, cx, y) c
        = (draw_char img cx y c r g b scale, wrap32 (cx + wrap32 (4 * scale)), y) := by
      unfold text_step
      rw [if_neg hc]
    rw [e, ih _ _ (k + 1) (fun c2 h2 => hnl c2 (List.mem_cons_of_mem _ h2)) (by
      rw [hcx, wrap32_add_wrap32, wrap32_wrap32_add]
      congr 1
      push_cast
      ring)]
    dsimp only
    rw [hcx]

theorem draw_text_line (img : Image) (x y : Int) (line : List Int) (r g b : Nat) (scale : Int)
    (hx0 : -2147483648 ≤ x) (hx1 : x < 2147483648) (hnl : ∀ c ∈ line, c ≠ 10) :
    draw_text img x y line r g b scale
      = line.enum.foldl (fun acc kc =>
          draw_char acc (wrap32 (x + 4 * scale * (kc.1 : Int))) y kc.2 r g b scale) img := by
  unfold draw_text List.enum
  exact text_fold_line x y r g b scale x line img x 0 hnl
    (by simp [wrap32_of_range x hx0 hx1])

/-- C27 (counterexample to the claim as worded): with s1 the one-character
string "\n" and s2 = "1", at (0, 0) with scale 1 on a 3 x 9 canvas with 1
channel and every byte 9, drawing "\n\n1" in black leaves the canvas unchanged
(the digit lands at y = 12, below the canvas), and drawing s1 at (0, 0) and
then s2 at (0, 6) paints the pixels (1, 7), (0, 8), (1, 8), (2, 8). -/
theorem C27_text_newline_inside_s1 :
    draw_text (Image.mk (some (List.replicate 27 9)) 3 9 1) 0 0 ([10] ++ 10 :: [49]) 0 0 0 1
      = Image.mk (some (List.replicate 27 9)) 3 9 1 ∧
    draw_text (draw_text (Image.mk (some (List.replicate 27 9)) 3 9 1) 0 0 [10] 0 0 0 1)
        0 (0 + 6 * 1) [49] 0 0 0 1
      = Image.mk (some [9, 9, 9, 9, 9, 9, 9, 9, 9, 9, 9, 9, 9, 9, 9, 9, 9, 9, 9, 9, 9, 9, 0, 9,
          0, 0, 0]) 3 9 1 := by
  decide

/-- C27 (amended): for all strings s1 and s2, `draw_text` of s1 followed by a
newline followed by s2 at (x, y) paints the same image as `draw_text` of s1 at
(x, y) followed by `draw_text` of s2 at (x, y + 6*scale*(1 + n)), where n is the
number of newlines in s1; and for a text without a newline the k-th character
(0-based, digit or not) is drawn with its top-left corner at
(x + 4*scale*k, y).  The sums are `int` sums. -/
theorem C27_text_layout (img : Image) (x y : Int) (s1 s2 : List Int) (r g b : Nat)
    (scale : Int) (hx0 : -2147483648 ≤ x) (hx1 : x < 2147483648) :
    draw_text img x y (s1 ++ 10 :: s2) r g b scale
      = draw_text (draw_text img x y s1 r g b scale) x
          (wrap32 (y + 6 * scale * (1 + (s1.count 10 : Nat)))) s2 r g b scale ∧
    ((∀ c ∈ s1, c ≠ 10) →
      draw_text img x y s1 r g b scale
        = s1.enum.foldl (fun acc kc =>
            draw_char acc (wrap32 (x + 4 * scale * (kc.1 : Int))) y kc.2 r g b scale) img) :=
  ⟨draw_text_append_newline img x y s1 s2 r g b scale,
    fun hnl => draw_text_line img x y s1 r g b scale hx0 hx1 hnl⟩

/-- Witness for C27 (amended): the text "1 2" followed by a newline and "3", at
(1, 2) with scale 2 on a 4 x 4 canvas. -/
theorem C27_text_layout_witness :
    draw_text (Image.mk (some (List.replicate 16 9)) 4 4 1) 1 2 ([49, 32, 50] ++ 10 :: [51])
        0 0 0 2
      = draw_text (draw_text (Image.mk (some (List.replicate 16 9)) 4 4 1) 1 2 [49, 32, 50]
          0 0 0 2) 1
          (wrap32 (2 + 6 * 2 * (1 + (([49, 32, 50] : List Int).count 10 : Nat)))) [51]
          0 0 0 2 ∧
    ((∀ c ∈ ([49, 32, 50] : List Int), c ≠ 10) →
      draw_text (Image.mk (some (List.replicate 16 9)) 4 4 1) 1 2 [49, 32, 50] 0 0 0 2
        = ([49, 32, 50] : List Int).enum.foldl (fun acc kc =>
            draw_char acc (wrap32 (1 + 4 * 2 * (kc.1 : Int))) 2 kc.2 0 0 0 2)
            (Image.mk (some (List.replicate 16 9)) 4 4 1)) :=
  C27_text_layout (Image.mk (some (List.replicate 16 9)) 4 4 1) 1 2 [49, 32, 50] [51] 0 0 0 2
    (by decide) (by decide)


/-! ## Circles (`draw_circle`) -/

theorem circle_stamp_eq_paint (cx cy : Int) (r g b : Nat) (thickness x y : Int) (img : Image) :
    circle_stamp cx cy r g b thickness x y img
      = paintAll img (stampPixels cx cy thickness x y) r g b := by
  unfold circle_stamp stampPixels
  rw [← forLoop_paintAll]
  exact forLoop_congr _ _ _ (fun t acc _ _ => rfl)

theorem circlePixels_snoc (cx cy thickness : Int) (acc : List (Int × Int)) (x y : Int) :
    circlePixels cx cy thickness (acc ++ [(x, y)])
      = circlePixels cx cy thickness acc ++ stampPixels cx cy thickness x y := by
  unfold circlePixels
  simp

/-- The stepping loop of `draw_circle` paints the pixels of the stepping points
that the loop visits. -/
theorem circle_loop_fusion (cx cy : Int) (r g b : Nat) (thickness : Int) (img0 : Image) :
    ∀ (fuel : Nat) (acc : List (Int × Int)) (x y err : Int),
      circle_loop (circle_stamp cx cy r g b thickness) fuel
          (paintAll img0 (circlePixels cx cy thickness acc) r g b) x y err
        = (circle_loop (fun x y l => l ++ [(x, y)]) fuel acc x y err).map
            (fun steps => paintAll img0 (circlePixels cx cy thickness steps) r g b) := by
  intro fuel
  induction fuel with
  | zero =>
    intro acc x y err
    rfl
  | succ n ih =>
    intro acc x y err
    have hs : circle_stamp cx cy r g b thickness x y
          (paintAll img0 (circlePixels cx cy thickness acc) r g b)
        = paintAll img0 (circlePixels cx cy thickness (acc ++ [(x, y)])) r g b := by
      rw [circle_stamp_eq_paint, ← paintAll_append, circlePixels_snoc]
    unfold circle_loop
    by_cases hxy : x ≥ y
    · rw [if_pos hxy, if_pos hxy]
      dsimp only
      rw [hs]
      by_cases he : 2 * (err + (1 + 2 * (y + 1)) - x) + 1 > 0
      · rw [if_pos he, if_pos he]
        exact ih _ _ _ _
      · rw [if_neg he, if_neg he]
        exact ih _ _ _ _
    · rw [if_neg hxy, if_neg hxy]
      rfl

/-- The stepping loop of `draw_circle` ends: x - y falls in every round. -/
theorem circle_loop_some {σ : Type} (stamp : Int → Int → σ → σ) :
    ∀ (fuel : Nat) (s : σ) (x y err : Int), x - y + 1 < (fuel : Int) → 0 < fuel →
      ∃ res, circle_loop stamp fuel s x y err = some res := by
  intro fuel
  induction fuel with
  | zero =>
    intro s x y err _ h
    omega
  | succ n ih =>
    intro s x y err hm _
    unfold circle_loop
    by_cases hxy : x ≥ y
    · rw [if_pos hxy]
      dsimp only
      by_cases he : 2 * (err + (1 + 2 * (y + 1)) - x) + 1 > 0
      · rw [if_pos he]
        exact ih _ _ _ _ (by push_cast at hm; omega) (by push_cast at hm; omega)
      · rw [if_neg he]
        exact ih _ _ _ _ (by push_cast at hm; omega) (by push_cast at hm; omega)
    · rw [if_neg hxy]
      exact ⟨s, rfl⟩

/-- Every stepping point (x, y) of the loop has 0 <= y <= x <= radius. -/
theorem circle_steps_bound (R : Int) :
    ∀ (fuel : Nat) (acc : List (Int × Int)) (x y err : Int) (res : List (Int × Int)),
      circle_loop (fun x y l => l ++ [(x, y)]) fuel acc x y err = some res →
      0 ≤ y → x ≤ R → (∀ p ∈ acc, 0 ≤ p.2 ∧ p.2 ≤ p.1 ∧ p.1 ≤ R) →
      ∀ p ∈ res, 0 ≤ p.2 ∧ p.2 ≤ p.1 ∧ p.1 ≤ R := by
  intro fuel
  induction fuel with
  | zero =>
    intro acc x y err res h
    simp [circle_loop] at h
  | succ n ih =>
    intro acc x y err res h hy hx hacc
    unfold circle_loop at h
    by_cases hxy : x ≥ y
    · rw [if_pos hxy] at h
      dsimp only at h
      have hacc2 : ∀ p ∈ acc ++ [(x, y)], 0 ≤ p.2 ∧ p.2 ≤ p.1 ∧ p.1 ≤ R := by
        intro p hp
        rcases List.mem_append.mp hp with q | q
        · exact hacc p q
        · rw [List.mem_singleton] at q
          subst q
          exact ⟨hy, hxy, hx⟩
      by_cases he : 2 * (err + (1 + 2 * (y + 1)) - x) + 1 > 0
      · rw [if_pos he] at h
        exact ih _ _ _ _ res h (by omega) (by omega) hacc2
      · rw [if_neg he] at h
        exact ih _ _ _ _ res h (by omega) (by omega) hacc2
    · rw [if_neg hxy] at h
      cases h
      exact hacc

theorem mem_stampPixels (cx cy thickness x y : Int) (p : Int × Int) :
    p ∈ stampPixels cx cy thickness x y ↔
      ∃ off ∈ eightfold x y, ∃ t, Int.tdiv (-thickness) 2 ≤ t ∧ t ≤ Int.tdiv thickness 2 ∧
        p = (cx + off.1 + t, cy + off.2) := by
  have hneg : Int.tdiv (-thickness) 2 = -(Int.tdiv thickness 2) := Int.neg_tdiv _ _
  unfold stampPixels eightfold
  simp only [List.mem_flatten, List.mem_map, mem_intRange]
  constructor
  · rintro ⟨l, ⟨t, ht, rfl⟩, hp⟩
    simp only [List.mem_cons, List.mem_singleton, List.not_mem_nil, or_false] at hp
    rcases hp with h | h | h | h | h | h | h | h
    · exact ⟨(x, y), by simp, t, ht.1, by omega, h⟩
    · exact ⟨(y, x), by simp, t, ht.1, by omega, h⟩
    · exact ⟨(-y, x), by simp, -t, by omega, by omega, by rw [h]; (apply Prod.ext <;> simp); ring⟩
    · exact ⟨(-x, y), by simp, -t, by omega, by omega, by rw [h]; (apply Prod.ext <;> simp); ring⟩
    · exact ⟨(-x, -y), by simp, -t, by omega, by omega,
        by rw [h]; apply Prod.ext <;> simp <;> ring⟩
    · exact ⟨(-y, -x), by simp, -t, by omega, by omega,
        by rw [h]; apply Prod.ext <;> simp <;> ring⟩
    · exact ⟨(y, -x), by simp, t, ht.1, by omega, by rw [h]; (apply Prod.ext <;> simp); ring⟩
    · exact ⟨(x, -y), by simp, t, ht.1, by omega, by rw [h]; (apply Prod.ext <;> simp); ring⟩
  · rintro ⟨off, hoff, t, h1, h2, rfl⟩
    simp only [List.mem_cons, List.mem_singleton, List.not_mem_nil, or_false] at hoff
    rcases hoff with h | h | h | h | h | h | h | h <;> subst h
    · exact ⟨_, ⟨t, ⟨h1, by omega⟩, rfl⟩, by simp⟩
    · exact ⟨_, ⟨t, ⟨h1, by omega⟩, rfl⟩, by simp⟩
    · refine ⟨_, ⟨-t, ⟨by omega, by omega⟩, rfl⟩, ?_⟩
      simp only [List.mem_cons]
      right; right; left
      (apply Prod.ext <;> simp)
      ring
    · refine ⟨_, ⟨-t, ⟨by omega, by omega⟩, rfl⟩, ?_⟩
      simp only [List.mem_cons]
      right; right; right; left
      (apply Prod.ext <;> simp)
      ring
    · refine ⟨_, ⟨-t, ⟨by omega, by omega⟩, rfl⟩, ?_⟩
      simp only [List.mem_cons]
      right; right; right; right; left
      apply Prod.ext <;> simp <;> ring
    · refine ⟨_, ⟨-t, ⟨by omega, by omega⟩, rfl⟩, ?_⟩
      simp only [List.mem_cons]
      right; right; right; right; right; left
      apply Prod.ext <;> simp <;> ring
    · refine ⟨_, ⟨t, ⟨h1, by omega⟩, rfl⟩, ?_⟩
      simp only [List.mem_cons]
      right; right; right; right; right; right; left
      (apply Prod.ext <;> simp)
      ring
    · refine ⟨_, ⟨t, ⟨h1, by omega⟩, rfl⟩, ?_⟩
      simp only [List.mem_cons]
      right; right; right; right; right; right; right; left
      (apply Prod.ext <;> simp)
      ring

theorem mem_circlePixels (cx cy thickness : Int) (steps : List (Int × Int)) (p : Int × Int) :
    p ∈ circlePixels cx cy thickness steps ↔
      ∃ s ∈ steps, ∃ off ∈ eightfold s.1 s.2, ∃ t,
        Int.tdiv (-thickness) 2 ≤ t ∧ t ≤ Int.tdiv thickness 2 ∧
        p = (cx + off.1 + t, cy + off.2) := by
  unfold circlePixels
  simp only [List.mem_flatten, List.mem_map]
  constructor
  · rintro ⟨l, ⟨s, hs, rfl⟩, hp⟩
    exact ⟨s, hs, (mem_stampPixels cx cy thickness s.1 s.2 p).mp hp⟩
  · rintro ⟨s, hs, hp⟩
    exact ⟨_, ⟨s, hs, rfl⟩, (mem_stampPixels cx cy thickness s.1 s.2 p).mpr hp⟩

theorem mem_circleOffsets (steps : List (Int × Int)) (o : Int × Int) :
    o ∈ circleOffsets steps ↔ ∃ s ∈ steps, o ∈ eightfold s.1 s.2 := by
  unfold circleOffsets
  simp only [List.mem_flatten, List.mem_map]
  constructor
  · rintro ⟨l, ⟨s, hs, rfl⟩, hp⟩
    exact ⟨s, hs, hp⟩
  · rintro ⟨s, hs, hp⟩
    exact ⟨_, ⟨s, hs, rfl⟩, hp⟩

/-- The eight reflections of an offset are closed under the two mirror maps and
the exchange of the axes. -/
theorem eightfold_closed (x y dx dy : Int) (h : (dx, dy) ∈ eightfold x y) :
    (-dx, dy) ∈ eightfold x y ∧ (dx, -dy) ∈ eightfold x y ∧ (dy, dx) ∈ eightfold x y := by
  unfold eightfold at h ⊢
  simp only [List.mem_cons, List.mem_singleton, List.not_mem_nil, or_false, Prod.mk.injEq] at h ⊢
  rcases h with ⟨h1, h2⟩ | ⟨h1, h2⟩ | ⟨h1, h2⟩ | ⟨h1, h2⟩ | ⟨h1, h2⟩ | ⟨h1, h2⟩ | ⟨h1, h2⟩ |
    ⟨h1, h2⟩ <;> subst h1 <;> subst h2 <;> simp

/-- The result of `draw_circle`: the pixels of the stepping points, painted. -/
theorem draw_circle_eq_paint (fuel : Nat) (img : Image) (cx cy radius : Int) (r g b : Nat)
    (thickness : Int) (hr : 0 ≤ radius) (hf : radius + 1 < fuel) :
    ∃ steps, circle_steps fuel radius = some steps ∧
      (∀ p ∈ steps, 0 ≤ p.2 ∧ p.2 ≤ p.1 ∧ p.1 ≤ radius) ∧
      draw_circle fuel img cx cy radius r g b thickness
        = some (paintAll img (circlePixels cx cy thickness steps) r g b) := by
  obtain ⟨steps, hs⟩ := circle_loop_some (fun x y (l : List (Int × Int)) => l ++ [(x, y)]) fuel
    [] radius 0 0 (by omega) (by omega)
  refine ⟨steps, hs, ?_, ?_⟩
  · exact circle_steps_bound radius fuel [] radius 0 0 steps hs (le_refl 0) (le_refl _)
      (fun p hp => absurd hp (List.not_mem_nil p))
  · have e := circle_loop_fusion cx cy r g b thickness img fuel [] radius 0 0
    rw [hs] at e
    exact e


theorem eightfold_bound (x y R : Int) (h0 : 0 ≤ y) (h1 : y ≤ x) (h2 : x ≤ R) (o : Int × Int)
    (h : o ∈ eightfold x y) : (-R ≤ o.1 ∧ o.1 ≤ R) ∧ -R ≤ o.2 ∧ o.2 ≤ R := by
  unfold eightfold at h
  simp only [List.mem_cons, List.mem_singleton, List.not_mem_nil, or_false] at h
  rcases h with h | h | h | h | h | h | h | h <;> subst h <;> dsimp only <;> omega

/-- With thickness 1 the painted pixels are the centre plus the offsets. -/
theorem mem_circlePixels_one (cx cy : Int) (steps : List (Int × Int)) (px py : Int) :
    (px, py) ∈ circlePixels cx cy 1 steps ↔ (px - cx, py - cy) ∈ circleOffsets steps := by
  rw [mem_circlePixels, mem_circleOffsets]
  have e1 : Int.tdiv (-1) 2 = 0 := by decide
  have e2 : Int.tdiv 1 2 = 0 := by decide
  rw [e1, e2]
  constructor
  · rintro ⟨s, hs, off, hoff, t, h1, h2, hp⟩
    refine ⟨s, hs, ?_⟩
    have ht : t = 0 := by omega
    subst ht
    rw [Prod.mk.injEq] at hp
    have e : (px - cx, py - cy) = off := by
      apply Prod.ext
      · dsimp only
        omega
      · dsimp only
        omega
    rw [e]
    exact hoff
  · rintro ⟨s, hs, hoff⟩
    refine ⟨s, hs, (px - cx, py - cy), hoff, 0, le_refl _, le_refl _, ?_⟩
    apply Prod.ext
    · dsimp only
      omega
    · dsimp only
      omega

/-- The circle of thickness 1 on a canvas that contains it. -/
theorem draw_circle_one (img : Image) (hwf : img.WF) (cx cy radius : Int) (r g b : Nat)
    (fuel : Nat) (hr : 0 ≤ radius) (hf : radius + 1 < fuel)
    (hfit : (0 ≤ cx - radius ∧ cx + radius < img.width) ∧
      0 ≤ cy - radius ∧ cy + radius < img.height) :
    ∃ steps o, circle_steps fuel radius = some steps ∧
      draw_circle fuel img cx cy radius r g b 1 = some { img with data := some o } ∧
      (o.length : Int) = img.width * img.height * img.channels ∧
      (∀ px py c, 0 ≤ px → px < img.width → 0 ≤ py → py < img.height → 0 ≤ c →
        c < img.channels →
        rd o ((py * img.width + px) * img.channels + c)
          = if (px - cx, py - cy) ∈ circleOffsets steps then
              penByte img.channels r g b c
                (rd img.bytes ((py * img.width + px) * img.channels + c))
            else rd img.bytes ((py * img.width + px) * img.channels + c)) ∧
      (∀ dx dy, (dx, dy) ∈ circleOffsets steps →
        (0 ≤ cx + dx ∧ cx + dx < img.width) ∧ 0 ≤ cy + dy ∧ cy + dy < img.height) ∧
      (∀ dx dy, (dx, dy) ∈ circleOffsets steps →
        (-dx, dy) ∈ circleOffsets steps ∧ (dx, -dy) ∈ circleOffsets steps ∧
          (dy, dx) ∈ circleOffsets steps) := by
  obtain ⟨steps, hs, hb, hdraw⟩ := draw_circle_eq_paint fuel img cx cy radius r g b 1 hr hf
  obtain ⟨hd, hlen, _⟩ := hwf.bytes_spec
  obtain ⟨o, ho, hl, hrd⟩ := paintAll_spec r g b (circlePixels cx cy 1 steps) img img.bytes hd
    hlen hwf.2.2.1
  refine ⟨steps, o, hs, by rw [hdraw, ho], by rw [hl, hlen], ?_, ?_, ?_⟩
  · intro px py c a1 a2 a3 a4 a5 a6
    rw [hrd px py c a1 a2 a3 a4 a5 a6]
    by_cases q : (px - cx, py - cy) ∈ circleOffsets steps
    · rw [if_pos q, if_pos ((mem_circlePixels_one cx cy steps px py).mpr q)]
    · rw [if_neg q, if_neg (fun m => q ((mem_circlePixels_one cx cy steps px py).mp m))]
  · intro dx dy hm
    obtain ⟨s, hs2, hoff⟩ := (mem_circleOffsets steps (dx, dy)).mp hm
    obtain ⟨b0, b1, b2⟩ := hb s hs2
    have e := eightfold_bound s.1 s.2 radius b0 b1 b2 (dx, dy) hoff
    dsimp only at e
    omega
  · intro dx dy hm
    obtain ⟨s, hs2, hoff⟩ := (mem_circleOffsets steps (dx, dy)).mp hm
    obtain ⟨c1, c2, c3⟩ := eightfold_closed s.1 s.2 dx dy hoff
    exact ⟨(mem_circleOffsets steps _).mpr ⟨s, hs2, c1⟩,
      (mem_circleOffsets steps _).mpr ⟨s, hs2, c2⟩,
      (mem_circleOffsets steps _).mpr ⟨s, hs2, c3⟩⟩

/-- The circle of any thickness: the brush is a run along the x axis. -/
theorem draw_circle_brush (img : Image) (hwf : img.WF) (cx cy radius : Int) (r g b : Nat)
    (thickness : Int) (fuel : Nat) (hr : 0 ≤ radius) (hf : radius + 1 < fuel) :
    ∃ steps o, circle_steps fuel radius = some steps ∧
      draw_circle fuel img cx cy radius r g b thickness = some { img with data := some o } ∧
      (o.length : Int) = img.width * img.height * img.channels ∧
      (∀ px py c, 0 ≤ px → px < img.width → 0 ≤ py → py < img.height → 0 ≤ c →
        c < img.channels →
        rd o ((py * img.width + px) * img.channels + c)
          = if (px, py) ∈ circlePixels cx cy thickness steps then
              penByte img.channels r g b c
                (rd img.bytes ((py * img.width + px) * img.channels + c))
            else rd img.bytes ((py * img.width + px) * img.channels + c)) ∧
      (∀ p, p ∈ circlePixels cx cy thickness steps ↔
        ∃ s ∈ steps, ∃ off ∈ eightfold s.1 s.2, ∃ t,
          Int.tdiv (-thickness) 2 ≤ t ∧ t ≤ Int.tdiv thickness 2 ∧
          p = (cx + off.1 + t, cy + off.2)) := by
  obtain ⟨steps, hs, hb, hdraw⟩ :=
    draw_circle_eq_paint fuel img cx cy radius r g b thickness hr hf
  obtain ⟨hd, hlen, _⟩ := hwf.bytes_spec
  obtain ⟨o, ho, hl, hrd⟩ := paintAll_spec r g b (circlePixels cx cy thickness steps) img
    img.bytes hd hlen hwf.2.2.1
  exact ⟨steps, o, hs, by rw [hdraw, ho], by rw [hl, hlen], hrd,
    fun p => mem_circlePixels cx cy thickness steps p⟩

/-- C23: `draw_circle` with thickness 1 is 8-way symmetric.  For every centre
and radius >= 0 on a canvas that contains the square of side 2*radius + 1
around the centre, the stepping loop ends; the pixels it paints are exactly
the centre plus the offsets (dx, dy) of the eight reflections of its stepping
points; every such pixel lies on the canvas; and the set of offsets is closed
under (dx,dy) -> (-dx,dy), (dx,dy) -> (dx,-dy) and (dx,dy) -> (dy,dx). -/
theorem C23_circle_eightfold (img : Image) (hwf : img.WF) (cx cy radius : Int) (r g b : Nat)
    (fuel : Nat) (hr : 0 ≤ radius) (hf : radius + 1 < fuel)
    (hfit : (0 ≤ cx - radius ∧ cx + radius < img.width) ∧
      0 ≤ cy - radius ∧ cy + radius < img.height) :
    ∃ steps o, circle_steps fuel radius = some steps ∧
      draw_circle fuel img cx cy radius r g b 1 = some { img with data := some o } ∧
      (o.length : Int) = img.width * img.height * img.channels ∧
      (∀ px py c, 0 ≤ px → px < img.width → 0 ≤ py → py < img.height → 0 ≤ c →
        c < img.channels →
        rd o ((py * img.width + px) * img.channels + c)
          = if (px - cx, py - cy) ∈ circleOffsets steps then
              penByte img.channels r g b c
                (rd img.bytes ((py * img.width + px) * img.channels + c))
            else rd img.bytes ((py * img.width + px) * img.channels + c)) ∧
      (∀ dx dy, (dx, dy) ∈ circleOffsets steps →
        (0 ≤ cx + dx ∧ cx + dx < img.width) ∧ 0 ≤ cy + dy ∧ cy + dy < img.height) ∧
      (∀ dx dy, (dx, dy) ∈ circleOffsets steps →
        (-dx, dy) ∈ circleOffsets steps ∧ (dx, -dy) ∈ circleOffsets steps ∧
          (dy, dx) ∈ circleOffsets steps) :=
  draw_circle_one img hwf cx cy radius r g b fuel hr hf hfit

/-- Witness for C23: the circle of radius 1 around (1, 1) on a 3 x 3 canvas with
1 channel. -/
theorem C23_circle_eightfold_witness :
    ∃ steps o, circle_steps 3 1 = some steps ∧
      draw_circle 3 (Image.mk (some (List.replicate 9 9)) 3 3 1) 1 1 1 0 0 0 1
        = some { (Image.mk (some (List.replicate 9 9)) 3 3 1) with data := some o } ∧
      (o.length : Int) = 3 * 3 * 1 ∧
      (∀ px py c, 0 ≤ px → px < (3 : Int) → 0 ≤ py → py < (3 : Int) → 0 ≤ c →
        c < (1 : Int) →
        rd o ((py * 3 + px) * 1 + c)
          = if (px - 1, py - 1) ∈ circleOffsets steps then
              penByte 1 0 0 0 c
                (rd (Image.mk (some (List.replicate 9 9)) 3 3 1).bytes ((py * 3 + px) * 1 + c))
            else rd (Image.mk (some (List.replicate 9 9)) 3 3 1).bytes
              ((py * 3 + px) * 1 + c)) ∧
      (∀ dx dy, (dx, dy) ∈ circleOffsets steps →
        (0 ≤ 1 + dx ∧ 1 + dx < (3 : Int)) ∧ 0 ≤ 1 + dy ∧ 1 + dy < (3 : Int)) ∧
      (∀ dx dy, (dx, dy) ∈ circleOffsets steps →
        (-dx, dy) ∈ circleOffsets steps ∧ (dx, -dy) ∈ circleOffsets steps ∧
          (dy, dx) ∈ circleOffsets steps) :=
  C23_circle_eightfold (Image.mk (some (List.replicate 9 9)) 3 3 1)
    (by
      refine ⟨by decide, by decide, by decide, by decide, List.replicate 9 9, rfl, by decide,
        by decide⟩)
    1 1 1 0 0 0 3 (by decide) (by decide) (by decide)

/-- C24: the brush of `draw_circle` is a run along the x axis, not the square
brush of `draw_line`.  The circle of radius 0 and thickness 3 around (0, 1),
drawn in black on a canvas 1 pixel wide and 3 pixels high with 1 channel and
every byte 9: the only stepping point is (0, 0), so the centre is a symmetric
point; the pixels (0, 0) and (0, 2), at offsets (0, -1) and (0, 1) from it with
-3/2 <= -1 and 1 <= 3/2, lie inside the canvas and are not painted: only the
centre is.  In general, for every decoded image, centre, radius >= 0 and
thickness, the stepping loop ends and the pixels given to `draw_pixel` are
exactly the pixels of the form p + (t, 0), for p the centre plus one of the
eight reflections of a stepping point and -thickness/2 <= t <= thickness/2. -/
theorem C24_circle_brush_not_square :
    (circle_steps 2 0 = some [(0, 0)] ∧
      draw_circle 2 (Image.mk (some [9, 9, 9]) 1 3 1) 0 1 0 0 0 0 3
        = some (Image.mk (some [9, 0, 9]) 1 3 1)) ∧
    (∀ (img : Image) (cx cy radius : Int) (r g b : Nat) (thickness : Int) (fuel : Nat),
      img.WF → 0 ≤ radius → radius + 1 < fuel →
      ∃ steps o, circle_steps fuel radius = some steps ∧
        draw_circle fuel img cx cy radius r g b thickness = some { img with data := some o } ∧
        (o.length : Int) = img.width * img.height * img.channels ∧
        (∀ px py c, 0 ≤ px → px < img.width → 0 ≤ py → py < img.height → 0 ≤ c →
          c < img.channels →
          rd o ((py * img.width + px) * img.channels + c)
            = if (px, py) ∈ circlePixels cx cy thickness steps then
                penByte img.channels r g b c
                  (rd img.bytes ((py * img.width + px) * img.channels + c))
              else rd img.bytes ((py * img.width + px) * img.channels + c)) ∧
        (∀ p, p ∈ circlePixels cx cy thickness steps ↔
          ∃ s ∈ steps, ∃ off ∈ eightfold s.1 s.2, ∃ t,
            Int.tdiv (-thickness) 2 ≤ t ∧ t ≤ Int.tdiv thickness 2 ∧
            p = (cx + off.1 + t, cy + off.2))) :=
  ⟨⟨by decide, by decide⟩,
    fun img cx cy radius r g b thickness fuel hwf hr hf =>
      draw_circle_brush img hwf cx cy radius r g b thickness fuel hr hf⟩

/-! ## Median border, window count and kernel size -/

/-- In median mode `l_img_blur` writes the image `blur_median`. -/
theorem l_img_blur_median (exp : ℚ → ℚ) (encode : Image → Int) (img : Image) (hwf : img.WF)
    (size : Int) (sigma : ℚ) :
    l_img_blur exp encode img "median" size sigma
      = some (write_result encode (blur_median img)) := by
  obtain ⟨hd, _, _⟩ := hwf.bytes_spec
  obtain ⟨_, hplane⟩ := hwf.plane_fits
  have hsome : img.data.isNone = false := by rw [hd]; rfl
  have hg : ¬ ("median" = "gaussian") := by decide
  unfold l_img_blur blur_median blur_pass
  rw [hsome, img_create_of_fits _ _ _ hwf.1.le hwf.2.1.le hwf.2.2.1.le hwf.2.2.2.1 hplane]
  simp only [Bool.false_eq_true, if_false, hg, if_true, Option.map_some']

/-- The ring of the median-blurred image. -/
theorem blur_median_ring (exp : ℚ → ℚ) (encode : Image → Int) (img : Image) (hwf : img.WF)
    (size : Int) (sigma : ℚ) :
    ∃ o, l_img_blur exp encode img "median" size sigma
        = some (write_result encode
            { data := some o, width := img.width, height := img.height,
              channels := img.channels }) ∧
      (o.length : Int) = img.width * img.height * img.channels ∧
      ∀ x y c, 0 ≤ x → x < img.width → 0 ≤ y → y < img.height → 0 ≤ c → c < img.channels →
        (y = 0 ∨ y = img.height - 1 ∨ x = 0 ∨ x = img.width - 1) →
        rd o ((y * img.width + x) * img.channels + c)
          = rd img.bytes ((y * img.width + x) * img.channels + c) := by
  obtain ⟨o, ho, hl, hr⟩ := blur_median_plane img hwf
  refine ⟨o, by rw [l_img_blur_median exp encode img hwf size sigma, ho], hl, ?_⟩
  intro x y c a1 a2 a3 a4 a5 a6 q
  rw [hr x y c a1 a2 a3 a4 a5 a6, if_pos q]

/-- C31 (counterexample to the claim as worded): the median blur of the 3 x 3
image with 1 channel and bytes 1..9 hands to the writer an image whose ring
holds the source bytes 1, 2, 3, 4, 6, 7, 8, 9, none of them 0. -/
theorem C31_median_ring_not_zero :
    ∃ o, l_img_blur (fun q => q) (fun _ => 1)
          (Image.mk (some [1, 2, 3, 4, 5, 6, 7, 8, 9]) 3 3 1) "median" 5 1
        = some (write_result (fun _ => 1)
            { data := some o, width := 3, height := 3, channels := 1 }) ∧
      rd o 0 = 1 ∧ rd o 1 = 2 ∧ rd o 2 = 3 ∧ rd o 3 = 4 ∧ rd o 5 = 6 ∧ rd o 6 = 7 ∧
      rd o 7 = 8 ∧ rd o 8 = 9 := by
  obtain ⟨o, ho, _, hr⟩ := blur_median_ring (fun q => q) (fun _ => 1)
    (Image.mk (some [1, 2, 3, 4, 5, 6, 7, 8, 9]) 3 3 1)
    (by
      refine ⟨by decide, by decide, by decide, by decide, [1, 2, 3, 4, 5, 6, 7, 8, 9], rfl,
        by decide, by decide⟩)
    5 1
  refine ⟨o, ho, ?_, ?_, ?_, ?_, ?_, ?_, ?_, ?_⟩
  · exact hr 0 0 0 (by decide) (by decide) (by decide) (by decide) (by decide) (by decide)
      (by decide)
  · exact hr 1 0 0 (by decide) (by decide) (by decide) (by decide) (by decide) (by decide)
      (by decide)
  · exact hr 2 0 0 (by decide) (by decide) (by decide) (by decide) (by decide) (by decide)
      (by decide)
  · exact hr 0 1 0 (by decide) (by decide) (by decide) (by decide) (by decide) (by decide)
      (by decide)
  · exact hr 2 1 0 (by decide) (by decide) (by decide) (by decide) (by decide) (by decide)
      (by decide)
  · exact hr 0 2 0 (by decide) (by decide) (by decide) (by decide) (by decide) (by decide)
      (by decide)
  · exact hr 1 2 0 (by decide) (by decide) (by decide) (by decide) (by decide) (by decide)
      (by decide)
  · exact hr 2 2 0 (by decide) (by decide) (by decide) (by decide) (by decide) (by decide)
      (by decide)

/-- C31 (amended): the border copy of `l_img_blur` runs in every mode.  For the
median blur of every decoded image, every size and every sigma, the operation
hands an image of the size of the source to the writer, and every pixel of its
outermost ring (x = 0, x = width-1, y = 0 or y = height-1) equals the
corresponding source pixel in every channel. -/
theorem C31_median_border_copied (exp : ℚ → ℚ) (encode : Image → Int) (img : Image)
    (hwf : img.WF) (size : Int) (sigma : ℚ) :
    ∃ o, l_img_blur exp encode img "median" size sigma
        = some (write_result encode
            { data := some o, width := img.width, height := img.height,
              channels := img.channels }) ∧
      (o.length : Int) = img.width * img.height * img.channels ∧
      ∀ x y c, 0 ≤ x → x < img.width → 0 ≤ y → y < img.height → 0 ≤ c → c < img.channels →
        (y = 0 ∨ y = img.height - 1 ∨ x = 0 ∨ x = img.width - 1) →
        rd o ((y * img.width + x) * img.channels + c)
          = rd img.bytes ((y * img.width + x) * img.channels + c) :=
  blur_median_ring exp encode img hwf size sigma

/-- Witness for C31 (amended): a 3 x 3 image with 2 channels. -/
theorem C31_median_border_copied_witness :
    ∃ o, l_img_blur (fun q => q) (fun _ => 1)
          (Image.mk (some [1, 2, 3, 4, 5, 6, 7, 8, 9, 10, 11, 12, 13, 14, 15, 16, 17, 18]) 3 3 2)
          "median" 5 1
        = some (write_result (fun _ => 1)
            { data := some o, width := 3, height := 3, channels := 2 }) ∧
      (o.length : Int) = 3 * 3 * 2 ∧
      ∀ x y c, 0 ≤ x → x < (3 : Int) → 0 ≤ y → y < (3 : Int) → 0 ≤ c → c < (2 : Int) →
        (y = 0 ∨ y = (3 : Int) - 1 ∨ x = 0 ∨ x = (3 : Int) - 1) →
        rd o ((y * 3 + x) * 2 + c)
          = rd (Image.mk (some [1, 2, 3, 4, 5, 6, 7, 8, 9, 10, 11, 12, 13, 14, 15, 16, 17, 18])
              3 3 2).bytes ((y * 3 + x) * 2 + c) :=
  C31_median_border_copied (fun q => q) (fun _ => 1)
    (Image.mk (some [1, 2, 3, 4, 5, 6, 7, 8, 9, 10, 11, 12, 13, 14, 15, 16, 17, 18]) 3 3 2)
    (by
      refine ⟨by decide, by decide, by decide, by decide,
        [1, 2, 3, 4, 5, 6, 7, 8, 9, 10, 11, 12, 13, 14, 15, 16, 17, 18], rfl, by decide,
        by decide⟩)
    5 1

/-- A block size of -2 or less has a half width of -1 or less. -/
theorem tdiv_two_neg (b : Int) (hb : b ≤ -2) : Int.tdiv b 2 ≤ -1 := by
  have e : Int.tdiv b 2 = -(Int.tdiv (-b) 2) := by rw [← Int.neg_tdiv, neg_neg]
  have q : Int.tdiv (-b) 2 = -b / 2 := Int.tdiv_eq_ediv (by omega) (by norm_num)
  rw [e, q]
  omega

/-- With a negative half width the window loops do not run. -/
theorem adaptive_window_empty (gray : List Nat) (w h half x y : Int) (hh : half ≤ -1) :
    adaptive_window gray w h half x y = (0, 0) := by
  unfold adaptive_window
  rw [forLoop_of_le (by omega)]

/-- C39 (the code departs from the claim): for every image, every pixel and
every block size of -3 or less, the half width `block_size / 2` (after the
even-to-odd adjustment) is negative, the window loops `dy = -half .. half` do
not run, and the pass leaves `sum = 0` and `count = 0`: the divisor of
`sum / count` is 0.  On the 1 x 1 image [7] with block size -3 the count is 0;
with block size -4 likewise. -/
theorem C39_adaptive_count_zero :
    (∀ (gray : List Nat) (w h x y block_size : Int), block_size ≤ -3 →
      adaptive_window gray w h
        (Int.tdiv (if Int.tmod block_size 2 = 0 then block_size + 1 else block_size) 2) x y
        = (0, 0)) ∧
    (adaptive_window [7] 1 1 (Int.tdiv (if Int.tmod (-3) 2 = 0 then -3 + 1 else -3) 2) 0 0).2
      = 0 ∧
    (adaptive_window [7] 1 1 (Int.tdiv (if Int.tmod (-4) 2 = 0 then -4 + 1 else -4) 2) 0 0).2
      = 0 ∧
    (adaptive_window [7] 1 1 (Int.tdiv (if Int.tmod (-2) 2 = 0 then -2 + 1 else -2) 2) 0 0).2
      = 1 := by
  refine ⟨?_, by decide, by decide, by decide⟩
  intro gray w h x y block_size hb
  apply adaptive_window_empty
  apply tdiv_two_neg
  split <;> omega

/-- The kernel of `create_gaussian_kernel` has `size * size` entries. -/
theorem create_gaussian_kernel_length (exp : ℚ → ℚ) (size : Int) (sigma : ℚ) (k : List ℚ)
    (h : create_gaussian_kernel exp size sigma = some k) :
    k.length = (wrap32 (size * size)).toNat := by
  unfold create_gaussian_kernel at h
  dsimp only at h
  split at h
  · cases h
  · cases h
    refine forLoop_pres (fun (k : List ℚ) => k.length = (wrap32 (size * size)).toNat) _ _ _ _
      ?_ ?_
    · refine forLoop_pres (fun (st : List ℚ × ℚ) =>
        st.1.length = (wrap32 (size * size)).toNat) _ _ _ _ (by simp) ?_
      intro y st _ _ hst
      refine forLoop_pres (fun (st : List ℚ × ℚ) =>
        st.1.length = (wrap32 (size * size)).toNat) _ _ _ _ hst ?_
      intro x st2 _ _ hst2
      show (wrq st2.1 _ _).length = _
      rw [length_wrq, hst2]
    · intro i m _ _ hm
      rw [length_wrq, hm]

/-- C40 (the code departs from the claim): `gaussian_blur_row` reads the 25
kernel indices 0..24 whatever the size is, and the kernel built for a size has
size * size entries.  For every size from 0 to 4 (and every sigma that yields a
kernel) the kernel has at most 16 entries, so index 24 and every index from
size * size on is read outside the array; for the size 3 and sigma 1 the kernel
has 9 entries.  The index read for the window offset (ky, kx) is the row-major
index of cell (ky+2, kx+2) of the size x size kernel only in the first row or
for size 5.  For size 5 the claim holds: 25 entries that sum to 1. -/
theorem C40_gaussian_kernel_overread :
    gaussian_blur_kernel_reads
      = [0, 1, 2, 3, 4, 5, 6, 7, 8, 9, 10, 11, 12, 13, 14, 15, 16, 17, 18, 19, 20, 21, 22,
          23, 24] ∧
    (∀ (exp : ℚ → ℚ) (size : Int) (sigma : ℚ) (k : List ℚ), 0 ≤ size → size ≤ 4 →
      create_gaussian_kernel exp size sigma = some k →
      (k.length : Int) = size * size ∧ (k.length : Int) ≤ 16 ∧
      (24 : Int) ∈ gaussian_blur_kernel_reads ∧ ¬ ((24 : Int) < (k.length : Int))) ∧
    (∃ k, create_gaussian_kernel (fun q => 1 / (1 + q * q)) 3 1 = some k ∧ k.length = 9) ∧
    (∀ size ky kx : Int, -2 ≤ ky → ky ≤ 2 →
      ((ky + 2) * 5 + (kx + 2) = (ky + 2) * size + (kx + 2) ↔ (ky = -2 ∨ size = 5))) ∧
    (∀ (exp : ℚ → ℚ), (∀ q, 0 ≤ exp q) → 0 < exp 0 → ∀ sigma : ℚ, sigma ≠ 0 →
      ∃ k, create_gaussian_kernel exp 5 sigma = some k ∧ (k.length : Int) = 25 ∧ k.sum = 1 ∧
        ∀ i ∈ gaussian_blur_kernel_reads, 0 ≤ i ∧ i < (k.length : Int)) := by
  have hreads : gaussian_blur_kernel_reads
      = [0, 1, 2, 3, 4, 5, 6, 7, 8, 9, 10, 11, 12, 13, 14, 15, 16, 17, 18, 19, 20, 21, 22,
          23, 24] := by decide
  refine ⟨hreads, ?_, ?_, ?_, ?_⟩
  · intro exp size sigma k h0 h4 hk
    have hl := create_gaussian_kernel_length exp size sigma k hk
    have hsq : size * size ≤ 16 := by nlinarith
    have hsq0 : 0 ≤ size * size := mul_nonneg h0 h0
    have hw : wrap32 (size * size) = size * size := wrap32_of_range _ (by omega) (by omega)
    rw [hw] at hl
    have e : (k.length : Int) = size * size := by
      rw [hl]
      exact Int.toNat_of_nonneg hsq0
    refine ⟨e, by rw [e]; exact hsq, by rw [hreads]; decide, by rw [e]; omega⟩
  · obtain ⟨k, hk, hl, _, _⟩ := gaussian_kernel_sum (fun q => 1 / (1 + q * q))
      (fun q => div_nonneg zero_le_one (add_nonneg zero_le_one (mul_self_nonneg q)))
      (by norm_num) 3 (by decide) (by decide) 1 one_ne_zero
    exact ⟨k, hk, by omega⟩
  · intro size ky kx h1 h2
    constructor
    · intro h
      by_cases hs : size = 5
      · exact Or.inr hs
      · left
        have e : (ky + 2) * (size - 5) = 0 := by linarith
        rcases mul_eq_zero.mp e with q | q
        · omega
        · omega
    · rintro (h | h)
      · subst h
        ring
      · subst h
        ring
  · intro exp hexp hexp0 sigma hsig
    obtain ⟨k, hk, hl, hsum, _⟩ := gaussian_kernel_sum exp hexp hexp0 5 (by decide) (by decide)
      sigma hsig
    refine ⟨k, hk, by omega, hsum, ?_⟩
    intro i hi
    rw [hreads] at hi
    have hl2 : (k.length : Int) = 25 := by omega
    rw [hl2]
    simp only [List.mem_cons, List.mem_singleton, List.not_mem_nil, or_false] at hi
    omega


/-! ## `l_img_open` and `l_img_close`: the arguments of the nested calls -/

/-- The nested calls of `l_img_open` read the frame of `open`. -/
theorem l_img_open_frame (cv : LuaConv) (input output : String) (ret1 : List LuaVal) :
    l_img_open cv [LuaVal.str input, LuaVal.str output] ret1
      = (cv.tointeger input).map (fun n =>
          ({ input := input, output := output, size := n },
           { input := input, output := output, size := n })) := by
  unfold l_img_open morph_args luaL_checkstring luaL_optinteger lua_pushinteger lua_pushstring
    lua_pushvalue lua_value
  simp only [List.get?_cons_zero, List.get?_cons_succ, List.cons_append, List.nil_append,
    Option.some_bind, if_false, OfNat.ofNat_ne_zero, Nat.reduceSub, Nat.reduceEqDiff,
    Nat.succ_ne_zero, one_ne_zero]
  cases h : cv.tointeger input <;> simp [h]

/-- The nested calls of `l_img_close` read the frame of `close`. -/
theorem l_img_close_frame (cv : LuaConv) (input output : String) (ret1 : List LuaVal) :
    l_img_close cv [LuaVal.str input, LuaVal.str output] ret1
      = (cv.tointeger input).map (fun n =>
          ({ input := input, output := output, size := n },
           { input := input, output := output, size := n })) := by
  unfold l_img_close morph_args luaL_checkstring luaL_optinteger lua_pushinteger lua_pushstring
    lua_pushvalue lua_value
  simp only [List.get?_cons_zero, List.get?_cons_succ, List.cons_append, List.nil_append,
    Option.some_bind, if_false, OfNat.ofNat_ne_zero, Nat.reduceSub, Nat.reduceEqDiff,
    Nat.succ_ne_zero, one_ne_zero]
  cases h : cv.tointeger input <;> simp [h]

/-- C33 (the code departs from the claim): called with the Lua arguments
(input, output), `l_img_open` pushes (input, temporary path, 3) on top of its
two arguments and calls `l_img_erode` on the same frame, so the reads at the
absolute indices 1, 2, 3 yield input, output and the pushed copy of input.
The nested erode therefore works from input to output, not to the temporary
path, with the integer that the input path denotes as its size, and raises a
Lua error when the path denotes none; the nested dilate reads the same three
slots and works from input to output as well, never from the temporary path.
`l_img_close` does the same with the two calls exchanged.  Whenever the
caller's output is not the temporary path, the calls differ from those of the
specification. -/
theorem C33_open_reads_caller_frame :
    (∀ (cv : LuaConv) (input output : String) (ret1 : List LuaVal),
      l_img_open cv [LuaVal.str input, LuaVal.str output] ret1
        = (cv.tointeger input).map (fun n =>
            ({ input := input, output := output, size := n },
             { input := input, output := output, size := n }))) ∧
    (∀ (cv : LuaConv) (input output : String) (ret1 : List LuaVal),
      l_img_close cv [LuaVal.str input, LuaVal.str output] ret1
        = (cv.tointeger input).map (fun n =>
            ({ input := input, output := output, size := n },
             { input := input, output := output, size := n }))) ∧
    (∀ (cv : LuaConv) (input output : String) (ret1 : List LuaVal),
      output ≠ "/tmp/_temp_eroded.jpg" →
      l_img_open cv [LuaVal.str input, LuaVal.str output] ret1
        ≠ some (open_calls_spec input output)) ∧
    (∀ (cv : LuaConv) (input output : String) (ret1 : List LuaVal),
      output ≠ "/tmp/_temp_dilated.jpg" →
      l_img_close cv [LuaVal.str input, LuaVal.str output] ret1
        ≠ some (close_calls_spec input output)) ∧
    l_img_open { tointeger := fun _ => none, tostring := fun _ => "" }
        [LuaVal.str "in.png", LuaVal.str "out.png"] [] = none ∧
    l_img_open { tointeger := fun _ => some 7, tostring := fun _ => "" }
        [LuaVal.str "7", LuaVal.str "out.png"] [LuaVal.bool true]
      = some ({ input := "7", output := "out.png", size := 7 },
              { input := "7", output := "out.png", size := 7 }) := by
  refine ⟨l_img_open_frame, l_img_close_frame, ?_, ?_, ?_, ?_⟩
  · intro cv input output ret1 hne h
    rw [l_img_open_frame] at h
    cases hn : cv.tointeger input with
    | none =>
      rw [hn] at h
      cases h
    | some n =>
      rw [hn] at h
      simp only [Option.map_some', Option.some.injEq, open_calls_spec, Prod.mk.injEq,
        MorphCall.mk.injEq] at h
      exact hne h.1.2.1
  · intro cv input output ret1 hne h
    rw [l_img_close_frame] at h
    cases hn : cv.tointeger input with
    | none =>
      rw [hn] at h
      cases h
    | some n =>
      rw [hn] at h
      simp only [Option.map_some', Option.some.injEq, close_calls_spec, Prod.mk.injEq,
        MorphCall.mk.injEq] at h
      exact hne h.1.2.1
  · rw [l_img_open_frame]
    rfl
  · rw [l_img_open_frame]
    rfl


/-! ## Glyphs (`draw_char`) -/

theorem paintAll_nil (img : Image) (r g b : Nat) : paintAll img [] r g b = img := rfl

/-- What `draw_char` paints: the pixels of the glyph. -/
theorem draw_char_eq_paint (img : Image) (x y c : Int) (r g b : Nat) (scale : Int) :
    draw_char img x y c r g b scale = paintAll img (glyphPixels x y c scale) r g b := by
  unfold draw_char glyphPixels
  dsimp only
  by_cases hc : c - 48 < 0 ∨ c - 48 > 9
  · rw [if_pos hc, if_pos hc]
    rfl
  · rw [if_neg hc, if_neg hc, ← forLoop_paintAll]
    refine forLoop_congr _ _ _ (fun row acc _ _ => ?_)
    rw [← forLoop_paintAll]
    refine forLoop_congr _ _ _ (fun col acc2 _ _ => ?_)
    unfold glyphBit
    by_cases hb : rd (font.getD (c - 48).toNat []) row &&& (1 <<< (7 - col).toNat) ≠ 0
    · rw [if_pos hb, if_pos (decide_eq_true hb)]
      unfold paintAll
      rw [List.foldl_map]
      exact nest_eq_foldl_rect _ _ _ _
        (fun sx sy acc => draw_pixel acc (x + col * scale + sx) (y + row * scale + sy) r g b) acc2
    · rw [if_neg hb, if_neg (by simpa using hb)]
      rfl

theorem mem_glyphPixels (x y c scale : Int) (hc0 : 48 ≤ c) (hc1 : c ≤ 57) (p : Int × Int) :
    p ∈ glyphPixels x y c scale ↔
      ∃ row col, (0 ≤ row ∧ row < 5) ∧ (0 ≤ col ∧ col < 3) ∧ glyphBit (c - 48) row col = true ∧
        ∃ sx sy, (0 ≤ sx ∧ sx < scale) ∧ (0 ≤ sy ∧ sy < scale) ∧
          p = (x + col * scale + sx, y + row * scale + sy) := by
  unfold glyphPixels
  rw [if_neg (by omega)]
  simp only [List.mem_flatten, List.mem_map, mem_intRange]
  constructor
  · rintro ⟨l, ⟨row, hrow, rfl⟩, hp⟩
    simp only [List.mem_flatten, List.mem_map, mem_intRange] at hp
    obtain ⟨l2, ⟨col, hcol, rfl⟩, hp2⟩ := hp
    by_cases hb : glyphBit (c - 48) row col = true
    · rw [if_pos hb] at hp2
      simp only [List.mem_map, mem_rectPixels] at hp2
      obtain ⟨s, hs, rfl⟩ := hp2
      exact ⟨row, col, hrow, hcol, hb, s.1, s.2, hs.1, hs.2, rfl⟩
    · rw [if_neg hb] at hp2
      exact absurd hp2 (List.not_mem_nil _)
  · rintro ⟨row, col, hrow, hcol, hb, sx, sy, hsx, hsy, rfl⟩
    refine ⟨_, ⟨row, hrow, rfl⟩, ?_⟩
    simp only [List.mem_flatten, List.mem_map, mem_intRange]
    refine ⟨_, ⟨col, hcol, rfl⟩, ?_⟩
    rw [if_pos hb]
    simp only [List.mem_map, mem_rectPixels]
    exact ⟨(sx, sy), ⟨hsx, hsy⟩, rfl⟩

/-- The top-left pixel of the block of a cell is painted exactly when the cell
is set. -/
theorem glyph_corner (x y c scale : Int) (hc0 : 48 ≤ c) (hc1 : c ≤ 57) (hs : 1 ≤ scale)
    (row col : Int) (hrow : 0 ≤ row ∧ row < 5) (hcol : 0 ≤ col ∧ col < 3) :
    (x + col * scale, y + row * scale) ∈ glyphPixels x y c scale ↔
      glyphBit (c - 48) row col = true := by
  rw [mem_glyphPixels x y c scale hc0 hc1]
  constructor
  · rintro ⟨row2, col2, hrow2, hcol2, hb, sx, sy, hsx, hsy, hp⟩
    rw [Prod.mk.injEq] at hp
    obtain ⟨hp1, hp2⟩ := hp
    have ec : col2 = col := by
      obtain ⟨c0, c1⟩ := hcol
      obtain ⟨d0, d1⟩ := hcol2
      interval_cases col <;> interval_cases col2 <;> omega
    have er : row2 = row := by
      obtain ⟨c0, c1⟩ := hrow
      obtain ⟨d0, d1⟩ := hrow2
      interval_cases row <;> interval_cases row2 <;> omega
    rw [← ec, ← er]
    exact hb
  · intro hb
    exact ⟨row, col, hrow, hcol, hb, 0, 0, ⟨le_refl 0, by omega⟩, ⟨le_refl 0, by omega⟩,
      by simp⟩

theorem mem_glyphCells (idx : Int) (cell : Int × Int) :
    cell ∈ glyphCells idx ↔
      ((0 ≤ cell.1 ∧ cell.1 < 3) ∧ 0 ≤ cell.2 ∧ cell.2 < 5) ∧ glyphBit idx cell.2 cell.1 = true := by
  unfold glyphCells
  rw [List.mem_filter, mem_rectPixels]

/-- The glyphs of two digits have the same cells exactly when the digits are
equal or both among 0, 8 and 9. -/
theorem glyphCells_classes (c1 c2 : Int) (h10 : 48 ≤ c1) (h11 : c1 ≤ 57) (h20 : 48 ≤ c2)
    (h21 : c2 ≤ 57) :
    glyphCells (c1 - 48) = glyphCells (c2 - 48) ↔
      (c1 = c2 ∨ ((c1 = 48 ∨ c1 = 56 ∨ c1 = 57) ∧ (c2 = 48 ∨ c2 = 56 ∨ c2 = 57))) := by
  interval_cases c1 <;> interval_cases c2 <;> decide

/-- Two digits paint the same pixels exactly when their glyphs have the same
cells. -/
theorem glyphPixels_same_iff (x y scale c1 c2 : Int) (hs : 1 ≤ scale) (h10 : 48 ≤ c1)
    (h11 : c1 ≤ 57) (h20 : 48 ≤ c2) (h21 : c2 ≤ 57) :
    (∀ p, p ∈ glyphPixels x y c1 scale ↔ p ∈ glyphPixels x y c2 scale) ↔
      glyphCells (c1 - 48) = glyphCells (c2 - 48) := by
  constructor
  · intro h
    unfold glyphCells
    apply List.filter_congr
    intro cell hcell
    rw [mem_rectPixels] at hcell
    have e1 := glyph_corner x y c1 scale h10 h11 hs cell.2 cell.1 hcell.2 hcell.1
    have e2 := glyph_corner x y c2 scale h20 h21 hs cell.2 cell.1 hcell.2 hcell.1
    have e := (h (x + cell.1 * scale, y + cell.2 * scale))
    rw [e1, e2] at e
    cases h1 : glyphBit (c1 - 48) cell.2 cell.1 <;> cases h2 : glyphBit (c2 - 48) cell.2 cell.1
      <;> simp [h1, h2] at e ⊢
  · intro h p
    rw [mem_glyphPixels x y c1 scale h10 h11, mem_glyphPixels x y c2 scale h20 h21]
    have hb : ∀ row col, (0 ≤ row ∧ row < 5) → (0 ≤ col ∧ col < 3) →
        (glyphBit (c1 - 48) row col = true ↔ glyphBit (c2 - 48) row col = true) := by
      intro row col hrow hcol
      have m1 := mem_glyphCells (c1 - 48) (col, row)
      have m2 := mem_glyphCells (c2 - 48) (col, row)
      rw [h] at m1
      dsimp only at m1 m2
      constructor
      · intro q
        exact (m2.mp (m1.mpr ⟨⟨hcol, hrow⟩, q⟩)).2
      · intro q
        exact (m1.mp (m2.mpr ⟨⟨hcol, hrow⟩, q⟩)).2
    constructor
    · rintro ⟨row, col, hrow, hcol, hbit, rest⟩
      exact ⟨row, col, hrow, hcol, (hb row col hrow hcol).mp hbit, rest⟩
    · rintro ⟨row, col, hrow, hcol, hbit, rest⟩
      exact ⟨row, col, hrow, hcol, (hb row col hrow hcol).mpr hbit, rest⟩

/-- The glyphs of 0, 8 and 9 are drawn alike. -/
theorem draw_char_zero_eight_nine (img : Image) (x y : Int) (r g b : Nat) (scale : Int) :
    draw_char img x y 48 r g b scale = draw_char img x y 56 r g b scale ∧
    draw_char img x y 48 r g b scale = draw_char img x y 57 r g b scale := by
  have e0 : intRange 0 5 = [0, 1, 2, 3, 4] := by decide
  have e1 : intRange 0 3 = [0, 1, 2] := by decide
  have key : ∀ c : Int, (c = 56 ∨ c = 57) →
      glyphPixels x y 48 scale = glyphPixels x y c scale := by
    intro c hc
    unfold glyphPixels
    rw [if_neg (by omega), if_neg (by omega), e0, e1]
    rcases hc with rfl | rfl
    · simp only [List.map_cons, List.map_nil]
      have hb : ∀ row col : Int, (0 ≤ row ∧ row < 5) → (0 ≤ col ∧ col < 3) →
          glyphBit (48 - 48) row col = glyphBit (56 - 48) row col := by
        intro row col ⟨r0, r1⟩ ⟨c0, c1⟩
        interval_cases row <;> interval_cases col <;> decide
      simp only [hb 0 0 (by decide) (by decide), hb 0 1 (by decide) (by decide),
        hb 0 2 (by decide) (by decide), hb 1 0 (by decide) (by decide),
        hb 1 1 (by decide) (by decide), hb 1 2 (by decide) (by decide),
        hb 2 0 (by decide) (by decide), hb 2 1 (by decide) (by decide),
        hb 2 2 (by decide) (by decide), hb 3 0 (by decide) (by decide),
        hb 3 1 (by decide) (by decide), hb 3 2 (by decide) (by decide),
        hb 4 0 (by decide) (by decide), hb 4 1 (by decide) (by decide),
        hb 4 2 (by decide) (by decide)]
    · simp only [List.map_cons, List.map_nil]
      have hb : ∀ row col : Int, (0 ≤ row ∧ row < 5) → (0 ≤ col ∧ col < 3) →
          glyphBit (48 - 48) row col = glyphBit (57 - 48) row col := by
        intro row col ⟨r0, r1⟩ ⟨c0, c1⟩
        interval_cases row <;> interval_cases col <;> decide
      simp only [hb 0 0 (by decide) (by decide), hb 0 1 (by decide) (by decide),
        hb 0 2 (by decide) (by decide), hb 1 0 (by decide) (by decide),
        hb 1 1 (by decide) (by decide), hb 1 2 (by decide) (by decide),
        hb 2 0 (by decide) (by decide), hb 2 1 (by decide) (by decide),
        hb 2 2 (by decide) (by decide), hb 3 0 (by decide) (by decide),
        hb 3 1 (by decide) (by decide), hb 3 2 (by decide) (by decide),
        hb 4 0 (by decide) (by decide), hb 4 1 (by decide) (by decide),
        hb 4 2 (by decide) (by decide)]
  constructor
  · rw [draw_char_eq_paint, draw_char_eq_paint, key 56 (Or.inl rfl)]
  · rw [draw_char_eq_paint, draw_char_eq_paint, key 57 (Or.inr rfl)]

/-- C37: the font table does not tell the digits 0, 8 and 9 apart.  On the
canvas 3 pixels wide and 5 pixels high with 1 channel and every byte 9, at
(0, 0) with scale 1 and the colour black, `draw_char` paints the same pixels
for 0, 8 and 9: the cells 011, 100, 100, 100, 011 of the top three bits of the
font bytes.  In general, for any two digits c1 and c2 in '0'..'9', any position
and any scale >= 1, `draw_char` applies `draw_pixel` to the pixels of the
glyph, the pixel sets of c1 and c2 are equal exactly when c1 = c2 or both are
among '0', '8' and '9', and the digits 0, 8 and 9 give the same image on every
canvas in every colour. -/
theorem C37_zero_and_eight_alike :
    (draw_char (Image.mk (some (List.replicate 15 9)) 3 5 1) 0 0 48 0 0 0 1
        = Image.mk (some [9, 0, 0, 0, 9, 9, 0, 9, 9, 0, 9, 9, 9, 0, 0]) 3 5 1 ∧
      draw_char (Image.mk (some (List.replicate 15 9)) 3 5 1) 0 0 56 0 0 0 1
        = Image.mk (some [9, 0, 0, 0, 9, 9, 0, 9, 9, 0, 9, 9, 9, 0, 0]) 3 5 1 ∧
      draw_char (Image.mk (some (List.replicate 15 9)) 3 5 1) 0 0 57 0 0 0 1
        = Image.mk (some [9, 0, 0, 0, 9, 9, 0, 9, 9, 0, 9, 9, 9, 0, 0]) 3 5 1) ∧
    (∀ x y scale c1 c2 : Int, 1 ≤ scale → 48 ≤ c1 → c1 ≤ 57 → 48 ≤ c2 → c2 ≤ 57 →
      (∀ (img : Image) (r g b : Nat),
        draw_char img x y c1 r g b scale = paintAll img (glyphPixels x y c1 scale) r g b ∧
        draw_char img x y c2 r g b scale = paintAll img (glyphPixels x y c2 scale) r g b) ∧
      ((∀ p, p ∈ glyphPixels x y c1 scale ↔ p ∈ glyphPixels x y c2 scale) ↔
        (c1 = c2 ∨ ((c1 = 48 ∨ c1 = 56 ∨ c1 = 57) ∧ (c2 = 48 ∨ c2 = 56 ∨ c2 = 57))))) ∧
    (∀ (img : Image) (x y : Int) (r g b : Nat) (scale : Int),
      draw_char img x y 48 r g b scale = draw_char img x y 56 r g b scale ∧
      draw_char img x y 48 r g b scale = draw_char img x y 57 r g b scale) :=
  ⟨by decide,
    fun x y scale c1 c2 hs h10 h11 h20 h21 =>
      ⟨fun img r g b => ⟨draw_char_eq_paint img x y c1 r g b scale,
          draw_char_eq_paint img x y c2 r g b scale⟩,
        (glyphPixels_same_iff x y scale c1 c2 hs h10 h11 h20 h21).trans
          (glyphCells_classes c1 c2 h10 h11 h20 h21)⟩,
    fun img x y r g b scale => draw_char_zero_eight_nine img x y r g b scale⟩

/-! ## Labels of `find_contours`: splitting and connectivity -/

/-- C32: label splitting exists.  On the image 5 pixels wide and 4 pixels high
with 1 channel whose foreground (255) is the U shape (1,1), (3,1), (1,2),
(2,2), (3,2), every foreground pixel lies strictly inside the border ring and
the pixels form one 4-connected component along the path (1,1), (1,2), (2,2),
(3,2), (3,1); the labelling pass gives the label 1 to (1,1), (1,2), (2,2),
(3,2) and the label 2 to (3,1), and ends with `current_label` = 3. -/
theorem C32_label_splitting :
    label_pass (Image.mk (some [0, 0, 0, 0, 0, 0, 255, 0, 255, 0, 0, 255, 255, 255, 0,
        0, 0, 0, 0, 0]) 5 4 1)
      = ([0, 0, 0, 0, 0, 0, 1, 0, 2, 0, 0, 1, 1, 1, 0, 0, 0, 0, 0, 0], 3) ∧
    (∀ x y : Int, 0 ≤ x → x < 5 → 0 ≤ y → y < 4 →
      rd (Image.mk (some [0, 0, 0, 0, 0, 0, 255, 0, 255, 0, 0, 255, 255, 255, 0,
        0, 0, 0, 0, 0]) 5 4 1).bytes (y * 5 + x) > 0 →
      (1 ≤ x ∧ x < 5 - 1) ∧ 1 ≤ y ∧ y < 4 - 1) ∧
    (∀ p ∈ [((1 : Int), (1 : Int)), (1, 2), (2, 2), (3, 2), (3, 1)],
      rd (Image.mk (some [0, 0, 0, 0, 0, 0, 255, 0, 255, 0, 0, 255, 255, 255, 0,
        0, 0, 0, 0, 0]) 5 4 1).bytes (p.2 * 5 + p.1) = 255) ∧
    List.Chain' (fun (p q : Int × Int) => |p.1 - q.1| + |p.2 - q.2| = 1)
      [((1 : Int), (1 : Int)), (1, 2), (2, 2), (3, 2), (3, 1)] ∧
    rdi (label_pass (Image.mk (some [0, 0, 0, 0, 0, 0, 255, 0, 255, 0, 0, 255, 255, 255, 0,
        0, 0, 0, 0, 0]) 5 4 1)).1 (1 * 5 + 1) = 1 ∧
    rdi (label_pass (Image.mk (some [0, 0, 0, 0, 0, 0, 255, 0, 255, 0, 0, 255, 255, 255, 0,
        0, 0, 0, 0, 0]) 5 4 1)).1 (1 * 5 + 3) = 2 := by
  refine ⟨by decide, ?_, by decide, by simp, by decide, by decide⟩
  intro x y hx0 hx1 hy0 hy1
  interval_cases x <;> interval_cases y <;> decide

theorem labelStep_symm {labels : List Int} {w h i : Int} {p q : Int × Int}
    (s : LabelStep labels w h i p q) : LabelStep labels w h i q p := by
  obtain ⟨a, b, c, d, e⟩ := s
  refine ⟨b, a, ?_, e, d⟩
  unfold Adj4 at c ⊢
  rw [abs_sub_comm q.1 p.1, abs_sub_comm q.2 p.2]
  exact c

theorem joined_symm {labels : List Int} {w h i : Int} {p q : Int × Int}
    (s : Joined labels w h i p q) : Joined labels w h i q p :=
  Relation.ReflTransGen.symmetric (fun _ _ t => labelStep_symm t) s

/-- Storing a label in a cell that held 0 keeps every path inside a label. -/
theorem joined_store {labels : List Int} {w h i : Int} {p q : Int × Int} (idx v : Int)
    (hz : rdi labels idx = 0) (hi : i ≠ 0) (s : Joined labels w h i p q) :
    Joined (wri labels idx v) w h i p q := by
  refine Relation.ReflTransGen.mono ?_ s
  intro a b t
  obtain ⟨ha, hb, hadj, la, lb⟩ := t
  refine ⟨ha, hb, hadj, ?_, ?_⟩
  · unfold labelAt at la ⊢
    rw [rdi_wri]
    by_cases e : idx = a.2 * w + a.1
    · rw [← e, hz] at la
      exact absurd la.symm hi
    · rw [if_neg (fun q => e q.1)]
      exact la
  · unfold labelAt at lb ⊢
    rw [rdi_wri]
    by_cases e : idx = b.2 * w + b.1
    · rw [← e, hz] at lb
      exact absurd lb.symm hi
    · rw [if_neg (fun q => e q.1)]
      exact lb

/-- Storing a label at the pixel the labelling pass stands on carries the
connectivity invariant: the label is fresh, or it is the label of an adjacent
pixel. -/
theorem conn_write (img : Image) (hwf : img.WF) (x y : Int) (labels : List Int)
    (cur v cur2 : Int) (hx : 1 ≤ x ∧ x < img.width - 1) (hy : 1 ≤ y ∧ y < img.height - 1)
    (hfg : rd img.bytes (y * img.width + x) > 0)
    (h : LabelInv img x y (labels, cur)) (hcn : LabelConn img x y (labels, cur))
    (hv : (v = cur ∧ cur2 = cur + 1) ∨
      (1 ≤ v ∧ v < cur ∧ cur2 = cur ∧
        ∃ q : Int × Int, ((0 ≤ q.1 ∧ q.1 < img.width) ∧ 0 ≤ q.2 ∧ q.2 < img.height) ∧
          Adj4 q (x, y) ∧ labelAt labels img.width q = v)) :
    LabelConn img (x + 1) y (wri labels (y * img.width + x) v, cur2) := by
  obtain ⟨hl, h1, hr, hwit, hun⟩ := h
  obtain ⟨hA, hB⟩ := hcn
  dsimp only at hl h1 hr hwit hun hA hB
  obtain ⟨hpos, _⟩ := hwf.plane_fits
  have hb := idx_bound (w := img.width) (h := img.height) (x := x) (y := y) (by omega) (by omega)
    (by omega) (by omega)
  have hin : y * img.width + x < (labels.length : Int) := by
    rw [hl]
    omega
  have hz : rdi labels (y * img.width + x) = 0 :=
    hun x y (by omega) (by omega) (Or.inr ⟨rfl, le_rfl⟩)
  have hv1 : 1 ≤ v := by
    rcases hv with ⟨e, _⟩ | ⟨e, _⟩
    · omega
    · exact e
  have hhere : labelAt (wri labels (y * img.width + x) v) img.width (x, y) = v := by
    unfold labelAt
    rw [rdi_wri, if_pos ⟨rfl, hb.1, hin⟩]
  have hother : ∀ p : Int × Int, p.2 * img.width + p.1 ≠ y * img.width + x →
      labelAt (wri labels (y * img.width + x) v) img.width p = labelAt labels img.width p := by
    intro p hp
    unfold labelAt
    rw [rdi_wri, if_neg (fun q => hp q.1.symm)]
  have hkeep : ∀ p : Int × Int, labelAt labels img.width p ≠ 0 →
      labelAt (wri labels (y * img.width + x) v) img.width p = labelAt labels img.width p := by
    intro p hp
    apply hother
    intro e
    apply hp
    unfold labelAt
    rw [e, hz]
  have hpix : ∀ p : Int × Int, ((0 ≤ p.1 ∧ p.1 < img.width) ∧ 0 ≤ p.2 ∧ p.2 < img.height) →
      p.2 * img.width + p.1 = y * img.width + x → p = (x, y) := by
    intro p hp e
    obtain ⟨e1, e2⟩ := idx_inj (by omega) (by omega) hp.1.1 hp.1.2 e.symm
    exact Prod.ext e2.symm e1.symm
  -- the pixels that carried a label keep their paths
  have hold : ∀ i, 1 ≤ i → i < cur → i ≠ v ∨ (∃ q : Int × Int,
        ((0 ≤ q.1 ∧ q.1 < img.width) ∧ 0 ≤ q.2 ∧ q.2 < img.height) ∧
          Adj4 q (x, y) ∧ labelAt labels img.width q = v) →
      ∃ root : Int × Int,
        ((0 ≤ root.1 ∧ root.1 < img.width) ∧ 0 ≤ root.2 ∧ root.2 < img.height) ∧
        labelAt (wri labels (y * img.width + x) v) img.width root = i ∧
        ∀ p : Int × Int, ((0 ≤ p.1 ∧ p.1 < img.width) ∧ 0 ≤ p.2 ∧ p.2 < img.height) →
          labelAt (wri labels (y * img.width + x) v) img.width p = i →
          Joined (wri labels (y * img.width + x) v) img.width img.height i root p := by
    intro i hi1 hi2 hcase
    obtain ⟨root, hroot, lroot, hjoin⟩ := hB i hi1 hi2
    refine ⟨root, hroot, ?_, ?_⟩
    · rw [hkeep root (by rw [lroot]; omega), lroot]
    · intro p hp lp
      by_cases e : p.2 * img.width + p.1 = y * img.width + x
      · have pe := hpix p hp e
        subst pe
        rw [hhere] at lp
        rcases hcase with hne | ⟨q, hq, hadj, lq⟩
        · exact absurd lp.symm hne
        · subst lp
          have j1 : Joined (wri labels (y * img.width + x) v) img.width img.height v root q :=
            joined_store _ v hz (by omega) (hjoin q hq lq)
          refine Relation.ReflTransGen.tail j1 ⟨hq, hp, hadj, ?_, hhere⟩
          rw [hkeep q (by rw [lq]; omega), lq]
      · rw [hother p e] at lp
        exact joined_store _ v hz (by omega) (hjoin p hp lp)
  constructor
  · intro x2 y2 a1 a2 a3 a4
    show rdi (wri labels (y * img.width + x) v) (y2 * img.width + x2) ≠ 0 ↔ _
    rw [rdi_wri]
    by_cases e : y * img.width + x = y2 * img.width + x2
    · obtain ⟨e1, e2⟩ := idx_inj (by omega) (by omega) a1 a2 e
      subst e1 e2
      rw [if_pos ⟨rfl, hb.1, hin⟩]
      constructor
      · intro _
        exact ⟨⟨hx, hy⟩, Or.inr ⟨rfl, by omega⟩, hfg⟩
      · intro _
        omega
    · rw [if_neg (fun q => e q.1)]
      rw [hA x2 y2 a1 a2 a3 a4]
      constructor
      · rintro ⟨b1, b2, b3⟩
        exact ⟨b1, by omega, b3⟩
      · rintro ⟨b1, b2, b3⟩
        refine ⟨b1, ?_, b3⟩
        rcases b2 with b2 | ⟨b2, b4⟩
        · exact Or.inl b2
        · right
          refine ⟨b2, ?_⟩
          by_contra hge
          apply e
          have : x2 = x := by omega
          rw [b2, this]
  · intro i hi1 hi2
    dsimp only at hi2
    rcases hv with ⟨ev, ec⟩ | ⟨_, hvc, ec, hq⟩
    · -- a fresh label
      subst ev ec
      by_cases c : i < v
      · exact hold i hi1 c (Or.inl (by omega))
      · have ei : i = v := by omega
        subst ei
        refine ⟨(x, y), ⟨⟨by omega, by omega⟩, by omega, by omega⟩, hhere, ?_⟩
        intro p hp lp
        by_cases e : p.2 * img.width + p.1 = y * img.width + x
        · rw [hpix p hp e]
          exact Relation.ReflTransGen.refl
        · rw [hother p e] at lp
          have := hr (p.2 * img.width + p.1)
          unfold labelAt at lp
          omega
    · -- the label of a neighbour
      subst ec
      exact hold i hi1 hi2 (Or.inr hq)

/-- One step of the labelling pass carries the connectivity invariant to the
next pixel. -/
theorem label_step_conn (img : Image) (hwf : img.WF) (x y : Int) (st : List Int × Int)
    (hx : 1 ≤ x ∧ x < img.width - 1) (hy : 1 ≤ y ∧ y < img.height - 1)
    (h : LabelInv img x y st) (hcn : LabelConn img x y st) :
    LabelConn img (x + 1) y (label_step img y x st) := by
  obtain ⟨labels, cur⟩ := st
  have hr := h.2.2.1
  have hun := h.2.2.2.2
  dsimp only at hr hun
  have hz : rdi labels (y * img.width + x) = 0 :=
    hun x y (by omega) (by omega) (Or.inr ⟨rfl, le_rfl⟩)
  unfold label_step
  dsimp only
  by_cases hfg : rd img.bytes (y * img.width + x) > 0
  · rw [if_pos hfg]
    by_cases c1 : rdi labels (y * img.width + (x - 1)) = 0 ∧ rdi labels ((y - 1) * img.width + x) = 0
    · rw [if_pos c1]
      exact conn_write img hwf x y labels cur cur (cur + 1) hx hy hfg h hcn (Or.inl ⟨rfl, rfl⟩)
    · rw [if_neg c1]
      by_cases c2 : rdi labels (y * img.width + (x - 1)) ≠ 0
      · rw [if_pos c2]
        have := hr (y * img.width + (x - 1))
        refine conn_write img hwf x y labels cur _ cur hx hy hfg h hcn
          (Or.inr ⟨by omega, by omega, rfl, (x - 1, y), ⟨⟨by omega, by omega⟩, by omega,
            by omega⟩, ?_, rfl⟩)
        unfold Adj4
        simp
      · rw [if_neg c2]
        have c3 : rdi labels ((y - 1) * img.width + x) ≠ 0 := by
          intro q
          apply c1
          exact ⟨not_not.mp c2, q⟩
        rw [if_pos c3]
        have := hr ((y - 1) * img.width + x)
        refine conn_write img hwf x y labels cur _ cur hx hy hfg h hcn
          (Or.inr ⟨by omega, by omega, rfl, (x, y - 1), ⟨⟨by omega, by omega⟩, by omega,
            by omega⟩, ?_, rfl⟩)
        unfold Adj4
        simp
  · rw [if_neg hfg]
    obtain ⟨hA, hB⟩ := hcn
    refine ⟨?_, hB⟩
    intro x2 y2 a1 a2 a3 a4
    rw [hA x2 y2 a1 a2 a3 a4]
    constructor
    · rintro ⟨b1, b2, b3⟩
      exact ⟨b1, by omega, b3⟩
    · rintro ⟨b1, b2, b3⟩
      refine ⟨b1, ?_, b3⟩
      rcases b2 with b2 | ⟨b2, b4⟩
      · exact Or.inl b2
      · right
        refine ⟨b2, ?_⟩
        by_contra hge
        apply hfg
        have e : x2 = x := by omega
        rw [← e, ← b2]
        exact b3

/-- The outcome of the labelling pass: the labelled cells are those of the
interior foreground pixels, and every label in use has a root to which every
pixel with that label is joined inside the label. -/
theorem label_pass_conn (img : Image) (hwf : img.WF) :
    (∀ j, 0 ≤ rdi (label_pass img).1 j ∧ rdi (label_pass img).1 j < (label_pass img).2) ∧
    (∀ x2 y2, 0 ≤ x2 → x2 < img.width → 0 ≤ y2 → y2 < img.height →
      (rdi (label_pass img).1 (y2 * img.width + x2) ≠ 0 ↔
        ((1 ≤ x2 ∧ x2 < img.width - 1) ∧ (1 ≤ y2 ∧ y2 < img.height - 1)) ∧
        rd img.bytes (y2 * img.width + x2) > 0)) ∧
    (∀ i, 1 ≤ i → i < (label_pass img).2 →
      ∃ root : Int × Int,
        ((0 ≤ root.1 ∧ root.1 < img.width) ∧ 0 ≤ root.2 ∧ root.2 < img.height) ∧
        labelAt (label_pass img).1 img.width root = i ∧
        ∀ p : Int × Int, ((0 ≤ p.1 ∧ p.1 < img.width) ∧ 0 ≤ p.2 ∧ p.2 < img.height) →
          labelAt (label_pass img).1 img.width p = i →
          Joined (label_pass img).1 img.width img.height i root p) := by
  have weaken : ∀ x y t, 1 ≤ x → (img.width - 1 ≤ x) →
      LabelInv img x y t ∧ LabelConn img x y t →
      LabelInv img 1 (y + 1) t ∧ LabelConn img 1 (y + 1) t := by
    intro x y t hx hxw ⟨⟨hl, h1, hr, hwit, hun⟩, hA, hB⟩
    refine ⟨⟨hl, h1, hr, hwit, fun x2 y2 a1 a2 a3 => hun x2 y2 a1 a2 (by omega)⟩, ?_, hB⟩
    intro x2 y2 a1 a2 a3 a4
    rw [hA x2 y2 a1 a2 a3 a4]
    constructor
    · rintro ⟨b1, b2, b3⟩
      exact ⟨b1, by omega, b3⟩
    · rintro ⟨b1, b2, b3⟩
      exact ⟨b1, by omega, b3⟩
  have row : ∀ y st, 1 ≤ y → y < img.height - 1 →
      LabelInv img 1 y st ∧ LabelConn img 1 y st →
      LabelInv img 1 (y + 1) (forLoop 1 (img.width - 1) (fun x st => label_step img y x st) st) ∧
      LabelConn img 1 (y + 1)
        (forLoop 1 (img.width - 1) (fun x st => label_step img y x st) st) := by
    intro y st hy1 hy2 hst
    by_cases hle : 1 ≤ img.width - 1
    · exact weaken _ _ _ hle (le_refl _) (forLoop_induct hle _ st
        (fun x t => LabelInv img x y t ∧ LabelConn img x y t) hst
        (fun x t h1 h2 ht => ⟨label_step_inv img hwf x y t ⟨h1, h2⟩ ⟨hy1, hy2⟩ ht.1,
          label_step_conn img hwf x y t ⟨h1, h2⟩ ⟨hy1, hy2⟩ ht.1 ht.2⟩))
    · rw [forLoop_of_le (by omega)]
      exact weaken 1 y st le_rfl (by omega) hst
  have init : LabelInv img 1 1 (List.replicate (img.width * img.height).toNat 0, 1) ∧
      LabelConn img 1 1 (List.replicate (img.width * img.height).toNat 0, 1) := by
    refine ⟨⟨List.length_replicate _ _, le_rfl, ?_, ?_, ?_⟩, ?_, ?_⟩
    · intro j
      show 0 ≤ rdi (List.replicate _ 0) j ∧ rdi (List.replicate _ 0) j < 1
      rw [rdi_replicate_zero]
      omega
    · intro i h1 h2
      dsimp only at h2
      omega
    · intro x2 y2 _ _ _
      exact rdi_replicate_zero _ _
    · intro x2 y2 _ _ _ _
      show rdi (List.replicate _ 0) _ ≠ 0 ↔ _
      rw [rdi_replicate_zero]
      constructor
      · intro q
        exact absurd rfl q
      · rintro ⟨b1, b2, _⟩
        omega
    · intro i h1 h2
      dsimp only at h2
      omega
  have fin : ∃ y, (img.height - 1 ≤ y) ∧
      LabelInv img 1 y (label_pass img) ∧ LabelConn img 1 y (label_pass img) := by
    unfold label_pass
    by_cases hle : 1 ≤ img.height - 1
    · exact ⟨_, le_refl _, forLoop_induct hle _ _
        (fun y t => LabelInv img 1 y t ∧ LabelConn img 1 y t) init
        (fun y t h1 h2 ht => row y t h1 h2 ht)⟩
    · rw [forLoop_of_le (by omega)]
      exact ⟨1, by omega, init⟩
  obtain ⟨y, hy, ⟨_, _, hr, _, _⟩, hA, hB⟩ := fin
  refine ⟨hr, ?_, hB⟩
  intro x2 y2 a1 a2 a3 a4
  rw [hA x2 y2 a1 a2 a3 a4]
  constructor
  · rintro ⟨b1, _, b3⟩
    exact ⟨b1, b3⟩
  · rintro ⟨b1, b3⟩
    exact ⟨b1, by omega, b3⟩

/-- C38: every label produced by `find_contours` is 4-connected.  For every
decoded single-channel image, after the labelling pass a pixel of the plane
carries a non-zero label if and only if it is a foreground pixel (> 0) lying
strictly inside the outermost ring, and any two pixels carrying the same
non-zero label are joined by a path of horizontally or vertically adjacent
pixels that all carry that label. -/
theorem C38_labels_connected (img : Image) (hwf : img.WF) (hc : img.channels = 1) :
    (∀ x y, 0 ≤ x → x < img.width → 0 ≤ y → y < img.height →
      (labelAt (label_pass img).1 img.width (x, y) ≠ 0 ↔
        ((1 ≤ x ∧ x < img.width - 1) ∧ (1 ≤ y ∧ y < img.height - 1)) ∧
        rd img.bytes (y * img.width + x) > 0)) ∧
    (∀ p q : Int × Int, ((0 ≤ p.1 ∧ p.1 < img.width) ∧ 0 ≤ p.2 ∧ p.2 < img.height) →
      ((0 ≤ q.1 ∧ q.1 < img.width) ∧ 0 ≤ q.2 ∧ q.2 < img.height) →
      labelAt (label_pass img).1 img.width p ≠ 0 →
      labelAt (label_pass img).1 img.width p = labelAt (label_pass img).1 img.width q →
      Joined (label_pass img).1 img.width img.height
        (labelAt (label_pass img).1 img.width p) p q) := by
  obtain ⟨hr, hA, hB⟩ := label_pass_conn img hwf
  refine ⟨fun x y a1 a2 a3 a4 => hA x y a1 a2 a3 a4, ?_⟩
  intro p q hp hq hne heq
  have hrange := hr (p.2 * img.width + p.1)
  have h1 : 1 ≤ labelAt (label_pass img).1 img.width p := by
    unfold labelAt at hne ⊢
    omega
  obtain ⟨root, _, _, hjoin⟩ := hB (labelAt (label_pass img).1 img.width p) h1 hrange.2
  exact Relation.ReflTransGen.trans (joined_symm (hjoin p hp rfl)) (hjoin q hq heq.symm)

/-- Witness for C38: the U shape of five foreground pixels on a 5 x 4 image. -/
theorem C38_labels_connected_witness :
    (∀ x y, 0 ≤ x → x < (5 : Int) → 0 ≤ y → y < (4 : Int) →
      (labelAt (label_pass (Image.mk (some [0, 0, 0, 0, 0, 0, 255, 0, 255, 0, 0, 255, 255, 255,
          0, 0, 0, 0, 0, 0]) 5 4 1)).1 5 (x, y) ≠ 0 ↔
        ((1 ≤ x ∧ x < (5 : Int) - 1) ∧ (1 ≤ y ∧ y < (4 : Int) - 1)) ∧
        rd (Image.mk (some [0, 0, 0, 0, 0, 0, 255, 0, 255, 0, 0, 255, 255, 255,
          0, 0, 0, 0, 0, 0]) 5 4 1).bytes (y * 5 + x) > 0)) ∧
    (∀ p q : Int × Int, ((0 ≤ p.1 ∧ p.1 < (5 : Int)) ∧ 0 ≤ p.2 ∧ p.2 < (4 : Int)) →
      ((0 ≤ q.1 ∧ q.1 < (5 : Int)) ∧ 0 ≤ q.2 ∧ q.2 < (4 : Int)) →
      labelAt (label_pass (Image.mk (some [0, 0, 0, 0, 0, 0, 255, 0, 255, 0, 0, 255, 255, 255,
          0, 0, 0, 0, 0, 0]) 5 4 1)).1 5 p ≠ 0 →
      labelAt (label_pass (Image.mk (some [0, 0, 0, 0, 0, 0, 255, 0, 255, 0, 0, 255, 255, 255,
          0, 0, 0, 0, 0, 0]) 5 4 1)).1 5 p
        = labelAt (label_pass (Image.mk (some [0, 0, 0, 0, 0, 0, 255, 0, 255, 0, 0, 255, 255,
          255, 0, 0, 0, 0, 0, 0]) 5 4 1)).1 5 q →
      Joined (label_pass (Image.mk (some [0, 0, 0, 0, 0, 0, 255, 0, 255, 0, 0, 255, 255, 255,
          0, 0, 0, 0, 0, 0]) 5 4 1)).1 5 4
        (labelAt (label_pass (Image.mk (some [0, 0, 0, 0, 0, 0, 255, 0, 255, 0, 0, 255, 255,
          255, 0, 0, 0, 0, 0, 0]) 5 4 1)).1 5 p) p q) :=
  C38_labels_connected
    (Image.mk (some [0, 0, 0, 0, 0, 0, 255, 0, 255, 0, 0, 255, 255, 255, 0, 0, 0, 0, 0, 0]) 5 4 1)
    (by
      refine ⟨by decide, by decide, by decide, by decide,
        [0, 0, 0, 0, 0, 0, 255, 0, 255, 0, 0, 255, 255, 255, 0, 0, 0, 0, 0, 0], rfl, by decide,
        by decide⟩)
    rfl


/-! ## The radius of the circle that `draw_circle` draws -/

/-- The stepping loop of `draw_line` stamps the brush at the points that the
recording loop visits. -/
theorem line_loop_fusion (x2 y2 dx dy sx sy : Int) (r g b : Nat) (thickness : Int)
    (img0 : Image) :
    ∀ (fuel : Nat) (acc : List (Int × Int)) (x1 y1 err : Int),
      draw_line_loop x2 y2 dx dy sx sy r g b thickness fuel
          (stampAll img0 acc r g b thickness) x1 y1 err
        = (line_steps x2 y2 dx dy sx sy fuel acc x1 y1 err).map
            (fun pts => stampAll img0 pts r g b thickness) := by
  intro fuel
  induction fuel with
  | zero =>
    intro acc x1 y1 err
    rfl
  | succ n ih =>
    intro acc x1 y1 err
    have hs : draw_brush (stampAll img0 acc r g b thickness) x1 y1 r g b thickness
        = stampAll img0 (acc ++ [(x1, y1)]) r g b thickness := by
      unfold stampAll
      rw [List.foldl_append]
      rfl
    unfold draw_line_loop line_steps
    dsimp only
    rw [hs]
    by_cases hend : x1 = x2 ∧ y1 = y2
    · rw [if_pos hend, if_pos hend]
      rfl
    · rw [if_neg hend, if_neg hend]
      exact ih _ _ _ _

theorem draw_line_eq_stamps (fuel : Nat) (img : Image) (x1 y1 x2 y2 : Int) (r g b : Nat)
    (thickness : Int) :
    draw_line fuel img x1 y1 x2 y2 r g b thickness
      = (draw_line_points fuel x1 y1 x2 y2).map (fun pts => stampAll img pts r g b thickness) := by
  unfold draw_line draw_line_points
  exact line_loop_fusion _ _ _ _ _ _ r g b thickness img fuel [] x1 y1 _

theorem getLast?_cons_of_length {α : Type} (a : α) (l : List α) (b : α) (n : Nat)
    (hl : l.length = n + 1) (h : l.getLast? = some b) : (a :: l).getLast? = some b := by
  cases l with
  | nil => simp at hl
  | cons c t =>
    rw [List.getLast?_cons_cons]
    exact h

theorem chain_cons_of_head {α : Type} (R : α → α → Prop) (a b : α) (l : List α)
    (hh : l.head? = some b) (hr : R a b) (hc : l.Chain' R) : (a :: l).Chain' R := by
  cases l with
  | nil => simp at hh
  | cons c t =>
    simp only [List.head?_cons, Option.some.injEq] at hh
    subst hh
    exact List.Chain'.cons hr hc

/-- The stepping loop when the line is at least as wide as it is high: x moves
in every round.  n is the number of columns still to go; the error term is
`DX - DY + DY * n - DX * v` with v the number of rows still to go. -/
theorem line_steps_major_x (x2 y2 DX DY sx sy : Int) (hsx : sx = 1 ∨ sx = -1)
    (hsy : sy = 1 ∨ sy = -1) (hDY : 0 ≤ DY) (hD : DY ≤ DX) :
    ∀ (n : Nat) (fuel : Nat) (acc : List (Int × Int)) (x y err P Q : Int),
      sx * (x2 - x) = (n : Int) → 0 ≤ sy * (y2 - y) → sy * (y2 - y) ≤ DY → (n : Int) ≤ DX →
      P = DY * (n : Int) → Q = DX * (sy * (y2 - y)) → err = DX - DY + P - Q →
      -DY ≤ 2 * err → n < fuel →
      ∃ pts, line_steps x2 y2 DX (-DY) sx sy fuel acc x y err = some (acc ++ pts) ∧
        pts.length = n + 1 ∧ pts.head? = some (x, y) ∧ pts.getLast? = some (x2, y2) ∧
        pts.Chain' Adj8 ∧ pts.Nodup ∧ ∀ p ∈ pts, sx * (x2 - p.1) ≤ (n : Int) := by
  intro n
  induction n with
  | zero =>
    intro fuel acc x y err P Q hu hv0 hv1 hn hP hQ herr hinv hf
    obtain ⟨f, rfl⟩ : ∃ f, fuel = f + 1 := ⟨fuel - 1, by omega⟩
    have hx : x = x2 := by
      rcases hsx with rfl | rfl <;> push_cast at hu <;> omega
    have hv : sy * (y2 - y) = 0 := by
      by_contra hne
      have h1 : 1 ≤ sy * (y2 - y) := by omega
      have hq : DX ≤ Q := by
        rw [hQ]
        nlinarith
      have hp : P = 0 := by
        rw [hP]
        simp
      omega
    have hy : y = y2 := by
      rcases hsy with rfl | rfl <;> omega
    unfold line_steps
    dsimp only
    rw [if_pos ⟨hx, hy⟩]
    refine ⟨[(x, y)], rfl, rfl, rfl, by rw [hx, hy]; rfl, List.chain'_singleton _,
      List.nodup_singleton _, ?_⟩
    intro p hp
    rw [List.mem_singleton] at hp
    subst hp
    dsimp only
    omega
  | succ n ih =>
    intro fuel acc x y err P Q hu hv0 hv1 hn hP hQ herr hinv hf
    obtain ⟨f, rfl⟩ : ∃ f, fuel = f + 1 := ⟨fuel - 1, by omega⟩
    push_cast at hu hn hP
    have hx : x ≠ x2 := by
      intro e
      rw [e] at hu
      simp at hu
      omega
    have hux : sx * (x2 - (x + sx)) = (n : Int) := by
      rcases hsx with rfl | rfl <;> omega
    have hPn : 0 ≤ DY * (n : Int) := mul_nonneg hDY (Int.ofNat_nonneg n)
    have hPe : P = DY * (n : Int) + DY := by
      rw [hP]
      ring
    have hadj : ∀ y2n : Int, |y2n - y| ≤ 1 → Adj8 (x, y) (x + sx, y2n) := by
      intro y2n hy
      refine ⟨?_, hy⟩
      dsimp only
      rcases hsx with rfl | rfl <;> simp
    have hend : ¬ (x = x2 ∧ y = y2) := fun h => hx h.1
    have c1 : 2 * err ≥ -DY := hinv
    unfold line_steps
    dsimp only
    by_cases c2 : 2 * err ≤ DX
    · simp only [hend, c1, c2, if_true, if_false]
      have hv : 1 ≤ sy * (y2 - y) := by
        by_contra hne
        have h0 : sy * (y2 - y) = 0 := by omega
        have hq : Q = 0 := by
          rw [hQ, h0]
          simp
        omega
      have hvy : sy * (y2 - (y + sy)) = sy * (y2 - y) - 1 := by
        rcases hsy with rfl | rfl <;> ring
      obtain ⟨pts, h1, h2, h3, h4, h5, h6, h7⟩ := ih f (acc ++ [(x, y)]) (x + sx) (y + sy)
        (err + -DY + DX) (DY * (n : Int)) (Q - DX) hux (by rw [hvy]; omega) (by rw [hvy]; omega)
        (by omega) rfl (by rw [hvy, hQ]; ring) (by omega) (by omega) (by omega)
      refine ⟨(x, y) :: pts, by rw [h1]; simp, by simp [h2], rfl,
        getLast?_cons_of_length _ pts _ n h2 h4,
        chain_cons_of_head Adj8 _ _ pts h3 (hadj _ (by rcases hsy with rfl | rfl <;> simp)) h5,
        List.nodup_cons.mpr ⟨?_, h6⟩, ?_⟩
      · intro hmem
        have := h7 _ hmem
        dsimp only at this
        omega
      · intro p hp
        rcases List.mem_cons.mp hp with q | q
        · subst q
          dsimp only
          omega
        · have := h7 p q
          omega
    · simp only [hend, c1, c2, if_true, if_false]
      obtain ⟨pts, h1, h2, h3, h4, h5, h6, h7⟩ := ih f (acc ++ [(x, y)]) (x + sx) y
        (err + -DY) (DY * (n : Int)) Q hux hv0 hv1 (by omega) rfl hQ (by omega) (by omega)
        (by omega)
      refine ⟨(x, y) :: pts, by rw [h1]; simp, by simp [h2], rfl,
        getLast?_cons_of_length _ pts _ n h2 h4,
        chain_cons_of_head Adj8 _ _ pts h3 (hadj _ (by simp)) h5,
        List.nodup_cons.mpr ⟨?_, h6⟩, ?_⟩
      · intro hmem
        have := h7 _ hmem
        dsimp only at this
        omega
      · intro p hp
        rcases List.mem_cons.mp hp with q | q
        · subst q
          dsimp only
          omega
        · have := h7 p q
          omega

/-- The stepping loop when the line is higher than it is wide: y moves in
every round.  m is the number of rows still to go; the error term is
`DX - DY + DY * u - DX * m` with u the number of columns still to go. -/
theorem line_steps_major_y (x2 y2 DX DY sx sy : Int) (hsx : sx = 1 ∨ sx = -1)
    (hsy : sy = 1 ∨ sy = -1) (hDX : 0 ≤ DX) (hD : DX ≤ DY) :
    ∀ (m : Nat) (fuel : Nat) (acc : List (Int × Int)) (x y err P Q : Int),
      sy * (y2 - y) = (m : Int) → 0 ≤ sx * (x2 - x) → sx * (x2 - x) ≤ DX → (m : Int) ≤ DY →
      P = DY * (sx * (x2 - x)) → Q = DX * (m : Int) → err = DX - DY + P - Q →
      2 * err ≤ DX → (0 < DY ∨ m = 0) → m < fuel →
      ∃ pts, line_steps x2 y2 DX (-DY) sx sy fuel acc x y err = some (acc ++ pts) ∧
        pts.length = m + 1 ∧ pts.head? = some (x, y) ∧ pts.getLast? = some (x2, y2) ∧
        pts.Chain' Adj8 ∧ pts.Nodup ∧ ∀ p ∈ pts, sy * (y2 - p.2) ≤ (m : Int) := by
  intro m
  induction m with
  | zero =>
    intro fuel acc x y err P Q hv hu0 hu1 hm hP hQ herr hinv hpos hf
    obtain ⟨f, rfl⟩ : ∃ f, fuel = f + 1 := ⟨fuel - 1, by omega⟩
    have hy : y = y2 := by
      rcases hsy with rfl | rfl <;> push_cast at hv <;> omega
    have hu : sx * (x2 - x) = 0 := by
      by_contra hne
      have h1 : 1 ≤ sx * (x2 - x) := by omega
      have hDYn : 0 ≤ DY := by omega
      have hp : DY ≤ P := by
        rw [hP]
        nlinarith
      have hq : Q = 0 := by
        rw [hQ]
        simp
      omega
    have hx : x = x2 := by
      rcases hsx with rfl | rfl <;> omega
    unfold line_steps
    dsimp only
    rw [if_pos ⟨hx, hy⟩]
    refine ⟨[(x, y)], rfl, rfl, rfl, by rw [hx, hy]; rfl, List.chain'_singleton _,
      List.nodup_singleton _, ?_⟩
    intro p hp
    rw [List.mem_singleton] at hp
    subst hp
    dsimp only
    omega
  | succ m ih =>
    intro fuel acc x y err P Q hv hu0 hu1 hm hP hQ herr hinv hpos hf
    obtain ⟨f, rfl⟩ : ∃ f, fuel = f + 1 := ⟨fuel - 1, by omega⟩
    push_cast at hv hm hQ
    have hDYp : 0 < DY := by
      rcases hpos with h | h
      · exact h
      · omega
    have hy : y ≠ y2 := by
      intro e
      rw [e] at hv
      simp at hv
      omega
    have hvy : sy * (y2 - (y + sy)) = (m : Int) := by
      rcases hsy with rfl | rfl <;> omega
    have hQn : 0 ≤ DX * (m : Int) := mul_nonneg hDX (Int.ofNat_nonneg m)
    have hQe : Q = DX * (m : Int) + DX := by
      rw [hQ]
      ring
    have hadj : ∀ x2n : Int, |x2n - x| ≤ 1 → Adj8 (x, y) (x2n, y + sy) := by
      intro x2n hx
      refine ⟨hx, ?_⟩
      dsimp only
      rcases hsy with rfl | rfl <;> simp
    have hend : ¬ (x = x2 ∧ y = y2) := fun h => hy h.2
    have c2 : 2 * err ≤ DX := hinv
    unfold line_steps
    dsimp only
    by_cases c1 : 2 * err ≥ -DY
    · simp only [hend, c1, c2, if_true, if_false]
      have hu : 1 ≤ sx * (x2 - x) := by
        by_contra hne
        have h0 : sx * (x2 - x) = 0 := by omega
        have hp : P = 0 := by
          rw [hP, h0]
          simp
        omega
      have hux : sx * (x2 - (x + sx)) = sx * (x2 - x) - 1 := by
        rcases hsx with rfl | rfl <;> ring
      obtain ⟨pts, h1, h2, h3, h4, h5, h6, h7⟩ := ih f (acc ++ [(x, y)]) (x + sx) (y + sy)
        (err + -DY + DX) (P - DY) (DX * (m : Int)) hvy (by rw [hux]; omega) (by rw [hux]; omega)
        (by omega) (by rw [hux, hP]; ring) rfl (by omega) (by omega) (Or.inl hDYp) (by omega)
      refine ⟨(x, y) :: pts, by rw [h1]; simp, by simp [h2], rfl,
        getLast?_cons_of_length _ pts _ m h2 h4,
        chain_cons_of_head Adj8 _ _ pts h3 (hadj _ (by rcases hsx with rfl | rfl <;> simp)) h5,
        List.nodup_cons.mpr ⟨?_, h6⟩, ?_⟩
      · intro hmem
        have := h7 _ hmem
        dsimp only at this
        omega
      · intro p hp
        rcases List.mem_cons.mp hp with q | q
        · subst q
          dsimp only
          omega
        · have := h7 p q
          omega
    · simp only [hend, c1, c2, if_true, if_false]
      obtain ⟨pts, h1, h2, h3, h4, h5, h6, h7⟩ := ih f (acc ++ [(x, y)]) x (y + sy)
        (err + DX) P (DX * (m : Int)) hvy hu0 hu1 (by omega) hP rfl (by omega) (by omega)
        (Or.inl hDYp) (by omega)
      refine ⟨(x, y) :: pts, by rw [h1]; simp, by simp [h2], rfl,
        getLast?_cons_of_length _ pts _ m h2 h4,
        chain_cons_of_head Adj8 _ _ pts h3 (hadj _ (by simp)) h5,
        List.nodup_cons.mpr ⟨?_, h6⟩, ?_⟩
      · intro hmem
        have := h7 _ hmem
        dsimp only at this
        omega
      · intro p hp
        rcases List.mem_cons.mp hp with q | q
        · subst q
          dsimp only
          omega
        · have := h7 p q
          omega

/-- The points that `draw_line` stamps: max(|x2-x1|, |y2-y1|) + 1 of them, from
(x1, y1) to (x2, y2), each next to the one before, none repeated. -/
theorem draw_line_points_spec (x1 y1 x2 y2 : Int) (fuel : Nat)
    (hf : max |x2 - x1| |y2 - y1| < (fuel : Int)) :
    ∃ pts, draw_line_points fuel x1 y1 x2 y2 = some pts ∧
      (pts.length : Int) = max |x2 - x1| |y2 - y1| + 1 ∧
      pts.head? = some (x1, y1) ∧ pts.getLast? = some (x2, y2) ∧
      pts.Chain' Adj8 ∧ pts.Nodup := by
  have hsx : (if x1 < x2 then (1 : Int) else -1) = 1 ∨ (if x1 < x2 then (1 : Int) else -1) = -1 := by
    split
    · exact Or.inl rfl
    · exact Or.inr rfl
  have hsy : (if y1 < y2 then (1 : Int) else -1) = 1 ∨ (if y1 < y2 then (1 : Int) else -1) = -1 := by
    split
    · exact Or.inl rfl
    · exact Or.inr rfl
  have hux : (if x1 < x2 then (1 : Int) else -1) * (x2 - x1) = |x2 - x1| := by
    split
    · rw [abs_of_pos (by omega)]
      ring
    · rw [abs_of_nonpos (by omega)]
      ring
  have hvy : (if y1 < y2 then (1 : Int) else -1) * (y2 - y1) = |y2 - y1| := by
    split
    · rw [abs_of_pos (by omega)]
      ring
    · rw [abs_of_nonpos (by omega)]
      ring
  have hDX : 0 ≤ |x2 - x1| := abs_nonneg _
  have hDY : 0 ≤ |y2 - y1| := abs_nonneg _
  unfold draw_line_points
  dsimp only
  generalize (if x1 < x2 then (1 : Int) else -1) = sx at hsx hux
  generalize (if y1 < y2 then (1 : Int) else -1) = sy at hsy hvy
  generalize |x2 - x1| = DX at hux hDX hf
  generalize |y2 - y1| = DY at hvy hDY hf
  by_cases hD : DY ≤ DX
  · rw [max_eq_left hD] at hf ⊢
    have hn : ((DX.toNat : Nat) : Int) = DX := Int.toNat_of_nonneg hDX
    obtain ⟨pts, h1, h2, h3, h4, h5, h6, _⟩ := line_steps_major_x x2 y2 DX DY sx sy hsx hsy hDY hD
      DX.toNat fuel [] x1 y1 (DX + -DY) (DY * ((DX.toNat : Nat) : Int)) (DX * (sy * (y2 - y1)))
      (by rw [hux, hn]) (by rw [hvy]; exact hDY) (by rw [hvy]) (by rw [hn]) rfl rfl
      (by rw [hvy, hn]; ring) (by omega) (by omega)
    refine ⟨pts, by rw [h1]; rfl, by rw [h2]; push_cast; rw [hn], h3, h4, h5, h6⟩
  · rw [max_eq_right (by omega)] at hf ⊢
    have hn : ((DY.toNat : Nat) : Int) = DY := Int.toNat_of_nonneg hDY
    obtain ⟨pts, h1, h2, h3, h4, h5, h6, _⟩ := line_steps_major_y x2 y2 DX DY sx sy hsx hsy hDX
      (by omega) DY.toNat fuel [] x1 y1 (DX + -DY) (DY * (sx * (x2 - x1)))
      (DX * ((DY.toNat : Nat) : Int))
      (by rw [hvy, hn]) (by rw [hux]; exact hDX) (by rw [hux]) (by rw [hn]) rfl rfl
      (by rw [hux, hn]; ring) (by omega) (Or.inl (by omega)) (by omega)
    refine ⟨pts, by rw [h1]; rfl, by rw [h2]; push_cast; rw [hn], h3, h4, h5, h6⟩

/-- C34: `draw_line` terminates for all inputs.  For every pair of integer
endpoints and every thickness, with N = max(|x2-x1|, |y2-y1|), the stepping
loop given fuel for more than N rounds returns: it stamps the brush at N + 1
points, the last of them (x2, y2), and exits.  (The sums of the model are
exact; they are those of the source wherever no `int` of the source
overflows.) -/
theorem C34_draw_line_terminates (img : Image) (x1 y1 x2 y2 : Int) (r g b : Nat)
    (thickness : Int) (fuel : Nat) (hf : max |x2 - x1| |y2 - y1| < (fuel : Int)) :
    ∃ pts, draw_line_points fuel x1 y1 x2 y2 = some pts ∧
      draw_line fuel img x1 y1 x2 y2 r g b thickness
        = some (stampAll img pts r g b thickness) ∧
      (pts.length : Int) = max |x2 - x1| |y2 - y1| + 1 ∧
      pts.getLast? = some (x2, y2) := by
  obtain ⟨pts, h1, h2, _, h4, _, _⟩ := draw_line_points_spec x1 y1 x2 y2 fuel hf
  refine ⟨pts, h1, ?_, h2, h4⟩
  rw [draw_line_eq_stamps, h1]
  rfl

/-- Witness for C34: the line from (3, -2) to (-1, 5) with thickness 3 on a
2 x 2 image. -/
theorem C34_draw_line_terminates_witness :
    ∃ pts, draw_line_points 8 3 (-2) (-1) 5 = some pts ∧
      draw_line 8 (Image.mk (some [1, 2, 3, 4]) 2 2 1) 3 (-2) (-1) 5 0 0 0 3
        = some (stampAll (Image.mk (some [1, 2, 3, 4]) 2 2 1) pts 0 0 0 3) ∧
      (pts.length : Int) = max |(-1 : Int) - 3| |(5 : Int) - -2| + 1 ∧
      pts.getLast? = some (-1, 5) :=
  C34_draw_line_terminates (Image.mk (some [1, 2, 3, 4]) 2 2 1) 3 (-2) (-1) 5 0 0 0 3 8
    (by decide)


/-! ## The stepping loop of `draw_line` in 32-bit arithmetic -/

/-- The stepping loop in 32-bit arithmetic when the line is at least as wide as
it is high and its extent is at most 2^29: no sum leaves the range of `int`,
and the loop stamps the points of the loop in exact arithmetic. -/
theorem line_trace_major_x (x2 y2 DX DY sx sy : Int) (hsx : sx = 1 ∨ sx = -1)
    (hsy : sy = 1 ∨ sy = -1) (hDY : 0 ≤ DY) (hD : DY ≤ DX) (hB : DX ≤ 536870912)
    (hx2 : -268435456 ≤ x2 ∧ x2 ≤ 268435456) (hy2 : -268435456 ≤ y2 ∧ y2 ≤ 268435456) :
    ∀ (n : Nat) (fuel : Nat) (acc : List (Int × Int)) (x y err P Q : Int),
      sx * (x2 - x) = (n : Int) → 0 ≤ sy * (y2 - y) → sy * (y2 - y) ≤ DY → (n : Int) ≤ DX →
      P = DY * (n : Int) → Q = DX * (sy * (y2 - y)) → err = DX - DY + P - Q →
      -DY ≤ 2 * err → 2 * err ≤ 3 * DX → n < fuel →
      ∃ pts, line_steps x2 y2 DX (-DY) sx sy fuel acc x y err = some (acc ++ pts) ∧
        line_trace x2 y2 DX (-DY) sx sy fuel x y err = (pts, true) := by
  intro n
  induction n with
  | zero =>
    intro fuel acc x y err P Q hu hv0 hv1 hn hP hQ herr hinv hup hf
    obtain ⟨f, rfl⟩ : ∃ f, fuel = f + 1 := ⟨fuel - 1, by omega⟩
    have hx : x = x2 := by
      rcases hsx with rfl | rfl <;> push_cast at hu <;> omega
    have hv : sy * (y2 - y) = 0 := by
      by_contra hne
      have h1 : 1 ≤ sy * (y2 - y) := by omega
      have hq : DX ≤ Q := by
        rw [hQ]
        nlinarith
      have hp : P = 0 := by
        rw [hP]
        simp
      omega
    have hy : y = y2 := by
      rcases hsy with rfl | rfl <;> omega
    unfold line_steps line_trace
    dsimp only
    rw [if_pos ⟨hx, hy⟩, if_pos ⟨hx, hy⟩]
    exact ⟨[(x, y)], rfl, rfl⟩
  | succ n ih =>
    intro fuel acc x y err P Q hu hv0 hv1 hn hP hQ herr hinv hup hf
    obtain ⟨f, rfl⟩ : ∃ f, fuel = f + 1 := ⟨fuel - 1, by omega⟩
    push_cast at hu hn hP
    have hx : x ≠ x2 := by
      intro e
      rw [e] at hu
      simp at hu
      omega
    have hux : sx * (x2 - (x + sx)) = (n : Int) := by
      rcases hsx with rfl | rfl <;> omega
    have hPn : 0 ≤ DY * (n : Int) := mul_nonneg hDY (Int.ofNat_nonneg n)
    have hPe : P = DY * (n : Int) + DY := by
      rw [hP]
      ring
    have hend : ¬ (x = x2 ∧ y = y2) := fun h => hx h.1
    have c1 : 2 * err ≥ -DY := hinv
    have w1 : wrap32 (2 * err) = 2 * err := wrap32_of_range _ (by omega) (by omega)
    have w2 : wrap32 (err + -DY) = err + -DY := wrap32_of_range _ (by omega) (by omega)
    have w3 : wrap32 (x + sx) = x + sx := by
      apply wrap32_of_range
      · rcases hsx with rfl | rfl <;> omega
      · rcases hsx with rfl | rfl <;> omega
    have w4 : wrap32 (err + -DY + DX) = err + -DY + DX :=
      wrap32_of_range _ (by omega) (by omega)
    have w5 : wrap32 (y + sy) = y + sy := by
      apply wrap32_of_range
      · rcases hsy with rfl | rfl <;> omega
      · rcases hsy with rfl | rfl <;> omega
    unfold line_steps line_trace
    dsimp only
    rw [w1]
    by_cases c2 : 2 * err ≤ DX
    · simp only [hend, c1, c2, if_true, if_false]
      rw [w2, w3, w4, w5]
      have hv : 1 ≤ sy * (y2 - y) := by
        by_contra hne
        have h0 : sy * (y2 - y) = 0 := by omega
        have hq : Q = 0 := by
          rw [hQ, h0]
          simp
        omega
      have hvy : sy * (y2 - (y + sy)) = sy * (y2 - y) - 1 := by
        rcases hsy with rfl | rfl <;> ring
      obtain ⟨pts, h1, h2⟩ := ih f (acc ++ [(x, y)]) (x + sx) (y + sy)
        (err + -DY + DX) (DY * (n : Int)) (Q - DX) hux (by rw [hvy]; omega) (by rw [hvy]; omega)
        (by omega) rfl (by rw [hvy, hQ]; ring) (by omega) (by omega) (by omega) (by omega)
      exact ⟨(x, y) :: pts, by rw [h1]; simp, by rw [h2]⟩
    · simp only [hend, c1, c2, if_true, if_false]
      rw [w2, w3]
      obtain ⟨pts, h1, h2⟩ := ih f (acc ++ [(x, y)]) (x + sx) y
        (err + -DY) (DY * (n : Int)) Q hux hv0 hv1 (by omega) rfl hQ (by omega) (by omega)
        (by omega) (by omega)
      exact ⟨(x, y) :: pts, by rw [h1]; simp, by rw [h2]⟩

/-- The stepping loop in 32-bit arithmetic when the line is higher than it is
wide and its extent is at most 2^29. -/
theorem line_trace_major_y (x2 y2 DX DY sx sy : Int) (hsx : sx = 1 ∨ sx = -1)
    (hsy : sy = 1 ∨ sy = -1) (hDX : 0 ≤ DX) (hD : DX ≤ DY) (hB : DY ≤ 536870912)
    (hx2 : -268435456 ≤ x2 ∧ x2 ≤ 268435456) (hy2 : -268435456 ≤ y2 ∧ y2 ≤ 268435456) :
    ∀ (m : Nat) (fuel : Nat) (acc : List (Int × Int)) (x y err P Q : Int),
      sy * (y2 - y) = (m : Int) → 0 ≤ sx * (x2 - x) → sx * (x2 - x) ≤ DX → (m : Int) ≤ DY →
      P = DY * (sx * (x2 - x)) → Q = DX * (m : Int) → err = DX - DY + P - Q →
      2 * err ≤ DX → -(3 * DY) ≤ 2 * err → (0 < DY ∨ m = 0) → m < fuel →
      ∃ pts, line_steps x2 y2 DX (-DY) sx sy fuel acc x y err = some (acc ++ pts) ∧
        line_trace x2 y2 DX (-DY) sx sy fuel x y err = (pts, true) := by
  intro m
  induction m with
  | zero =>
    intro fuel acc x y err P Q hv hu0 hu1 hm hP hQ herr hinv hlow hpos hf
    obtain ⟨f, rfl⟩ : ∃ f, fuel = f + 1 := ⟨fuel - 1, by omega⟩
    have hy : y = y2 := by
      rcases hsy with rfl | rfl <;> push_cast at hv <;> omega
    have hu : sx * (x2 - x) = 0 := by
      by_contra hne
      have h1 : 1 ≤ sx * (x2 - x) := by omega
      have hDYn : 0 ≤ DY := by omega
      have hp : DY ≤ P := by
        rw [hP]
        nlinarith
      have hq : Q = 0 := by
        rw [hQ]
        simp
      omega
    have hx : x = x2 := by
      rcases hsx with rfl | rfl <;> omega
    unfold line_steps line_trace
    dsimp only
    rw [if_pos ⟨hx, hy⟩, if_pos ⟨hx, hy⟩]
    exact ⟨[(x, y)], rfl, rfl⟩
  | succ m ih =>
    intro fuel acc x y err P Q hv hu0 hu1 hm hP hQ herr hinv hlow hpos hf
    obtain ⟨f, rfl⟩ : ∃ f, fuel = f + 1 := ⟨fuel - 1, by omega⟩
    push_cast at hv hm hQ
    have hDYp : 0 < DY := by
      rcases hpos with h | h
      · exact h
      · omega
    have hy : y ≠ y2 := by
      intro e
      rw [e] at hv
      simp at hv
      omega
    have hvy : sy * (y2 - (y + sy)) = (m : Int) := by
      rcases hsy with rfl | rfl <;> omega
    have hQn : 0 ≤ DX * (m : Int) := mul_nonneg hDX (Int.ofNat_nonneg m)
    have hQe : Q = DX * (m : Int) + DX := by
      rw [hQ]
      ring
    have hend : ¬ (x = x2 ∧ y = y2) := fun h => hy h.2
    have c2 : 2 * err ≤ DX := hinv
    have w1 : wrap32 (2 * err) = 2 * err := wrap32_of_range _ (by omega) (by omega)
    have w2 : wrap32 (err + -DY) = err + -DY := wrap32_of_range _ (by omega) (by omega)
    have w3 : wrap32 (x + sx) = x + sx := by
      apply wrap32_of_range
      · rcases hsx with rfl | rfl <;> omega
      · rcases hsx with rfl | rfl <;> omega
    have w4 : wrap32 (err + -DY + DX) = err + -DY + DX :=
      wrap32_of_range _ (by omega) (by omega)
    have w5 : wrap32 (y + sy) = y + sy := by
      apply wrap32_of_range
      · rcases hsy with rfl | rfl <;> omega
      · rcases hsy with rfl | rfl <;> omega
    have w6 : wrap32 (err + DX) = err + DX := wrap32_of_range _ (by omega) (by omega)
    unfold line_steps line_trace
    dsimp only
    rw [w1]
    by_cases c1 : 2 * err ≥ -DY
    · simp only [hend, c1, c2, if_true, if_false]
      rw [w2, w3, w4, w5]
      have hu : 1 ≤ sx * (x2 - x) := by
        by_contra hne
        have h0 : sx * (x2 - x) = 0 := by omega
        have hp : P = 0 := by
          rw [hP, h0]
          simp
        omega
      have hux : sx * (x2 - (x + sx)) = sx * (x2 - x) - 1 := by
        rcases hsx with rfl | rfl <;> ring
      obtain ⟨pts, h1, h2⟩ := ih f (acc ++ [(x, y)]) (x + sx) (y + sy)
        (err + -DY + DX) (P - DY) (DX * (m : Int)) hvy (by rw [hux]; omega) (by rw [hux]; omega)
        (by omega) (by rw [hux, hP]; ring) rfl (by omega) (by omega) (by omega) (Or.inl hDYp)
        (by omega)
      exact ⟨(x, y) :: pts, by rw [h1]; simp, by rw [h2]⟩
    · simp only [hend, c1, c2, if_true, if_false]
      rw [w6, w5]
      obtain ⟨pts, h1, h2⟩ := ih f (acc ++ [(x, y)]) x (y + sy)
        (err + DX) P (DX * (m : Int)) hvy hu0 hu1 (by omega) hP rfl (by omega) (by omega)
        (by omega) (Or.inl hDYp) (by omega)
      exact ⟨(x, y) :: pts, by rw [h1]; simp, by rw [h2]⟩

/-- For endpoints within 2^28 of the origin no `int` of `draw_line` overflows:
the loop in 32-bit arithmetic reaches its `break` and stamps the points of the
loop in exact arithmetic. -/
theorem draw_line_trace_eq (x1 y1 x2 y2 : Int) (fuel : Nat)
    (hx1 : -268435456 ≤ x1 ∧ x1 ≤ 268435456) (hy1 : -268435456 ≤ y1 ∧ y1 ≤ 268435456)
    (hx2 : -268435456 ≤ x2 ∧ x2 ≤ 268435456) (hy2 : -268435456 ≤ y2 ∧ y2 ≤ 268435456)
    (hf : max |x2 - x1| |y2 - y1| < (fuel : Int)) :
    ∃ pts, draw_line_points fuel x1 y1 x2 y2 = some pts ∧
      draw_line_trace fuel x1 y1 x2 y2 = (pts, true) := by
  have hsx : (if x1 < x2 then (1 : Int) else -1) = 1 ∨ (if x1 < x2 then (1 : Int) else -1) = -1 := by
    split
    · exact Or.inl rfl
    · exact Or.inr rfl
  have hsy : (if y1 < y2 then (1 : Int) else -1) = 1 ∨ (if y1 < y2 then (1 : Int) else -1) = -1 := by
    split
    · exact Or.inl rfl
    · exact Or.inr rfl
  have hux : (if x1 < x2 then (1 : Int) else -1) * (x2 - x1) = |x2 - x1| := by
    split
    · rw [abs_of_pos (by omega)]
      ring
    · rw [abs_of_nonpos (by omega)]
      ring
  have hvy : (if y1 < y2 then (1 : Int) else -1) * (y2 - y1) = |y2 - y1| := by
    split
    · rw [abs_of_pos (by omega)]
      ring
    · rw [abs_of_nonpos (by omega)]
      ring
  have hDX : 0 ≤ |x2 - x1| := abs_nonneg _
  have hDY : 0 ≤ |y2 - y1| := abs_nonneg _
  have hBX : |x2 - x1| ≤ 536870912 := abs_le.mpr ⟨by omega, by omega⟩
  have hBY : |y2 - y1| ≤ 536870912 := abs_le.mpr ⟨by omega, by omega⟩
  have v1 : wrap32 (x2 - x1) = x2 - x1 := wrap32_of_range _ (by omega) (by omega)
  have v2 : wrap32 (y2 - y1) = y2 - y1 := wrap32_of_range _ (by omega) (by omega)
  have v3 : wrap32 |x2 - x1| = |x2 - x1| := wrap32_of_range _ (by omega) (by omega)
  have v4 : wrap32 |y2 - y1| = |y2 - y1| := wrap32_of_range _ (by omega) (by omega)
  have v5 : wrap32 (-|y2 - y1|) = -|y2 - y1| := wrap32_of_range _ (by omega) (by omega)
  have v6 : wrap32 (|x2 - x1| + -|y2 - y1|) = |x2 - x1| + -|y2 - y1| :=
    wrap32_of_range _ (by omega) (by omega)
  unfold draw_line_points draw_line_trace
  dsimp only
  rw [v1, v2, v3, v4, v5, v6]
  generalize (if x1 < x2 then (1 : Int) else -1) = sx at hsx hux
  generalize (if y1 < y2 then (1 : Int) else -1) = sy at hsy hvy
  generalize |x2 - x1| = DX at hux hDX hf hBX
  generalize |y2 - y1| = DY at hvy hDY hf hBY
  by_cases hD : DY ≤ DX
  · rw [max_eq_left hD] at hf
    have hn : ((DX.toNat : Nat) : Int) = DX := Int.toNat_of_nonneg hDX
    obtain ⟨pts, h1, h2⟩ := line_trace_major_x x2 y2 DX DY sx sy hsx hsy hDY hD hBX hx2 hy2
      DX.toNat fuel [] x1 y1 (DX + -DY) (DY * ((DX.toNat : Nat) : Int)) (DX * (sy * (y2 - y1)))
      (by rw [hux, hn]) (by rw [hvy]; exact hDY) (by rw [hvy]) (by rw [hn]) rfl rfl
      (by rw [hvy, hn]; ring) (by omega) (by omega) (by omega)
    exact ⟨pts, by rw [h1]; rfl, h2⟩
  · rw [max_eq_right (by omega)] at hf
    have hn : ((DY.toNat : Nat) : Int) = DY := Int.toNat_of_nonneg hDY
    obtain ⟨pts, h1, h2⟩ := line_trace_major_y x2 y2 DX DY sx sy hsx hsy hDX (by omega) hBY
      hx2 hy2 DY.toNat fuel [] x1 y1 (DX + -DY) (DY * (sx * (x2 - x1)))
      (DX * ((DY.toNat : Nat) : Int))
      (by rw [hvy, hn]) (by rw [hux]; exact hDX) (by rw [hux]) (by rw [hn]) rfl rfl
      (by rw [hux, hn]; ring) (by omega) (by omega) (Or.inl (by omega)) (by omega)
    exact ⟨pts, by rw [h1]; rfl, h2⟩

/-- C35 (counterexample to the claim as worded): the line from
(-2147483648, 0) to (2147483647, 10), whose endpoints `l_img_draw_line`
accepts.  The difference `x2 - x1` wraps to -1, so dx = 1 and dy = -10, and
the first 14 rounds of the loop stamp the points below without reaching the
`break`: the second point has the x of the first, although a path of
max(|x2-x1|, |y2-y1|) + 1 = 4294967296 points from x1 to x2 would have to
advance x in every step, and the points from the twelfth on lie above
y2 = 10. -/
theorem C35_draw_line_overflow :
    draw_line_trace 14 (-2147483648) 0 2147483647 10
      = ([(-2147483648, 0), (-2147483648, 1), (-2147483648, 2), (-2147483648, 3),
          (-2147483648, 4), (-2147483647, 5), (-2147483647, 6), (-2147483647, 7),
          (-2147483647, 8), (-2147483647, 9), (-2147483647, 10), (-2147483647, 11),
          (-2147483647, 12), (-2147483647, 13)], false) := by
  decide

/-- C35 (amended): for every pair of endpoints with coordinates between -2^28
and 2^28, no `int` of `draw_line` overflows and the loop, in the 32-bit
arithmetic of the source, stamps exactly max(|x2-x1|, |y2-y1|) + 1 points and
exits; the first is (x1, y1), the last is (x2, y2), each consecutive pair of
stamped points differs by at most 1 in x and at most 1 in y, and no point is
repeated.  The image that `draw_line` returns is the brush stamped at these
points in order. -/
theorem C35_draw_line_path (x1 y1 x2 y2 : Int) (fuel : Nat)
    (hx1 : -268435456 ≤ x1 ∧ x1 ≤ 268435456) (hy1 : -268435456 ≤ y1 ∧ y1 ≤ 268435456)
    (hx2 : -268435456 ≤ x2 ∧ x2 ≤ 268435456) (hy2 : -268435456 ≤ y2 ∧ y2 ≤ 268435456)
    (hf : max |x2 - x1| |y2 - y1| < (fuel : Int)) :
    ∃ pts, draw_line_trace fuel x1 y1 x2 y2 = (pts, true) ∧
      draw_line_points fuel x1 y1 x2 y2 = some pts ∧
      (∀ (img : Image) (r g b : Nat) (thickness : Int),
        draw_line fuel img x1 y1 x2 y2 r g b thickness
          = some (stampAll img pts r g b thickness)) ∧
      (pts.length : Int) = max |x2 - x1| |y2 - y1| + 1 ∧
      pts.head? = some (x1, y1) ∧ pts.getLast? = some (x2, y2) ∧
      pts.Chain' Adj8 ∧ pts.Nodup := by
  obtain ⟨pts, h1, h2, h3, h4, h5, h6⟩ := draw_line_points_spec x1 y1 x2 y2 fuel hf
  obtain ⟨pts2, g1, g2⟩ := draw_line_trace_eq x1 y1 x2 y2 fuel hx1 hy1 hx2 hy2 hf
  have e : pts2 = pts := by
    rw [h1] at g1
    exact (Option.some.inj g1).symm
  rw [e] at g2
  refine ⟨pts, g2, h1, ?_, h2, h3, h4, h5, h6⟩
  intro img r g b thickness
  rw [draw_line_eq_stamps, h1]
  rfl

/-- Witness for C35 (amended): the line from (0, 0) to (5, 2). -/
theorem C35_draw_line_path_witness :
    ∃ pts, draw_line_trace 6 0 0 5 2 = (pts, true) ∧
      draw_line_points 6 0 0 5 2 = some pts ∧
      (∀ (img : Image) (r g b : Nat) (thickness : Int),
        draw_line 6 img 0 0 5 2 r g b thickness = some (stampAll img pts r g b thickness)) ∧
      (pts.length : Int) = max |(5 : Int) - 0| |(2 : Int) - 0| + 1 ∧
      pts.head? = some (0, 0) ∧ pts.getLast? = some (5, 2) ∧
      pts.Chain' Adj8 ∧ pts.Nodup :=
  C35_draw_line_path 0 0 5 2 6 (by decide) (by decide) (by decide) (by decide) (by decide)

end ByteImg
